import Mathlib

/-!
# BuzzDB storage kernel, table statistics and join optimizer: a shallow embedding

The development follows the C++ sources file by file.

* Unsigned machine integers are natural numbers; every operation that can wrap
  in the source carries an explicit `% 2 ^ w`.
* The signed `int` and `int64_t` of the histogram code are integers and a
  `double` is the rational number it stands for.  The sections on
  `optimizer/table_stats` and `optimizer/join_optimizer` carry out the arithmetic
  on `double`s exactly; the section on IEEE 754 binary64 arithmetic repeats the
  functions whose result depends on rounding with every conversion and
  operation rounded to the nearest binary64 number, as the compiled code does.
* A byte buffer (`std::vector<char>`, a page, a file) is a `List Nat`; multi-byte
  header fields and slot words are read and written little-endian at the byte
  offsets the x86-64 ABI gives the structs.
* `exit(..)` and thrown exceptions are `none`.
* A `BufferFrame&` handed out by the buffer manager is the index of the frame
  in `pool_`.
* The containers of the join optimizer (`std::string`, `std::vector`, `std::set`,
  `std::map`) and `std::next_permutation` follow the C++ standard (see the
  section on `optimizer/join_optimizer`).
-/

namespace buzzdb

/-! ## common/macros.h -/

def INVALID_PAGE_ID : Nat := 2 ^ 64 - 1

def INVALID_FRAME_ID : Nat := 2 ^ 64 - 1

def INVALID_TXN_ID : Nat := 2 ^ 64 - 1

/-! ## Raw memory -/

/-- The call `memcpy(dst + dstOff, src + srcOff, n)` on byte buffers: position
`i` of the result holds `src[srcOff + (i - dstOff)]` when `dstOff ≤ i < dstOff + n`
and `dst[i]` otherwise.  The destination keeps its length; bytes that would
fall outside either buffer (undefined behaviour in the source) are dropped,
respectively read as `0`. -/
def memcpy (dst : List Nat) (dstOff : Nat) (src : List Nat) (srcOff n : Nat) : List Nat :=
  (List.range dst.length).map fun i =>
    if dstOff ≤ i ∧ i < dstOff + n then src.getD (srcOff + (i - dstOff)) 0 else dst.getD i 0

/-- Little-endian load of an `n`-byte unsigned integer at byte offset `off`. -/
def load (d : List Nat) (off : Nat) : Nat → Nat
  | 0 => 0
  | n + 1 => d.getD off 0 % 256 + 256 * load d (off + 1) n

/-- Little-endian store of the low `n` bytes of `v` at byte offset `off`. -/
def store (d : List Nat) (off : Nat) : Nat → Nat → List Nat
  | 0, _ => d
  | n + 1, v => store (d.set off (v % 256)) (off + 1) n (v / 256)

/-! ## storage/test_file.{h,cc} -/

inductive Mode where
  | READ
  | WRITE
  deriving DecidableEq, Repr

structure TestFile where
  mode : Mode
  file_content : List Nat
  deriving DecidableEq, Repr

namespace TestFile

def get_mode (f : TestFile) : Mode := f.mode

def size (f : TestFile) : Nat := f.file_content.length

/-- Function `TestFile::resize`: throws on a read-only file; `std::vector::resize`
truncates or pads with zero bytes. -/
def resize (f : TestFile) (new_size : Nat) : Option TestFile :=
  if f.mode = Mode.READ then none
  else some { f with file_content :=
    f.file_content.take new_size ++ List.replicate (new_size - f.file_content.length) 0 }

/-- Function `TestFile::read_block(offset, size, block)`: throws when
`offset + size > file_content.size()` (the sum is a `size_t`), otherwise copies
`size` bytes into `block`. -/
def read_block (f : TestFile) (offset size : Nat) (block : List Nat) : Option (List Nat) :=
  if (offset + size) % 2 ^ 64 > f.file_content.length then none
  else some (memcpy block 0 f.file_content offset size)

/-- Function `TestFile::write_block(block, offset, size)`: throws on a read-only file
and when `offset + size > file_content.size()`, otherwise copies `size` bytes
of `block` into the file. -/
def write_block (f : TestFile) (block : List Nat) (offset size : Nat) : Option TestFile :=
  if f.mode = Mode.READ then none
  else if (offset + size) % 2 ^ 64 > f.file_content.length then none
  else some { f with file_content := memcpy f.file_content offset block 0 size }

end TestFile

/-- The files of the database directory: the content of the segment file of
each segment id. -/
abbrev Disk := Nat → List Nat

/-- Modelled from the spec: `File::open_file` and the `File` base class
(`storage/file.h`) are not among the sources.  Per the spec there is one file
per segment id, named by the decimal representation of the segment id, and its
`read_block` / `write_block` raise an error when out of range; the handle is
taken to behave as the `TestFile` implementation of `File`. -/
def open_file (disk : Disk) (segment_id : Nat) (mode : Mode) : TestFile :=
  { mode := mode, file_content := disk segment_id }

/-- Modelled from the spec: the effect of a `write_block` through a handle that
`File::open_file` returned for segment `segment_id`; the segment file now holds
the handle's content. -/
def close_file (disk : Disk) (segment_id : Nat) (f : TestFile) : Disk :=
  Function.update disk segment_id f.file_content

/-! ## buffer/buffer_manager.{h,cc} -/

structure BufferFrame where
  frame_id : Nat
  page_id : Nat
  data : List Nat
  dirty : Bool
  deriving DecidableEq, Repr

/-- The object `new BufferFrame()` creates: value-initialisation zeroes the
scalar members and leaves `data` empty. -/
def BufferFrame.new : BufferFrame :=
  { frame_id := 0, page_id := 0, data := [], dirty := false }

instance : Inhabited BufferFrame := ⟨BufferFrame.new⟩

/-- The call `std::vector<char>::resize(n)` on a frame's data. -/
def vector_resize (v : List Nat) (n : Nat) : List Nat :=
  v.take n ++ List.replicate (n - v.length) 0

structure BufferManager where
  capacity_ : Nat
  page_size_ : Nat
  pool_ : List BufferFrame
  page_counter_ : Nat
  deriving DecidableEq, Repr

namespace BufferManager

/-- Function `BufferManager::get_segment_id`: the 16 most significant bits. -/
def get_segment_id (page_id : Nat) : Nat := (page_id >>> 48) % 2 ^ 16

/-- Function `BufferManager::get_segment_page_id`: the 48 least significant bits. -/
def get_segment_page_id (page_id : Nat) : Nat := page_id &&& ((1 <<< 48) - 1)

/-- Function `BufferManager::get_overall_page_id(segment_id, segment_page_id)`. -/
def get_overall_page_id (segment_id segment_page_id : Nat) : Nat :=
  ((segment_id <<< 48) % 2 ^ 64) ||| segment_page_id

/-- The frame `*pool_[frame_id]`. -/
def frame (bm : BufferManager) (frame_id : Nat) : BufferFrame :=
  bm.pool_.getD frame_id default

/-- Assignment to `*pool_[frame_id]`. -/
def set_frame (bm : BufferManager) (frame_id : Nat) (f : BufferFrame) : BufferManager :=
  { bm with pool_ := bm.pool_.set frame_id f }

/-- Constructor `BufferManager::BufferManager(page_size, page_count)`. -/
def new (page_size page_count : Nat) : BufferManager :=
  { capacity_ := page_count
    page_counter_ := 0
    page_size_ := page_size
    pool_ := (List.range page_count).map fun frame_id =>
      { BufferFrame.new with
        data := vector_resize [] page_size
        page_id := INVALID_PAGE_ID
        frame_id := frame_id } }

def get_page_size (bm : BufferManager) : Nat := bm.page_size_

/-- Function `BufferManager::get_frame_id_of_page`: the first frame index below
`capacity_` whose page id is `page_id`, else `INVALID_FRAME_ID`. -/
def get_frame_id_of_page (bm : BufferManager) (page_id : Nat) : Nat :=
  match (List.range bm.capacity_).find? fun frame_id =>
      decide ((bm.frame frame_id).page_id = page_id) with
  | some frame_id => frame_id
  | none => INVALID_FRAME_ID

/-- Function `BufferManager::read_frame`. -/
def read_frame (bm : BufferManager) (disk : Disk) (frame_id : Nat) : Option BufferManager :=
  let segment_id := get_segment_id (bm.frame frame_id).page_id
  let file_handle := open_file disk segment_id Mode.WRITE
  let start := (get_segment_page_id (bm.frame frame_id).page_id * bm.page_size_) % 2 ^ 64
  match file_handle.read_block start bm.page_size_ (bm.frame frame_id).data with
  | none => none
  | some block => some (bm.set_frame frame_id { bm.frame frame_id with data := block })

/-- Function `BufferManager::write_frame`. -/
def write_frame (bm : BufferManager) (disk : Disk) (frame_id : Nat) : Option Disk :=
  let segment_id := get_segment_id (bm.frame frame_id).page_id
  let file_handle := open_file disk segment_id Mode.WRITE
  let start := (get_segment_page_id (bm.frame frame_id).page_id * bm.page_size_) % 2 ^ 64
  match file_handle.write_block (bm.frame frame_id).data start bm.page_size_ with
  | none => none
  | some file_handle => some (close_file disk segment_id file_handle)

/-- Function `BufferManager::fix_page`: the returned reference is the frame's index. -/
def fix_page (bm : BufferManager) (disk : Disk) (page_id : Nat) (_exclusive : Bool) :
    Option (BufferManager × Nat) :=
  if page_id = INVALID_PAGE_ID then none
  else
    let page_frame_id := bm.get_frame_id_of_page page_id
    if page_frame_id ≠ INVALID_FRAME_ID then some (bm, page_frame_id)
    else
      let free_frame_id := bm.page_counter_
      let bm := { bm with page_counter_ := (bm.page_counter_ + 1) % 2 ^ 64 }
      if bm.page_counter_ ≥ bm.capacity_ then none
      else
        let bm := bm.set_frame free_frame_id { bm.frame free_frame_id with page_id := page_id }
        let bm := bm.set_frame free_frame_id { bm.frame free_frame_id with dirty := false }
        match bm.read_frame disk free_frame_id with
        | none => none
        | some bm => some (bm, free_frame_id)

/-- Function `BufferManager::unfix_page(page, is_dirty)`. -/
def unfix_page (bm : BufferManager) (page : Nat) (is_dirty : Bool) : BufferManager :=
  if !(bm.frame page).dirty then bm.set_frame page { bm.frame page with dirty := is_dirty }
  else bm

/-- Function `BufferManager::flush_page`. -/
def flush_page (bm : BufferManager) (disk : Disk) (page_id : Nat) :
    Option (BufferManager × Disk) :=
  let page_frame_id := bm.get_frame_id_of_page page_id
  if page_frame_id ≠ INVALID_FRAME_ID then
    if (bm.frame page_frame_id).dirty = true then
      match bm.write_frame disk page_frame_id with
      | none => none
      | some disk => some (bm, disk)
    else some (bm, disk)
  else some (bm, disk)

/-- The frame the discard operations install: a fresh `BufferFrame` with the
invalid page id, clean, and `page_size_` zero bytes. -/
def discarded_frame (bm : BufferManager) : BufferFrame :=
  { BufferFrame.new with
    page_id := INVALID_PAGE_ID
    dirty := false
    data := vector_resize BufferFrame.new.data bm.page_size_ }

/-- Function `BufferManager::discard_page`. -/
def discard_page (bm : BufferManager) (page_id : Nat) : BufferManager :=
  let page_frame_id := bm.get_frame_id_of_page page_id
  if page_frame_id ≠ INVALID_FRAME_ID then bm.set_frame page_frame_id bm.discarded_frame
  else bm

/-- The loop of `flush_all_pages` over the frame ids in `ids`. -/
def flush_frames (bm : BufferManager) : List Nat → Disk → Option Disk
  | [], disk => some disk
  | frame_id :: rest, disk =>
    if (bm.frame frame_id).dirty = true then
      match bm.write_frame disk frame_id with
      | none => none
      | some disk => flush_frames bm rest disk
    else flush_frames bm rest disk

/-- Function `BufferManager::flush_all_pages`. -/
def flush_all_pages (bm : BufferManager) (disk : Disk) : Option (BufferManager × Disk) :=
  match bm.flush_frames (List.range bm.capacity_) disk with
  | none => none
  | some disk => some (bm, disk)

/-- Function `BufferManager::discard_all_pages`. -/
def discard_all_pages (bm : BufferManager) : BufferManager :=
  (List.range bm.capacity_).foldl (fun bm frame_id => bm.set_frame frame_id bm.discarded_frame) bm

/-- Shape of a pool built by the constructor and kept by every operation:
`capacity_` frames of `page_size_` bytes each, `capacity_` a `size_t`, and the
frame counter below the capacity (or still zero). -/
def WF (bm : BufferManager) : Prop :=
  bm.pool_.length = bm.capacity_ ∧ (∀ f ∈ bm.pool_, f.data.length = bm.page_size_) ∧
    bm.capacity_ < 2 ^ 64 ∧ (bm.page_counter_ < bm.capacity_ ∨ bm.page_counter_ = 0)

/-- Whether `page_id` is held by some frame of the pool. -/
def resident (bm : BufferManager) (page_id : Nat) : Prop :=
  bm.get_frame_id_of_page page_id ≠ INVALID_FRAME_ID

/-- The `page_size` bytes of the segment file of `page_id` at offset
(page-within-segment of `page_id`) * `page_size`. -/
def page_on_disk (disk : Disk) (page_size page_id : Nat) : List Nat :=
  ((disk (get_segment_id page_id)).drop (get_segment_page_id page_id * page_size)).take page_size

/-- Frames are handed out in index order: every frame at or above
`page_counter_` still carries the invalid page id. -/
def unused_frames_invalid (bm : BufferManager) : Prop :=
  ∀ i, bm.page_counter_ ≤ i → i < bm.capacity_ → (bm.frame i).page_id = INVALID_PAGE_ID

end BufferManager

/-! ## storage/slotted_page.{h,cc} -/

structure TID where
  value : Nat
  deriving DecidableEq, Repr

/-- Constructor `TID::TID(uint64_t page, uint16_t slot)`. -/
def TID.new (page slot : Nat) : TID :=
  { value := ((page <<< 16) % 2 ^ 64) ||| slot }

/-- A slotted page is the byte buffer it resides on.  `Header` occupies bytes
`0 .. 32`: `overall_page_id` at 0 (8 bytes), `buffer_frame` at 8 (8 bytes),
`slot_count` at 16 (2 bytes), `first_free_slot` at 18 (2 bytes), `data_start`
at 20 (4 bytes), `free_space` at 24 (4 bytes), padding up to 32.  The source
reaches the slot array as `header.buffer_frame + sizeof(header)`; the functions
below describe a page whose `header.buffer_frame` designates the buffer the
page lives on, where the slot array is the page's own bytes from 32 on, one
8-byte word per slot.  A page that the buffer manager read back from its file
need not be such a page: statements about pages held by the buffer manager
name the condition (`BufferManager.in_place`). -/
abbrev SlottedPage := List Nat

namespace SlottedPage

/-- The value of `sizeof(header)`. -/
def sizeof_header : Nat := 32

/-- The value of `sizeof(Slot)`. -/
def sizeof_slot : Nat := 8

def overall_page_id (page : SlottedPage) : Nat := load page 0 8

def buffer_frame (page : SlottedPage) : Nat := load page 8 8

def slot_count (page : SlottedPage) : Nat := load page 16 2

def first_free_slot (page : SlottedPage) : Nat := load page 18 2

def data_start (page : SlottedPage) : Nat := load page 20 4

def free_space (page : SlottedPage) : Nat := load page 24 4

def set_overall_page_id (page : SlottedPage) (v : Nat) : SlottedPage := store page 0 8 v

def set_buffer_frame (page : SlottedPage) (v : Nat) : SlottedPage := store page 8 8 v

def set_slot_count (page : SlottedPage) (v : Nat) : SlottedPage := store page 16 2 v

def set_first_free_slot (page : SlottedPage) (v : Nat) : SlottedPage := store page 18 2 v

def set_data_start (page : SlottedPage) (v : Nat) : SlottedPage := store page 20 4 v

def set_free_space (page : SlottedPage) (v : Nat) : SlottedPage := store page 24 4 v

/-- Constructor `SlottedPage::Header::Header(_buffer_frame, page_size)`, constructed in
place on `page`; `page_size` is a `uint32_t`. -/
def Header.new (page : SlottedPage) (_buffer_frame page_size : Nat) : SlottedPage :=
  let page_size := page_size % 2 ^ 32
  let page := set_buffer_frame page _buffer_frame
  let page := set_first_free_slot page 0
  let page := set_data_start page page_size
  let page := set_slot_count page 0
  let page := set_free_space page ((page_size + 2 ^ 64 - sizeof_header) % 2 ^ 64 % 2 ^ 32)
  let page := set_slot_count page 0
  let page := set_overall_page_id page (2 ^ 64 - 1)
  page

/-- Constructor `SlottedPage::SlottedPage(buffer_frame, page_size)` as a placement new
on `page`. -/
def new (page : SlottedPage) (buffer_frame page_size : Nat) : SlottedPage :=
  Header.new page buffer_frame page_size

/-- Function `SlottedPage::getSlot`: the value of `slots[slotId]`, for a page whose
`header.buffer_frame` designates the buffer the page lives on. -/
def getSlot (page : SlottedPage) (slotId : Nat) : Nat :=
  load page (sizeof_header + sizeof_slot * slotId) 8

/-- Function `SlottedPage::setSlot`, for a page whose `header.buffer_frame` designates
the buffer the page lives on. -/
def setSlot (page : SlottedPage) (slotId value : Nat) : SlottedPage :=
  store page (sizeof_header + sizeof_slot * slotId) 8 value

/-- The 64-bit slot word `addSlot` assembles from `offset` and `length`. -/
def slotValue (offset length : Nat) : Nat :=
  let t := 2 ^ 64 - 1
  let s := 0
  let slotValue := 0
  let slotValue := (slotValue + (t <<< 56) % 2 ^ 64) % 2 ^ 64
  let slotValue := (slotValue + (((s <<< 56) % 2 ^ 64) >>> 8)) % 2 ^ 64
  let slotValue := (slotValue + (((offset <<< 40) % 2 ^ 64) >>> 16)) % 2 ^ 64
  let slotValue := (slotValue + (((length <<< 40) % 2 ^ 64) >>> 40)) % 2 ^ 64
  slotValue

/-- The block "Add slot at end / Update existing slot" of `addSlot`: store the
slot word at index `first_free_slot`, growing the slot array when that index
is `slot_count`. -/
def place_slot (page : SlottedPage) (slotValue : Nat) : SlottedPage :=
  if first_free_slot page = slot_count page then
    let page := setSlot page (slot_count page) slotValue
    set_slot_count page ((slot_count page + 1) % 2 ^ 16)
  else
    setSlot page (first_free_slot page) slotValue

/-- The block "Update free space" of `addSlot`. -/
def update_free_space (page : SlottedPage) : SlottedPage :=
  let slot_space := (slot_count page * sizeof_slot) % 2 ^ 32
  set_free_space page
    (((data_start page + 2 ^ 32 - slot_space) % 2 ^ 32 + 2 ^ 64 - sizeof_header) % 2 ^ 64 % 2 ^ 32)

/-- The closing loop of `addSlot`: `first_free_slot` becomes the first index
below `slot_count` whose slot word is 0, or `slot_count` when there is none. -/
def update_first_free_slot (page : SlottedPage) : SlottedPage :=
  match (List.range (slot_count page)).find? fun slot_itr =>
      decide (getSlot page slot_itr = 0) with
  | some slot_itr => set_first_free_slot page slot_itr
  | none => set_first_free_slot page (slot_count page)

/-- Function `SlottedPage::addSlot(size)`, `size` a `uint32_t`, for a page whose
`header.buffer_frame` designates the buffer the page lives on: `none` is the
`exit(0)` of the free-space check; otherwise the updated page and the new TID. -/
def addSlot (page : SlottedPage) (size : Nat) : Option (SlottedPage × TID) :=
  let offset := (data_start page + 2 ^ 32 - size) % 2 ^ 32
  let length := size
  -- update data_start
  let page := set_data_start page offset
  if size > free_space page then none
  else
    let page := place_slot page (slotValue offset length)
    let page := update_free_space page
    let new_tid := TID.new (overall_page_id page) (first_free_slot page)
    let page := update_first_free_slot page
    some (page, new_tid)

end SlottedPage

/-! ## log/log_manager.{h,cc} -/

inductive LogRecordType where
  | INVALID_RECORD_TYPE
  | ABORT_RECORD
  | COMMIT_RECORD
  | UPDATE_RECORD
  | BEGIN_RECORD
  | CHECKPOINT_RECORD
  deriving DecidableEq, Repr

structure LogManager where
  log_file_ : TestFile
  current_offset_ : Nat
  txn_id_to_first_log_record : List (Nat × Nat)
  log_record_type_to_count : List (LogRecordType × Nat)
  deriving DecidableEq, Repr

namespace LogManager

/-- Constructor `LogManager::LogManager(log_file)`. -/
def new (log_file : TestFile) : LogManager :=
  { log_file_ := log_file
    current_offset_ := 0
    txn_id_to_first_log_record := []
    log_record_type_to_count :=
      [ (LogRecordType.ABORT_RECORD, 0), (LogRecordType.COMMIT_RECORD, 0),
        (LogRecordType.UPDATE_RECORD, 0), (LogRecordType.BEGIN_RECORD, 0),
        (LogRecordType.CHECKPOINT_RECORD, 0) ] }

/-- Function `LogManager::reset(log_file)`. -/
def reset (_lm : LogManager) (log_file : TestFile) : LogManager :=
  { log_file_ := log_file
    current_offset_ := 0
    txn_id_to_first_log_record := []
    log_record_type_to_count := [] }

/-- Function `LogManager::get_total_log_records`: the body is `return 0;`. -/
def get_total_log_records (_lm : LogManager) : Nat := 0

/-- Function `LogManager::get_total_log_records_of_type`: the body is `return 0;`. -/
def get_total_log_records_of_type (_lm : LogManager) (_type : LogRecordType) : Nat := 0

/-- Function `LogManager::log_abort`: the body is `return;`. -/
def log_abort (lm : LogManager) (_txn_id : Nat) (buffer_manager : BufferManager) (disk : Disk) :
    LogManager × BufferManager × Disk :=
  (lm, buffer_manager, disk)

/-- Function `LogManager::log_commit`: the body is empty. -/
def log_commit (lm : LogManager) (_txn_id : Nat) : LogManager := lm

/-- Function `LogManager::log_update`: the body is empty. -/
def log_update (lm : LogManager) (_txn_id _page_id _length _offset : Nat)
    (_before_img _after_img : List Nat) : LogManager := lm

/-- Function `LogManager::log_txn_begin`: the body is empty. -/
def log_txn_begin (lm : LogManager) (_txn_id : Nat) : LogManager := lm

/-- Function `LogManager::log_checkpoint`: the body is empty. -/
def log_checkpoint (lm : LogManager) (buffer_manager : BufferManager) (disk : Disk) :
    LogManager × BufferManager × Disk :=
  (lm, buffer_manager, disk)

/-- Function `LogManager::recovery`: the body is empty. -/
def recovery (lm : LogManager) (buffer_manager : BufferManager) (disk : Disk) :
    LogManager × BufferManager × Disk :=
  (lm, buffer_manager, disk)

/-- Function `LogManager::rollback_txn`: the body is empty. -/
def rollback_txn (lm : LogManager) (_txn_id : Nat) (buffer_manager : BufferManager)
    (disk : Disk) : LogManager × BufferManager × Disk :=
  (lm, buffer_manager, disk)

end LogManager

/-! ## heap/heap_file.{h,cc} -/

/-- The value members of `HeapSegment`; the log manager and the buffer manager
it refers to are passed to each operation.  The operations reach the slot
array of the page they fix through `header.buffer_frame`; they are described
for a page that is in place in its frame (`BufferManager.in_place`). -/
structure HeapSegment where
  segment_id_ : Nat
  page_count_ : Nat
  deriving DecidableEq, Repr

namespace HeapSegment

/-- Constructor `HeapSegment::HeapSegment(segment_id, log_manager, buffer_manager)`. -/
def new (segment_id : Nat) : HeapSegment :=
  { segment_id_ := segment_id, page_count_ := 0 }

/-- The `for` loop of `HeapSegment::allocate`, at page `segment_page_itr` with
`n` pages left to visit: `some (bm, some tid)` when a page took the record,
`some (bm, none)` when the loop ended without one. -/
def allocate_scan (hs : HeapSegment) (disk : Disk) (record_size : Nat) :
    Nat → Nat → BufferManager → Option (BufferManager × Option TID)
  | 0, _, bm => some (bm, none)
  | n + 1, segment_page_itr, bm =>
    let page_id := BufferManager.get_overall_page_id hs.segment_id_ segment_page_itr
    match bm.fix_page disk page_id true with
    | none => none
    | some (bm, frame) =>
      let page : SlottedPage := (bm.frame frame).data
      if record_size > SlottedPage.free_space page then
        allocate_scan hs disk record_size n (segment_page_itr + 1) bm
      else
        match SlottedPage.addSlot page record_size with
        | none => none
        | some (page, tid) =>
          let bm := bm.set_frame frame { bm.frame frame with data := page }
          let bm := bm.unfix_page frame true
          some (bm, some tid)

/-- Function `HeapSegment::allocate(record_size)`.  The address `frame.get_data()`
stored into the new header is represented by the frame's index. -/
def allocate (hs : HeapSegment) (bm : BufferManager) (disk : Disk) (record_size : Nat) :
    Option (HeapSegment × BufferManager × TID) :=
  match allocate_scan hs disk record_size hs.page_count_ 0 bm with
  | none => none
  | some (bm, some tid) => some (hs, bm, tid)
  | some (bm, none) =>
    -- did not find a free slot
    let page_id := BufferManager.get_overall_page_id hs.segment_id_ hs.page_count_
    -- bump up page count for next allocation
    let hs := { hs with page_count_ := (hs.page_count_ + 1) % 2 ^ 64 }
    match bm.fix_page disk page_id true with
    | none => none
    | some (bm, frame) =>
      let page := SlottedPage.new (bm.frame frame).data frame bm.get_page_size
      let page := SlottedPage.set_overall_page_id page page_id
      match SlottedPage.addSlot page record_size with
      | none => none
      | some (page, tid) =>
        let bm := bm.set_frame frame { bm.frame frame with data := page }
        let bm := bm.unfix_page frame true
        some (hs, bm, tid)

/-- Function `HeapSegment::read(tid, record, capacity)`: the buffer manager afterwards,
the caller's buffer `record` afterwards, and the returned length. -/
def read (hs : HeapSegment) (bm : BufferManager) (disk : Disk) (tid : TID)
    (record : List Nat) (capacity : Nat) : Option (BufferManager × List Nat × Nat) :=
  let page_id := tid.value >>> 16
  let overall_page_id := BufferManager.get_overall_page_id hs.segment_id_ page_id
  let slot_id := tid.value &&& ((1 <<< 16) - 1)
  match bm.fix_page disk overall_page_id false with
  | none => none
  | some (bm, frame) =>
    let page : SlottedPage := (bm.frame frame).data
    let value := SlottedPage.getSlot page slot_id
    let length := (((value <<< 40) % 2 ^ 64) >>> 40) % 2 ^ 32
    let offset := (((value <<< 16) % 2 ^ 64) >>> 40) % 2 ^ 32
    if capacity ≤ length then
      let record := memcpy record 0 page offset capacity
      let bm := bm.unfix_page frame false
      some (bm, record, length)
    else
      -- "Capacity exceeds length", exit(0)
      none

/-- Function `HeapSegment::write(tid, record, record_size, txn_id)`. -/
def write (hs : HeapSegment) (bm : BufferManager) (disk : Disk) (lm : LogManager) (tid : TID)
    (record : List Nat) (record_size txn_id : Nat) :
    Option (BufferManager × LogManager × Nat) :=
  let page_id := tid.value >>> 16
  let overall_page_id := BufferManager.get_overall_page_id hs.segment_id_ page_id
  let slot_id := tid.value &&& ((1 <<< 16) - 1)
  match bm.fix_page disk overall_page_id true with
  | none => none
  | some (bm, frame) =>
    let page : SlottedPage := (bm.frame frame).data
    let value := SlottedPage.getSlot page slot_id
    let offset := (((value <<< 16) % 2 ^ 64) >>> 40) % 2 ^ 32
    -- save before record
    let before_record := vector_resize [] record_size
    let before_record := memcpy before_record 0 page offset record_size
    -- update
    let page := memcpy page offset record 0 record_size
    let bm := bm.set_frame frame { bm.frame frame with data := page }
    let bm := bm.unfix_page frame true
    -- add an update record
    let lm := lm.log_update txn_id overall_page_id record_size offset before_record record
    some (bm, lm, 0)

end HeapSegment

/-! ## transaction/transaction_manager.{h,cc} -/

structure Transaction where
  txn_id_ : Nat
  started_ : Bool
  modified_pages_ : List Nat
  deriving DecidableEq, Repr

/-- Constructor `Transaction::Transaction()`. -/
def Transaction.default : Transaction :=
  { txn_id_ := INVALID_TXN_ID, started_ := false, modified_pages_ := [] }

/-- Constructor `Transaction::Transaction(txn_id, started)`. -/
def Transaction.new (txn_id : Nat) (started : Bool) : Transaction :=
  { txn_id_ := txn_id, started_ := started, modified_pages_ := [] }

/-- The value members of `TransactionManager`; `transaction_table_` is the
`std::map` as a partial function on transaction ids. -/
structure TransactionManager where
  transaction_counter_ : Nat
  transaction_table_ : Nat → Option Transaction

namespace TransactionManager

/-- Constructor `TransactionManager::TransactionManager(log_manager, buffer_manager)`. -/
def new : TransactionManager :=
  { transaction_counter_ := 0, transaction_table_ := fun _ => none }

/-- The call `transaction_table_.count(txn_id)`. -/
def count (tm : TransactionManager) (txn_id : Nat) : Nat :=
  match tm.transaction_table_ txn_id with
  | some _ => 1
  | none => 0

/-- The access `transaction_table_[txn_id]`: `std::map::operator[]` inserts a
default-constructed `Transaction` when the key is absent. -/
def subscript (tm : TransactionManager) (txn_id : Nat) : TransactionManager × Transaction :=
  match tm.transaction_table_ txn_id with
  | some txn => (tm, txn)
  | none =>
    ({ tm with transaction_table_ :=
        Function.update tm.transaction_table_ txn_id (some Transaction.default) },
      Transaction.default)

/-- Assignment through the reference `transaction_table_[txn_id]`. -/
def assign (tm : TransactionManager) (txn_id : Nat) (txn : Transaction) : TransactionManager :=
  { tm with transaction_table_ := Function.update tm.transaction_table_ txn_id (some txn) }

/-- Function `TransactionManager::reset(log_manager)`: the referenced log manager takes
the value of the argument, every page is discarded, counter and table are
cleared. -/
def reset (_tm : TransactionManager) (_lm : LogManager) (bm : BufferManager)
    (log_manager : LogManager) : TransactionManager × LogManager × BufferManager :=
  ({ transaction_counter_ := 0, transaction_table_ := fun _ => none },
    log_manager, bm.discard_all_pages)

/-- Function `TransactionManager::start_txn`. -/
def start_txn (tm : TransactionManager) (lm : LogManager) :
    TransactionManager × LogManager × Nat :=
  let tm := { tm with transaction_counter_ := (tm.transaction_counter_ + 1) % 2 ^ 64 }
  let txn_id := tm.transaction_counter_
  -- create a transaction
  let txn := Transaction.new txn_id true
  let tm := tm.assign txn_id txn
  -- add a txn begin log record
  let lm := lm.log_txn_begin txn_id
  (tm, lm, txn_id)

/-- The loop of `commit_txn` over the modified pages. -/
def flush_pages (bm : BufferManager) : List Nat → Disk → Option (BufferManager × Disk)
  | [], disk => some (bm, disk)
  | page_id :: rest, disk =>
    match bm.flush_page disk page_id with
    | none => none
    | some (bm, disk) => flush_pages bm rest disk

/-- Function `TransactionManager::commit_txn`. -/
def commit_txn (tm : TransactionManager) (bm : BufferManager) (disk : Disk) (lm : LogManager)
    (txn_id : Nat) : Option (TransactionManager × BufferManager × Disk × LogManager) :=
  if tm.count txn_id = 0 then none
  else
    let (tm, txn) := tm.subscript txn_id
    if txn.started_ then
      -- flush all the dirty pages associated with this transaction out
      match flush_pages bm txn.modified_pages_ disk with
      | none => none
      | some (bm, disk) =>
        let lm := lm.log_commit txn_id
        let tm := tm.assign txn_id { txn with started_ := false }
        some (tm, bm, disk, lm)
    else some (tm, bm, disk, lm)

/-- The loop of `abort_txn` over the modified pages. -/
def discard_pages (bm : BufferManager) : List Nat → BufferManager
  | [] => bm
  | page_id :: rest => discard_pages (bm.discard_page page_id) rest

/-- Function `TransactionManager::abort_txn`. -/
def abort_txn (tm : TransactionManager) (bm : BufferManager) (disk : Disk) (lm : LogManager)
    (txn_id : Nat) : Option (TransactionManager × BufferManager × Disk × LogManager) :=
  if tm.count txn_id = 0 then none
  else
    let (tm, txn) := tm.subscript txn_id
    if txn.started_ then
      -- discard all the dirty pages associated with this transaction
      let bm := discard_pages bm txn.modified_pages_
      let (lm, bm, disk) := lm.log_abort txn_id bm disk
      let tm := tm.assign txn_id { txn with started_ := false }
      some (tm, bm, disk, lm)
    else some (tm, bm, disk, lm)

/-- Function `TransactionManager::add_modified_page`. -/
def add_modified_page (tm : TransactionManager) (txn_id page_id : Nat) : TransactionManager :=
  let (tm, txn) := tm.subscript txn_id
  tm.assign txn_id { txn with modified_pages_ := txn.modified_pages_ ++ [page_id] }

end TransactionManager

/-! ## test/unit/log/log_manager_test.cc -/

namespace LogManagerTest

def HEAP_SEGMENT : Nat := 123

/-- The objects every test of the fixture creates, together with the segment
files. -/
structure Fixture where
  disk : Disk
  buffer_manager : BufferManager
  log_manager : LogManager
  heap_segment : HeapSegment
  transaction_manager : TransactionManager

/-- The first lines of each test: `BufferManager buffer_manager(page_size, page_count)`,
a log manager on the log file, `HeapSegment heap_segment(123, ..)` and a
transaction manager, over the segment files `disk`. -/
def Fixture.new (disk : Disk) (page_size page_count : Nat) : Fixture :=
  { disk := disk
    buffer_manager := BufferManager.new page_size page_count
    log_manager := LogManager.new { mode := Mode.WRITE, file_content := [] }
    heap_segment := HeapSegment.new HEAP_SEGMENT
    transaction_manager := TransactionManager.new }

/-- The 16-byte tuple `table_id | field` that `insert_row` builds. -/
def tuple (table_id field : Nat) : List Nat :=
  let buf := vector_resize [] 16
  let buf := store buf 0 8 table_id
  let buf := store buf 8 8 field
  buf

/-- The test helper `insert_row`. -/
def insert_row (fx : Fixture) (txn_id table_id field : Nat) : Option (Fixture × TID) :=
  let tuple_size := 16
  -- allocate slot
  match fx.heap_segment.allocate fx.buffer_manager fx.disk tuple_size with
  | none => none
  | some (hs, bm, tid) =>
    -- write buffer
    let buf := tuple table_id field
    match hs.write bm fx.disk fx.log_manager tid buf tuple_size txn_id with
    | none => none
    | some (bm, lm, _) =>
      let page_id := tid.value >>> 16
      let overall_page_id := BufferManager.get_overall_page_id hs.segment_id_ page_id
      let tm := fx.transaction_manager.add_modified_page txn_id overall_page_id
      some ({ fx with heap_segment := hs, buffer_manager := bm, log_manager := lm,
                      transaction_manager := tm }, tid)

/-- The slot loop of `look` on one page: counts the tuples whose field is
`expected_field`. -/
def look_slots (hs : HeapSegment) (disk : Disk) (overall_page_id expected_field : Nat) :
    List Nat → BufferManager → Nat → Option (BufferManager × Nat)
  | [], bm, count => some (bm, count)
  | slot_itr :: rest, bm, count =>
    let tuple_size := 16
    let tid := TID.new overall_page_id slot_itr
    let buf := vector_resize [] tuple_size
    match hs.read bm disk tid buf tuple_size with
    | none => none
    | some (bm, buf, _) =>
      let field := load buf 8 8
      look_slots hs disk overall_page_id expected_field rest bm
        (if field = expected_field then count + 1 else count)

/-- The page loop of `look`. -/
def look_pages (hs : HeapSegment) (disk : Disk) (expected_field : Nat) :
    List Nat → BufferManager → Nat → Option (BufferManager × Nat)
  | [], bm, count => some (bm, count)
  | segment_page_itr :: rest, bm, count =>
    let page_id := BufferManager.get_overall_page_id hs.segment_id_ segment_page_itr
    match bm.fix_page disk page_id true with
    | none => none
    | some (bm, frame) =>
      let page : SlottedPage := (bm.frame frame).data
      let page := SlottedPage.set_buffer_frame page frame
      let bm := bm.set_frame frame { bm.frame frame with data := page }
      let overall_page_id := SlottedPage.overall_page_id page
      let slot_count := SlottedPage.first_free_slot page
      match look_slots hs disk overall_page_id expected_field (List.range slot_count) bm count with
      | none => none
      | some (bm, count) =>
        let bm := bm.unfix_page frame true
        look_pages hs disk expected_field rest bm count

/-- The test helper `look`: whether the tuple with field `expected_field` is,
or is not, present as expected. -/
def look (fx : Fixture) (_table_id expected_field : Nat) (should_be_present : Bool) :
    Option (Fixture × Bool) :=
  match look_pages fx.heap_segment fx.disk expected_field
      (List.range fx.heap_segment.page_count_) fx.buffer_manager 0 with
  | none => none
  | some (bm, count) =>
    let fx := { fx with buffer_manager := bm }
    -- tuple repeated
    if count > 1 then some (fx, false)
    -- tuple missing
    else if count = 0 ∧ should_be_present = true then some (fx, false)
    else if count > 0 ∧ should_be_present = false then some (fx, false)
    else some (fx, true)

/-- The call `buffer_manager.flush_all_pages()` on the fixture. -/
def flush_all_pages (fx : Fixture) : Option Fixture :=
  match fx.buffer_manager.flush_all_pages fx.disk with
  | none => none
  | some (bm, disk) => some { fx with buffer_manager := bm, disk := disk }

/-- The call `transaction_manager.start_txn()` on the fixture. -/
def start_txn (fx : Fixture) : Fixture × Nat :=
  let (tm, lm, txn_id) := fx.transaction_manager.start_txn fx.log_manager
  ({ fx with transaction_manager := tm, log_manager := lm }, txn_id)

/-- The call `transaction_manager.commit_txn(txn_id)` on the fixture. -/
def commit_txn (fx : Fixture) (txn_id : Nat) : Option Fixture :=
  match fx.transaction_manager.commit_txn fx.buffer_manager fx.disk fx.log_manager txn_id with
  | none => none
  | some (tm, bm, disk, lm) =>
    some { fx with transaction_manager := tm, buffer_manager := bm, disk := disk,
                   log_manager := lm }

/-- The call `transaction_manager.abort_txn(txn_id)` on the fixture. -/
def abort_txn (fx : Fixture) (txn_id : Nat) : Option Fixture :=
  match fx.transaction_manager.abort_txn fx.buffer_manager fx.disk fx.log_manager txn_id with
  | none => none
  | some (tm, bm, disk, lm) =>
    some { fx with transaction_manager := tm, buffer_manager := bm, disk := disk,
                   log_manager := lm }

/-- The test helper `do_insert` with both fields valid. -/
def do_insert (fx : Fixture) (table_id field_1 field_2 : Nat) : Option Fixture :=
  let (fx, txn_id) := start_txn fx
  match insert_row fx txn_id table_id field_1 with
  | none => none
  | some (fx, _) =>
    match flush_all_pages fx with
    | none => none
    | some fx =>
      match insert_row fx txn_id table_id field_2 with
      | none => none
      | some (fx, _) => commit_txn fx txn_id

/-- The test helper `abort`: flush everything (defeating NO-STEAL), then abort. -/
def abort (fx : Fixture) (txn_id : Nat) : Option Fixture :=
  match flush_all_pages fx with
  | none => none
  | some fx => abort_txn fx txn_id

/-- The test helper `dont_insert` with both fields valid. -/
def dont_insert (fx : Fixture) (table_id field_1 field_2 : Nat) : Option Fixture :=
  let (fx, txn_id) := start_txn fx
  match insert_row fx txn_id table_id field_1 with
  | none => none
  | some (fx, _) =>
    match insert_row fx txn_id table_id field_2 with
    | none => none
    | some (fx, _) => abort fx txn_id

/-- The test helper `crash`: discard the pool, reset log and transaction
manager on the reopened log file `log_file`, run recovery. -/
def crash (fx : Fixture) (log_file : TestFile) : Fixture :=
  let bm := fx.buffer_manager.discard_all_pages
  -- the by-value copy of the log manager
  let log_manager := fx.log_manager.reset log_file
  let (tm, lm, bm) := fx.transaction_manager.reset fx.log_manager bm log_manager
  let (_, bm, disk) := log_manager.recovery bm fx.disk
  { fx with buffer_manager := bm, log_manager := lm, transaction_manager := tm, disk := disk }

end LogManagerTest

/-! ## Concrete inputs -/

namespace Example

open LogManagerTest

/-- Segment files in which segment 123 holds `n` zero bytes and every other
file is empty. -/
def zero_disk (n : Nat) : Disk := fun s => if s = HEAP_SEGMENT then List.replicate n 0 else []

/-- The fixture of the tests, `BufferManager buffer_manager(128, 10)`, over a
segment file of one zeroed page. -/
def fresh : Fixture := Fixture.new (zero_disk 128) 128 10

/-- Allocate a record of `b.length` bytes and write `b` into it under
transaction 1: the heap segment, the pool and the TID afterwards. -/
def allocate_then_write (fx : Fixture) (b : List Nat) :
    Option (HeapSegment × BufferManager × TID) :=
  match fx.heap_segment.allocate fx.buffer_manager fx.disk b.length with
  | none => none
  | some (hs, bm, tid) =>
    match hs.write bm fx.disk fx.log_manager tid b b.length 1 with
    | none => none
    | some (bm, _, _) => some (hs, bm, tid)

/-- After `allocate_then_write`, read the record back into a zeroed buffer of
`capacity` bytes: what `HeapSegment::read` leaves in the buffer, and the length
it returns. -/
def write_then_read (fx : Fixture) (b : List Nat) (capacity : Nat) : Option (List Nat × Nat) :=
  match allocate_then_write fx b with
  | none => none
  | some (hs, bm, tid) =>
    match hs.read bm fx.disk tid (vector_resize [] capacity) capacity with
    | none => none
    | some (_, record, length) => some (record, length)

/-- The heap segment, pool and TID after the row `(101, 5)` was written on the
fresh fixture. -/
def written : HeapSegment × BufferManager × TID :=
  (allocate_then_write fresh (tuple 101 5)).getD
    (fresh.heap_segment, fresh.buffer_manager, TID.mk 0)

/-- The fresh fixture after the row `(101, 5)` was written: its only page
holds one 16-byte record. -/
def one_row : Fixture :=
  { fresh with heap_segment := written.1, buffer_manager := written.2.1 }

/-- The test `LogRecordTest` up to its assertions. -/
def LogRecordTest : Option Fixture := do_insert fresh 101 5 10

/-- The test `TestAbort` up to its assertions. -/
def TestAbort : Option Fixture :=
  match do_insert fresh 101 5 10 with
  | none => none
  | some fx => dont_insert fx 101 3 4

/-- The test `TestOpenCrash` up to its assertions. -/
def TestOpenCrash : Option Fixture :=
  let (fx, txn_id) := start_txn fresh
  match insert_row fx txn_id 101 5 with
  | none => none
  | some (fx, _) =>
    match flush_all_pages fx with
    | none => none
    | some fx =>
      match insert_row fx txn_id 101 10 with
      | none => none
      | some (fx, _) => some (crash fx { mode := Mode.WRITE, file_content := [] })

/-- A transaction that has started and inserted the row `(101, 5)`. -/
def open_txn : Fixture :=
  match insert_row (start_txn fresh).1 1 101 5 with
  | none => fresh
  | some (fx, _) => fx

/-- The fixture `open_txn` after `commit_txn(1)`. -/
def committed : Fixture := (commit_txn open_txn 1).getD open_txn

/-- A pool of three 8-byte frames. -/
def small_pool : BufferManager := BufferManager.new 8 3

/-- Segment 123 holding two 8-byte pages. -/
def small_disk : Disk :=
  fun s => if s = HEAP_SEGMENT then [1, 2, 3, 4, 5, 6, 7, 8, 9, 10, 11, 12, 13, 14, 15, 16] else []

/-- The pool `small_pool` holding page 1 of segment 123 in frame 0, modified in
memory and marked dirty. -/
def dirty_pool : BufferManager :=
  { capacity_ := 3
    page_size_ := 8
    pool_ :=
      [ { frame_id := 0, page_id := BufferManager.get_overall_page_id HEAP_SEGMENT 1,
          data := [21, 22, 23, 24, 25, 26, 27, 28], dirty := true },
        { frame_id := 1, page_id := INVALID_PAGE_ID, data := [0, 0, 0, 0, 0, 0, 0, 0],
          dirty := false },
        { frame_id := 2, page_id := INVALID_PAGE_ID, data := [0, 0, 0, 0, 0, 0, 0, 0],
          dirty := false } ]
    page_counter_ := 1 }

/-- The pool `small_pool` after page 1 of segment 123 was loaded from
`small_disk` into frame 0. -/
def loaded_pool : BufferManager :=
  { capacity_ := 3
    page_size_ := 8
    pool_ :=
      [ { frame_id := 0, page_id := BufferManager.get_overall_page_id HEAP_SEGMENT 1,
          data := [9, 10, 11, 12, 13, 14, 15, 16], dirty := false },
        { frame_id := 1, page_id := INVALID_PAGE_ID, data := [0, 0, 0, 0, 0, 0, 0, 0],
          dirty := false },
        { frame_id := 2, page_id := INVALID_PAGE_ID, data := [0, 0, 0, 0, 0, 0, 0, 0],
          dirty := false } ]
    page_counter_ := 1 }

end Example

/-! ## operators/seq_scan.h -/

inductive PredicateType where
  | EQ
  | NE
  | LT
  | LE
  | GT
  | GE
  deriving DecidableEq, Repr

/-! ## optimizer/table_stats.{h,cc}

A `double` is modelled by the rational number it stands for.  In this section
the arithmetic of `table_stats.cc` is carried out exactly, without rounding,
infinities or NaN (in particular a division by zero, which the source turns
into an infinity or a NaN, is outside the model): this is the arithmetic of
the specification, and that of the compiled code wherever every intermediate
result is a binary64 number.  The functions as the compiled code evaluates
them, with rounding, are `Binary64.IntHistogram.new`, `Binary64.IntHistogram.b_idx`,
`Binary64.IntHistogram.add_value`, `Binary64.IntHistogram.estimate_selectivity`,
`Binary64.TableStats.estimate_scan_cost` and
`Binary64.TableStats.estimate_table_cardinality` in the section on IEEE 754 binary64
arithmetic.  An `int` or `int64_t` is an integer; signed overflow and
out-of-range narrowing, undefined or implementation-defined in the source,
are not modelled here, and neither is an index outside `umap`.  The quotient
of two `int`s is the truncating `Int.tdiv`. -/

/-- The conversion `(int) x` of a `double`: truncation toward zero. -/
def to_int (x : ℚ) : Int := if 0 ≤ x then ⌊x⌋ else ⌈x⌉

structure IntHistogram where
  span : ℚ
  min_v : Int
  max_v : Int
  ntups : Int
  NumB : Int
  umap : List Int
  deriving DecidableEq

namespace IntHistogram

/-- Constructor `IntHistogram::IntHistogram(buckets, min_val, max_val)` in exact
arithmetic; with the quotient rounded it is `Binary64.IntHistogram.new`. -/
def new (buckets min_val max_val : Int) : IntHistogram :=
  { span := max 1 ((1 + (max_val : ℚ) - (min_val : ℚ)) / (buckets : ℚ))
    min_v := min_val
    max_v := max_val
    NumB := buckets
    ntups := 0
    umap := List.replicate buckets.toNat 0 }

/-- The bucket index `std::min((int) ((val - min_v) / span), NumB - 1)`, computed
alike by `add_value` and by `estimate_selectivity`, in exact arithmetic; with the
quotient rounded it is `Binary64.IntHistogram.b_idx`. -/
def b_idx (h : IntHistogram) (val : Int) : Int :=
  min (to_int (((val - h.min_v : Int) : ℚ) / h.span)) (h.NumB - 1)

/-- Function `IntHistogram::add_value(val)`. -/
def add_value (h : IntHistogram) (val : Int) : IntHistogram :=
  if val < h.min_v ∨ val > h.max_v then h
  else
    let b_idx := h.b_idx val
    { h with
      umap := h.umap.set b_idx.toNat (h.umap.getD b_idx.toNat 0 + 1)
      ntups := h.ntups + 1 }

/-- The branch `PredicateType::EQ` of `estimate_selectivity`. -/
def estimate_EQ (h : IntHistogram) (v : Int) : ℚ :=
  if v < h.min_v ∨ v > h.max_v then 0
  else
    let b_idx := h.b_idx v
    let height := h.umap.getD b_idx.toNat 0
    ((height : ℚ) / h.span) / (h.ntups : ℚ)

/-- The loop `for (int i = b_idx + 1; i < NumB; i++) cnt += umap[i]`. -/
def count_above (h : IntHistogram) (b_idx : Int) : Int :=
  ((List.range' (b_idx + 1).toNat (h.NumB - (b_idx + 1)).toNat).map
    fun i => h.umap.getD i 0).sum

/-- The branch `PredicateType::GT` of `estimate_selectivity` in exact arithmetic;
`h / ntups` divides two `int`s.  With every operation rounded it is
`Binary64.IntHistogram.estimate_GT`. -/
def estimate_GT (h : IntHistogram) (v : Int) : ℚ :=
  if v ≤ h.min_v then 1
  else if v ≥ h.max_v then 0
  else
    let b_idx := h.b_idx v
    let height := h.umap.getD b_idx.toNat 0
    let sel : ℚ := ((Int.tdiv height h.ntups : Int) : ℚ) *
      (((h.min_v : ℚ) + ((b_idx + 1 : Int) : ℚ) * h.span - (v : ℚ)) / h.span)
    let cnt := h.count_above b_idx
    sel + 1 * (cnt : ℚ) / (h.ntups : ℚ)

/-- The branch `PredicateType::GE` of `estimate_selectivity`. -/
def estimate_GE (h : IntHistogram) (v : Int) : ℚ :=
  if v < h.min_v then 1
  else if v > h.max_v then 0
  else h.estimate_GT (v - 1)

/-- Function `IntHistogram::estimate_selectivity(op, v)`; the recursive calls of the
source are the calls of the branch functions. -/
def estimate_selectivity (h : IntHistogram) (op : PredicateType) (v : Int) : ℚ :=
  match op with
  | .EQ => h.estimate_EQ v
  | .NE => 1 - h.estimate_EQ v
  | .GT => h.estimate_GT v
  | .GE => h.estimate_GE v
  | .LT =>
    if v ≤ h.min_v then 0
    else if v ≥ h.max_v then 1
    else 1 - h.estimate_GE v
  | .LE =>
    if v < h.min_v then 0
    else if v > h.max_v then 1
    else 1 - h.estimate_GT v

end IntHistogram

/-- The greater-than estimate as the specification words it, every quotient
taken exactly: `(h_b / total) * ((min_v + (b + 1) * span - v) / span)` plus the
counts of the buckets above `b` over `total`. -/
def estimate_GT_spec (h : IntHistogram) (v : Int) : ℚ :=
  if v ≤ h.min_v then 1
  else if v ≥ h.max_v then 0
  else
    let b := min ⌊((v : ℚ) - (h.min_v : ℚ)) / h.span⌋ (h.NumB - 1)
    ((h.umap.getD b.toNat 0 : ℚ) / (h.ntups : ℚ)) *
        (((h.min_v : ℚ) + ((b : ℚ) + 1) * h.span - (v : ℚ)) / h.span) +
      (((h.umap.drop (b.toNat + 1)).sum : Int) : ℚ) / (h.ntups : ℚ)

namespace Example

/-- A 128-byte page of segment 123, freshly constructed. -/
def fresh_page : SlottedPage :=
  SlottedPage.set_overall_page_id (SlottedPage.new (List.replicate 128 0) 0 128)
    (BufferManager.get_overall_page_id 123 0)

/-- The histogram of `LtTest` and `GETest`: ten buckets over `[1, 10]` holding
`3, 3, 3, 1, 10`. -/
def test_hist : IntHistogram :=
  [3, 3, 3, 1, 10].foldl IntHistogram.add_value (IntHistogram.new 10 1 10)

/-- Two buckets of width 5 over `[0, 9]` holding `1, 3, 4, 6, 8`. -/
def wide_hist : IntHistogram :=
  [1, 3, 4, 6, 8].foldl IntHistogram.add_value (IntHistogram.new 2 0 9)

/-- A transaction table in which only transaction 1 exists. -/
def one_txn : TransactionManager :=
  (TransactionManager.new.start_txn fresh.log_manager).1

end Example

/-! ## optimizer/table_stats.{h,cc}: `TableStats`

The tuples that the `SeqScan` of the constructor delivers are a parameter of
the model. -/

/-- The constant `std::numeric_limits<int>::max()`. -/
def INT_MAX : Int := 2147483647

/-- The conversion of an `int` to `uint64_t`. -/
def int_to_uint64 (z : Int) : Nat := (z % 2 ^ 64).toNat

structure TableStats where
  min_value : List Int
  max_value : List Int
  num_tups : Int
  io_cost : Int
  nump : Int
  numf : Int
  histmap : List IntHistogram
  NUM_HIST_BINS : Int

namespace TableStats

/-- The value-initialised `TableStats()`, which `std::map::operator[]` yields for
an absent key. -/
def default : TableStats :=
  { min_value := [], max_value := [], num_tups := 0, io_cost := 0, nump := 0, numf := 0,
    histmap := [], NUM_HIST_BINS := 100 }

/-- Constructor `TableStats::TableStats(table_id, io_cost_per_page, num_pages,
num_fields)`, `scan` being the tuples the sequential scan of the table yields;
the two passes over the scan are written column by column. -/
def new (scan : List (List Int)) (io_cost_per_page : Int) (num_pages num_fields : Nat) :
    TableStats :=
  let numf : Int := num_fields
  let max_value := (List.range numf.toNat).map fun i =>
    scan.foldl (fun m tup => if tup.getD i 0 > m then tup.getD i 0 else m) ((-1) * INT_MAX)
  let min_value := (List.range numf.toNat).map fun i =>
    scan.foldl (fun m tup => if tup.getD i 0 < m then tup.getD i 0 else m) INT_MAX
  { min_value := min_value
    max_value := max_value
    num_tups := scan.foldl (fun n _ => n + 1) 0
    io_cost := io_cost_per_page
    nump := num_pages
    numf := numf
    NUM_HIST_BINS := 100
    histmap := (List.range numf.toNat).map fun i =>
      scan.foldl (fun h tup => h.add_value (tup.getD i 0))
        (IntHistogram.new 100 (min_value.getD i 0) (max_value.getD i 0)) }

/-- Function `TableStats::estimate_scan_cost()` in exact arithmetic: the product is
taken in the integers and converted without rounding.  The wrap of the
`int64_t` product and the rounding of the conversion are in
`Binary64.TableStats.estimate_scan_cost`. -/
def estimate_scan_cost (ts : TableStats) : ℚ :=
  let res : ℚ := ((ts.io_cost * ts.nump : Int) : ℚ)
  res * 2

/-- Function `TableStats::estimate_table_cardinality(selectivity_factor)` in exact
arithmetic: the exact product is cast to `int` and returned as `uint64_t`.  The
rounding of the product is in `Binary64.TableStats.estimate_table_cardinality`. -/
def estimate_table_cardinality (ts : TableStats) (selectivity_factor : ℚ) : Nat :=
  let t := to_int (selectivity_factor * (ts.num_tups : ℚ))
  int_to_uint64 t

end TableStats

/-- The cardinality estimate as the specification words it:
`floor(sel * total_tuples)`. -/
def estimate_table_cardinality_spec (total_tuples : Int) (sel : ℚ) : Int :=
  ⌊sel * (total_tuples : ℚ)⌋

/-! ## optimizer/join_optimizer.{h,cc}

A `std::string` is the list of its bytes.  A `std::set` is the list of its
elements in ascending order of the comparator, a `std::vector` is a list.  A
`std::map` is the function from keys to values: keys that the comparator
cannot tell apart share a value, and where the source reads with `operator[]`
an absent key stands for the value-initialised entry.  The parameter `stats`,
which `estimate_join_cost` and `estimate_join_cardinality` do not use, is left
out of them. -/

/-- The constant `std::numeric_limits<double>::max()`, which is
`2 ^ 1024 - 2 ^ 971`. -/
def DBL_MAX : ℚ :=
  ((179769313486231570814527423731704356798070567525844996598917476803157260780028538760589558632766878171540458953514382464234321326889464182768467546703537516986049910576551282076245490090389328944075868508455133942304583236903222948165808559332123348274797826204144723168738177180919299881250404026184124858368 : Nat) : ℚ)

/-- The algorithm `std::lexicographical_compare` with comparator `lt`. -/
def lexicographical_compare {α : Type} (lt : α → α → Bool) : List α → List α → Bool
  | _, [] => false
  | [], _ :: _ => true
  | a :: as, b :: bs =>
    if lt a b then true else if lt b a then false else lexicographical_compare lt as bs

/-- The comparison `<` of two unsigned integers. -/
def uint_lt (a b : Nat) : Bool := decide (a < b)

/-- The comparison `<` of two `std::string`s. -/
def string_lt : List Nat → List Nat → Bool := lexicographical_compare uint_lt

/-- The comparison `<` of two `std::tuple`s, first component first. -/
def tuple_lt {α β : Type} (r : α → α → Bool) (s : β → β → Bool) (a b : α × β) : Bool :=
  if r a.1 b.1 then true else if r b.1 a.1 then false else s a.2 b.2

/-- Member `std::set::insert` with comparator `lt`: no effect when an element
that `lt` cannot tell from `x` is present. -/
def set_insert {α : Type} (lt : α → α → Bool) : List α → α → List α
  | [], x => [x]
  | y :: ys, x =>
    if lt x y then x :: y :: ys else if lt y x then y :: set_insert lt ys x else y :: ys

/-- Member `std::set::erase(key)` with comparator `lt`. -/
def set_erase {α : Type} (lt : α → α → Bool) (s : List α) (x : α) : List α :=
  s.filter fun y => lt x y || lt y x

structure LogicalJoinNode where
  left_table : List Nat
  right_table : List Nat
  left_field : Nat
  right_field : Nat
  op : PredicateType
  deriving DecidableEq

namespace LogicalJoinNode

/-- The tuple `std::tie(left_table, right_table, left_field, right_field)`. -/
def tie (j : LogicalJoinNode) : List Nat × List Nat × Nat × Nat :=
  (j.left_table, j.right_table, j.left_field, j.right_field)

/-- Member `operator<`. -/
def lt (a b : LogicalJoinNode) : Bool :=
  tuple_lt string_lt (tuple_lt string_lt (tuple_lt uint_lt uint_lt)) a.tie b.tie

/-- Member `operator==`. -/
def eq (a b : LogicalJoinNode) : Bool := decide (a.tie = b.tie)

def swap_inner_outer (j : LogicalJoinNode) : LogicalJoinNode :=
  { left_table := j.right_table, right_table := j.left_table, left_field := j.right_field,
    right_field := j.left_field, op := j.op }

end LogicalJoinNode

/-- A `std::set<LogicalJoinNode>`. -/
abbrev JoinSet := List LogicalJoinNode

namespace JoinSet

/-- The comparison `<` of two `std::set<LogicalJoinNode>`. -/
def lt : JoinSet → JoinSet → Bool := lexicographical_compare LogicalJoinNode.lt

/-- Two keys of a `std::map` that its comparator cannot tell apart. -/
def equiv (a b : JoinSet) : Bool := !lt a b && !lt b a

end JoinSet

structure CostCard where
  cost : ℚ
  card : Int
  plan : List LogicalJoinNode
  deriving DecidableEq

structure PlanCache where
  best_orders : JoinSet → Option (List LogicalJoinNode)
  best_costs : JoinSet → Option ℚ
  best_cardinalities : JoinSet → Option Int

namespace PlanCache

/-- The empty cache. -/
def new : PlanCache :=
  { best_orders := fun _ => none, best_costs := fun _ => none,
    best_cardinalities := fun _ => none }

/-- The assignment `m[s] = v` of a `std::map` keyed by join sets. -/
def assign {β : Type} (m : JoinSet → Option β) (s : JoinSet) (v : β) : JoinSet → Option β :=
  fun k => if JoinSet.equiv s k then some v else m k

def add_plan (pc : PlanCache) (s : JoinSet) (cost : ℚ) (card : Int)
    (order : List LogicalJoinNode) : PlanCache :=
  { best_orders := assign pc.best_orders s order
    best_costs := assign pc.best_costs s cost
    best_cardinalities := assign pc.best_cardinalities s card }

def get_order (pc : PlanCache) (s : JoinSet) : List LogicalJoinNode :=
  match pc.best_orders s with
  | some order => order
  | none => []

/-- Member `get_cost`: `best_costs[s]`, which is `0.0` for an absent key. -/
def get_cost (pc : PlanCache) (s : JoinSet) : ℚ := (pc.best_costs s).getD 0

/-- Member `get_card`: `best_cardinalities[s]`, which is `0` for an absent key. -/
def get_card (pc : PlanCache) (s : JoinSet) : Int := (pc.best_cardinalities s).getD 0

end PlanCache

/-- The operands of one join step, as the first half of
`compute_cost_and_card_of_subplan` determines them. -/
structure JoinOperands where
  prev_best : List LogicalJoinNode
  t1_cost : ℚ
  t1_card : Nat
  left_Pkey : Bool
  t2_cost : ℚ
  t2_card : Nat
  right_Pkey : Bool
  deriving DecidableEq

namespace JoinOptimizer

def estimate_join_cost (_j : LogicalJoinNode) (card1 card2 : Nat) (cost1 cost2 : ℚ) : ℚ :=
  let res : ℚ := cost1 + (card1 : ℚ) * cost2 + (((card1 * card2) % 2 ^ 64 : Nat) : ℚ)
  res

/-- The conversion `(int) x` of a `uint64_t`: the low 32 bits, read as a signed
number. -/
def uint64_to_int (x : Nat) : Int :=
  if x % 2 ^ 32 < 2 ^ 31 then ((x % 2 ^ 32 : Nat) : Int) else ((x % 2 ^ 32 : Nat) : Int) - 2 ^ 32

/-- Function `JoinOptimizer::estimate_join_cardinality` in exact arithmetic: `0.3 * card1 * card2`
is the exact product with `3 / 10`.  The rounding of the literal and of the two
products is in `Binary64.JoinOptimizer.estimate_join_cardinality`. -/
def estimate_join_cardinality (j : LogicalJoinNode) (card1 card2 : Nat) (t1pkey t2pkey : Bool) :
    Int :=
  if j.op = PredicateType.EQ then
    if t1pkey then uint64_to_int card2
    else if t2pkey then uint64_to_int card1
    else if card1 ≥ card2 then uint64_to_int card1
    else uint64_to_int card2
  else to_int ((3 / 10 : ℚ) * (card1 : ℚ) * (card2 : ℚ))

def does_join (joinlist : List LogicalJoinNode) (table_name : List Nat) : Bool :=
  joinlist.any fun j => decide (j.left_table = table_name) || decide (j.right_table = table_name)

def has_Pkey (joinlist : List LogicalJoinNode) : Bool :=
  joinlist.any fun j => decide (j.left_field = 0) || decide (j.right_field = 0)

/-- The block `if (s.empty()) ... else ...` of `compute_cost_and_card_of_subplan`
for the join `j`: `s_empty` is `s.empty()`, and `prev_best`, `prev_best_cost`,
`best_card` are what the plan cache holds for `s`.  The result `none` is
`return false`. -/
def join_operands (stats : List Nat → TableStats) (filter_selectivities : List Nat → ℚ)
    (j : LogicalJoinNode) (s_empty : Bool) (prev_best : List LogicalJoinNode)
    (prev_best_cost : ℚ) (best_card : Int) : Option JoinOperands :=
  let table1_name := j.left_table
  let table2_name := j.right_table
  let left_col := j.left_field
  let right_col := j.right_field
  if s_empty then
    some
      { prev_best := []
        t1_cost := (stats table1_name).estimate_scan_cost
        t1_card := (stats table1_name).estimate_table_cardinality
          (filter_selectivities table1_name)
        left_Pkey := decide (left_col = 0)
        t2_cost := (stats table2_name).estimate_scan_cost
        t2_card := (stats table2_name).estimate_table_cardinality
          (filter_selectivities table2_name)
        right_Pkey := decide (right_col = 0) }
  else if prev_best.length = 0 then none
  else if does_join prev_best table1_name then
    some
      { prev_best := prev_best
        t1_cost := prev_best_cost
        t1_card := int_to_uint64 best_card
        left_Pkey := has_Pkey prev_best
        t2_cost := (stats table2_name).estimate_scan_cost
        t2_card := (stats table2_name).estimate_table_cardinality
          (filter_selectivities table2_name)
        right_Pkey := decide (right_col = 0) }
  else if does_join prev_best table2_name then
    some
      { prev_best := prev_best
        t2_cost := prev_best_cost
        t2_card := int_to_uint64 best_card
        right_Pkey := has_Pkey prev_best
        t1_cost := (stats table1_name).estimate_scan_cost
        t1_card := (stats table1_name).estimate_table_cardinality
          (filter_selectivities table1_name)
        left_Pkey := decide (left_col = 0) }
  else none

/-- The second half of `compute_cost_and_card_of_subplan`, from
`double cost1 = estimate_join_cost(...)` on; `none` is `return false`, and
`some cc` is `return true` with `cc` populated. -/
def choose_orientation (j : LogicalJoinNode) (o : JoinOperands) (best_cost_so_far : ℚ) :
    Option CostCard :=
  let cost1 := estimate_join_cost j o.t1_card o.t2_card o.t1_cost o.t2_cost
  let j2 := j.swap_inner_outer
  let cost2 := estimate_join_cost j2 o.t2_card o.t1_card o.t2_cost o.t1_cost
  let swapped := decide (cost2 < cost1)
  let j := if swapped then j2 else j
  let cost1 := if swapped then cost2 else cost1
  let left_Pkey := if swapped then o.right_Pkey else o.left_Pkey
  let right_Pkey := if swapped then o.left_Pkey else o.right_Pkey
  if cost1 ≥ best_cost_so_far then none
  else
    some
      { card := estimate_join_cardinality j o.t1_card o.t2_card left_Pkey right_Pkey
        cost := cost1
        plan := o.prev_best ++ [j] }

def compute_cost_and_card_of_subplan (stats : List Nat → TableStats)
    (filter_selectivities : List Nat → ℚ) (join_to_remove : LogicalJoinNode)
    (join_set : JoinSet) (best_cost_so_far : ℚ) (pc : PlanCache) : Option CostCard :=
  let j := join_to_remove
  let s := set_erase LogicalJoinNode.lt join_set j
  match join_operands stats filter_selectivities j s.isEmpty (pc.get_order s) (pc.get_cost s)
      (pc.get_card s) with
  | none => none
  | some o => choose_orientation j o best_cost_so_far

/-- The search of `std::next_permutation` on a `std::vector<bool>`, from the
back, for the last position whose element is less than its successor: the
elements behind that position are then non-increasing, the element is swapped
with the last element behind it that is greater, and the elements behind the
position are reversed.  The result is `none` when there is no such position. -/
def next_permutation_step : List Bool → Option (List Bool)
  | [] => none
  | b :: rest =>
    match next_permutation_step rest with
    | some rest' => some (b :: rest')
    | none =>
      match rest with
      | [] => none
      | c :: _ =>
        if !b && c then
          let i2 := rest.length - 1 - rest.reverse.findIdx fun x => !b && x
          some (rest.getD i2 false :: (rest.set i2 b).reverse)
        else none

/-- The algorithm `std::next_permutation` on a `std::vector<bool>`: the next
permutation in lexicographic order and `true`, or the first permutation and
`false` when the argument is the last one. -/
def next_permutation (l : List Bool) : List Bool × Bool :=
  match next_permutation_step l with
  | some l' => (l', true)
  | none => (l.reverse, false)

/-- The loop `for (i = 0; i != v.size(); ++i) if (bitset[i]) subset.insert(v[i])`. -/
def select_subset (v : List LogicalJoinNode) (bitset : List Bool) : JoinSet :=
  (v.zip bitset).foldl
    (fun subset p => if p.2 then set_insert LogicalJoinNode.lt subset p.1 else subset) []

/-- The `do ... while (std::next_permutation(...))` loop of `enumerate_subsets`,
run for at most `fuel` rounds. -/
def enumerate_loop (v : List LogicalJoinNode) : Nat → List Bool → List JoinSet →
    Option (List JoinSet)
  | 0, _, _ => none
  | fuel + 1, bitset, res =>
    let res := set_insert JoinSet.lt res (select_subset v bitset)
    match next_permutation bitset with
    | (bitset', true) => enumerate_loop v fuel bitset' res
    | (_, false) => some res

/-- Function `enumerate_subsets(v, size)`.  With `size > v.size()` the length
`v.size() - size` of the bit vector wraps around and the vector cannot be
allocated.  The loop runs once per permutation of the bit vector, of which
there are at most `2 ^ v.size()`. -/
def enumerate_subsets (v : List LogicalJoinNode) (size : Nat) : Option (List JoinSet) :=
  if size > v.length then none
  else
    enumerate_loop v (2 ^ v.length)
      (List.replicate (v.length - size) false ++ List.replicate size true) []

/-- The loop `for (auto ljnode : set)` of `order_joins`, from
`bestres = max, bcc = {}`; the result is `(bestres, bcc)`. -/
def best_plan (stats : List Nat → TableStats) (filter_selectivities : List Nat → ℚ)
    (pc : PlanCache) (set : JoinSet) : ℚ × CostCard :=
  set.foldl
    (fun acc ljnode =>
      match compute_cost_and_card_of_subplan stats filter_selectivities ljnode set acc.1 pc with
      | some cc => (cc.cost, cc)
      | none => acc)
    (DBL_MAX, { cost := 0, card := 0, plan := [] })

/-- One round of the loop `for (auto set : subsets)` of `order_joins` on the
state `(bcc, pc)`. -/
def plan_subset (stats : List Nat → TableStats) (filter_selectivities : List Nat → ℚ)
    (st : CostCard × PlanCache) (set : JoinSet) : CostCard × PlanCache :=
  let r := best_plan stats filter_selectivities st.2 set
  (r.2, if r.1 ≠ DBL_MAX then st.2.add_plan set r.2.cost r.2.card r.2.plan else st.2)

/-- One round of the loop `for (int i = 1; i <= size; i++)` of `order_joins`. -/
def plan_size (joins : List LogicalJoinNode) (stats : List Nat → TableStats)
    (filter_selectivities : List Nat → ℚ) (st : CostCard × PlanCache) (i : Nat) :
    Option (CostCard × PlanCache) :=
  match enumerate_subsets joins i with
  | none => none
  | some subsets => some (subsets.foldl (plan_subset stats filter_selectivities) st)

/-- The first `n` rounds of the loop `for (int i = 1; i <= size; i++)` of
`order_joins` over the joins `_joins` of the optimizer: the state `(bcc, pc)`
they leave. -/
def order_joins_rounds (joins : List LogicalJoinNode) (stats : List Nat → TableStats)
    (filter_selectivities : List Nat → ℚ) (n : Nat) : Option (CostCard × PlanCache) :=
  (List.range' 1 n).foldlM (plan_size joins stats filter_selectivities)
    ({ cost := 0, card := 0, plan := [] }, PlanCache.new)

/-- Function `order_joins(stats, filter_selectivities)` of the optimizer
constructed from `joins`. -/
def order_joins (joins : List LogicalJoinNode) (stats : List Nat → TableStats)
    (filter_selectivities : List Nat → ℚ) : Option (List LogicalJoinNode) :=
  (order_joins_rounds joins stats filter_selectivities joins.length).map fun st => st.1.plan

end JoinOptimizer

/-- The join cost as the specification words it: `s1 + c1 * s2 + c1 * c2`. -/
def estimate_join_cost_spec (c1 c2 : Nat) (s1 s2 : ℚ) : ℚ :=
  s1 + (c1 : ℚ) * s2 + (c1 : ℚ) * (c2 : ℚ)

/-- The join cardinality as the specification words it. -/
def estimate_join_cardinality_spec (op : PredicateType) (c1 c2 : Nat) (t1pkey t2pkey : Bool) :
    Int :=
  if op = PredicateType.EQ then
    if t1pkey then (c2 : Int) else if t2pkey then (c1 : Int) else ((max c1 c2 : Nat) : Int)
  else ⌊(3 / 10 : ℚ) * (c1 : ℚ) * (c2 : ℚ)⌋

/-- A left-deep ordering without cross product: every join after the first has
a table that occurs in an earlier join. -/
def cross_product_free : List LogicalJoinNode → List LogicalJoinNode → Bool
  | _, [] => true
  | earlier, j :: later =>
    (earlier.isEmpty || JoinOptimizer.does_join earlier j.left_table ||
        JoinOptimizer.does_join earlier j.right_table) &&
      cross_product_free (earlier ++ [j]) later

/-- One step of a left-deep ordering in a prescribed orientation (`swapped`: inner
and outer exchanged), costed with `estimate_join_cost` and
`estimate_join_cardinality` on the operands the optimizer uses; `prev` is the
plan so far, `none` before the first join.  The result is `none` when the step
would be a cross product. -/
def ordering_step (stats : List Nat → TableStats) (filter_selectivities : List Nat → ℚ)
    (prev : Option CostCard) (j : LogicalJoinNode) (swapped : Bool) : Option CostCard :=
  match JoinOptimizer.join_operands stats filter_selectivities j prev.isNone
      (prev.elim [] fun cc => cc.plan) (prev.elim 0 fun cc => cc.cost)
      (prev.elim 0 fun cc => cc.card) with
  | none => none
  | some o =>
    if swapped then
      some
        { cost := JoinOptimizer.estimate_join_cost j.swap_inner_outer o.t2_card o.t1_card
            o.t2_cost o.t1_cost
          card := JoinOptimizer.estimate_join_cardinality j.swap_inner_outer o.t1_card o.t2_card
            o.right_Pkey o.left_Pkey
          plan := o.prev_best ++ [j.swap_inner_outer] }
    else
      some
        { cost := JoinOptimizer.estimate_join_cost j o.t1_card o.t2_card o.t1_cost o.t2_cost
          card := JoinOptimizer.estimate_join_cardinality j o.t1_card o.t2_card o.left_Pkey
            o.right_Pkey
          plan := o.prev_best ++ [j] }

/-- The estimate of a left-deep ordering, each join with its orientation,
obtained step by step. -/
def ordering_cost (stats : List Nat → TableStats) (filter_selectivities : List Nat → ℚ) :
    Option CostCard → List (LogicalJoinNode × Bool) → Option CostCard
  | prev, [] => prev
  | prev, (j, swapped) :: rest =>
    match ordering_step stats filter_selectivities prev j swapped with
    | none => none
    | some cc => ordering_cost stats filter_selectivities (some cc) rest

namespace Example

/-- The table name `"emp"`. -/
def emp : List Nat := [101, 109, 112]

/-- The table name `"dept"`. -/
def dept : List Nat := [100, 101, 112, 116]

/-- The table name `"hobby"`. -/
def hobby : List Nat := [104, 111, 98, 98, 121]

/-- The table name `"hobbies"`. -/
def hobbies : List Nat := [104, 111, 98, 98, 105, 101, 115]

/-- Statistics of a table of `num_tups` tuples on `nump` pages, the cost of a
page being `io_cost`. -/
def table_stats (io_cost nump num_tups : Int) : TableStats :=
  { TableStats.default with io_cost := io_cost, nump := nump, num_tups := num_tups }

/-- The statistics of `OrderJoinsTest`: IO cost 100 per page; `emp` has 50000
tuples on 197 pages, `dept` 1000 on 3, `hobby` 1000 on 4, `hobbies` 100000 on
197. -/
def test_stats (table_name : List Nat) : TableStats :=
  if table_name = emp then table_stats 100 197 50000
  else if table_name = dept then table_stats 100 3 1000
  else if table_name = hobby then table_stats 100 4 1000
  else if table_name = hobbies then table_stats 100 197 100000
  else TableStats.default

/-- The filter selectivities of `OrderJoinsTest`. -/
def test_selectivities (table_name : List Nat) : ℚ :=
  if table_name = emp then 1 / 10
  else if table_name = dept then 1
  else if table_name = hobby then 1
  else if table_name = hobbies then 1
  else 0

/-- The joins of `OrderJoinsTest`. -/
def test_joins : List LogicalJoinNode :=
  [ { left_table := hobbies, right_table := hobby, left_field := 1, right_field := 0,
      op := PredicateType.EQ },
    { left_table := emp, right_table := dept, left_field := 1, right_field := 0,
      op := PredicateType.EQ },
    { left_table := emp, right_table := hobbies, left_field := 2, right_field := 0,
      op := PredicateType.EQ } ]

/-- Statistics of four tables `a`, `b`, `c`, `d` (IO cost 1 per page): `a` has 1
tuple on 1 page, `b` 2 tuples on 1 page, `c` 1 tuple on 2 pages, `d` 2 tuples on
2 pages. -/
def skew_stats (table_name : List Nat) : TableStats :=
  if table_name = [97] then table_stats 1 1 1
  else if table_name = [98] then table_stats 1 1 2
  else if table_name = [99] then table_stats 1 2 1
  else if table_name = [100] then table_stats 1 2 2
  else TableStats.default

/-- The join `c.2 = a.0`. -/
def join_ca : LogicalJoinNode :=
  { left_table := [99], right_table := [97], left_field := 2, right_field := 0,
    op := PredicateType.EQ }

/-- The join `c.2 > a.0`. -/
def join_gt : LogicalJoinNode :=
  { left_table := [99], right_table := [97], left_field := 2, right_field := 0,
    op := PredicateType.GT }

/-- The join `a.2 = d.2`. -/
def join_ad : LogicalJoinNode :=
  { left_table := [97], right_table := [100], left_field := 2, right_field := 2,
    op := PredicateType.EQ }

/-- The join `c.0 = b.1`. -/
def join_cb : LogicalJoinNode :=
  { left_table := [99], right_table := [98], left_field := 0, right_field := 1,
    op := PredicateType.EQ }

end Example

/-! ## Notions used in the statements about the join optimizer -/

/-- A comparator that is a strict total order. -/
structure StrictTotal {α : Type} (lt : α → α → Bool) : Prop where
  irrefl : ∀ a, lt a a = false
  trans : ∀ a b c, lt a b = true → lt b c = true → lt a c = true
  total : ∀ a b, lt a b = false → lt b a = false → a = b

/-- The bit vectors of length `n` with `k` ones, in lexicographic order
(`false` before `true`). -/
def bit_vectors : Nat → Nat → List (List Bool)
  | 0, 0 => [[]]
  | 0, _ + 1 => []
  | n + 1, 0 => (bit_vectors n 0).map fun b => false :: b
  | n + 1, k + 1 =>
    ((bit_vectors n (k + 1)).map fun b => false :: b) ++
      ((bit_vectors n k).map fun b => true :: b)

/-- The plan holds every join of `joins` exactly once, as given or with inner and
outer swapped. -/
def oriented_permutation (plan joins : List LogicalJoinNode) : Prop :=
  ∃ q, q.Perm joins ∧ List.Forall₂ (fun x j => x = j ∨ x = j.swap_inner_outer) plan q

/-- The operands that `compute_cost_and_card_of_subplan` determines for the join
`j` of the set `join_set` from the plan cache: those of joining `j` to the cached
plan of the other joins of the set. -/
def cached_operands (stats : List Nat → TableStats) (filter_selectivities : List Nat → ℚ)
    (pc : PlanCache) (join_set : JoinSet) (j : LogicalJoinNode) : Option JoinOperands :=
  JoinOptimizer.join_operands stats filter_selectivities j
    (set_erase LogicalJoinNode.lt join_set j).isEmpty
    (pc.get_order (set_erase LogicalJoinNode.lt join_set j))
    (pc.get_cost (set_erase LogicalJoinNode.lt join_set j))
    (pc.get_card (set_erase LogicalJoinNode.lt join_set j))

/-- The cheaper of the two orientations of `j` over the operands `o`, the given
one on a tie, with the cost, cardinality and plan that
`compute_cost_and_card_of_subplan` records for it. -/
def cheaper_orientation (j : LogicalJoinNode) (o : JoinOperands) : CostCard :=
  if JoinOptimizer.estimate_join_cost j.swap_inner_outer o.t2_card o.t1_card o.t2_cost o.t1_cost
      < JoinOptimizer.estimate_join_cost j o.t1_card o.t2_card o.t1_cost o.t2_cost then
    { cost := JoinOptimizer.estimate_join_cost j.swap_inner_outer o.t2_card o.t1_card o.t2_cost
        o.t1_cost
      card := JoinOptimizer.estimate_join_cardinality j.swap_inner_outer o.t1_card o.t2_card
        o.right_Pkey o.left_Pkey
      plan := o.prev_best ++ [j.swap_inner_outer] }
  else
    { cost := JoinOptimizer.estimate_join_cost j o.t1_card o.t2_card o.t1_cost o.t2_cost
      card := JoinOptimizer.estimate_join_cardinality j o.t1_card o.t2_card o.left_Pkey
        o.right_Pkey
      plan := o.prev_best ++ [j] }

/-- The joins can be linked without a cross product: some ordering of them is
`cross_product_free`. -/
def linkable (joins : List LogicalJoinNode) : Prop :=
  ∃ q, q.Perm joins ∧ cross_product_free [] q = true

/-- Every plan that the cache holds for a set of joins of `v` orders the joins
of the set, and its cost is at most `2 ^ 128 + 2 ^ 65` a join. -/
def PlanCache.sound (pc : PlanCache) (v : List LogicalJoinNode) : Prop :=
  ∀ t : JoinSet, t.Pairwise (fun a b => LogicalJoinNode.lt a b = true) → (∀ x ∈ t, x ∈ v) →
    pc.get_order t ≠ [] →
    oriented_permutation (pc.get_order t) t ∧
      pc.get_cost t ≤ (t.length : ℚ) * (2 ^ 128 + 2 ^ 65)

/-- The cache holds a plan for every linkable set of at most `n` joins of `v`. -/
def PlanCache.complete (pc : PlanCache) (v : List LogicalJoinNode) (n : Nat) : Prop :=
  ∀ t : JoinSet, t.Pairwise (fun a b => LogicalJoinNode.lt a b = true) → (∀ x ∈ t, x ∈ v) →
    1 ≤ t.length → t.length ≤ n → linkable t → pc.get_order t ≠ []

/-- The cost, cardinality and plan that the cache holds for the set `s`, as the
plan to which a further join is appended; `none` for the empty set. -/
def PlanCache.cached (pc : PlanCache) (s : JoinSet) : Option CostCard :=
  if s.isEmpty then none
  else some { cost := pc.get_cost s, card := pc.get_card s, plan := pc.get_order s }

/-! ## Notions used in the statements about slotted pages -/

namespace SlottedPage

/-- The offset field of a slot word, as `HeapSegment::read` decodes it. -/
def slot_offset (value : Nat) : Nat := (((value <<< 16) % 2 ^ 64) >>> 40) % 2 ^ 32

/-- The length field of a slot word, as `HeapSegment::read` decodes it. -/
def slot_length (value : Nat) : Nat := (((value <<< 40) % 2 ^ 64) >>> 40) % 2 ^ 32

/-- The page after the calls `addSlot(size)` for the sizes of the list, in
order; `none` when one of them exits. -/
def add_slots (page : SlottedPage) : List Nat → Option SlottedPage
  | [] => some page
  | size :: rest =>
    match addSlot page size with
    | none => none
    | some (page, _) => add_slots page rest

end SlottedPage

namespace SlottedPage

/-- The page after the calls `addSlot(size)` for the sizes of the list, in
order, as long as each request leaves room for the slot it appends
(`size + sizeof(Slot) ≤ free_space`); `none` from the first request that does
not. -/
def add_slots_with_room (page : SlottedPage) : List Nat → Option SlottedPage
  | [] => some page
  | size :: rest =>
    if size + sizeof_slot ≤ free_space page then
      match addSlot page size with
      | none => none
      | some (page, _) => add_slots_with_room page rest
    else none

/-- The layout of a page with `n` records whose requests all left room for
their slots: header equation, no free slot below `slot_count`, every slot
non-zero with its payload between `data_start` and the end of the page, and
the payloads of later slots below those of earlier ones. -/
def well_laid_out (page : SlottedPage) (page_size n : Nat) : Prop :=
  page.length = page_size ∧
  free_space page + sizeof_header + sizeof_slot * slot_count page = data_start page ∧
  data_start page ≤ page_size ∧ first_free_slot page = slot_count page ∧
  slot_count page = n ∧
  (∀ i, i < n → getSlot page i ≠ 0 ∧ data_start page ≤ slot_offset (getSlot page i) ∧
    slot_offset (getSlot page i) + slot_length (getSlot page i) ≤ page_size) ∧
  ∀ i k, i < k → k < n →
    slot_offset (getSlot page k) + slot_length (getSlot page k) ≤ slot_offset (getSlot page i)

end SlottedPage

/-! ## Notions used in the statements about pages that are read back from disk -/

namespace BufferManager

/-- Whether the slot array of the page `page_id` lies in the frame that holds
the page: the page is resident and the pointer `header.buffer_frame`, through
which `getSlot`, `setSlot` and `addSlot` reach the slot array, designates the
data of that frame (a frame's data being represented by the frame's index).
The constructor call of `HeapSegment::allocate` and the assignment
`page->header.buffer_frame = page` of the test helper `look` establish this; a
page that is read back from its file after a discard still carries the
pointer of the frame it was written from. -/
def in_place (bm : BufferManager) (page_id : Nat) : Prop :=
  bm.resident page_id ∧
    SlottedPage.buffer_frame (bm.frame (bm.get_frame_id_of_page page_id)).data
      = bm.get_frame_id_of_page page_id

end BufferManager

namespace LogManagerTest

/-- The first statements of the page loop of `look`: fix the page and set
`header.buffer_frame` to the data of the frame. -/
def fix_in_place (bm : BufferManager) (disk : Disk) (page_id : Nat) :
    Option (BufferManager × Nat) :=
  match bm.fix_page disk page_id true with
  | none => none
  | some (bm, frame) =>
    let page : SlottedPage := (bm.frame frame).data
    let page := SlottedPage.set_buffer_frame page frame
    some (bm.set_frame frame { bm.frame frame with data := page }, frame)

end LogManagerTest

/-! ## Notions used in the statements about the buffer pool -/

/-- One call of the buffer manager's interface. -/
inductive PoolCall where
  | fix_page (page_id : Nat) (exclusive : Bool)
  | unfix_page (page : Nat) (is_dirty : Bool)
  | flush_page (page_id : Nat)
  | flush_all_pages
  | discard_page (page_id : Nat)
  | discard_all_pages
  deriving DecidableEq, Repr

namespace PoolCall

/-- The pool and the segment files after the call returned; `none` when the
call exits or throws. -/
def run (c : PoolCall) (bm : BufferManager) (disk : Disk) : Option (BufferManager × Disk) :=
  match c with
  | fix_page page_id exclusive =>
    match bm.fix_page disk page_id exclusive with
    | none => none
    | some (bm, _) => some (bm, disk)
  | unfix_page page is_dirty => some (bm.unfix_page page is_dirty, disk)
  | flush_page page_id => bm.flush_page disk page_id
  | flush_all_pages => bm.flush_all_pages disk
  | discard_page page_id => some (bm.discard_page page_id, disk)
  | discard_all_pages => some (bm.discard_all_pages, disk)

/-- Whether the call is a `fix_page` for a page that no frame of `bm` holds
(1) or not (0). -/
def faults (c : PoolCall) (bm : BufferManager) : Nat :=
  match c with
  | fix_page page_id _ => if bm.get_frame_id_of_page page_id = INVALID_FRAME_ID then 1 else 0
  | _ => 0

end PoolCall

/-- The pool and the segment files after a sequence of calls that all
returned. -/
def run_calls : List PoolCall → BufferManager → Disk → Option (BufferManager × Disk)
  | [], bm, disk => some (bm, disk)
  | c :: rest, bm, disk =>
    match c.run bm disk with
    | none => none
    | some (bm, disk) => run_calls rest bm disk

/-- The number of calls of the sequence that returned, up to the first call
that does not return, and were a `fix_page` for a page no frame held. -/
def page_faults : List PoolCall → BufferManager → Disk → Nat
  | [], _, _ => 0
  | c :: rest, bm, disk =>
    match c.run bm disk with
    | none => 0
    | some (bm', disk') => c.faults bm + page_faults rest bm' disk'

/-- A pool state reachable from the constructor (with a `size_t` frame count)
through calls of the interface. -/
def reachable_pool (bm : BufferManager) : Prop :=
  ∃ page_size page_count disk calls disk', page_count < 2 ^ 64 ∧
    run_calls calls (BufferManager.new page_size page_count) disk = some (bm, disk')

/-- No two frames hold the same valid page id. -/
def no_shared_page (bm : BufferManager) : Prop :=
  ∀ i j, i < bm.capacity_ → j < bm.capacity_ → (bm.frame i).page_id ≠ INVALID_PAGE_ID →
    (bm.frame i).page_id = (bm.frame j).page_id → i = j

/-! ## Notions used in the statements about the rounds of `order_joins` -/

/-- The join `j` of the set `join_set` can be appended over the cache: the set
has no other join, or the cache holds a plan for the other joins and one of
the tables of `j` occurs in that plan. -/
def admissible (pc : PlanCache) (join_set : JoinSet) (j : LogicalJoinNode) : Prop :=
  set_erase LogicalJoinNode.lt join_set j = [] ∨
    (pc.get_order (set_erase LogicalJoinNode.lt join_set j) ≠ [] ∧
      (JoinOptimizer.does_join (pc.get_order (set_erase LogicalJoinNode.lt join_set j))
          j.left_table = true ∨
        JoinOptimizer.does_join (pc.get_order (set_erase LogicalJoinNode.lt join_set j))
          j.right_table = true))

/-- Two caches hold the same plan, cost and cardinality for the set `t`. -/
def PlanCache.agree (pc pc' : PlanCache) (t : JoinSet) : Prop :=
  pc.get_order t = pc'.get_order t ∧ pc.get_cost t = pc'.get_cost t ∧
    pc.get_card t = pc'.get_card t

/-- The entry of the cache for the set `s` is what the loop over the joins of
`s` yields on the cache itself: nothing when no candidate was accepted, else
the cost, cardinality and plan of the candidate kept. -/
def PlanCache.settled (pc : PlanCache) (stats : List Nat → TableStats)
    (filter_selectivities : List Nat → ℚ) (s : JoinSet) : Prop :=
  ((JoinOptimizer.best_plan stats filter_selectivities pc s).1 = DBL_MAX →
    pc.get_order s = []) ∧
  ((JoinOptimizer.best_plan stats filter_selectivities pc s).1 ≠ DBL_MAX →
    pc.get_order s = (JoinOptimizer.best_plan stats filter_selectivities pc s).2.plan ∧
    pc.get_cost s = (JoinOptimizer.best_plan stats filter_selectivities pc s).2.cost ∧
    pc.get_card s = (JoinOptimizer.best_plan stats filter_selectivities pc s).2.card)

/-- The state of the cache after the rounds for the sizes up to `n`: the sets
of `1` to `n` joins of `v` are settled, and no other set of joins of `v` has a
plan. -/
def PlanCache.settled_upto (pc : PlanCache) (stats : List Nat → TableStats)
    (filter_selectivities : List Nat → ℚ) (v : List LogicalJoinNode) (n : Nat) : Prop :=
  ∀ t : JoinSet, t.Pairwise (fun a b => LogicalJoinNode.lt a b = true) → (∀ x ∈ t, x ∈ v) →
    ((t.length = 0 ∨ n < t.length) → pc.get_order t = []) ∧
    (1 ≤ t.length → t.length ≤ n → pc.settled stats filter_selectivities t)

/-- The joins `x` and `j` have the same two tables, in the same or in the
opposite roles. -/
def same_tables (x j : LogicalJoinNode) : Prop :=
  (x.left_table = j.left_table ∧ x.right_table = j.right_table) ∨
    (x.left_table = j.right_table ∧ x.right_table = j.left_table)

/-- The plan orders the joins of `joins` as far as their tables go: it holds,
position by position, a join with the tables of a join of some ordering of
`joins`. -/
def table_ordering (plan joins : List LogicalJoinNode) : Prop :=
  ∃ q, q.Perm joins ∧ List.Forall₂ same_tables plan q

namespace Example

/-- A 128-byte page as the constructor `SlottedPage(buffer, 128)` leaves it. -/
def constructed_page : SlottedPage := SlottedPage.new (List.replicate 128 0) 0 128

/-- Segment files of two zeroed 8-byte pages each. -/
def two_pages : Disk := fun _ => List.replicate 16 0

/-- A run of a pool: fix page 0, unfix it dirty, fix page 1, discard page 0,
fix page 0 again. -/
def pool_trace : List PoolCall :=
  [PoolCall.fix_page 0 true, PoolCall.unfix_page 0 true, PoolCall.fix_page 1 false,
    PoolCall.discard_page 0, PoolCall.fix_page 0 true]

/-- The pool of four 8-byte frames after `pool_trace`. -/
def traced_pool : BufferManager :=
  match run_calls pool_trace (BufferManager.new 8 4) two_pages with
  | some (bm, _) => bm
  | none => BufferManager.new 8 4

/-- The join `hobbies.1 = hobby.0` of `OrderJoinsTest`. -/
def hobbies_hobby : LogicalJoinNode :=
  { left_table := hobbies, right_table := hobby, left_field := 1, right_field := 0,
    op := PredicateType.EQ }

/-- The join `b.1 = d.1`, which shares no table with `join_ca`. -/
def join_bd : LogicalJoinNode :=
  { left_table := [98], right_table := [100], left_field := 1, right_field := 1,
    op := PredicateType.EQ }

end Example

/-! ## IEEE 754 binary64 arithmetic

The sections on `optimizer/table_stats` and `optimizer/join_optimizer` above
carry out the arithmetic on `double`s exactly.  The compiled code rounds the
result of every conversion to `double` and of every operation on `double`s to
the nearest binary64 number, to the one with the even significand when two are
equally near.  This section defines that rounding on the rational numbers and
repeats with it the functions of `table_stats.cc` and `join_optimizer.cc` whose
result depends on it.  Results beyond the largest finite `double`, infinities
and NaN (in particular a division by zero) are outside the model; integers are
as in the sections above. -/

namespace Binary64

/-- The integer nearest to `y`, the even one of the two when `y` lies halfway
between two integers. -/
def round_even (y : ℚ) : Int :=
  if y - ⌊y⌋ < 1 / 2 then ⌊y⌋
  else if 1 / 2 < y - ⌊y⌋ then ⌊y⌋ + 1
  else if ⌊y⌋ % 2 = 0 then ⌊y⌋
  else ⌊y⌋ + 1

/-- The binary exponent `e` of the binade of `x`, `2 ^ e ≤ |x| < 2 ^ (e + 1)`, not
below the exponent `-1022` of the subnormal numbers. -/
def exponent (x : ℚ) : Int := max (Int.log 2 |x|) (-1022)

/-- The distance between neighbouring binary64 numbers in the binade of `x`:
a significand has 53 bits. -/
def ulp (x : ℚ) : ℚ := (2 : ℚ) ^ (exponent x - 52)

/-- The binary64 number nearest to `x`, ties to even. -/
def round (x : ℚ) : ℚ := (round_even (x / ulp x) : ℚ) * ulp x

/-- The sum of two `double`s. -/
def add (x y : ℚ) : ℚ := round (x + y)

/-- The difference of two `double`s. -/
def sub (x y : ℚ) : ℚ := round (x - y)

/-- The product of two `double`s. -/
def mul (x y : ℚ) : ℚ := round (x * y)

/-- The quotient of two `double`s. -/
def div (x y : ℚ) : ℚ := round (x / y)

/-- The conversion of an integer (`int`, `int64_t`, `uint64_t`) to `double`. -/
def of_int (z : Int) : ℚ := round (z : ℚ)

end Binary64

/-- The value of an `int64_t` expression whose mathematical value is `z`: the
representative of `z` modulo `2 ^ 64` in `[-2 ^ 63, 2 ^ 63)` (signed overflow,
undefined in the source, wraps in the compiled code). -/
def to_int64 (z : Int) : Int := (z + 2 ^ 63) % 2 ^ 64 - 2 ^ 63

namespace Binary64

namespace IntHistogram

/-- Constructor `IntHistogram::IntHistogram(buckets, min_val, max_val)` in binary64:
`span = std::max(1.0, (double) ((1.0 + max_val - min_val) / buckets))`, the two
bounds and the number of buckets being converted to `double`. -/
def new (buckets min_val max_val : Int) : buzzdb.IntHistogram :=
  { span := max 1
      (Binary64.div
        (Binary64.sub (Binary64.add 1 (Binary64.of_int max_val)) (Binary64.of_int min_val))
        (Binary64.of_int buckets))
    min_v := min_val
    max_v := max_val
    NumB := buckets
    ntups := 0
    umap := List.replicate buckets.toNat 0 }

/-- The bucket index `std::min((int) ((val - min_v) / span), NumB - 1)` in binary64:
the difference of the two `int64_t` is converted to `double` and divided by
`span`. -/
def b_idx (h : buzzdb.IntHistogram) (val : Int) : Int :=
  min (to_int (Binary64.div (Binary64.of_int (val - h.min_v)) h.span)) (h.NumB - 1)

/-- Function `IntHistogram::add_value(val)` in binary64. -/
def add_value (h : buzzdb.IntHistogram) (val : Int) : buzzdb.IntHistogram :=
  if val < h.min_v ∨ val > h.max_v then h
  else
    let b_idx := Binary64.IntHistogram.b_idx h val
    { h with
      umap := h.umap.set b_idx.toNat (h.umap.getD b_idx.toNat 0 + 1)
      ntups := h.ntups + 1 }

/-- The branch `PredicateType::EQ` of `estimate_selectivity` in binary64:
`(h / span) / ntups`. -/
def estimate_EQ (h : buzzdb.IntHistogram) (v : Int) : ℚ :=
  if v < h.min_v ∨ v > h.max_v then 0
  else
    let b_idx := Binary64.IntHistogram.b_idx h v
    let height := h.umap.getD b_idx.toNat 0
    Binary64.div (Binary64.div (Binary64.of_int height) h.span) (Binary64.of_int h.ntups)

/-- The branch `PredicateType::GT` of `estimate_selectivity` in binary64:
`(h / ntups) * ((min_v + (b_idx + 1) * span - v) / span)`, where `h / ntups`
divides two `int`s, plus `1.0 * cnt / ntups`. -/
def estimate_GT (h : buzzdb.IntHistogram) (v : Int) : ℚ :=
  if v ≤ h.min_v then 1
  else if v ≥ h.max_v then 0
  else
    let b_idx := Binary64.IntHistogram.b_idx h v
    let height := h.umap.getD b_idx.toNat 0
    let sel : ℚ := Binary64.mul (Binary64.of_int (Int.tdiv height h.ntups))
      (Binary64.div
        (Binary64.sub
          (Binary64.add (Binary64.of_int h.min_v)
            (Binary64.mul (Binary64.of_int (b_idx + 1)) h.span))
          (Binary64.of_int v))
        h.span)
    let cnt := h.count_above b_idx
    Binary64.add sel
      (Binary64.div (Binary64.mul 1 (Binary64.of_int cnt)) (Binary64.of_int h.ntups))

/-- The branch `PredicateType::GE` of `estimate_selectivity` in binary64. -/
def estimate_GE (h : buzzdb.IntHistogram) (v : Int) : ℚ :=
  if v < h.min_v then 1
  else if v > h.max_v then 0
  else Binary64.IntHistogram.estimate_GT h (v - 1)

/-- Function `IntHistogram::estimate_selectivity(op, v)` in binary64. -/
def estimate_selectivity (h : buzzdb.IntHistogram) (op : PredicateType) (v : Int) : ℚ :=
  match op with
  | .EQ => Binary64.IntHistogram.estimate_EQ h v
  | .NE => Binary64.sub 1 (Binary64.IntHistogram.estimate_EQ h v)
  | .GT => Binary64.IntHistogram.estimate_GT h v
  | .GE => Binary64.IntHistogram.estimate_GE h v
  | .LT =>
    if v ≤ h.min_v then 0
    else if v ≥ h.max_v then 1
    else Binary64.sub 1 (Binary64.IntHistogram.estimate_GE h v)
  | .LE =>
    if v < h.min_v then 0
    else if v > h.max_v then 1
    else Binary64.sub 1 (Binary64.IntHistogram.estimate_GT h v)

end IntHistogram

namespace TableStats

/-- Function `TableStats::estimate_scan_cost()` in binary64: the product of the two
`int64_t` is converted to `double` and doubled. -/
def estimate_scan_cost (ts : buzzdb.TableStats) : ℚ :=
  let res : ℚ := Binary64.of_int (to_int64 (ts.io_cost * ts.nump))
  Binary64.mul res (Binary64.of_int 2)

/-- Function `TableStats::estimate_table_cardinality(selectivity_factor)` in binary64:
the product of the `double` and the tuple count is cast to `int` and returned
as `uint64_t`. -/
def estimate_table_cardinality (ts : buzzdb.TableStats) (selectivity_factor : ℚ) : Nat :=
  let t := to_int (Binary64.mul selectivity_factor (Binary64.of_int ts.num_tups))
  int_to_uint64 t

end TableStats

namespace JoinOptimizer

/-- Function `JoinOptimizer::estimate_join_cardinality` in binary64: the literal `0.3` is
the `double` nearest to `3 / 10`, and `0.3 * card1 * card2` is evaluated from
the left on the cardinalities converted to `double`. -/
def estimate_join_cardinality (j : LogicalJoinNode) (card1 card2 : Nat) (t1pkey t2pkey : Bool) :
    Int :=
  if j.op = PredicateType.EQ then
    if t1pkey then buzzdb.JoinOptimizer.uint64_to_int card2
    else if t2pkey then buzzdb.JoinOptimizer.uint64_to_int card1
    else if card1 ≥ card2 then buzzdb.JoinOptimizer.uint64_to_int card1
    else buzzdb.JoinOptimizer.uint64_to_int card2
  else
    to_int (Binary64.mul (Binary64.mul (Binary64.round (3 / 10)) (Binary64.of_int card1))
      (Binary64.of_int card2))

end JoinOptimizer

end Binary64

namespace Example

/-- Six buckets over `[0, 9]` holding the single value `5`, in binary64; a bucket is
the `double` nearest to `10 / 6` wide. -/
def rounded_hist : IntHistogram :=
  [5].foldl Binary64.IntHistogram.add_value (Binary64.IntHistogram.new 6 0 9)

end Example

/-! ## Lemmas -/

open BufferManager

theorem memcpy_length (dst : List Nat) (o : Nat) (src : List Nat) (so n : Nat) :
    (memcpy dst o src so n).length = dst.length := by
  simp [memcpy]

theorem getD_memcpy (dst : List Nat) (o : Nat) (src : List Nat) (so n i : Nat) :
    (memcpy dst o src so n).getD i 0 =
      if i < dst.length then
        (if o ≤ i ∧ i < o + n then src.getD (so + (i - o)) 0 else dst.getD i 0)
      else 0 := by
  unfold memcpy
  by_cases h : i < dst.length
  · simp [List.getD_eq_getElem?_getD, List.getElem?_map, List.getElem?_range, h]
  · simp [List.getD_eq_getElem?_getD, List.getElem?_map, h]
    rw [List.getElem?_eq_none (by simpa using h)]
    simp

theorem memcpy_whole (dst src : List Nat) (so n : Nat) (hd : dst.length = n)
    (hs : so + n ≤ src.length) : memcpy dst 0 src so n = (src.drop so).take n := by
  apply List.ext_getElem
  · simp [memcpy_length, hd]; omega
  · intro i h1 h2
    simp [memcpy_length] at h1
    simp [memcpy, hd ▸ h1, List.getD_eq_getElem?_getD]
    rw [List.getElem?_eq_getElem (by omega)]
    simp

theorem get_segment_id_lt (x : Nat) : get_segment_id x < 2 ^ 16 := by
  unfold get_segment_id; exact Nat.mod_lt _ (by norm_num)

theorem get_segment_page_id_eq (x : Nat) : get_segment_page_id x = x % 2 ^ 48 := by
  unfold get_segment_page_id
  have : (1 <<< 48) - 1 = 2 ^ 48 - 1 := by decide
  rw [this, Nat.and_pow_two_sub_one_eq_mod]

theorem get_overall_page_id_eq (s p : Nat) (hs : s < 2 ^ 16) (hp : p < 2 ^ 48) :
    get_overall_page_id s p = 2 ^ 48 * s + p := by
  unfold get_overall_page_id
  rw [Nat.shiftLeft_eq, Nat.mod_eq_of_lt (by omega), Nat.mul_comm, Nat.mul_add_lt_is_or hp]

theorem page_id_packing (s p x : Nat) (hs : s < 2 ^ 16) (hp : p < 2 ^ 48) (hx : x < 2 ^ 64) :
    get_segment_id (get_overall_page_id s p) = s ∧
    get_segment_page_id (get_overall_page_id s p) = p ∧
    get_overall_page_id (get_segment_id x) (get_segment_page_id x) = x := by
  refine ⟨?_, ?_, ?_⟩
  · rw [get_overall_page_id_eq s p hs hp]
    unfold get_segment_id
    rw [Nat.shiftRight_eq_div_pow]
    omega
  · rw [get_overall_page_id_eq s p hs hp, get_segment_page_id_eq]
    omega
  · rw [get_overall_page_id_eq _ _ (get_segment_id_lt x)
      (by rw [get_segment_page_id_eq]; exact Nat.mod_lt _ (by norm_num))]
    rw [get_segment_page_id_eq]
    unfold get_segment_id
    rw [Nat.shiftRight_eq_div_pow]
    omega


theorem frame_set_frame_same (bm : BufferManager) (i : Nat) (f : BufferFrame)
    (h : i < bm.pool_.length) : (bm.set_frame i f).frame i = f := by
  simp [BufferManager.frame, BufferManager.set_frame, List.getD_eq_getElem?_getD, h]

theorem frame_set_frame_other (bm : BufferManager) (i j : Nat) (f : BufferFrame)
    (h : i ≠ j) : (bm.set_frame i f).frame j = bm.frame j := by
  simp [BufferManager.frame, BufferManager.set_frame, List.getD_eq_getElem?_getD,
    List.getElem?_set_ne h]

theorem frame_data_length (bm : BufferManager) (hwf : bm.WF) (i : Nat)
    (h : i < bm.capacity_) : (bm.frame i).data.length = bm.page_size_ := by
  obtain ⟨hl, hd, _, _⟩ := hwf
  have hi : i < bm.pool_.length := by omega
  have : bm.frame i = bm.pool_[i] := by
    simp [BufferManager.frame, List.getD_eq_getElem?_getD, hi]
  rw [this]
  exact hd _ (List.getElem_mem _)

theorem get_frame_id_of_page_spec (bm : BufferManager) (page_id : Nat)
    (h : bm.get_frame_id_of_page page_id ≠ INVALID_FRAME_ID) :
    bm.get_frame_id_of_page page_id < bm.capacity_ ∧
      (bm.frame (bm.get_frame_id_of_page page_id)).page_id = page_id := by
  unfold get_frame_id_of_page at h ⊢
  cases hf : (List.range bm.capacity_).find? fun frame_id =>
      decide ((bm.frame frame_id).page_id = page_id) with
  | none => simp [hf] at h
  | some k =>
    simp only []
    have h1 := List.find?_some hf
    have h2 := List.mem_of_find?_eq_some hf
    simp at h1 h2
    exact ⟨h2, h1⟩

theorem get_frame_id_of_page_none (bm : BufferManager) (page_id : Nat)
    (hcap : bm.capacity_ < 2 ^ 64) (h : bm.get_frame_id_of_page page_id = INVALID_FRAME_ID) :
    ∀ i, i < bm.capacity_ → (bm.frame i).page_id ≠ page_id := by
  unfold get_frame_id_of_page at h
  cases hf : (List.range bm.capacity_).find? fun frame_id =>
      decide ((bm.frame frame_id).page_id = page_id) with
  | none =>
    intro i hi
    have := List.find?_eq_none.mp hf i (by simpa using hi)
    simpa using this
  | some k =>
    rw [hf] at h
    simp only [] at h
    have h2 := List.mem_of_find?_eq_some hf
    simp at h2
    simp [INVALID_FRAME_ID] at h
    omega

theorem offset_no_wrap (page_id ps : Nat) (hps : ps < 2 ^ 16) :
    (get_segment_page_id page_id * ps) % 2 ^ 64 = get_segment_page_id page_id * ps ∧
    (get_segment_page_id page_id * ps + ps) % 2 ^ 64 = get_segment_page_id page_id * ps + ps := by
  have h1 : get_segment_page_id page_id < 2 ^ 48 := by
    rw [get_segment_page_id_eq]; exact Nat.mod_lt _ (by norm_num)
  have h2 : (get_segment_page_id page_id + 1) * ps < 2 ^ 48 * 2 ^ 16 := by
    calc (get_segment_page_id page_id + 1) * ps ≤ 2 ^ 48 * ps := Nat.mul_le_mul_right _ h1
      _ < 2 ^ 48 * 2 ^ 16 := by
          apply Nat.mul_lt_mul_of_pos_left hps (by norm_num)
  have h3 : (get_segment_page_id page_id + 1) * ps = get_segment_page_id page_id * ps + ps := by
    ring
  constructor
  · apply Nat.mod_eq_of_lt; norm_num at h2 ⊢; omega
  · apply Nat.mod_eq_of_lt; norm_num at h2 ⊢; omega


/-- The page-fault path of `fix_page` in closed form. -/
theorem fix_page_fault (bm : BufferManager) (disk : Disk) (page_id : Nat) (exclusive : Bool)
    (hwf : bm.WF) (h1 : page_id ≠ INVALID_PAGE_ID) (hres : ¬ bm.resident page_id) :
    bm.fix_page disk page_id exclusive =
      if bm.page_counter_ + 1 ≥ bm.capacity_ then none
      else if (get_segment_page_id page_id * bm.page_size_ % 2 ^ 64 + bm.page_size_) % 2 ^ 64 >
          (disk (get_segment_id page_id)).length then none
      else some ({ bm with
          page_counter_ := bm.page_counter_ + 1
          pool_ := bm.pool_.set bm.page_counter_
            { frame_id := (bm.frame bm.page_counter_).frame_id
              page_id := page_id
              dirty := false
              data := memcpy (bm.frame bm.page_counter_).data 0 (disk (get_segment_id page_id))
                (get_segment_page_id page_id * bm.page_size_ % 2 ^ 64) bm.page_size_ } },
        bm.page_counter_) := by
  obtain ⟨hl, hd, hcap, hpc⟩ := hwf
  have hmod : (bm.page_counter_ + 1) % 2 ^ 64 = bm.page_counter_ + 1 := by
    apply Nat.mod_eq_of_lt; omega
  unfold resident at hres
  simp only [fix_page, if_neg h1, if_neg hres, hmod]
  by_cases hfull : bm.page_counter_ + 1 ≥ bm.capacity_
  · simp [hfull]
  · have hin : bm.page_counter_ < bm.pool_.length := by omega
    simp only [if_neg hfull]
    simp only [read_frame, TestFile.read_block, open_file, BufferManager.frame,
      BufferManager.set_frame, List.getD_eq_getElem?_getD, List.getElem?_set_self, hin,
      List.length_set, List.getElem?_eq_getElem, Option.getD_some, List.set_set, if_true]
    split_ifs
    all_goals simp_all
    all_goals omega

theorem fix_page_spec (bm : BufferManager) (disk : Disk)
    (page_id : Nat) (exclusive : Bool) (bm' : BufferManager) (f : Nat)
    (hwf : bm.WF) (hps : bm.page_size_ < 2 ^ 16)
    (h : bm.fix_page disk page_id exclusive = some (bm', f)) :
    (bm'.frame f).page_id = page_id ∧
    (¬ bm.resident page_id →
      (bm'.frame f).dirty = false ∧
      (bm'.frame f).data = page_on_disk disk bm.page_size_ page_id) := by
  have hwf' := hwf
  obtain ⟨hl, hd, hcap, hpc⟩ := hwf
  by_cases h1 : page_id = INVALID_PAGE_ID
  · simp [fix_page, h1] at h
  by_cases hres : bm.resident page_id
  · have hres' := hres
    unfold resident at hres'
    simp only [fix_page, if_neg h1, if_pos hres'] at h
    simp at h
    obtain ⟨rfl, rfl⟩ := h
    exact ⟨(get_frame_id_of_page_spec bm page_id hres).2, fun hn => absurd hres hn⟩
  · rw [fix_page_fault bm disk page_id exclusive hwf' h1 hres] at h
    obtain ⟨ho1, ho2⟩ := offset_no_wrap page_id bm.page_size_ hps
    rw [ho1, ho2] at h
    split_ifs at h with hfull hrange
    simp at h
    obtain ⟨rfl, rfl⟩ := h
    have hin : bm.page_counter_ < bm.pool_.length := by omega
    simp only [BufferManager.frame, List.getD_eq_getElem?_getD, List.getElem?_set_self, hin,
      List.getElem?_eq_getElem, Option.getD_some, if_true]
    refine ⟨trivial, fun _ => ⟨trivial, ?_⟩⟩
    unfold page_on_disk
    apply memcpy_whole
    · exact hd _ (List.getElem_mem _)
    · omega



theorem getD_memcpy_outside (dst : List Nat) (o : Nat) (src : List Nat) (so n j : Nat)
    (h : ¬ (o ≤ j ∧ j < o + n)) : (memcpy dst o src so n).getD j 0 = dst.getD j 0 := by
  rw [getD_memcpy, if_neg h]
  split_ifs with hj
  · rfl
  · simp [List.getD_eq_getElem?_getD, List.getElem?_eq_none (show dst.length ≤ j by omega)]

theorem memcpy_region (dst : List Nat) (o : Nat) (src : List Nat) (n : Nat)
    (hs : src.length = n) (h : o + n ≤ dst.length) :
    ((memcpy dst o src 0 n).drop o).take n = src := by
  apply List.ext_getElem
  · simp [memcpy_length, hs]; omega
  · intro i h1 h2
    simp [memcpy, List.getD_eq_getElem?_getD]
    have : i < n := by omega
    simp [this, h2]

theorem memcpy_region_disjoint (dst : List Nat) (o : Nat) (src : List Nat) (so n o' n' : Nat)
    (h : o' + n' ≤ o ∨ o + n ≤ o') :
    ((memcpy dst o src so n).drop o').take n' = (dst.drop o').take n' := by
  apply List.ext_getElem
  · simp [memcpy_length]
  · intro i h1 h2
    simp at h1 h2
    simp [memcpy, List.getD_eq_getElem?_getD]
    have : ¬ (o ≤ o' + i ∧ o' + i < o + n) := by omega
    simp only [this, if_false]
    rw [List.getElem?_eq_getElem (by omega)]
    simp

/-- Closed form of `write_frame`. -/
theorem write_frame_eq (bm : BufferManager) (disk : Disk) (k : Nat) :
    bm.write_frame disk k =
      if (get_segment_page_id (bm.frame k).page_id * bm.page_size_ % 2 ^ 64 + bm.page_size_)
          % 2 ^ 64 > (disk (get_segment_id (bm.frame k).page_id)).length then none
      else some (Function.update disk (get_segment_id (bm.frame k).page_id)
        (memcpy (disk (get_segment_id (bm.frame k).page_id))
          (get_segment_page_id (bm.frame k).page_id * bm.page_size_ % 2 ^ 64)
          (bm.frame k).data 0 bm.page_size_)) := by
  simp only [write_frame, TestFile.write_block, open_file, close_file]
  split_ifs <;> simp_all

theorem flush_page_spec (bm : BufferManager) (disk : Disk) (page_id : Nat)
    (bm' : BufferManager) (disk' : Disk) (hwf : bm.WF) (hps : bm.page_size_ < 2 ^ 16)
    (h : bm.flush_page disk page_id = some (bm', disk')) :
    bm' = bm ∧
    ((bm.resident page_id ∧ (bm.frame (bm.get_frame_id_of_page page_id)).dirty = true) →
      page_on_disk disk' bm.page_size_ page_id =
          (bm.frame (bm.get_frame_id_of_page page_id)).data ∧
      (∀ s, (disk' s).length = (disk s).length) ∧
      (∀ s j, ¬ (s = get_segment_id page_id ∧
            get_segment_page_id page_id * bm.page_size_ ≤ j ∧
            j < get_segment_page_id page_id * bm.page_size_ + bm.page_size_) →
          (disk' s).getD j 0 = (disk s).getD j 0)) ∧
    (¬ (bm.resident page_id ∧ (bm.frame (bm.get_frame_id_of_page page_id)).dirty = true) →
      disk' = disk) := by
  obtain ⟨ho1, ho2⟩ := offset_no_wrap page_id bm.page_size_ hps
  simp only [flush_page] at h
  by_cases hres : bm.resident page_id
  · have hres' := hres
    unfold resident at hres'
    obtain ⟨hk, hpid⟩ := get_frame_id_of_page_spec bm page_id hres
    by_cases hdirty : (bm.frame (bm.get_frame_id_of_page page_id)).dirty = true
    · simp only [if_pos hres', if_pos hdirty, write_frame_eq, hpid, ho1, ho2] at h
      split_ifs at h with hrange
      simp at h
      obtain ⟨rfl, rfl⟩ := h
      refine ⟨rfl, fun _ => ⟨?_, ?_, ?_⟩, fun hn => absurd ⟨hres, hdirty⟩ hn⟩
      · unfold page_on_disk
        simp only [Function.update_same]
        apply memcpy_region
        · exact frame_data_length bm hwf _ hk
        · omega
      · intro s
        by_cases hs : s = get_segment_id page_id
        · subst hs; simp [memcpy_length]
        · simp [Function.update_noteq hs]
      · intro s j hsj
        by_cases hs : s = get_segment_id page_id
        · subst hs
          simp only [Function.update_same]
          apply getD_memcpy_outside
          intro hc; exact hsj ⟨rfl, hc⟩
        · simp [Function.update_noteq hs]
    · simp only [if_pos hres', if_neg hdirty] at h
      simp at h
      obtain ⟨rfl, rfl⟩ := h
      exact ⟨rfl, fun hc => absurd hc.2 hdirty, fun _ => rfl⟩
  · have hres' := hres
    unfold resident at hres'
    simp only [if_neg hres'] at h
    simp at h
    obtain ⟨rfl, rfl⟩ := h
    exact ⟨rfl, fun hc => absurd hc.1 hres, fun _ => rfl⟩


theorem page_id_eq_of_split (x y : Nat) (hx : x < 2 ^ 64) (hy : y < 2 ^ 64)
    (hs : get_segment_id x = get_segment_id y)
    (hp : get_segment_page_id x = get_segment_page_id y) : x = y := by
  have h1 := (page_id_packing 0 0 x (by norm_num) (by norm_num) hx).2.2
  have h2 := (page_id_packing 0 0 y (by norm_num) (by norm_num) hy).2.2
  rw [← h1, ← h2, hs, hp]

/-- A flush leaves the disk image of every other page as it was. -/
theorem flush_page_other (bm : BufferManager) (disk : Disk) (page_id : Nat)
    (bm' : BufferManager) (disk' : Disk) (hps : bm.page_size_ < 2 ^ 16)
    (h : bm.flush_page disk page_id = some (bm', disk')) (q : Nat)
    (hq : get_segment_id q ≠ get_segment_id page_id ∨
      get_segment_page_id q ≠ get_segment_page_id page_id) :
    page_on_disk disk' bm.page_size_ q = page_on_disk disk bm.page_size_ q := by
  obtain ⟨ho1, ho2⟩ := offset_no_wrap page_id bm.page_size_ hps
  simp only [flush_page] at h
  by_cases hres : bm.resident page_id
  · have hres' := hres
    unfold resident at hres'
    obtain ⟨hk, hpid⟩ := get_frame_id_of_page_spec bm page_id hres
    by_cases hdirty : (bm.frame (bm.get_frame_id_of_page page_id)).dirty = true
    · simp only [if_pos hres', if_pos hdirty, write_frame_eq, hpid, ho1, ho2] at h
      split_ifs at h with hrange
      simp at h
      obtain ⟨rfl, rfl⟩ := h
      unfold page_on_disk
      by_cases hs : get_segment_id q = get_segment_id page_id
      · rw [hs]
        simp only [Function.update_same]
        apply memcpy_region_disjoint
        have hne : get_segment_page_id q ≠ get_segment_page_id page_id := by
          rcases hq with hq | hq
          · exact absurd hs hq
          · exact hq
        rcases Nat.lt_or_gt_of_ne hne with hlt | hgt
        · left
          have := Nat.mul_le_mul_right bm.page_size_ (Nat.succ_le_of_lt hlt)
          rw [Nat.succ_mul] at this
          exact this
        · right
          have := Nat.mul_le_mul_right bm.page_size_ (Nat.succ_le_of_lt hgt)
          rw [Nat.succ_mul] at this
          exact this
      · simp [Function.update_noteq hs]
    · simp only [if_pos hres', if_neg hdirty] at h
      simp at h
      obtain ⟨rfl, rfl⟩ := h
      rfl
  · have hres' := hres
    unfold resident at hres'
    simp only [if_neg hres'] at h
    simp at h
    obtain ⟨rfl, rfl⟩ := h
    rfl

/-- The flush loop of `commit_txn`: the pool is unchanged, and every listed
page that is resident and dirty ends up on disk as it is in its frame. -/
theorem flush_pages_spec (bm : BufferManager) (hwf : bm.WF) (hps : bm.page_size_ < 2 ^ 16) :
    ∀ (pages : List Nat) (disk : Disk) (bm' : BufferManager) (disk' : Disk),
      (∀ q ∈ pages, q < 2 ^ 64) →
      TransactionManager.flush_pages bm pages disk = some (bm', disk') →
      bm' = bm ∧
      ∀ pid, pid < 2 ^ 64 → bm.resident pid →
        (bm.frame (bm.get_frame_id_of_page pid)).dirty = true →
        (pid ∈ pages ∨
          page_on_disk disk bm.page_size_ pid = (bm.frame (bm.get_frame_id_of_page pid)).data) →
        page_on_disk disk' bm.page_size_ pid = (bm.frame (bm.get_frame_id_of_page pid)).data := by
  intro pages
  induction pages with
  | nil =>
    intro disk bm' disk' _ h
    simp [TransactionManager.flush_pages] at h
    obtain ⟨rfl, rfl⟩ := h
    refine ⟨rfl, ?_⟩
    intro pid _ _ _ hor
    simpa using hor
  | cons q rest ih =>
    intro disk bm' disk' hlt h
    simp only [TransactionManager.flush_pages] at h
    cases hf : bm.flush_page disk q with
    | none => simp [hf] at h
    | some r =>
      obtain ⟨bm1, disk1⟩ := r
      simp only [hf] at h
      obtain ⟨hbm, hw, _⟩ := flush_page_spec bm disk q bm1 disk1 hwf hps hf
      subst hbm
      obtain ⟨hbm', hrest⟩ := ih disk1 bm' disk'
        (fun x hx => hlt x (List.mem_cons_of_mem _ hx)) h
      refine ⟨hbm', ?_⟩
      intro pid hpid hres hdirty hor
      apply hrest pid hpid hres hdirty
      by_cases hpq : pid = q
      · subst hpq
        right
        exact (hw ⟨hres, hdirty⟩).1
      · rcases hor with hmem | hgood
        · left
          rcases List.mem_cons.mp hmem with heq | hin
          · exact absurd heq hpq
          · exact hin
        · right
          rw [← hgood]
          apply flush_page_other bm1 disk q bm1 disk1 hps hf pid
          by_contra hcon
          push_neg at hcon
          exact hpq (page_id_eq_of_split pid q hpid (hlt q (List.mem_cons_self _ _))
            hcon.1 hcon.2)


theorem set_frame_fields (bm : BufferManager) (i : Nat) (f : BufferFrame) :
    (bm.set_frame i f).capacity_ = bm.capacity_ ∧
    (bm.set_frame i f).page_size_ = bm.page_size_ ∧
    (bm.set_frame i f).page_counter_ = bm.page_counter_ ∧
    (bm.set_frame i f).pool_.length = bm.pool_.length := by
  simp [BufferManager.set_frame]

theorem frame_of_ge (bm : BufferManager) (i : Nat) (h : bm.pool_.length ≤ i) :
    bm.frame i = default := by
  simp [BufferManager.frame, List.getD_eq_getElem?_getD, List.getElem?_eq_none h]

/-- The discard loop over the first `n` frames. -/
theorem discard_loop (bm : BufferManager) (n : Nat) :
    ((List.range n).foldl
      (fun bm frame_id => bm.set_frame frame_id bm.discarded_frame) bm).capacity_
        = bm.capacity_ ∧
    ((List.range n).foldl
      (fun bm frame_id => bm.set_frame frame_id bm.discarded_frame) bm).page_size_
        = bm.page_size_ ∧
    ((List.range n).foldl
      (fun bm frame_id => bm.set_frame frame_id bm.discarded_frame) bm).page_counter_
        = bm.page_counter_ ∧
    ((List.range n).foldl
      (fun bm frame_id => bm.set_frame frame_id bm.discarded_frame) bm).pool_.length
        = bm.pool_.length ∧
    ∀ i, ((List.range n).foldl
      (fun bm frame_id => bm.set_frame frame_id bm.discarded_frame) bm).frame i =
        if i < n ∧ i < bm.pool_.length then bm.discarded_frame else bm.frame i := by
  induction n with
  | zero => simp
  | succ n ih =>
    simp only [List.range_succ, List.foldl_append, List.foldl_cons, List.foldl_nil]
    generalize (List.range n).foldl
      (fun bm frame_id => bm.set_frame frame_id bm.discarded_frame) bm = b at ih ⊢
    obtain ⟨h1, h2, h3, h4, h5⟩ := ih
    obtain ⟨g1, g2, g3, g4⟩ := set_frame_fields b n b.discarded_frame
    refine ⟨g1.trans h1, g2.trans h2, g3.trans h3, g4.trans h4, ?_⟩
    intro i
    have hdf : b.discarded_frame = bm.discarded_frame := by
      simp [BufferManager.discarded_frame, h2]
    rw [hdf]
    by_cases hi : i = n
    · subst hi
      by_cases hlen : i < bm.pool_.length
      · rw [frame_set_frame_same _ _ _ (by omega)]
        simp [hlen]
      · have : ¬ (i < i + 1 ∧ i < bm.pool_.length) := by omega
        rw [if_neg this, frame_of_ge _ _ (by
          have := (set_frame_fields b i bm.discarded_frame).2.2.2
          omega), frame_of_ge _ _ (by omega)]
    · rw [frame_set_frame_other _ _ _ _ (Ne.symm hi), h5 i]
      have : (i < n + 1 ∧ i < bm.pool_.length) ↔ (i < n ∧ i < bm.pool_.length) := by omega
      simp only [this]

theorem discard_all_pages_spec (bm : BufferManager) (hwf : bm.WF) :
    bm.discard_all_pages.capacity_ = bm.capacity_ ∧
    bm.discard_all_pages.page_size_ = bm.page_size_ ∧
    bm.discard_all_pages.page_counter_ = bm.page_counter_ ∧
    bm.discard_all_pages.WF ∧
    ∀ i, i < bm.capacity_ → bm.discard_all_pages.frame i = bm.discarded_frame := by
  obtain ⟨hl, hd, hcap, hpc⟩ := hwf
  obtain ⟨h1, h2, h3, h4, h5⟩ := discard_loop bm bm.capacity_
  have hfr : ∀ i, i < bm.capacity_ → bm.discard_all_pages.frame i = bm.discarded_frame := by
    intro i hi
    have := h5 i
    rw [if_pos ⟨hi, by omega⟩] at this
    exact this
  refine ⟨h1, h2, h3, ⟨?_, ?_, ?_, ?_⟩, hfr⟩
  · unfold discard_all_pages; rw [h4, hl, h1]
  · intro f hf
    obtain ⟨i, hi, rfl⟩ := List.getElem_of_mem hf
    have hi' : i < bm.capacity_ := by
      have : bm.discard_all_pages.pool_.length = bm.pool_.length := h4
      omega
    have := hfr i hi'
    simp only [BufferManager.frame, List.getD_eq_getElem?_getD, List.getElem?_eq_getElem hi,
      Option.getD_some] at this
    rw [this]
    simp [BufferManager.discarded_frame, vector_resize, BufferFrame.new]
    exact h2.symm
  · unfold discard_all_pages; rw [h1]; exact hcap
  · unfold discard_all_pages; rw [h1, h3]; exact hpc

theorem not_resident_after_discard_all (bm : BufferManager) (hwf : bm.WF) (page_id : Nat)
    (h : page_id ≠ INVALID_PAGE_ID) : ¬ bm.discard_all_pages.resident page_id := by
  intro hres
  obtain ⟨h1, _, _, _, h5⟩ := discard_all_pages_spec bm hwf
  obtain ⟨hk, hp⟩ := get_frame_id_of_page_spec _ _ hres
  rw [h1] at hk
  rw [h5 _ hk] at hp
  simp [BufferManager.discarded_frame] at hp
  exact h hp.symm

/-- Closed form of `HeapSegment::read` once the page is fixed. -/
theorem read_of_fix (hs : HeapSegment) (bm : BufferManager) (disk : Disk) (tid : TID)
    (record : List Nat) (capacity : Nat) (bm1 : BufferManager) (f : Nat)
    (h : bm.fix_page disk (get_overall_page_id hs.segment_id_ (tid.value >>> 16)) false
      = some (bm1, f)) :
    hs.read bm disk tid record capacity =
      if capacity ≤ (((SlottedPage.getSlot (bm1.frame f).data (tid.value &&& ((1 <<< 16) - 1))
          <<< 40) % 2 ^ 64) >>> 40) % 2 ^ 32 then
        some (bm1.unfix_page f false,
          memcpy record 0 (bm1.frame f).data
            ((((SlottedPage.getSlot (bm1.frame f).data (tid.value &&& ((1 <<< 16) - 1))
              <<< 16) % 2 ^ 64) >>> 40) % 2 ^ 32) capacity,
          (((SlottedPage.getSlot (bm1.frame f).data (tid.value &&& ((1 <<< 16) - 1))
            <<< 40) % 2 ^ 64) >>> 40) % 2 ^ 32)
      else none := by
  simp only [HeapSegment.read, h]

theorem read_of_fix_none (hs : HeapSegment) (bm : BufferManager) (disk : Disk) (tid : TID)
    (record : List Nat) (capacity : Nat)
    (h : bm.fix_page disk (get_overall_page_id hs.segment_id_ (tid.value >>> 16)) false = none) :
    hs.read bm disk tid record capacity = none := by
  simp only [HeapSegment.read, h]


/-- Reloading a page into an emptied pool yields the bytes on disk. -/
theorem fix_page_after_discard_all (bm : BufferManager) (disk : Disk) (pid : Nat)
    (exclusive : Bool) (data : List Nat)
    (hwf : bm.WF) (hps : bm.page_size_ < 2 ^ 16) (hne : pid ≠ INVALID_PAGE_ID)
    (hroom : bm.page_counter_ + 1 < bm.capacity_)
    (hdata : page_on_disk disk bm.page_size_ pid = data) (hlen : data.length = bm.page_size_) :
    ∃ bm1 f,
      bm.discard_all_pages.discard_all_pages.fix_page disk pid exclusive = some (bm1, f) ∧
      (bm1.frame f).data = data := by
  obtain ⟨c1, s1, p1, w1, f1⟩ := discard_all_pages_spec bm hwf
  obtain ⟨c2, s2, p2, w2, f2⟩ := discard_all_pages_spec _ w1
  have hnr := not_resident_after_discard_all _ w1 pid hne
  generalize bm.discard_all_pages.discard_all_pages = b at *
  have hcap : b.capacity_ = bm.capacity_ := c2.trans c1
  have hsz : b.page_size_ = bm.page_size_ := s2.trans s1
  have hpc : b.page_counter_ = bm.page_counter_ := p2.trans p1
  obtain ⟨ho1, ho2⟩ := offset_no_wrap pid bm.page_size_ hps
  have hrange : get_segment_page_id pid * bm.page_size_ + bm.page_size_ ≤
      (disk (get_segment_id pid)).length := by
    have hl : (page_on_disk disk bm.page_size_ pid).length = bm.page_size_ := by
      rw [hdata, hlen]
    unfold page_on_disk at hl
    simp only [List.length_take, List.length_drop] at hl
    by_cases hz : bm.page_size_ = 0
    · simp [hz]
    · omega
  rw [fix_page_fault b disk pid exclusive w2 hne hnr, hsz, hcap, hpc, ho1, ho2]
  rw [if_neg (by omega), if_neg (by omega)]
  refine ⟨_, _, rfl, ?_⟩
  have hin : bm.page_counter_ < b.pool_.length := by
    rw [w2.1, hcap]; omega
  simp only [BufferManager.frame, List.getD_eq_getElem?_getD, List.getElem?_set_self, hin,
    List.getElem?_eq_getElem, Option.getD_some]
  rw [← hdata]
  unfold page_on_disk
  apply memcpy_whole
  · exact hsz ▸ w2.2.1 _ (List.getElem_mem _)
  · exact hrange

theorem commit_txn_spec (tm : TransactionManager) (bm : BufferManager) (disk : Disk)
    (lm : LogManager) (t : Nat) (txn : Transaction)
    (tm' : TransactionManager) (bm' : BufferManager) (disk' : Disk) (lm' : LogManager)
    (hwf : bm.WF) (hps : bm.page_size_ < 2 ^ 16)
    (htxn : tm.transaction_table_ t = some txn) (hstarted : txn.started_ = true)
    (hpages : ∀ q ∈ txn.modified_pages_, q < 2 ^ 64)
    (h : tm.commit_txn bm disk lm t = some (tm', bm', disk', lm')) :
    bm' = bm ∧
    ∀ pid ∈ txn.modified_pages_, bm'.resident pid →
      (bm'.frame (bm'.get_frame_id_of_page pid)).dirty = true →
      page_on_disk disk' bm'.page_size_ pid = (bm'.frame (bm'.get_frame_id_of_page pid)).data := by
  have hcount : tm.count t ≠ 0 := by simp [TransactionManager.count, htxn]
  have hsub : tm.subscript t = (tm, txn) := by simp [TransactionManager.subscript, htxn]
  simp only [TransactionManager.commit_txn, if_neg hcount, hsub, hstarted, if_true] at h
  cases hf : TransactionManager.flush_pages bm txn.modified_pages_ disk with
  | none => simp [hf] at h
  | some r =>
    obtain ⟨bm1, disk1⟩ := r
    simp only [hf, Option.some.injEq, Prod.mk.injEq] at h
    obtain ⟨_, rfl, rfl, _⟩ := h
    obtain ⟨hbm, hall⟩ := flush_pages_spec bm hwf hps _ _ _ _ hpages hf
    subst hbm
    refine ⟨rfl, ?_⟩
    intro pid hmem hres hdirty
    exact hall pid (hpages pid hmem) hres hdirty (Or.inl hmem)



theorem load_lt (d : List Nat) (off n : Nat) : load d off n < 256 ^ n := by
  induction n generalizing off with
  | zero => simp [load]
  | succ n ih =>
    simp only [load]
    have := ih (off + 1)
    have h2 : d.getD off 0 % 256 < 256 := Nat.mod_lt _ (by norm_num)
    rw [pow_succ]
    omega

theorem getSlot_lt (page : SlottedPage) (slotId : Nat) :
    SlottedPage.getSlot page slotId < 2 ^ 64 := by
  have := load_lt page (SlottedPage.sizeof_header + SlottedPage.sizeof_slot * slotId) 8
  unfold SlottedPage.getSlot
  norm_num at this ⊢
  exact this

/-- The length field `value << 40 >> 40` is the low 24 bits of the slot. -/
theorem slot_length_eq (value : Nat) :
    (((value <<< 40) % 2 ^ 64) >>> 40) % 2 ^ 32 = value % 2 ^ 24 := by
  rw [Nat.shiftLeft_eq, Nat.shiftRight_eq_div_pow]
  norm_num
  omega

/-- The offset field `value << 16 >> 40` is bits 24 to 47 of the slot. -/
theorem slot_offset_eq (value : Nat) :
    (((value <<< 16) % 2 ^ 64) >>> 40) % 2 ^ 32 = (value / 2 ^ 24) % 2 ^ 24 := by
  rw [Nat.shiftLeft_eq, Nat.shiftRight_eq_div_pow]
  norm_num
  omega

theorem slot_id_eq (v : Nat) : v &&& ((1 <<< 16) - 1) = v % 2 ^ 16 := by
  have : (1 <<< 16) - 1 = 2 ^ 16 - 1 := by decide
  rw [this, Nat.and_pow_two_sub_one_eq_mod]

theorem length_store (d : List Nat) (off n v : Nat) : (store d off n v).length = d.length := by
  induction n generalizing d off v with
  | zero => simp [store]
  | succ n ih => simp [store, ih]

theorem getD_set (d : List Nat) (i j a : Nat) :
    (d.set i a).getD j 0 = if i = j ∧ j < d.length then a else d.getD j 0 := by
  simp only [List.getD_eq_getElem?_getD, List.getElem?_set]
  by_cases h : i = j
  · subst h
    by_cases hl : i < d.length
    · simp [hl]
    · simp [hl, List.getElem?_eq_none (show d.length ≤ i by omega)]
  · simp [h]

theorem getD_store (d : List Nat) (off n v i : Nat) :
    (store d off n v).getD i 0 =
      if off ≤ i ∧ i < off + n ∧ i < d.length then (v / 256 ^ (i - off)) % 256
      else d.getD i 0 := by
  induction n generalizing d off v with
  | zero =>
    have : ¬ (off ≤ i ∧ i < off + 0 ∧ i < d.length) := by omega
    simp only [store, if_neg this]
  | succ n ih =>
    simp only [store]
    rw [ih, getD_set, List.length_set]
    by_cases h1 : off + 1 ≤ i ∧ i < off + 1 + n ∧ i < d.length
    · rw [if_pos h1, if_pos (by omega)]
      have : i - off = (i - (off + 1)) + 1 := by omega
      rw [this, pow_succ, Nat.div_div_eq_div_mul, Nat.mul_comm]
    · rw [if_neg h1]
      by_cases h2 : off = i ∧ i < d.length
      · rw [if_pos h2, if_pos (by omega)]
        obtain ⟨rfl, _⟩ := h2
        simp
      · rw [if_neg h2, if_neg (by omega)]

theorem load_congr (d d' : List Nat) (off n : Nat)
    (h : ∀ i, off ≤ i → i < off + n → d.getD i 0 = d'.getD i 0) :
    load d off n = load d' off n := by
  induction n generalizing off with
  | zero => simp [load]
  | succ n ih =>
    simp only [load]
    rw [h off (by omega) (by omega), ih (off + 1) (fun i h1 h2 => h i (by omega) (by omega))]

theorem load_eq_of_bytes (d : List Nat) (off n v : Nat)
    (h : ∀ i, i < n → d.getD (off + i) 0 = (v / 256 ^ i) % 256) :
    load d off n = v % 256 ^ n := by
  induction n generalizing off v with
  | zero => simp [load, Nat.mod_one]
  | succ n ih =>
    simp only [load]
    have h0 := h 0 (by omega)
    rw [Nat.add_zero, pow_zero, Nat.div_one] at h0
    rw [h0, ih (off + 1) (v / 256)]
    · rw [Nat.mod_mod, pow_succ, Nat.mul_comm (256 ^ n) 256, Nat.mod_mul]
    · intro i hi
      have := h (i + 1) (by omega)
      rw [show off + 1 + i = off + (i + 1) by omega, this, pow_succ, Nat.div_div_eq_div_mul,
        Nat.mul_comm]

theorem load_store_same (d : List Nat) (off n v : Nat) (h : off + n ≤ d.length) :
    load (store d off n v) off n = v % 256 ^ n := by
  apply load_eq_of_bytes
  intro i hi
  rw [getD_store, if_pos (by omega)]
  simp

theorem load_store_disjoint (d : List Nat) (off n v off' n' : Nat)
    (h : off' + n' ≤ off ∨ off + n ≤ off') :
    load (store d off n v) off' n' = load d off' n' := by
  apply load_congr
  intro i h1 h2
  rw [getD_store, if_neg (by omega)]

theorem load_memcpy_disjoint (dst : List Nat) (o : Nat) (src : List Nat) (so n off' n' : Nat)
    (h : off' + n' ≤ o ∨ o + n ≤ off') :
    load (memcpy dst o src so n) off' n' = load dst off' n' := by
  apply load_congr
  intro i h1 h2
  exact getD_memcpy_outside _ _ _ _ _ _ (by omega)

section
open SlottedPage

theorem slotValue_eq (offset length : Nat) (ho : offset < 2 ^ 24) (hl : length < 2 ^ 24) :
    slotValue offset length = 255 * 2 ^ 56 + offset * 2 ^ 24 + length := by
  unfold slotValue
  simp only [Nat.shiftLeft_eq, Nat.shiftRight_eq_div_pow]
  norm_num at ho hl ⊢
  omega

/-- Header of a freshly constructed page with its page id set. -/
theorem fresh_page_header (page : List Nat) (ptr ps pid : Nat) (hlen : page.length = ps)
    (hps : ps < 2 ^ 24) (h40 : 40 ≤ ps) (hpid : pid < 2 ^ 64) :
    (set_overall_page_id (SlottedPage.new page ptr ps) pid).length = ps ∧
    data_start (set_overall_page_id (SlottedPage.new page ptr ps) pid) = ps ∧
    free_space (set_overall_page_id (SlottedPage.new page ptr ps) pid) = ps - 32 ∧
    first_free_slot (set_overall_page_id (SlottedPage.new page ptr ps) pid) = 0 ∧
    slot_count (set_overall_page_id (SlottedPage.new page ptr ps) pid) = 0 ∧
    overall_page_id (set_overall_page_id (SlottedPage.new page ptr ps) pid) = pid := by
  have hmod : ps % 2 ^ 32 = ps := Nat.mod_eq_of_lt (by norm_num at hps ⊢; omega)
  simp only [SlottedPage.new, Header.new, set_overall_page_id, set_buffer_frame,
    set_first_free_slot, set_data_start, set_slot_count, set_free_space, data_start, free_space,
    first_free_slot, slot_count, overall_page_id, sizeof_header, hmod]
  refine ⟨?_, ?_, ?_, ?_, ?_, ?_⟩
  · simp only [length_store, hlen]
  · simp (disch := first | omega | (simp only [length_store]; omega)) only
      [load_store_same, load_store_disjoint]
    norm_num at hps ⊢; omega
  · simp (disch := first | omega | (simp only [length_store]; omega)) only
      [load_store_same, load_store_disjoint]
    norm_num at hps ⊢; omega
  · simp (disch := first | omega | (simp only [length_store]; omega)) only
      [load_store_same, load_store_disjoint]
    norm_num
  · simp (disch := first | omega | (simp only [length_store]; omega)) only
      [load_store_same, load_store_disjoint]
    norm_num
  · simp (disch := first | omega | (simp only [length_store]; omega)) only
      [load_store_same, load_store_disjoint]
    norm_num at hpid ⊢; omega

end

section
open SlottedPage

theorem addSlot_first (p1 : List Nat) (ps pid L : Nat) (hlen : p1.length = ps)
    (hds : data_start p1 = ps) (hfs : free_space p1 = ps - 32)
    (hff : first_free_slot p1 = 0) (hsc : slot_count p1 = 0)
    (hop : overall_page_id p1 = pid) (hps : ps < 2 ^ 24) (hfit : L + 40 ≤ ps) :
    ∃ page2, addSlot p1 L = some (page2, TID.new pid 0) ∧ page2.length = ps ∧
      getSlot page2 0 = slotValue (ps - L) L := by
  have hsv := slotValue_eq (ps - L) L (by omega) (by omega)
  have hsv64 : slotValue (ps - L) L % 256 ^ 8 = slotValue (ps - L) L := by
    apply Nat.mod_eq_of_lt
    rw [hsv]; norm_num at hps ⊢; omega
  have hsv0 : slotValue (ps - L) L ≠ 0 := by rw [hsv]; omega
  have hoff : (ps + 2 ^ 32 - L) % 2 ^ 32 = ps - L := by
    norm_num at hps ⊢; omega
  simp only [data_start, free_space, first_free_slot, slot_count, overall_page_id]
    at hds hfs hff hsc hop
  -- after "update data_start"
  have a_fs : free_space (set_data_start p1 (ps - L)) = ps - 32 := by
    simp only [free_space, set_data_start]
    rw [load_store_disjoint _ _ _ _ _ _ (by omega), hfs]
  have a_ff : first_free_slot (set_data_start p1 (ps - L)) = 0 := by
    simp only [first_free_slot, set_data_start]
    rw [load_store_disjoint _ _ _ _ _ _ (by omega), hff]
  have a_sc : slot_count (set_data_start p1 (ps - L)) = 0 := by
    simp only [slot_count, set_data_start]
    rw [load_store_disjoint _ _ _ _ _ _ (by omega), hsc]
  -- after the slot is placed
  have b_eq : place_slot (set_data_start p1 (ps - L)) (slotValue (ps - L) L) =
      store (store (store p1 20 4 (ps - L)) 32 8 (slotValue (ps - L) L)) 16 2 1 := by
    simp only [place_slot, a_ff, a_sc, if_true]
    simp only [set_slot_count, setSlot, set_data_start, slot_count, sizeof_header, sizeof_slot]
    rw [load_store_disjoint _ _ _ _ _ _ (by omega), load_store_disjoint _ _ _ _ _ _ (by omega),
      hsc]
    rfl
  generalize hpb : store (store (store p1 20 4 (ps - L)) 32 8 (slotValue (ps - L) L)) 16 2 1
    = pb at b_eq
  have b_len : pb.length = ps := by rw [← hpb]; simp only [length_store, hlen]
  have b_sc : load pb 16 2 = 1 := by
    rw [← hpb, load_store_same _ _ _ _ (by simp only [length_store]; omega)]
    rfl
  have b_ds : load pb 20 4 = ps - L := by
    rw [← hpb, load_store_disjoint _ _ _ _ _ _ (by omega),
      load_store_disjoint _ _ _ _ _ _ (by omega), load_store_same _ _ _ _ (by omega)]
    apply Nat.mod_eq_of_lt
    norm_num at hps ⊢; omega
  have b_ff : load pb 18 2 = 0 := by
    rw [← hpb, load_store_disjoint _ _ _ _ _ _ (by omega),
      load_store_disjoint _ _ _ _ _ _ (by omega), load_store_disjoint _ _ _ _ _ _ (by omega), hff]
  have b_op : load pb 0 8 = pid := by
    rw [← hpb, load_store_disjoint _ _ _ _ _ _ (by omega),
      load_store_disjoint _ _ _ _ _ _ (by omega), load_store_disjoint _ _ _ _ _ _ (by omega), hop]
  have b_slot : load pb 32 8 = slotValue (ps - L) L := by
    rw [← hpb, load_store_disjoint _ _ _ _ _ _ (by omega),
      load_store_same _ _ _ _ (by simp only [length_store]; omega), hsv64]
  -- after "update free space"
  have hval : ((ps - L + 2 ^ 32 - 1 * 8 % 2 ^ 32) % 2 ^ 32 + 2 ^ 64 - 32) % 2 ^ 64 % 2 ^ 32
      = ps - L - 40 := by
    norm_num at hps ⊢; omega
  have c_eq : update_free_space pb = store pb 24 4 (ps - L - 40) := by
    simp only [update_free_space, set_free_space, slot_count, data_start, sizeof_header,
      sizeof_slot, b_sc, b_ds, hval]
  generalize hpc : store pb 24 4 (ps - L - 40) = pc at c_eq
  have c_len : pc.length = ps := by rw [← hpc]; simp only [length_store, b_len]
  have c_sc : slot_count pc = 1 := by
    rw [← hpc, slot_count, load_store_disjoint _ _ _ _ _ _ (by omega), b_sc]
  have c_ff : first_free_slot pc = 0 := by
    rw [← hpc, first_free_slot, load_store_disjoint _ _ _ _ _ _ (by omega), b_ff]
  have c_op : overall_page_id pc = pid := by
    rw [← hpc, overall_page_id, load_store_disjoint _ _ _ _ _ _ (by omega), b_op]
  have c_slot : getSlot pc 0 = slotValue (ps - L) L := by
    rw [← hpc, getSlot, sizeof_header, sizeof_slot,
      load_store_disjoint _ _ _ _ _ _ (by omega), b_slot]
  -- the closing loop
  have d_eq : update_first_free_slot pc = store pc 18 2 1 := by
    simp only [update_first_free_slot, c_sc, set_first_free_slot]
    have : (List.range 1).find? (fun slot_itr => decide (getSlot pc slot_itr = 0)) = none := by
      simp [List.range_succ, c_slot, hsv0]
    rw [this]
  refine ⟨store pc 18 2 1, ?_, ?_, ?_⟩
  · simp only [addSlot, data_start, hds, hoff]
    simp only [a_fs, if_neg (show ¬ L > ps - 32 by omega), b_eq, c_eq, c_op, c_ff, d_eq]
  · simp only [length_store, c_len]
  · rw [getSlot, sizeof_header, sizeof_slot, load_store_disjoint _ _ _ _ _ _ (by omega)]
    exact c_slot

end


theorem find_range_first (p : Nat → Bool) (n f : Nat) (hf : f < n) (hp : p f = true)
    (hfirst : ∀ i, i < f → p i = false) : (List.range n).find? p = some f := by
  induction n with
  | zero => omega
  | succ n ih =>
    rw [List.range_succ, List.find?_append]
    by_cases h : f < n
    · rw [ih h]; rfl
    · have hfn : f = n := by omega
      subst hfn
      have : (List.range f).find? p = none := by
        rw [List.find?_eq_none]
        intro x hx
        simp at hx
        simp [hfirst x hx]
      rw [this]
      simp [hp]

theorem get_frame_id_of_page_first (bm : BufferManager) (pid f : Nat) (hf : f < bm.capacity_)
    (hp : (bm.frame f).page_id = pid) (hfirst : ∀ i, i < f → (bm.frame i).page_id ≠ pid) :
    bm.get_frame_id_of_page pid = f := by
  unfold get_frame_id_of_page
  rw [find_range_first _ bm.capacity_ f hf (by simpa using hp)
    (fun i hi => by simpa using hfirst i hi)]

theorem get_frame_id_of_page_is_first (bm : BufferManager) (pid : Nat)
    (h : bm.resident pid) :
    ∀ i, i < bm.get_frame_id_of_page pid → (bm.frame i).page_id ≠ pid := by
  unfold resident get_frame_id_of_page at *
  cases hf : (List.range bm.capacity_).find? fun frame_id =>
      decide ((bm.frame frame_id).page_id = pid) with
  | none => simp [hf] at h
  | some k =>
    simp only []
    intro i hi
    have := List.find?_range_eq_some.mp hf
    simpa using this.2.2 i hi

/-- Replacing a frame by one with the same page id does not move any page. -/
theorem get_frame_id_of_page_set_frame (bm : BufferManager) (f : Nat) (g : BufferFrame)
    (pid : Nat) (hg : g.page_id = (bm.frame f).page_id) (hf : f < bm.pool_.length) :
    (bm.set_frame f g).get_frame_id_of_page pid = bm.get_frame_id_of_page pid := by
  unfold get_frame_id_of_page
  have hfun : (fun frame_id => decide (((bm.set_frame f g).frame frame_id).page_id = pid)) =
      (fun frame_id => decide ((bm.frame frame_id).page_id = pid)) := by
    funext i
    by_cases hi : f = i
    · subst hi; rw [frame_set_frame_same _ _ _ hf, hg]
    · rw [frame_set_frame_other _ _ _ _ hi]
  rw [hfun, (set_frame_fields bm f g).1]

theorem fix_page_resident (bm : BufferManager) (disk : Disk) (pid : Nat) (exclusive : Bool)
    (hne : pid ≠ INVALID_PAGE_ID) (hres : bm.resident pid) :
    bm.fix_page disk pid exclusive = some (bm, bm.get_frame_id_of_page pid) := by
  unfold resident at hres
  simp only [fix_page, if_neg hne, if_pos hres]


/-- What every successful `fix_page` establishes. -/
theorem fix_page_post (bm : BufferManager) (disk : Disk) (pid : Nat) (exclusive : Bool)
    (bm0 : BufferManager) (f : Nat) (hwf : bm.WF)
    (h : bm.fix_page disk pid exclusive = some (bm0, f)) :
    bm0.WF ∧ f < bm0.capacity_ ∧ bm0.get_frame_id_of_page pid = f ∧
    (bm0.frame f).page_id = pid ∧ pid ≠ INVALID_PAGE_ID ∧
    bm0.page_size_ = bm.page_size_ ∧ bm0.capacity_ = bm.capacity_ := by
  have hwf' := hwf
  obtain ⟨hl, hd, hcap, hpc⟩ := hwf
  by_cases h1 : pid = INVALID_PAGE_ID
  · simp [fix_page, h1] at h
  by_cases hres : bm.resident pid
  · rw [fix_page_resident bm disk pid exclusive h1 hres] at h
    simp only [Option.some.injEq, Prod.mk.injEq] at h
    obtain ⟨rfl, rfl⟩ := h
    obtain ⟨hk, hp⟩ := get_frame_id_of_page_spec bm pid hres
    exact ⟨hwf', hk, rfl, hp, h1, rfl, rfl⟩
  · rw [fix_page_fault bm disk pid exclusive hwf' h1 hres] at h
    split_ifs at h with hfull hrange
    simp only [Option.some.injEq, Prod.mk.injEq] at h
    obtain ⟨rfl, rfl⟩ := h
    have hin : bm.page_counter_ < bm.pool_.length := by omega
    have hfr : ∀ i, ({ bm with
          page_counter_ := bm.page_counter_ + 1
          pool_ := bm.pool_.set bm.page_counter_
            { frame_id := (bm.frame bm.page_counter_).frame_id
              page_id := pid
              dirty := false
              data := memcpy (bm.frame bm.page_counter_).data 0 (disk (get_segment_id pid))
                (get_segment_page_id pid * bm.page_size_ % 2 ^ 64) bm.page_size_ } }
          : BufferManager).frame i =
        if i = bm.page_counter_ then
            { frame_id := (bm.frame bm.page_counter_).frame_id
              page_id := pid
              dirty := false
              data := memcpy (bm.frame bm.page_counter_).data 0 (disk (get_segment_id pid))
                (get_segment_page_id pid * bm.page_size_ % 2 ^ 64) bm.page_size_ }
        else bm.frame i := by
      intro i
      by_cases hi : i = bm.page_counter_
      · subst hi
        simp [BufferManager.frame, List.getD_eq_getElem?_getD, hin]
      · simp [BufferManager.frame, List.getD_eq_getElem?_getD, hi,
          List.getElem?_set_ne (Ne.symm hi)]
    refine ⟨⟨?_, ?_, hcap, ?_⟩, ?_, ?_, ?_, h1, rfl, rfl⟩
    · simp [hl]
    · intro g hg
      simp only at hg
      rcases List.mem_or_eq_of_mem_set hg with hg | hg
      · exact hd g hg
      · subst hg
        simp only [memcpy_length]
        exact frame_data_length bm hwf' _ (by omega)
    · left; simp only; omega
    · simp only; omega
    · apply get_frame_id_of_page_first
      · simp only; omega
      · rw [hfr, if_pos rfl]
      · intro i hi
        rw [hfr, if_neg (by omega)]
        unfold resident at hres
        exact get_frame_id_of_page_none bm pid hcap (by simpa using hres) i (by omega)
    · rw [hfr, if_pos rfl]


theorem WF_set_frame (bm : BufferManager) (f : Nat) (g : BufferFrame) (hwf : bm.WF)
    (hg : g.data.length = bm.page_size_) : (bm.set_frame f g).WF := by
  obtain ⟨hl, hd, hcap, hpc⟩ := hwf
  refine ⟨?_, ?_, hcap, hpc⟩
  · simp [BufferManager.set_frame, hl]
  · intro x hx
    simp only [BufferManager.set_frame] at hx
    rcases List.mem_or_eq_of_mem_set hx with hx | hx
    · exact hd x hx
    · subst hx; exact hg

/-- Storing new page bytes into a fixed frame and unfixing it. -/
theorem write_back_post (bm : BufferManager) (f pid : Nat) (D : List Nat) (d : Bool)
    (hwf : bm.WF) (hf : f < bm.capacity_) (hfirst : bm.get_frame_id_of_page pid = f)
    (hp : (bm.frame f).page_id = pid) (hD : D.length = bm.page_size_) :
    ((bm.set_frame f { bm.frame f with data := D }).unfix_page f d).WF ∧
    ((bm.set_frame f { bm.frame f with data := D }).unfix_page f d).capacity_ = bm.capacity_ ∧
    ((bm.set_frame f { bm.frame f with data := D }).unfix_page f d).page_size_ = bm.page_size_ ∧
    ((bm.set_frame f { bm.frame f with data := D }).unfix_page f d).get_frame_id_of_page pid = f ∧
    (((bm.set_frame f { bm.frame f with data := D }).unfix_page f d).frame f).page_id = pid ∧
    (((bm.set_frame f { bm.frame f with data := D }).unfix_page f d).frame f).data = D := by
  have hfl : f < bm.pool_.length := by rw [hwf.1]; exact hf
  have w1 : (bm.set_frame f { bm.frame f with data := D }).WF := WF_set_frame bm f _ hwf hD
  have f1 : (bm.set_frame f { bm.frame f with data := D }).frame f =
      { bm.frame f with data := D } :=
    frame_set_frame_same bm f _ hfl
  have g1 : (bm.set_frame f { bm.frame f with data := D }).get_frame_id_of_page pid = f := by
    rw [get_frame_id_of_page_set_frame bm f _ pid (by rfl) hfl, hfirst]
  obtain ⟨c1, s1, _, l1⟩ := set_frame_fields bm f { bm.frame f with data := D }
  generalize bm.set_frame f { bm.frame f with data := D } = b1 at *
  unfold unfix_page
  split_ifs with hdirty
  · have hfl1 : f < b1.pool_.length := by rw [l1]; exact hfl
    obtain ⟨c2, s2, _, l2⟩ := set_frame_fields b1 f { b1.frame f with dirty := d }
    refine ⟨WF_set_frame b1 f _ w1 (by rw [f1]; simpa [s1] using hD), c2.trans c1, s2.trans s1,
      ?_, ?_, ?_⟩
    · rw [get_frame_id_of_page_set_frame b1 f _ pid (by rfl) hfl1, g1]
    · rw [frame_set_frame_same b1 f _ hfl1, f1]; exact hp
    · rw [frame_set_frame_same b1 f _ hfl1, f1]
  · refine ⟨w1, c1, s1, g1, ?_, ?_⟩
    · rw [f1]; exact hp
    · rw [f1]

theorem tid_of_first_page (seg : Nat) (hseg : seg < 2 ^ 16) :
    (TID.new (get_overall_page_id seg 0) 0).value >>> 16 = 0 ∧
    (TID.new (get_overall_page_id seg 0) 0).value &&& ((1 <<< 16) - 1) = 0 := by
  rw [slot_id_eq]
  simp only [TID.new, get_overall_page_id_eq seg 0 hseg (by norm_num), Nat.or_zero,
    Nat.shiftLeft_eq, Nat.shiftRight_eq_div_pow]
  norm_num at hseg ⊢
  omega


theorem memcpy_read_back (record page b : List Nat) (o : Nat) (hr : record.length = b.length)
    (ho : o + b.length ≤ page.length) :
    memcpy record 0 (memcpy page o b 0 b.length) o b.length = b := by
  apply List.ext_getElem
  · rw [memcpy_length, hr]
  · intro i h1 h2
    have h3 : i < record.length := by rw [memcpy_length] at h1; exact h1
    have e := getD_memcpy record 0 (memcpy page o b 0 b.length) o b.length i
    rw [List.getD_eq_getElem?_getD, List.getElem?_eq_getElem h1, Option.getD_some, if_pos h3,
      if_pos (by omega), getD_memcpy, if_pos (by omega), if_pos (by omega)] at e
    rw [e, List.getD_eq_getElem?_getD]
    simp [h2]

section
open SlottedPage

theorem slotValue_fields (offset length : Nat) (ho : offset < 2 ^ 24) (hl : length < 2 ^ 24) :
    slotValue offset length / 2 ^ 24 % 2 ^ 24 = offset ∧
    slotValue offset length % 2 ^ 24 = length := by
  rw [slotValue_eq offset length ho hl]
  norm_num at ho hl ⊢
  constructor
  · omega
  · omega

/-- Round trip on a fresh heap segment whose first page can be fixed, for a
record that leaves room for its slot. -/
theorem heap_round_trip_spec (hs : HeapSegment) (bm : BufferManager) (disk : Disk)
    (lm : LogManager) (b record : List Nat) (txn_id : Nat) (bm0 : BufferManager) (f : Nat)
    (hwf : bm.WF) (hfresh : hs.page_count_ = 0) (hseg : hs.segment_id_ < 2 ^ 16)
    (hfix : bm.fix_page disk (get_overall_page_id hs.segment_id_ 0) true = some (bm0, f))
    (hps : bm.page_size_ < 2 ^ 24) (hfit : b.length + 40 ≤ bm.page_size_)
    (hrec : record.length = b.length) :
    ∃ hs' bm1 tid bm2 lm' bm3,
      hs.allocate bm disk b.length = some (hs', bm1, tid) ∧
      hs'.write bm1 disk lm tid b b.length txn_id = some (bm2, lm', 0) ∧
      hs'.read bm2 disk tid record b.length = some (bm3, b, b.length) := by
  obtain ⟨w0, hf0, hfirst0, hp0, hne, hs0, hc0⟩ := fix_page_post bm disk _ true bm0 f hwf hfix
  have hlen0 := frame_data_length bm0 w0 f hf0
  rw [hs0] at hlen0
  have hpid : get_overall_page_id hs.segment_id_ 0 < 2 ^ 64 := by
    rw [get_overall_page_id_eq _ _ hseg (by norm_num)]
    norm_num at hseg ⊢; omega
  generalize hpid0 : get_overall_page_id hs.segment_id_ 0 = pid at *
  -- allocation on the fresh page
  obtain ⟨h_len, h_ds, h_fs, h_ff, h_sc, h_op⟩ := fresh_page_header (bm0.frame f).data f
    bm.page_size_ pid hlen0 (by omega) (by omega) hpid
  obtain ⟨page2, hadd, hlen2, hslot2⟩ := addSlot_first _ bm.page_size_ pid b.length h_len h_ds
    h_fs h_ff h_sc h_op (by omega) (by omega)
  obtain ⟨w1, c1, s1, g1, p1, d1⟩ := write_back_post bm0 f pid page2 true w0 hf0 hfirst0 hp0
    (by rw [hlen2, hs0])
  have halloc : hs.allocate bm disk b.length =
      some ({ hs with page_count_ := (hs.page_count_ + 1) % 2 ^ 64 },
        (bm0.set_frame f { bm0.frame f with data := page2 }).unfix_page f true,
        TID.new pid 0) := by
    simp only [HeapSegment.allocate, hfresh, HeapSegment.allocate_scan, hpid0, hfix,
      BufferManager.get_page_size, hs0, hadd]
  generalize (bm0.set_frame f { bm0.frame f with data := page2 }).unfix_page f true = bm1 at *
  obtain ⟨htid1, htid2⟩ := tid_of_first_page hs.segment_id_ hseg
  rw [hpid0] at htid1 htid2
  -- the write
  have hres1 : bm1.resident pid := by
    have := w1.2.2.1
    unfold resident; rw [g1]; unfold INVALID_FRAME_ID; omega
  have hfix1 : bm1.fix_page disk pid true = some (bm1, f) := by
    rw [fix_page_resident bm1 disk pid true hne hres1, g1]
  obtain ⟨hfo, hfl⟩ :=
    slotValue_fields (bm.page_size_ - b.length) b.length (by omega) (by omega)
  have hoffset : (((slotValue (bm.page_size_ - b.length) b.length <<< 16) % 2 ^ 64) >>> 40)
      % 2 ^ 32 = bm.page_size_ - b.length := by
    rw [slot_offset_eq, hfo]
  have hlength : (((slotValue (bm.page_size_ - b.length) b.length <<< 40) % 2 ^ 64) >>> 40)
      % 2 ^ 32 = b.length := by
    rw [slot_length_eq, hfl]
  obtain ⟨w2, c2, s2, g2, p2, d2⟩ := write_back_post bm1 f pid
    (memcpy page2 (bm.page_size_ - b.length) b 0 b.length) true w1 (by omega) g1 p1
    (by rw [memcpy_length, hlen2, s1, hs0])
  have hwrite : HeapSegment.write { hs with page_count_ := (hs.page_count_ + 1) % 2 ^ 64 } bm1
      disk lm (TID.new pid 0) b b.length txn_id =
      some ((bm1.set_frame f { bm1.frame f with
          data := memcpy page2 (bm.page_size_ - b.length) b 0 b.length }).unfix_page f true,
        lm, 0) := by
    simp only [HeapSegment.write, htid1, htid2, hpid0, hfix1, d1, hslot2, hoffset,
      LogManager.log_update]
  generalize (bm1.set_frame f { bm1.frame f with
      data := memcpy page2 (bm.page_size_ - b.length) b 0 b.length }).unfix_page f true = bm2 at *
  -- the read
  have hres2 : bm2.resident pid := by
    have := w2.2.2.1
    unfold resident; rw [g2]; unfold INVALID_FRAME_ID; omega
  have hfix2 : bm2.fix_page disk pid false = some (bm2, f) := by
    rw [fix_page_resident bm2 disk pid false hne hres2, g2]
  have hslot3 : SlottedPage.getSlot (memcpy page2 (bm.page_size_ - b.length) b 0 b.length) 0 =
      slotValue (bm.page_size_ - b.length) b.length := by
    rw [SlottedPage.getSlot, SlottedPage.sizeof_header, SlottedPage.sizeof_slot,
      load_memcpy_disjoint _ _ _ _ _ _ _ (by omega)]
    exact hslot2
  have hread : HeapSegment.read { hs with page_count_ := (hs.page_count_ + 1) % 2 ^ 64 } bm2
      disk (TID.new pid 0) record b.length = some (bm2.unfix_page f false, b, b.length) := by
    simp only [HeapSegment.read, htid1, htid2, hpid0, hfix2, d2, hslot3, hoffset, hlength,
      le_refl, if_true]
    rw [memcpy_read_back record page2 b _ hrec (by omega)]
  exact ⟨_, _, _, _, _, _, halloc, hwrite, hread⟩

end

section
open LogManagerTest Example

theorem new_frame (page_size page_count i : Nat) (hi : i < page_count) :
    (BufferManager.new page_size page_count).frame i =
      { frame_id := i, page_id := INVALID_PAGE_ID, data := vector_resize [] page_size,
        dirty := false } := by
  simp [BufferManager.new, BufferManager.frame, List.getD_eq_getElem?_getD, hi, BufferFrame.new]

theorem new_WF (page_size page_count : Nat) (h : page_count < 2 ^ 64) :
    (BufferManager.new page_size page_count).WF := by
  refine ⟨?_, ?_, h, Or.inr rfl⟩
  · simp [BufferManager.new]
  · intro g hg
    simp only [BufferManager.new, List.mem_map] at hg
    obtain ⟨i, _, rfl⟩ := hg
    simp [vector_resize]
    rfl

theorem new_not_resident (page_size page_count pid : Nat) (hne : pid ≠ INVALID_PAGE_ID) :
    ¬ (BufferManager.new page_size page_count).resident pid := by
  intro hres
  obtain ⟨hk, hp⟩ := get_frame_id_of_page_spec _ _ hres
  have hk' : (BufferManager.new page_size page_count).get_frame_id_of_page pid < page_count := hk
  rw [new_frame _ _ _ hk'] at hp
  exact hne hp.symm

theorem write_then_read_of (fx : Fixture) (b : List Nat) (capacity : Nat) (hs' : HeapSegment)
    (bm1 bm2 bm3 : BufferManager) (tid : TID) (lm' : LogManager) (r : List Nat) (n : Nat)
    (e1 : fx.heap_segment.allocate fx.buffer_manager fx.disk b.length = some (hs', bm1, tid))
    (e2 : hs'.write bm1 fx.disk fx.log_manager tid b b.length 1 = some (bm2, lm', 0))
    (e3 : hs'.read bm2 fx.disk tid (vector_resize [] capacity) capacity = some (bm3, r, n)) :
    write_then_read fx b capacity = some (r, n) := by
  unfold write_then_read allocate_then_write
  rw [e1]
  simp only []
  rw [e2]
  simp only []
  rw [e3]

/-- On the fresh fixture with `page_size`-byte pages, every record that leaves
room for its slot (`b.length + 40 ≤ page_size`) is read back as written. -/
theorem heap_round_trip_fresh (page_size page_count : Nat) (b : List Nat)
    (hps : page_size < 2 ^ 24) (hn : 2 ≤ page_count) (hn64 : page_count < 2 ^ 64)
    (hfit : b.length + 40 ≤ page_size) :
    write_then_read (Fixture.new (zero_disk page_size) page_size page_count) b b.length
      = some (b, b.length) := by
  have hov : get_overall_page_id HEAP_SEGMENT 0 = 2 ^ 48 * 123 + 0 :=
    get_overall_page_id_eq 123 0 (by norm_num) (by norm_num)
  have hne : get_overall_page_id HEAP_SEGMENT 0 ≠ INVALID_PAGE_ID := by
    rw [hov]; unfold INVALID_PAGE_ID; norm_num
  have hwf := new_WF page_size page_count hn64
  have hnr := new_not_resident page_size page_count _ hne
  have hseg0 : get_segment_id (get_overall_page_id HEAP_SEGMENT 0) = HEAP_SEGMENT :=
    (page_id_packing 123 0 0 (by norm_num) (by norm_num) (by norm_num)).1
  have hpg0 : get_segment_page_id (get_overall_page_id HEAP_SEGMENT 0) = 0 :=
    (page_id_packing 123 0 0 (by norm_num) (by norm_num) (by norm_num)).2.1
  have hfix := fix_page_fault (BufferManager.new page_size page_count) (zero_disk page_size)
    (get_overall_page_id HEAP_SEGMENT 0) true hwf hne hnr
  have hpc : (BufferManager.new page_size page_count).page_counter_ = 0 := rfl
  have hcap : (BufferManager.new page_size page_count).capacity_ = page_count := rfl
  have hsz : (BufferManager.new page_size page_count).page_size_ = page_size := rfl
  have hfile : (zero_disk page_size HEAP_SEGMENT).length = page_size := by simp [zero_disk]
  rw [hpc, hcap, hsz, hseg0, hpg0, if_neg (by omega), Nat.zero_mul, Nat.zero_mod, Nat.zero_add,
    Nat.mod_eq_of_lt (by norm_num at hps ⊢; omega), hfile, if_neg (by omega)] at hfix
  obtain ⟨hs', bm1, tid, bm2, lm', bm3, h1, h2, h3⟩ :=
    heap_round_trip_spec (HeapSegment.new HEAP_SEGMENT) (BufferManager.new page_size page_count)
      (zero_disk page_size) (LogManager.new { mode := Mode.WRITE, file_content := [] })
      b (vector_resize [] b.length) 1 _ _ hwf rfl
      (by unfold HeapSegment.new HEAP_SEGMENT; norm_num) hfix (by rw [hsz]; exact hps)
      (by rw [hsz]; exact hfit) (by simp [vector_resize])
  exact write_then_read_of _ b b.length hs' bm1 bm2 bm3 tid lm' b b.length h1 h2 h3

end

section
open SlottedPage

/-- The header fields `place_slot` leaves alone. -/
theorem place_slot_header (page : SlottedPage) (v : Nat) :
    overall_page_id (place_slot page v) = overall_page_id page ∧
    first_free_slot (place_slot page v) = first_free_slot page ∧
    data_start (place_slot page v) = data_start page ∧
    free_space (place_slot page v) = free_space page ∧
    (place_slot page v).length = page.length := by
  unfold place_slot
  split_ifs
  all_goals
    simp only [overall_page_id, first_free_slot, data_start, free_space, set_slot_count, setSlot,
      sizeof_header, sizeof_slot, length_store]
    refine ⟨?_, ?_, ?_, ?_, trivial⟩
    all_goals
      simp (disch := omega) only [load_store_disjoint]

/-- The header fields `update_free_space` leaves alone. -/
theorem update_free_space_header (page : SlottedPage) :
    overall_page_id (update_free_space page) = overall_page_id page ∧
    first_free_slot (update_free_space page) = first_free_slot page ∧
    data_start (update_free_space page) = data_start page ∧
    slot_count (update_free_space page) = slot_count page ∧
    (update_free_space page).length = page.length ∧
    ∀ i, getSlot (update_free_space page) i = getSlot page i := by
  simp only [update_free_space, overall_page_id, first_free_slot, data_start, slot_count,
    set_free_space, getSlot, sizeof_header, sizeof_slot, length_store]
  refine ⟨?_, ?_, ?_, ?_, trivial, fun i => ?_⟩
  all_goals
    simp (disch := omega) only [load_store_disjoint]

/-- The header fields `update_first_free_slot` leaves alone. -/
theorem update_first_free_slot_header (page : SlottedPage) :
    overall_page_id (update_first_free_slot page) = overall_page_id page ∧
    data_start (update_first_free_slot page) = data_start page ∧
    slot_count (update_first_free_slot page) = slot_count page ∧
    free_space (update_first_free_slot page) = free_space page ∧
    (update_first_free_slot page).length = page.length ∧
    ∀ i, getSlot (update_first_free_slot page) i = getSlot page i := by
  unfold update_first_free_slot
  split
  all_goals
    simp only [overall_page_id, data_start, slot_count, free_space, set_first_free_slot, getSlot,
      sizeof_header, sizeof_slot, length_store]
    refine ⟨?_, ?_, ?_, ?_, trivial, fun i => ?_⟩
    all_goals
      simp (disch := omega) only [load_store_disjoint]

/-- The header fields the store to `data_start` leaves alone. -/
theorem set_data_start_header (page : SlottedPage) (v : Nat) :
    overall_page_id (set_data_start page v) = overall_page_id page ∧
    first_free_slot (set_data_start page v) = first_free_slot page ∧
    slot_count (set_data_start page v) = slot_count page ∧
    free_space (set_data_start page v) = free_space page ∧
    (set_data_start page v).length = page.length := by
  simp only [overall_page_id, first_free_slot, slot_count, free_space, set_data_start,
    length_store]
  refine ⟨?_, ?_, ?_, ?_, trivial⟩
  all_goals
    simp (disch := omega) only [load_store_disjoint]

/-- The slot word `place_slot` stores is found at index `first_free_slot` when
that slot lies inside the page. -/
theorem getSlot_place_slot (page : SlottedPage) (v : Nat) (hv : v < 2 ^ 64)
    (hin : sizeof_header + sizeof_slot * (first_free_slot page + 1) ≤ page.length) :
    getSlot (place_slot page v) (first_free_slot page) = v := by
  have hmod : v % 256 ^ 8 = v := Nat.mod_eq_of_lt (by norm_num at hv ⊢; exact hv)
  unfold place_slot
  simp only [sizeof_header, sizeof_slot] at hin
  split_ifs with h
  · simp only [getSlot, set_slot_count, setSlot, sizeof_header, sizeof_slot, ← h]
    rw [load_store_disjoint _ _ _ _ _ _ (by omega), load_store_same _ _ _ _ (by omega), hmod]
  · simp only [getSlot, setSlot, sizeof_header, sizeof_slot]
    rw [load_store_same _ _ _ _ (by omega), hmod]

/-- Closed form of `addSlot`: it fails exactly when `size` exceeds the free
space, and otherwise runs its four blocks and returns the TID of the page's
`overall_page_id` and of the slot index `first_free_slot` it found at entry. -/
theorem addSlot_eq (page : SlottedPage) (size : Nat) :
    addSlot page size =
      if size > free_space page then none
      else some
        (update_first_free_slot (update_free_space (place_slot
          (set_data_start page ((data_start page + 2 ^ 32 - size) % 2 ^ 32))
          (slotValue ((data_start page + 2 ^ 32 - size) % 2 ^ 32) size))),
        TID.new (overall_page_id page) (first_free_slot page)) := by
  unfold addSlot
  simp only [(set_data_start_header page _).2.2.2.1]
  split_ifs with h
  · rfl
  · simp only [(update_free_space_header _).1, (update_free_space_header _).2.1,
      (place_slot_header _ _).1, (place_slot_header _ _).2.1,
      (set_data_start_header page _).1, (set_data_start_header page _).2.1]

theorem slotValue_lt (offset length : Nat) : slotValue offset length < 2 ^ 64 := by
  unfold slotValue
  exact Nat.mod_lt _ (by norm_num)

/-- The two bit fields of a TID. -/
theorem TID_fields (page slot : Nat) (hs : slot < 2 ^ 16) :
    (TID.new page slot).value % 2 ^ 16 = slot ∧
    (TID.new page slot).value / 2 ^ 16 = page % 2 ^ 48 ∧
    (TID.new page slot).value < 2 ^ 64 := by
  have hor : (page <<< 16) % 2 ^ 64 ||| slot = (page % 2 ^ 48) * 2 ^ 16 + slot := by
    rw [Nat.shiftLeft_eq]
    have : page * 2 ^ 16 % 2 ^ 64 = 2 ^ 16 * (page % 2 ^ 48) := by
      norm_num; omega
    rw [this, ← Nat.mul_add_lt_is_or hs, Nat.mul_comm]
  simp only [TID.new, hor]
  have := Nat.mod_lt page (show 0 < 2 ^ 48 by norm_num)
  norm_num at hs this ⊢
  omega

end

section
open SlottedPage

/-- Bit fields of the slot word for a 24-bit offset and a 24-bit length. -/
theorem slotValue_bits (offset length : Nat) (ho : offset < 2 ^ 24) (hl : length < 2 ^ 24) :
    slotValue offset length / 2 ^ 56 = 0xFF ∧
    slotValue offset length / 2 ^ 48 % 2 ^ 8 = 0 ∧
    slotValue offset length / 2 ^ 24 % 2 ^ 24 = offset ∧
    slotValue offset length % 2 ^ 24 = length ∧
    slotValue offset length ≠ 0 := by
  rw [slotValue_eq offset length ho hl]
  norm_num at ho hl ⊢
  refine ⟨?_, ?_, ?_, ?_⟩
  all_goals omega

/-- What `addSlot` writes on a page whose header satisfies the layout
equation, for a request that fits. -/
theorem slot_packing_spec (page : SlottedPage) (page_size size : Nat)
    (hlen : page.length = page_size) (hps : page_size < 2 ^ 24)
    (hds : data_start page ≤ page_size)
    (hinv : free_space page + sizeof_header + sizeof_slot * slot_count page = data_start page)
    (hsize : size ≤ free_space page) :
    ∃ page' tid, addSlot page size = some (page', tid) ∧
      page' = update_first_free_slot (update_free_space (place_slot
        (set_data_start page (data_start page - size))
        (slotValue (data_start page - size) size))) ∧
      data_start page' = data_start page - size ∧
      slotValue (data_start page - size) size / 2 ^ 56 = 0xFF ∧
      slotValue (data_start page - size) size / 2 ^ 48 % 2 ^ 8 = 0 ∧
      slotValue (data_start page - size) size / 2 ^ 24 % 2 ^ 24 = data_start page' ∧
      slotValue (data_start page - size) size % 2 ^ 24 = size ∧
      slotValue (data_start page - size) size ≠ 0 ∧
      (((slotValue (data_start page - size) size <<< 40) % 2 ^ 64) >>> 40) % 2 ^ 32 = size ∧
      (((slotValue (data_start page - size) size <<< 16) % 2 ^ 64) >>> 40) % 2 ^ 32
        = data_start page' ∧
      (sizeof_header + sizeof_slot * (first_free_slot page + 1) ≤ page_size →
        getSlot page' (first_free_slot page) = slotValue (data_start page - size) size) := by
  simp only [sizeof_header, sizeof_slot] at hinv
  have hoff : (data_start page + 2 ^ 32 - size) % 2 ^ 32 = data_start page - size := by
    norm_num at hps ⊢; omega
  obtain ⟨b1, b2, b3, b4, b5⟩ :=
    slotValue_bits (data_start page - size) size (by omega) (by omega)
  have hdata : data_start (update_first_free_slot (update_free_space (place_slot
        (set_data_start page (data_start page - size))
        (slotValue (data_start page - size) size)))) = data_start page - size := by
    rw [(update_first_free_slot_header _).2.1, (update_free_space_header _).2.2.1,
      (place_slot_header _ _).2.2.1]
    simp only [data_start, set_data_start]
    rw [load_store_same _ _ _ _ (by omega)]
    apply Nat.mod_eq_of_lt
    have : load page 20 4 ≤ page_size := hds
    norm_num at hps ⊢; omega
  refine ⟨_, TID.new (overall_page_id page) (first_free_slot page), ?_, rfl, hdata, b1, b2, ?_,
    b4, b5, ?_, ?_, ?_⟩
  · rw [addSlot_eq, if_neg (by omega), hoff]
  · rw [hdata]; exact b3
  · rw [slot_length_eq]; exact b4
  · rw [slot_offset_eq, hdata]; exact b3
  · intro hin
    rw [(update_first_free_slot_header _).2.2.2.2.2, (update_free_space_header _).2.2.2.2.2]
    have h1 := (set_data_start_header page (data_start page - size)).2.1
    have h2 := (set_data_start_header page (data_start page - size)).2.2.2.2
    rw [← h1]
    apply getSlot_place_slot _ _ (slotValue_lt _ _)
    rw [h1, h2, hlen]
    exact hin

/-- The TID `addSlot` returns, whenever it returns. -/
theorem add_slot_tid_spec (page : SlottedPage) (size : Nat) (hsize : size ≤ free_space page) :
    ∃ page' tid, addSlot page size = some (page', tid) ∧
      tid.value % 2 ^ 16 = first_free_slot page ∧
      tid.value / 2 ^ 16 = get_segment_page_id (overall_page_id page) ∧
      tid.value >>> 16 = get_segment_page_id (overall_page_id page) ∧
      tid.value &&& ((1 <<< 16) - 1) = first_free_slot page ∧
      tid.value < 2 ^ 64 ∧
      (sizeof_header + sizeof_slot * (first_free_slot page + 1) ≤ page.length →
        getSlot page' (tid.value &&& ((1 <<< 16) - 1)) =
          slotValue ((data_start page + 2 ^ 32 - size) % 2 ^ 32) size) := by
  have hff : first_free_slot page < 2 ^ 16 := by
    have := load_lt page 18 2
    unfold first_free_slot
    norm_num at this ⊢
    exact this
  obtain ⟨t1, t2, t3⟩ := TID_fields (overall_page_id page) (first_free_slot page) hff
  refine ⟨update_first_free_slot (update_free_space (place_slot
      (set_data_start page ((data_start page + 2 ^ 32 - size) % 2 ^ 32))
      (slotValue ((data_start page + 2 ^ 32 - size) % 2 ^ 32) size))),
    TID.new (overall_page_id page) (first_free_slot page), ?_, t1, ?_, ?_, ?_, t3, ?_⟩
  · rw [addSlot_eq, if_neg (by omega)]
  · rw [t2, get_segment_page_id_eq]
  · rw [Nat.shiftRight_eq_div_pow, t2, get_segment_page_id_eq]
  · rw [slot_id_eq, t1]
  · intro hin
    rw [slot_id_eq, t1]
    rw [(update_first_free_slot_header _).2.2.2.2.2, (update_free_space_header _).2.2.2.2.2]
    have h1 := (set_data_start_header page ((data_start page + 2 ^ 32 - size) % 2 ^ 32)).2.1
    have h2 := (set_data_start_header page ((data_start page + 2 ^ 32 - size) % 2 ^ 32)).2.2.2.2
    rw [← h1]
    apply getSlot_place_slot _ _ (slotValue_lt _ _)
    rw [h1, h2]
    exact hin

/-- A request larger than the free space makes `addSlot` exit. -/
theorem addSlot_none (page : SlottedPage) (size : Nat) (hsize : free_space page < size) :
    addSlot page size = none := by
  rw [addSlot_eq, if_pos hsize]

end

section
open SlottedPage

theorem addSlot_length (page page' : SlottedPage) (size : Nat) (tid : TID)
    (h : addSlot page size = some (page', tid)) : page'.length = page.length := by
  rw [addSlot_eq] at h
  split_ifs at h
  simp only [Option.some.injEq, Prod.mk.injEq] at h
  rw [← h.1, (update_first_free_slot_header _).2.2.2.2.1, (update_free_space_header _).2.2.2.2.1,
    (place_slot_header _ _).2.2.2.2, (set_data_start_header _ _).2.2.2.2]

end

theorem get_overall_page_id_inj (s p p' : Nat) (hs : s < 2 ^ 16) (hp : p < 2 ^ 48)
    (hp' : p' < 2 ^ 48) (h : get_overall_page_id s p = get_overall_page_id s p') : p = p' := by
  rw [get_overall_page_id_eq s p hs hp, get_overall_page_id_eq s p' hs hp'] at h
  omega

section
open SlottedPage

end

theorem commit_txn_unknown (tm : TransactionManager) (bm : BufferManager) (disk : Disk)
    (lm : LogManager) (txn_id : Nat) (h : tm.count txn_id = 0) :
    tm.commit_txn bm disk lm txn_id = none := by
  simp only [TransactionManager.commit_txn, h, if_true]

theorem abort_txn_unknown (tm : TransactionManager) (bm : BufferManager) (disk : Disk)
    (lm : LogManager) (txn_id : Nat) (h : tm.count txn_id = 0) :
    tm.abort_txn bm disk lm txn_id = none := by
  simp only [TransactionManager.abort_txn, h, if_true]

/-- On an id that is not in the table `add_modified_page` returns normally and
leaves a new entry under that id. -/
theorem add_modified_page_unknown (tm : TransactionManager) (txn_id page_id : Nat)
    (h : tm.count txn_id = 0) :
    (tm.add_modified_page txn_id page_id).transaction_table_ txn_id =
      some { txn_id_ := INVALID_TXN_ID, started_ := false, modified_pages_ := [page_id] } ∧
    (tm.add_modified_page txn_id page_id).count txn_id = 1 := by
  have hnone : tm.transaction_table_ txn_id = none := by
    unfold TransactionManager.count at h
    cases hc : tm.transaction_table_ txn_id with
    | none => rfl
    | some t => simp [hc] at h
  simp [TransactionManager.add_modified_page, TransactionManager.subscript,
    TransactionManager.assign, TransactionManager.count, hnone, Transaction.default]

section
open IntHistogram

theorem to_int_of_nonneg (x : ℚ) (h : 0 ≤ x) : to_int x = ⌊x⌋ := by
  unfold to_int
  rw [if_pos h]

theorem to_int_intCast (z : Int) : to_int (z : ℚ) = z := by
  unfold to_int
  split_ifs <;> simp

theorem to_int_ofNat (n : ℕ) [n.AtLeastTwo] :
    to_int (no_index (OfNat.ofNat n : ℚ)) = (OfNat.ofNat n : Int) := by
  have : ((OfNat.ofNat n : ℚ)) = ((OfNat.ofNat n : Int) : ℚ) := by simp
  rw [this, to_int_intCast]

theorem to_int_zero : to_int 0 = 0 := by simpa using to_int_intCast 0

theorem to_int_one : to_int 1 = 1 := by simpa using to_int_intCast 1

/-- The constructor's bucket width is at least one. -/
theorem new_span_ge_one (buckets min_val max_val : Int) :
    1 ≤ (IntHistogram.new buckets min_val max_val).span := by
  unfold IntHistogram.new
  exact le_max_left _ _

/-- For a value at or above `min_v` the cast of the bucket quotient is its
floor, and the bucket index lies in `[0, NumB)`. -/
theorem b_idx_spec (h : IntHistogram) (v : Int) (hspan : 0 < h.span) (hB : 1 ≤ h.NumB)
    (hv : h.min_v ≤ v) :
    h.b_idx v = min ⌊(((v - h.min_v : Int) : ℚ)) / h.span⌋ (h.NumB - 1) ∧
    0 ≤ h.b_idx v ∧ h.b_idx v < h.NumB := by
  have hq : (0 : ℚ) ≤ ((v - h.min_v : Int) : ℚ) / h.span := by
    apply div_nonneg _ hspan.le
    exact_mod_cast (sub_nonneg.mpr hv)
  have hfl : 0 ≤ ⌊((v - h.min_v : Int) : ℚ) / h.span⌋ := Int.floor_nonneg.mpr hq
  unfold b_idx
  rw [to_int_of_nonneg _ hq]
  refine ⟨rfl, le_min hfl (by omega), ?_⟩
  have := min_le_right ⌊((v - h.min_v : Int) : ℚ) / h.span⌋ (h.NumB - 1)
  omega

/-- Function `add_value` on a value outside `[min_v, max_v]`. -/
theorem add_value_out (h : IntHistogram) (v : Int) (hv : v < h.min_v ∨ v > h.max_v) :
    h.add_value v = h := by
  unfold add_value
  rw [if_pos hv]

/-- Function `add_value` on a value inside `[min_v, max_v]`. -/
theorem add_value_in (h : IntHistogram) (v : Int) (h1 : h.min_v ≤ v) (h2 : v ≤ h.max_v) :
    h.add_value v =
      { h with
        umap := h.umap.set (h.b_idx v).toNat (h.umap.getD (h.b_idx v).toNat 0 + 1)
        ntups := h.ntups + 1 } := by
  unfold add_value
  rw [if_neg (by omega)]

/-- The fields `add_value` never changes. -/
theorem add_value_fields (h : IntHistogram) (v : Int) :
    (h.add_value v).span = h.span ∧ (h.add_value v).min_v = h.min_v ∧
    (h.add_value v).max_v = h.max_v ∧ (h.add_value v).NumB = h.NumB ∧
    (h.add_value v).umap.length = h.umap.length := by
  unfold add_value
  split_ifs
  · exact ⟨rfl, rfl, rfl, rfl, rfl⟩
  · exact ⟨rfl, rfl, rfl, rfl, by simp⟩

theorem foldl_add_value_fields (vals : List Int) (h : IntHistogram) :
    (vals.foldl add_value h).span = h.span ∧ (vals.foldl add_value h).min_v = h.min_v ∧
    (vals.foldl add_value h).max_v = h.max_v ∧ (vals.foldl add_value h).NumB = h.NumB ∧
    (vals.foldl add_value h).umap.length = h.umap.length := by
  induction vals generalizing h with
  | nil => exact ⟨rfl, rfl, rfl, rfl, rfl⟩
  | cons v vs ih =>
    obtain ⟨a1, a2, a3, a4, a5⟩ := add_value_fields h v
    obtain ⟨b1, b2, b3, b4, b5⟩ := ih (h.add_value v)
    simp only [List.foldl_cons]
    exact ⟨b1.trans a1, b2.trans a2, b3.trans a3, b4.trans a4, b5.trans a5⟩

theorem sum_set_succ (l : List Int) (i : Nat) (hi : i < l.length) :
    (l.set i (l.getD i 0 + 1)).sum = l.sum + 1 := by
  induction l generalizing i with
  | nil => simp at hi
  | cons a t ih =>
    cases i with
    | zero => simp [List.set]; ring
    | succ j =>
      simp only [List.length_cons, Nat.add_lt_add_iff_right] at hi
      simp only [List.set_cons_succ, List.sum_cons, List.getD_cons_succ, ih j hi]
      ring

/-- After `add_value` the total and the sum of the bucket counts both grew by
one for a value of the range and stayed for any other value. -/
theorem add_value_counts (h : IntHistogram) (v : Int) (hspan : 0 < h.span) (hB : 1 ≤ h.NumB)
    (hlen : h.umap.length = h.NumB.toNat) :
    (h.add_value v).ntups = h.ntups + (if h.min_v ≤ v ∧ v ≤ h.max_v then 1 else 0) ∧
    (h.add_value v).umap.sum = h.umap.sum + (if h.min_v ≤ v ∧ v ≤ h.max_v then 1 else 0) := by
  by_cases hv : h.min_v ≤ v ∧ v ≤ h.max_v
  · obtain ⟨_, b1, b2⟩ := b_idx_spec h v hspan hB hv.1
    rw [add_value_in h v hv.1 hv.2, if_pos hv]
    refine ⟨rfl, ?_⟩
    simp only
    rw [sum_set_succ _ _ (by rw [hlen]; omega)]
  · rw [add_value_out h v (by omega), if_neg hv]
    simp

/-- After any sequence of `add_value` calls the total and the sum of the bucket
counts both grew by the number of values of the range. -/
theorem foldl_add_value_counts (vals : List Int) (h : IntHistogram) (hspan : 0 < h.span)
    (hB : 1 ≤ h.NumB) (hlen : h.umap.length = h.NumB.toNat) :
    (vals.foldl add_value h).ntups
      = h.ntups + (vals.filter fun v => decide (h.min_v ≤ v ∧ v ≤ h.max_v)).length ∧
    (vals.foldl add_value h).umap.sum
      = h.umap.sum + (vals.filter fun v => decide (h.min_v ≤ v ∧ v ≤ h.max_v)).length := by
  induction vals generalizing h with
  | nil => simp
  | cons v vs ih =>
    obtain ⟨a1, a2, a3, a4, a5⟩ := add_value_fields h v
    obtain ⟨c1, c2⟩ := add_value_counts h v hspan hB hlen
    obtain ⟨i1, i2⟩ := ih (h.add_value v) (by rw [a1]; exact hspan) (by rw [a4]; exact hB)
      (by rw [a5, a4]; exact hlen)
    simp only [List.foldl_cons, i1, i2, c1, c2, a2, a3, List.filter_cons]
    by_cases hv : h.min_v ≤ v ∧ v ≤ h.max_v
    · simp only [hv, and_self, decide_True, if_true, List.length_cons]
      push_cast
      constructor <;> ring
    · simp only [hv, decide_False, if_false]
      simp

/-- The constructor's histogram is empty. -/
theorem new_fields (buckets min_val max_val : Int) :
    (IntHistogram.new buckets min_val max_val).min_v = min_val ∧
    (IntHistogram.new buckets min_val max_val).max_v = max_val ∧
    (IntHistogram.new buckets min_val max_val).NumB = buckets ∧
    (IntHistogram.new buckets min_val max_val).ntups = 0 ∧
    (IntHistogram.new buckets min_val max_val).umap.length = buckets.toNat ∧
    (IntHistogram.new buckets min_val max_val).umap.sum = 0 := by
  refine ⟨rfl, rfl, rfl, rfl, ?_, ?_⟩
  · simp [IntHistogram.new]
  · simp [IntHistogram.new]

end

section
open IntHistogram

theorem getD_set_int (l : List Int) (i j : Nat) (a : Int) :
    (l.set i a).getD j 0 = if i = j ∧ j < l.length then a else l.getD j 0 := by
  simp only [List.getD_eq_getElem?_getD, List.getElem?_set]
  by_cases h : i = j
  · subst h
    by_cases hl : i < l.length
    · simp [hl]
    · simp [hl, List.getElem?_eq_none (show l.length ≤ i by omega)]
  · simp [h]

/-- The constructor's bucket width is one when there are at least as many
buckets as integers in the range. -/
theorem new_span_one (buckets min_val max_val : Int) (hB : 1 ≤ buckets)
    (hcap : max_val - min_val + 1 ≤ buckets) :
    (IntHistogram.new buckets min_val max_val).span = 1 := by
  unfold IntHistogram.new
  simp only
  apply max_eq_left
  have hb : (0 : ℚ) < (buckets : ℚ) := by exact_mod_cast (show (0 : Int) < buckets by omega)
  rw [div_le_one hb]
  have : ((max_val - min_val + 1 : Int) : ℚ) ≤ (buckets : ℚ) := by exact_mod_cast hcap
  push_cast at this
  linarith

/-- The constructor's bucket width is the whole number `w` when the range
holds exactly `buckets * w` integers. -/
theorem new_span_nat (buckets min_val max_val : Int) (w : Nat) (hB : 1 ≤ buckets) (hw : 1 ≤ w)
    (hdiv : max_val - min_val + 1 = buckets * w) :
    (IntHistogram.new buckets min_val max_val).span = (w : ℚ) := by
  unfold IntHistogram.new
  simp only
  have hb : (0 : ℚ) < (buckets : ℚ) := by exact_mod_cast (show (0 : Int) < buckets by omega)
  have e : (1 + (max_val : ℚ) - (min_val : ℚ)) = (buckets : ℚ) * (w : ℚ) := by
    have : ((max_val - min_val + 1 : Int) : ℚ) = ((buckets * w : Int) : ℚ) := by rw [hdiv]
    push_cast at this
    linarith
  rw [e, mul_div_cancel_left₀ _ hb.ne']
  apply max_eq_right
  exact_mod_cast hw

end

section
open IntHistogram

end

section
open IntHistogram

end

section
open IntHistogram

end

section
open IntHistogram

end

section
open IntHistogram

end

section
open IntHistogram

end

section
open IntHistogram Example

theorem test_hist_eq : test_hist =
    { span := 1, min_v := 1, max_v := 10, ntups := 5, NumB := 10,
      umap := [1, 0, 3, 0, 0, 0, 0, 0, 0, 1] } := by
  have h1 : max (1 : ℚ) (10 / 10) = 1 := by norm_num
  simp [test_hist, IntHistogram.new, add_value, b_idx, h1, to_int_ofNat, to_int_zero, to_int_one,
    List.replicate]

end

section
open IntHistogram

/-- Function `add_value` on a histogram built by the constructor and any sequence
of `add_value` calls, and the totals of such a histogram. -/
theorem add_value_spec (NumB lo hi : Int) (vals : List Int) (hB : 1 ≤ NumB) :
    (∀ v, (v < lo ∨ v > hi) →
      (vals.foldl add_value (IntHistogram.new NumB lo hi)).add_value v
        = vals.foldl add_value (IntHistogram.new NumB lo hi)) ∧
    (∀ v, lo ≤ v → v ≤ hi →
      ∃ b : Nat,
        (b : Int) = min
          ⌊((v - lo : Int) : ℚ) / (vals.foldl add_value (IntHistogram.new NumB lo hi)).span⌋
          (NumB - 1) ∧
        (b : Int) < NumB ∧
        b < (vals.foldl add_value (IntHistogram.new NumB lo hi)).umap.length ∧
        (vals.foldl add_value (IntHistogram.new NumB lo hi)).add_value v =
          { vals.foldl add_value (IntHistogram.new NumB lo hi) with
            umap := (vals.foldl add_value (IntHistogram.new NumB lo hi)).umap.set b
              ((vals.foldl add_value (IntHistogram.new NumB lo hi)).umap.getD b 0 + 1)
            ntups := (vals.foldl add_value (IntHistogram.new NumB lo hi)).ntups + 1 } ∧
        ((vals.foldl add_value (IntHistogram.new NumB lo hi)).add_value v).umap.getD b 0
          = (vals.foldl add_value (IntHistogram.new NumB lo hi)).umap.getD b 0 + 1 ∧
        (∀ j, j ≠ b →
          ((vals.foldl add_value (IntHistogram.new NumB lo hi)).add_value v).umap.getD j 0
            = (vals.foldl add_value (IntHistogram.new NumB lo hi)).umap.getD j 0)) ∧
    (vals.foldl add_value (IntHistogram.new NumB lo hi)).ntups
      = (vals.foldl add_value (IntHistogram.new NumB lo hi)).umap.sum ∧
    (vals.foldl add_value (IntHistogram.new NumB lo hi)).ntups
      = ((vals.filter fun v => decide (lo ≤ v ∧ v ≤ hi)).length : Int) := by
  obtain ⟨n1, n2, n3, n4, n5, n6⟩ := new_fields NumB lo hi
  obtain ⟨f1, f2, f3, f4, f5⟩ := foldl_add_value_fields vals (IntHistogram.new NumB lo hi)
  have hspos : 0 < (IntHistogram.new NumB lo hi).span :=
    lt_of_lt_of_le one_pos (new_span_ge_one NumB lo hi)
  obtain ⟨c1, c2⟩ := foldl_add_value_counts vals (IntHistogram.new NumB lo hi) hspos
    (by rw [n3]; exact hB) (by rw [n5, n3])
  rw [n4, n1, n2, zero_add] at c1
  rw [n6, n1, n2, zero_add] at c2
  generalize vals.foldl add_value (IntHistogram.new NumB lo hi) = H at *
  refine ⟨fun v hv => add_value_out H v (by rw [f2, f3, n1, n2]; exact hv), ?_, c1.trans c2.symm,
    c1⟩
  intro v hv1 hv2
  obtain ⟨b1, b2, b3⟩ := b_idx_spec H v (by rw [f1]; exact hspos) (by rw [f4, n3]; exact hB)
    (by rw [f2, n1]; exact hv1)
  rw [f2, n1, f4, n3] at b1
  rw [f4, n3] at b3
  have hnat : (((H.b_idx v).toNat : Nat) : Int) = H.b_idx v := Int.toNat_of_nonneg b2
  have hlt : (H.b_idx v).toNat < H.umap.length := by
    rw [f5, n5]; omega
  have hadd := add_value_in H v (by rw [f2, n1]; exact hv1) (by rw [f3, n2]; exact hv2)
  refine ⟨(H.b_idx v).toNat, by rw [hnat]; exact b1, by rw [hnat]; exact b3, hlt, hadd, ?_, ?_⟩
  · rw [hadd]
    simp only
    rw [getD_set_int, if_pos ⟨rfl, hlt⟩]
  · intro j hj
    rw [hadd]
    simp only
    rw [getD_set_int, if_neg (fun hc => hj hc.1.symm)]

end

section
open IntHistogram Example

theorem wide_hist_eq : wide_hist =
    { span := 5, min_v := 0, max_v := 9, ntups := 5, NumB := 2, umap := [3, 2] } := by
  have h1 : max (1 : ℚ) ((1 + 9) / 2) = 5 := by norm_num
  have t1 : to_int ((5 : ℚ)⁻¹) = 0 := by
    rw [to_int_of_nonneg _ (by norm_num), Int.floor_eq_iff]; norm_num
  have t3 : to_int ((3 : ℚ) / 5) = 0 := by
    rw [to_int_of_nonneg _ (by norm_num), Int.floor_eq_iff]; norm_num
  have t4 : to_int ((4 : ℚ) / 5) = 0 := by
    rw [to_int_of_nonneg _ (by norm_num), Int.floor_eq_iff]; norm_num
  have t6 : to_int ((6 : ℚ) / 5) = 1 := by
    rw [to_int_of_nonneg _ (by norm_num), Int.floor_eq_iff]; norm_num
  have t8 : to_int ((8 : ℚ) / 5) = 1 := by
    rw [to_int_of_nonneg _ (by norm_num), Int.floor_eq_iff]; norm_num
  simp [wide_hist, IntHistogram.new, add_value, b_idx, h1, t1, t3, t4, t6, t8, List.replicate]

end

section
open IntHistogram

end

section
open IntHistogram

theorem getD_nonneg_of_mem (l : List Int) (hnn : ∀ x ∈ l, 0 ≤ x) (i : Nat) : 0 ≤ l.getD i 0 := by
  rw [List.getD_eq_getElem?_getD]
  by_cases hi : i < l.length
  · rw [List.getElem?_eq_getElem hi]
    exact hnn _ (List.getElem_mem hi)
  · rw [List.getElem?_eq_none (by omega)]
    rfl

theorem range_sum_le_drop (l : List Int) (hnn : ∀ x ∈ l, 0 ≤ x) (m s : Nat) :
    ((List.range' s m).map fun i => l.getD i 0).sum ≤ (l.drop s).sum := by
  induction m generalizing s with
  | zero =>
    simp only [List.range'_zero, List.map_nil, List.sum_nil]
    exact List.sum_nonneg fun x hx => hnn x (List.mem_of_mem_drop hx)
  | succ m ih =>
    simp only [List.range'_succ, List.map_cons, List.sum_cons]
    have := ih (s + 1)
    by_cases hs : s < l.length
    · rw [List.drop_eq_getElem_cons hs, List.sum_cons, List.getD_eq_getElem?_getD,
        List.getElem?_eq_getElem hs]
      simp only [Option.getD_some]
      omega
    · have e1 : l.getD s 0 = 0 := by
        rw [List.getD_eq_getElem?_getD, List.getElem?_eq_none (by omega)]; rfl
      have e2 : l.drop (s + 1) = [] := List.drop_eq_nil_of_le (by omega)
      have e3 : l.drop s = [] := List.drop_eq_nil_of_le (by omega)
      rw [e2] at this
      rw [e1, e3]
      simpa using this

theorem getD_add_range_sum_le (l : List Int) (hnn : ∀ x ∈ l, 0 ≤ x) (b m : Nat) :
    l.getD b 0 + ((List.range' (b + 1) m).map fun i => l.getD i 0).sum ≤ l.sum := by
  have h1 := range_sum_le_drop l hnn m (b + 1)
  have h2 : l.getD b 0 + (l.drop (b + 1)).sum ≤ (l.drop b).sum := by
    by_cases hs : b < l.length
    · rw [List.drop_eq_getElem_cons hs, List.sum_cons, List.getD_eq_getElem?_getD,
        List.getElem?_eq_getElem hs]
      simp
    · have e1 : l.getD b 0 = 0 := by
        rw [List.getD_eq_getElem?_getD, List.getElem?_eq_none (by omega)]; rfl
      rw [e1, List.drop_eq_nil_of_le (show l.length ≤ b + 1 by omega),
        List.drop_eq_nil_of_le (show l.length ≤ b by omega)]
      simp
  have h3 : (l.drop b).sum ≤ l.sum := by
    have e : l.sum = (l.take b).sum + (l.drop b).sum := by
      rw [← List.sum_append, List.take_append_drop]
    have : 0 ≤ (l.take b).sum := List.sum_nonneg fun x hx => hnn x (List.mem_of_mem_take hx)
    omega
  omega

theorem range_sum_nonneg (l : List Int) (hnn : ∀ x ∈ l, 0 ≤ x) (m s : Nat) :
    0 ≤ ((List.range' s m).map fun i => l.getD i 0).sum := by
  apply List.sum_nonneg
  intro x hx
  obtain ⟨i, _, rfl⟩ := List.mem_map.mp hx
  exact getD_nonneg_of_mem l hnn i

/-- The bucket counts stay non-negative under `add_value`. -/
theorem add_value_nonneg (h : IntHistogram) (v : Int) (hnn : ∀ x ∈ h.umap, 0 ≤ x) :
    ∀ x ∈ (h.add_value v).umap, 0 ≤ x := by
  unfold add_value
  split_ifs
  · exact hnn
  · intro x hx
    simp only at hx
    rcases List.mem_or_eq_of_mem_set hx with h1 | h1
    · exact hnn x h1
    · rw [h1]
      have := getD_nonneg_of_mem h.umap hnn (h.b_idx v).toNat
      omega

theorem foldl_add_value_nonneg (vals : List Int) (h : IntHistogram)
    (hnn : ∀ x ∈ h.umap, 0 ≤ x) : ∀ x ∈ (vals.foldl add_value h).umap, 0 ≤ x := by
  induction vals generalizing h with
  | nil => exact hnn
  | cons v vs ih =>
    simp only [List.foldl_cons]
    exact ih _ (add_value_nonneg h v hnn)

end

section
open IntHistogram

/-- The branch `EQ` lies in `[0, 1]`. -/
theorem estimate_EQ_bounds (h : IntHistogram) (v : Int) (hspan : 1 ≤ h.span)
    (hnn : ∀ x ∈ h.umap, 0 ≤ x) (hsum : h.umap.sum = h.ntups) (hn : 1 ≤ h.ntups) :
    0 ≤ h.estimate_EQ v ∧ h.estimate_EQ v ≤ 1 := by
  unfold estimate_EQ
  split_ifs
  · exact ⟨le_refl _, zero_le_one⟩
  · simp only
    have h0 := getD_nonneg_of_mem h.umap hnn (h.b_idx v).toNat
    have h1 := getD_add_range_sum_le h.umap hnn (h.b_idx v).toNat 0
    simp only [List.range'_zero, List.map_nil, List.sum_nil, add_zero] at h1
    rw [hsum] at h1
    have q0 : (0 : ℚ) ≤ (h.umap.getD (h.b_idx v).toNat 0 : ℚ) := by exact_mod_cast h0
    have q1 : (h.umap.getD (h.b_idx v).toNat 0 : ℚ) ≤ (h.ntups : ℚ) := by exact_mod_cast h1
    have qn : (1 : ℚ) ≤ (h.ntups : ℚ) := by exact_mod_cast hn
    have hs0 : (0 : ℚ) < h.span := by linarith
    have hn0 : (0 : ℚ) < (h.ntups : ℚ) := by linarith
    constructor
    · exact div_nonneg (div_nonneg q0 hs0.le) hn0.le
    · rw [div_le_one hn0, div_le_iff₀ hs0]
      nlinarith

/-- The branch `GT` lies in `[0, 1]`. -/
theorem estimate_GT_bounds (h : IntHistogram) (v : Int) (hspan : 1 ≤ h.span) (hB : 1 ≤ h.NumB)
    (hcover : (h.max_v : ℚ) - (h.min_v : ℚ) + 1 ≤ (h.NumB : ℚ) * h.span)
    (hnn : ∀ x ∈ h.umap, 0 ≤ x) (hsum : h.umap.sum = h.ntups) (hn : 1 ≤ h.ntups) :
    0 ≤ h.estimate_GT v ∧ h.estimate_GT v ≤ 1 := by
  unfold estimate_GT
  split_ifs with c1 c2
  · exact ⟨zero_le_one, le_refl _⟩
  · exact ⟨le_refl _, zero_le_one⟩
  · simp only
    have hs0 : (0 : ℚ) < h.span := by linarith
    obtain ⟨hb, hb0, hbN⟩ := b_idx_spec h v hs0 hB (by omega)
    have h0 := getD_nonneg_of_mem h.umap hnn (h.b_idx v).toNat
    have h1 := getD_add_range_sum_le h.umap hnn (h.b_idx v).toNat (h.NumB - (h.b_idx v + 1)).toNat
    have h2 := range_sum_nonneg h.umap hnn (h.NumB - (h.b_idx v + 1)).toNat ((h.b_idx v).toNat + 1)
    have et : (h.b_idx v + 1).toNat = (h.b_idx v).toNat + 1 := by omega
    unfold count_above
    rw [et]
    rw [hsum] at h1
    generalize ((List.range' ((h.b_idx v).toNat + 1) (h.NumB - (h.b_idx v + 1)).toNat).map
      fun i => h.umap.getD i 0).sum = cnt at h1 h2 ⊢
    generalize h.umap.getD (h.b_idx v).toNat 0 = ht at h0 h1 ⊢
    have qn : (0 : ℚ) < (h.ntups : ℚ) := by exact_mod_cast (show (0 : Int) < h.ntups by omega)
    -- the fraction of the bucket above v
    have hq : (0 : ℚ) ≤ ((v - h.min_v : Int) : ℚ) / h.span := by
      apply div_nonneg _ hs0.le
      exact_mod_cast (show (0 : Int) ≤ v - h.min_v by omega)
    have hfl : ((h.b_idx v : Int) : ℚ) ≤ ((v - h.min_v : Int) : ℚ) / h.span := by
      have : h.b_idx v ≤ ⌊((v - h.min_v : Int) : ℚ) / h.span⌋ := by
        rw [hb]; exact min_le_left _ _
      calc ((h.b_idx v : Int) : ℚ) ≤ ((⌊((v - h.min_v : Int) : ℚ) / h.span⌋ : Int) : ℚ) := by
            exact_mod_cast this
        _ ≤ _ := Int.floor_le _
    have hup : ((v - h.min_v : Int) : ℚ) / h.span ≤ ((h.b_idx v + 1 : Int) : ℚ) := by
      rcases le_total ⌊((v - h.min_v : Int) : ℚ) / h.span⌋ (h.NumB - 1) with c | c
      · rw [hb, min_eq_left c]
        push_cast
        exact (Int.lt_floor_add_one _).le
      · rw [hb, min_eq_right c, div_le_iff₀ hs0]
        have : ((v : Int) : ℚ) ≤ (h.max_v : ℚ) := by exact_mod_cast (show v ≤ h.max_v by omega)
        push_cast
        linarith
    have f0 : 0 ≤ ((h.min_v : ℚ) + ((h.b_idx v + 1 : Int) : ℚ) * h.span - (v : ℚ)) / h.span := by
      apply div_nonneg _ hs0.le
      rw [div_le_iff₀ hs0] at hup
      push_cast at hup ⊢
      linarith
    have f1 : ((h.min_v : ℚ) + ((h.b_idx v + 1 : Int) : ℚ) * h.span - (v : ℚ)) / h.span ≤ 1 := by
      rw [div_le_one hs0]
      rw [le_div_iff₀ hs0] at hfl
      push_cast at hfl ⊢
      linarith
    generalize ((h.min_v : ℚ) + ((h.b_idx v + 1 : Int) : ℚ) * h.span - (v : ℚ)) / h.span = fr
      at f0 f1 ⊢
    have c0 : (0 : ℚ) ≤ (cnt : ℚ) := by exact_mod_cast h2
    by_cases hfull : ht = h.ntups
    · have hc : cnt = 0 := by omega
      rw [hfull, Int.tdiv_self (by omega), hc]
      simp only [Int.cast_one, one_mul, Int.cast_zero, mul_zero, zero_div, add_zero]
      exact ⟨f0, f1⟩
    · have ht0 : Int.tdiv ht h.ntups = 0 := by
        rw [Int.tdiv_eq_ediv h0 (by omega)]
        exact Int.ediv_eq_zero_of_lt h0 (by omega)
      rw [ht0]
      simp only [Int.cast_zero, zero_mul, one_mul, zero_add]
      have c1 : (cnt : ℚ) ≤ (h.ntups : ℚ) := by exact_mod_cast (show cnt ≤ h.ntups by omega)
      exact ⟨div_nonneg c0 qn.le, (div_le_one qn).mpr c1⟩

end

section
open IntHistogram

/-- Every branch of `estimate_selectivity` lies in `[0, 1]` on a histogram whose
buckets cover the range, hold non-negative counts and add up to `ntups ≥ 1`. -/
theorem estimate_selectivity_bounds (h : IntHistogram) (op : PredicateType) (v : Int)
    (hspan : 1 ≤ h.span) (hB : 1 ≤ h.NumB)
    (hcover : (h.max_v : ℚ) - (h.min_v : ℚ) + 1 ≤ (h.NumB : ℚ) * h.span)
    (hnn : ∀ x ∈ h.umap, 0 ≤ x) (hsum : h.umap.sum = h.ntups) (hn : 1 ≤ h.ntups) :
    0 ≤ h.estimate_selectivity op v ∧ h.estimate_selectivity op v ≤ 1 := by
  have eq := estimate_EQ_bounds h v hspan hnn hsum hn
  have gt := estimate_GT_bounds h v hspan hB hcover hnn hsum hn
  have gt1 := estimate_GT_bounds h (v - 1) hspan hB hcover hnn hsum hn
  have ge : 0 ≤ h.estimate_GE v ∧ h.estimate_GE v ≤ 1 := by
    unfold estimate_GE
    split_ifs
    · exact ⟨zero_le_one, le_refl _⟩
    · exact ⟨le_refl _, zero_le_one⟩
    · exact gt1
  cases op with
  | EQ => exact eq
  | NE =>
    simp only [estimate_selectivity]
    constructor <;> linarith [eq.1, eq.2]
  | GT => exact gt
  | GE => exact ge
  | LT =>
    simp only [estimate_selectivity]
    split_ifs
    · exact ⟨le_refl _, zero_le_one⟩
    · exact ⟨zero_le_one, le_refl _⟩
    · constructor <;> linarith [ge.1, ge.2]
  | LE =>
    simp only [estimate_selectivity]
    split_ifs
    · exact ⟨le_refl _, zero_le_one⟩
    · exact ⟨zero_le_one, le_refl _⟩
    · constructor <;> linarith [gt.1, gt.2]

/-- The buckets of a constructed histogram cover `[min_v, max_v]`. -/
theorem new_cover (NumB lo hi : Int) (hB : 1 ≤ NumB) :
    (hi : ℚ) - (lo : ℚ) + 1 ≤ (NumB : ℚ) * (IntHistogram.new NumB lo hi).span := by
  have hb : (0 : ℚ) < (NumB : ℚ) := by exact_mod_cast (show (0 : Int) < NumB by omega)
  have h1 : (1 + (hi : ℚ) - (lo : ℚ)) / (NumB : ℚ) ≤ (IntHistogram.new NumB lo hi).span := by
    unfold IntHistogram.new
    exact le_max_right _ _
  rw [div_le_iff₀ hb] at h1
  linarith

/-- Selectivity bounds on the histogram built by the constructor and any
sequence of `add_value` calls, at least one of them on a value of the range. -/
theorem selectivity_bounds_spec (NumB lo hi : Int) (vals : List Int) (hB : 1 ≤ NumB)
    (hne : ∃ x ∈ vals, lo ≤ x ∧ x ≤ hi) (op : PredicateType) (v : Int) :
    0 ≤ (vals.foldl add_value (IntHistogram.new NumB lo hi)).estimate_selectivity op v ∧
    (vals.foldl add_value (IntHistogram.new NumB lo hi)).estimate_selectivity op v ≤ 1 := by
  obtain ⟨x0, hx0, hx1, hx2⟩ := hne
  obtain ⟨n1, n2, n3, n4, n5, n6⟩ := new_fields NumB lo hi
  obtain ⟨f1, f2, f3, f4, f5⟩ := foldl_add_value_fields vals (IntHistogram.new NumB lo hi)
  have hs1 := new_span_ge_one NumB lo hi
  obtain ⟨c1, c2⟩ := foldl_add_value_counts vals (IntHistogram.new NumB lo hi)
    (by linarith) (by rw [n3]; exact hB) (by rw [n5, n3])
  have hpos : 0 < (vals.filter fun v => decide ((IntHistogram.new NumB lo hi).min_v ≤ v ∧
      v ≤ (IntHistogram.new NumB lo hi).max_v)).length := by
    apply List.length_pos_of_mem (a := x0)
    rw [List.mem_filter]
    exact ⟨hx0, by rw [n1, n2]; simpa using ⟨hx1, hx2⟩⟩
  apply estimate_selectivity_bounds
  · rw [f1]; exact hs1
  · rw [f4, n3]; exact hB
  · rw [f1, f2, f3, f4, n1, n2, n3]; exact new_cover NumB lo hi hB
  · apply foldl_add_value_nonneg
    intro x hx
    simp only [IntHistogram.new] at hx
    rw [List.eq_of_mem_replicate hx]
  · rw [c1, c2, n4, n6]
  · rw [c1, n4]; omega

end

section
open TableStats JoinOptimizer

/-- The constant `DBL_MAX` is `2 ^ 1024 - 2 ^ 971`. -/
theorem DBL_MAX_eq : DBL_MAX = 2 ^ 1024 - 2 ^ 971 := by
  unfold DBL_MAX
  norm_num

/-- The fields that the constructor copies from its arguments, and the tuple
count. -/
theorem TableStats_new_fields (scan : List (List Int)) (io_cost_per_page : Int)
    (num_pages num_fields : Nat) :
    (TableStats.new scan io_cost_per_page num_pages num_fields).io_cost = io_cost_per_page ∧
    (TableStats.new scan io_cost_per_page num_pages num_fields).nump = (num_pages : Int) ∧
    (TableStats.new scan io_cost_per_page num_pages num_fields).numf = (num_fields : Int) ∧
    (TableStats.new scan io_cost_per_page num_pages num_fields).num_tups = (scan.length : Int) := by
  refine ⟨rfl, rfl, rfl, ?_⟩
  simp only [TableStats.new]
  have : ∀ (l : List (List Int)) (n : Int), l.foldl (fun n _ => n + 1) n = n + l.length := by
    intro l
    induction l with
    | nil => intro n; simp
    | cons a t ih => intro n; rw [List.foldl_cons, ih, List.length_cons]; push_cast; ring
  rw [this]
  simp

/-- Closed form of `estimate_scan_cost`. -/
theorem estimate_scan_cost_eq (ts : TableStats) :
    ts.estimate_scan_cost = 2 * (ts.io_cost : ℚ) * (ts.nump : ℚ) := by
  unfold estimate_scan_cost
  push_cast
  ring

theorem scan_cost_spec (scan : List (List Int)) (io_cost_per_page : Int)
    (num_pages num_fields : Nat) :
    (TableStats.new scan io_cost_per_page num_pages num_fields).estimate_scan_cost
      = 2 * (io_cost_per_page : ℚ) * (num_pages : ℚ) := by
  obtain ⟨h1, h2, _, _⟩ := TableStats_new_fields scan io_cost_per_page num_pages num_fields
  rw [estimate_scan_cost_eq, h1, h2]
  push_cast
  ring

theorem int_to_uint64_of_lt (z : Int) (h0 : 0 ≤ z) (h1 : z < 2 ^ 64) :
    (int_to_uint64 z : Int) = z := by
  unfold int_to_uint64
  rw [Int.emod_eq_of_lt h0 h1, Int.toNat_of_nonneg h0]

/-- On a selectivity of `[0, 1]` and a tuple count that fits an `int`,
`estimate_table_cardinality` is the floor of the product. -/
theorem table_cardinality_spec (ts : TableStats) (sel : ℚ) (h0 : 0 ≤ ts.num_tups)
    (h1 : ts.num_tups < 2 ^ 31) (hs0 : 0 ≤ sel) (hs1 : sel ≤ 1) :
    (ts.estimate_table_cardinality sel : Int) = estimate_table_cardinality_spec ts.num_tups sel ∧
    (ts.estimate_table_cardinality sel : Int) ≤ ts.num_tups := by
  have hn : (0 : ℚ) ≤ (ts.num_tups : ℚ) := by exact_mod_cast h0
  have hp : 0 ≤ sel * (ts.num_tups : ℚ) := mul_nonneg hs0 hn
  have hle : sel * (ts.num_tups : ℚ) ≤ (ts.num_tups : ℚ) := by nlinarith
  have hf0 : 0 ≤ ⌊sel * (ts.num_tups : ℚ)⌋ := Int.floor_nonneg.mpr hp
  have hf1 : ⌊sel * (ts.num_tups : ℚ)⌋ ≤ ts.num_tups := by
    have := Int.floor_le_floor hle
    rwa [Int.floor_intCast] at this
  unfold estimate_table_cardinality estimate_table_cardinality_spec
  simp only
  rw [to_int_of_nonneg _ hp, int_to_uint64_of_lt _ hf0 (by omega)]
  exact ⟨rfl, hf1⟩

theorem table_cardinality_one (ts : TableStats) (h0 : 0 ≤ ts.num_tups)
    (h1 : ts.num_tups < 2 ^ 31) : (ts.estimate_table_cardinality 1 : Int) = ts.num_tups := by
  rw [(table_cardinality_spec ts 1 h0 h1 zero_le_one (le_refl 1)).1]
  unfold estimate_table_cardinality_spec
  rw [one_mul, Int.floor_intCast]

theorem table_cardinality_zero (ts : TableStats) : ts.estimate_table_cardinality 0 = 0 := by
  unfold estimate_table_cardinality
  simp only [zero_mul, to_int_zero]
  rfl

/-- When the product of the cardinalities fits 64 bits, `estimate_join_cost` is
`s1 + c1 * s2 + c1 * c2`, which for `c1, c2 ≥ 1` and `s1, s2 ≥ 0` exceeds
`s1 + s2`. -/
theorem estimate_join_cost_in_range (j : LogicalJoinNode) (c1 c2 : Nat) (s1 s2 : ℚ)
    (hfit : c1 * c2 < 2 ^ 64) :
    estimate_join_cost j c1 c2 s1 s2 = estimate_join_cost_spec c1 c2 s1 s2 ∧
    (1 ≤ c1 → 1 ≤ c2 → 0 ≤ s1 → 0 ≤ s2 → s1 + s2 < estimate_join_cost j c1 c2 s1 s2) := by
  have e : estimate_join_cost j c1 c2 s1 s2 = estimate_join_cost_spec c1 c2 s1 s2 := by
    unfold estimate_join_cost estimate_join_cost_spec
    simp only
    rw [Nat.mod_eq_of_lt hfit]
    push_cast
    ring
  refine ⟨e, ?_⟩
  intro h1 h2 h3 h4
  rw [e]
  unfold estimate_join_cost_spec
  have q1 : (1 : ℚ) ≤ (c1 : ℚ) := by exact_mod_cast h1
  have q2 : (1 : ℚ) ≤ (c2 : ℚ) := by exact_mod_cast h2
  nlinarith [mul_nonneg (sub_nonneg.mpr q1) h4, mul_pos (lt_of_lt_of_le zero_lt_one q1)
    (lt_of_lt_of_le zero_lt_one q2)]

/-- At `c1 = c2 = 2 ^ 32` the product of the cardinalities wraps to 0. -/
theorem estimate_join_cost_wraps (j : LogicalJoinNode) (s1 s2 : ℚ) :
    estimate_join_cost j (2 ^ 32) (2 ^ 32) s1 s2 = s1 + 2 ^ 32 * s2 := by
  unfold estimate_join_cost
  norm_num

theorem uint64_to_int_of_lt (x : Nat) (h : x < 2 ^ 31) : uint64_to_int x = (x : Int) := by
  unfold uint64_to_int
  have : x % 2 ^ 32 = x := Nat.mod_eq_of_lt (by omega)
  rw [this, if_pos h]

/-- When the value the specification names fits an `int`,
`estimate_join_cardinality` returns it. -/
theorem join_cardinality_spec (j : LogicalJoinNode) (c1 c2 : Nat) (t1pkey t2pkey : Bool)
    (hfit : estimate_join_cardinality_spec j.op c1 c2 t1pkey t2pkey < 2 ^ 31) :
    estimate_join_cardinality j c1 c2 t1pkey t2pkey
      = estimate_join_cardinality_spec j.op c1 c2 t1pkey t2pkey ∧
    (j.op = PredicateType.EQ →
      estimate_join_cardinality j c1 c2 t1pkey t2pkey = (c1 : Int) ∨
      estimate_join_cardinality j c1 c2 t1pkey t2pkey = (c2 : Int)) := by
  unfold estimate_join_cardinality estimate_join_cardinality_spec at *
  by_cases hop : j.op = PredicateType.EQ
  · simp only [hop, if_true] at hfit ⊢
    by_cases h1 : t1pkey = true
    · simp only [h1, if_true] at hfit ⊢
      rw [uint64_to_int_of_lt c2 (by exact_mod_cast hfit)]
      exact ⟨rfl, fun _ => Or.inr rfl⟩
    · simp only [h1, if_false] at hfit ⊢
      by_cases h2 : t2pkey = true
      · simp only [h2, if_true] at hfit ⊢
        rw [uint64_to_int_of_lt c1 (by exact_mod_cast hfit)]
        exact ⟨rfl, fun _ => Or.inl rfl⟩
      · simp only [h2, if_false] at hfit ⊢
        have hm : max c1 c2 < 2 ^ 31 := by exact_mod_cast hfit
        by_cases h3 : c1 ≥ c2
        · rw [if_pos h3, uint64_to_int_of_lt c1 (lt_of_le_of_lt (le_max_left _ _) hm),
            max_eq_left h3]
          exact ⟨rfl, fun _ => Or.inl rfl⟩
        · rw [if_neg h3, uint64_to_int_of_lt c2 (lt_of_le_of_lt (le_max_right _ _) hm),
            max_eq_right (by omega)]
          exact ⟨rfl, fun _ => Or.inr rfl⟩
  · rw [if_neg hop, if_neg hop]
    refine ⟨?_, fun h => absurd h hop⟩
    apply to_int_of_nonneg
    positivity

end

section
open TableStats JoinOptimizer Example
set_option maxRecDepth 100000

unseal Rat.add Rat.mul Rat.sub Rat.inv in
theorem table_cardinality_example (ts : TableStats) :
    ({ ts with num_tups := 10200 } : TableStats).estimate_table_cardinality (3 / 10) = 3060 := by
  have h : int_to_uint64 (to_int ((3 / 10 : ℚ) * ((10200 : Int) : ℚ))) = 3060 := by decide
  exact h

unseal Rat.add Rat.mul Rat.sub Rat.inv in
theorem test_stats_eval :
    ((test_stats emp).estimate_table_cardinality (test_selectivities emp) = 5000 ∧
      (test_stats dept).estimate_table_cardinality (test_selectivities dept) = 1000 ∧
      (test_stats hobby).estimate_table_cardinality (test_selectivities hobby) = 1000 ∧
      (test_stats hobbies).estimate_table_cardinality (test_selectivities hobbies) = 100000) ∧
    ((test_stats emp).estimate_scan_cost = 39400 ∧ (test_stats dept).estimate_scan_cost = 600 ∧
      (test_stats hobby).estimate_scan_cost = 800 ∧
      (test_stats hobbies).estimate_scan_cost = 39400) := by
  decide

unseal Rat.add Rat.mul Rat.sub Rat.inv in
theorem order_joins_test_eval :
    order_joins test_joins test_stats test_selectivities = some
      [ { left_table := hobby, right_table := hobbies, left_field := 0, right_field := 1,
          op := PredicateType.EQ },
        { left_table := hobbies, right_table := emp, left_field := 0, right_field := 2,
          op := PredicateType.EQ },
        { left_table := emp, right_table := dept, left_field := 1, right_field := 0,
          op := PredicateType.EQ } ] := by
  decide

unseal Rat.add Rat.mul Rat.sub Rat.inv in
theorem order_joins_skew_eval :
    order_joins [join_ca, join_ad, join_cb] skew_stats (fun _ => 1)
      = some [join_ca, join_ad, join_cb] ∧
    (order_joins_rounds [join_ca, join_ad, join_cb] skew_stats (fun _ => 1) 3).map
        (fun st => st.1)
      = some { cost := 21, card := 2, plan := [join_ca, join_ad, join_cb] } ∧
    cross_product_free [] [join_ca, join_ad, join_cb] = true ∧
    ordering_cost skew_stats (fun _ => 1) none
        [(join_ca, false), (join_ad, false), (join_cb, false)]
      = some { cost := 21, card := 2, plan := [join_ca, join_ad, join_cb] } ∧
    cross_product_free [] [join_cb, join_ca, join_ad] = true ∧
    ordering_cost skew_stats (fun _ => 1) none
        [(join_cb, false), (join_ca, false), (join_ad, false)]
      = some { cost := 20, card := 2, plan := [join_cb, join_ca, join_ad] } := by
  decide

end

section

theorem uint_lt_strict : StrictTotal uint_lt where
  irrefl := by intro a; simp [uint_lt]
  trans := by
    intro a b c h1 h2
    simp only [uint_lt, decide_eq_true_eq] at *
    omega
  total := by
    intro a b h1 h2
    simp only [uint_lt, decide_eq_false_iff_not] at *
    omega

theorem tuple_lt_strict {α β : Type} (r : α → α → Bool) (s : β → β → Bool)
    (hr : StrictTotal r) (hs : StrictTotal s) : StrictTotal (tuple_lt r s) where
  irrefl := by
    intro a
    simp [tuple_lt, hr.irrefl, hs.irrefl]
  trans := by
    intro a b c h1 h2
    unfold tuple_lt at *
    by_cases ab : r a.1 b.1 = true
    · by_cases bc : r b.1 c.1 = true
      · rw [if_pos (hr.trans _ _ _ ab bc)]
      · rw [if_neg bc] at h2
        by_cases cb : r c.1 b.1 = true
        · rw [if_pos cb] at h2; exact absurd h2 (by simp)
        · have e : b.1 = c.1 := hr.total _ _ (by simpa using bc) (by simpa using cb)
          rw [← e, if_pos ab]
    · rw [if_neg ab] at h1
      by_cases ba : r b.1 a.1 = true
      · rw [if_pos ba] at h1; exact absurd h1 (by simp)
      · rw [if_neg ba] at h1
        have e : a.1 = b.1 := hr.total _ _ (by simpa using ab) (by simpa using ba)
        rw [e]
        by_cases bc : r b.1 c.1 = true
        · rw [if_pos bc]
        · rw [if_neg bc] at h2 ⊢
          by_cases cb : r c.1 b.1 = true
          · rw [if_pos cb] at h2; exact absurd h2 (by simp)
          · rw [if_neg cb] at h2 ⊢
            exact hs.trans _ _ _ h1 h2
  total := by
    intro a b h1 h2
    unfold tuple_lt at *
    by_cases ab : r a.1 b.1 = true
    · rw [if_pos ab] at h1; exact absurd h1 (by simp)
    · by_cases ba : r b.1 a.1 = true
      · rw [if_pos ba] at h2; exact absurd h2 (by simp)
      · rw [if_neg ab, if_neg ba] at h1
        rw [if_neg ba, if_neg ab] at h2
        have e1 : a.1 = b.1 := hr.total _ _ (by simpa using ab) (by simpa using ba)
        have e2 : a.2 = b.2 := hs.total _ _ h1 h2
        exact Prod.ext e1 e2

theorem lexicographical_compare_strict {α : Type} (lt : α → α → Bool) (h : StrictTotal lt) :
    StrictTotal (lexicographical_compare lt) where
  irrefl := by
    intro a
    induction a with
    | nil => rfl
    | cons x xs ih => simp [lexicographical_compare, h.irrefl, ih]
  trans := by
    intro a
    induction a with
    | nil =>
      intro b c h1 h2
      cases c with
      | nil => cases b <;> simp [lexicographical_compare] at h2
      | cons z zs => rfl
    | cons x xs ih =>
      intro b c h1 h2
      cases b with
      | nil => simp [lexicographical_compare] at h1
      | cons y ys =>
        cases c with
        | nil => simp [lexicographical_compare] at h2
        | cons z zs =>
          simp only [lexicographical_compare] at h1 h2 ⊢
          by_cases xy : lt x y = true
          · by_cases yz : lt y z = true
            · rw [if_pos (h.trans _ _ _ xy yz)]
            · rw [if_neg yz] at h2
              by_cases zy : lt z y = true
              · rw [if_pos zy] at h2; exact absurd h2 (by simp)
              · have e : y = z := h.total _ _ (by simpa using yz) (by simpa using zy)
                rw [← e, if_pos xy]
          · rw [if_neg xy] at h1
            by_cases yx : lt y x = true
            · rw [if_pos yx] at h1; exact absurd h1 (by simp)
            · rw [if_neg yx] at h1
              have e : x = y := h.total _ _ (by simpa using xy) (by simpa using yx)
              rw [e]
              by_cases yz : lt y z = true
              · rw [if_pos yz]
              · rw [if_neg yz] at h2 ⊢
                by_cases zy : lt z y = true
                · rw [if_pos zy] at h2; exact absurd h2 (by simp)
                · rw [if_neg zy] at h2 ⊢
                  exact ih _ _ h1 h2
  total := by
    intro a
    induction a with
    | nil =>
      intro b h1 h2
      cases b with
      | nil => rfl
      | cons y ys => simp [lexicographical_compare] at h1
    | cons x xs ih =>
      intro b h1 h2
      cases b with
      | nil => simp [lexicographical_compare] at h2
      | cons y ys =>
        simp only [lexicographical_compare] at h1 h2
        by_cases xy : lt x y = true
        · rw [if_pos xy] at h1; exact absurd h1 (by simp)
        · by_cases yx : lt y x = true
          · rw [if_pos yx] at h2; exact absurd h2 (by simp)
          · rw [if_neg xy, if_neg yx] at h1
            rw [if_neg yx, if_neg xy] at h2
            have e1 : x = y := h.total _ _ (by simpa using xy) (by simpa using yx)
            rw [e1, ih ys h1 h2]

theorem string_lt_strict : StrictTotal string_lt :=
  lexicographical_compare_strict uint_lt uint_lt_strict

/-- The comparison of the tuples `std::tie(...)` of two join nodes is a strict
total order. -/
theorem tie_lt_strict :
    StrictTotal (tuple_lt string_lt (tuple_lt string_lt (tuple_lt uint_lt uint_lt))) :=
  tuple_lt_strict _ _ string_lt_strict
    (tuple_lt_strict _ _ string_lt_strict (tuple_lt_strict _ _ uint_lt_strict uint_lt_strict))

theorem lexicographical_compare_map {α κ : Type} (klt : κ → κ → Bool) (key : α → κ)
    (a b : List α) :
    lexicographical_compare (fun x y => klt (key x) (key y)) a b
      = lexicographical_compare klt (a.map key) (b.map key) := by
  induction a generalizing b with
  | nil => cases b <;> rfl
  | cons x xs ih =>
    cases b with
    | nil => rfl
    | cons y ys => simp only [lexicographical_compare, List.map_cons, ih]

theorem JoinSet_lt_eq (a b : JoinSet) :
    JoinSet.lt a b
      = lexicographical_compare (tuple_lt string_lt (tuple_lt string_lt (tuple_lt uint_lt uint_lt)))
          (a.map LogicalJoinNode.tie) (b.map LogicalJoinNode.tie) :=
  lexicographical_compare_map _ LogicalJoinNode.tie a b

end

section
variable {α κ : Type} (lt : α → α → Bool) (klt : κ → κ → Bool) (key : α → κ)

theorem keyed_irrefl (hk : StrictTotal klt) (hlt : ∀ a b, lt a b = klt (key a) (key b)) (a b : α)
    (h : key a = key b) : lt a b = false := by
  rw [hlt, h, hk.irrefl]

theorem keyed_comparable (hk : StrictTotal klt) (hlt : ∀ a b, lt a b = klt (key a) (key b))
    (a b : α) (h : key a ≠ key b) : lt a b = true ∨ lt b a = true := by
  by_cases h1 : lt a b = true
  · exact Or.inl h1
  · by_cases h2 : lt b a = true
    · exact Or.inr h2
    · exfalso
      apply h
      apply hk.total
      · rw [← hlt]; simpa using h1
      · rw [← hlt]; simpa using h2

theorem keyed_trans (hk : StrictTotal klt) (hlt : ∀ a b, lt a b = klt (key a) (key b))
    (a b c : α) (h1 : lt a b = true) (h2 : lt b c = true) : lt a c = true := by
  rw [hlt] at *
  exact hk.trans _ _ _ h1 h2

theorem keyed_asymm (hk : StrictTotal klt) (hlt : ∀ a b, lt a b = klt (key a) (key b))
    (a b : α) (h1 : lt a b = true) : lt b a = false := by
  by_contra h2
  have h3 := keyed_trans lt klt key hk hlt a b a h1 (by simpa using h2)
  rw [keyed_irrefl lt klt key hk hlt a a rfl] at h3
  exact absurd h3 (by simp)

theorem keyed_ne (hk : StrictTotal klt) (hlt : ∀ a b, lt a b = klt (key a) (key b))
    (a b : α) (h1 : lt a b = true) : key a ≠ key b := by
  intro h
  rw [keyed_irrefl lt klt key hk hlt a b h] at h1
  exact absurd h1 (by simp)

theorem set_insert_subset (l : List α) (x y : α) (h : y ∈ set_insert lt l x) :
    y ∈ l ∨ y = x := by
  induction l with
  | nil =>
    simp only [set_insert, List.mem_singleton] at h
    exact Or.inr h
  | cons z zs ih =>
    simp only [set_insert] at h
    split_ifs at h
    · rcases List.mem_cons.mp h with h | h
      · exact Or.inr h
      · exact Or.inl h
    · rcases List.mem_cons.mp h with h | h
      · exact Or.inl (h ▸ List.mem_cons_self _ _)
      · rcases ih h with h | h
        · exact Or.inl (List.mem_cons_of_mem _ h)
        · exact Or.inr h
    · exact Or.inl h

theorem subset_set_insert (l : List α) (x y : α) (h : y ∈ l) : y ∈ set_insert lt l x := by
  induction l with
  | nil => simp at h
  | cons z zs ih =>
    simp only [set_insert]
    split_ifs
    · exact List.mem_cons_of_mem _ h
    · rcases List.mem_cons.mp h with h | h
      · exact h ▸ List.mem_cons_self _ _
      · exact List.mem_cons_of_mem _ (ih h)
    · exact h

/-- Inserting an element whose key is new adds it. -/
theorem set_insert_new (hk : StrictTotal klt) (hlt : ∀ a b, lt a b = klt (key a) (key b))
    (l : List α) (x : α) (hc : ∀ z ∈ l, key z ≠ key x) :
    x ∈ set_insert lt l x ∧ (set_insert lt l x).length = l.length + 1 := by
  induction l with
  | nil => simp [set_insert]
  | cons z zs ih =>
    have hz : key z ≠ key x := hc z (List.mem_cons_self _ _)
    obtain ⟨i1, i2⟩ := ih fun w hw => hc w (List.mem_cons_of_mem _ hw)
    simp only [set_insert]
    split_ifs with h1 h2
    · exact ⟨List.mem_cons_self _ _, rfl⟩
    · exact ⟨List.mem_cons_of_mem _ i1, by simp [i2]⟩
    · exfalso
      rcases keyed_comparable lt klt key hk hlt z x hz with h | h
      · exact h2 h
      · exact h1 h

theorem mem_set_insert (hk : StrictTotal klt) (hlt : ∀ a b, lt a b = klt (key a) (key b))
    (l : List α) (x y : α) (hc : ∀ z ∈ l, key z ≠ key x) :
    y ∈ set_insert lt l x ↔ y ∈ l ∨ y = x := by
  constructor
  · exact set_insert_subset lt l x y
  · rintro (h | h)
    · exact subset_set_insert lt l x y h
    · rw [h]; exact (set_insert_new lt klt key hk hlt l x hc).1

/-- Insertion keeps the list ascending. -/
theorem set_insert_sorted (hk : StrictTotal klt) (hlt : ∀ a b, lt a b = klt (key a) (key b))
    (l : List α) (x : α) (hs : l.Pairwise fun a b => lt a b = true) :
    (set_insert lt l x).Pairwise fun a b => lt a b = true := by
  induction l with
  | nil => simp [set_insert]
  | cons z zs ih =>
    obtain ⟨hz, hzs⟩ := List.pairwise_cons.mp hs
    simp only [set_insert]
    split_ifs with h1 h2
    · apply List.pairwise_cons.mpr
      refine ⟨?_, hs⟩
      intro w hw
      rcases List.mem_cons.mp hw with hw | hw
      · rw [hw]; exact h1
      · exact keyed_trans lt klt key hk hlt x z w h1 (hz w hw)
    · apply List.pairwise_cons.mpr
      refine ⟨?_, ih hzs⟩
      intro w hw
      rcases set_insert_subset lt zs x w hw with hw | hw
      · exact hz w hw
      · rw [hw]; exact h2
    · exact hs

/-- An ascending list has no two elements with the same key. -/
theorem sorted_keys_nodup (hk : StrictTotal klt) (hlt : ∀ a b, lt a b = klt (key a) (key b))
    (l : List α) (hs : l.Pairwise fun a b => lt a b = true) :
    l.Pairwise fun a b => key a ≠ key b :=
  hs.imp fun {a b} h => keyed_ne lt klt key hk hlt a b h

/-- Two ascending lists with the same elements are equal. -/
theorem sorted_ext (hk : StrictTotal klt) (hlt : ∀ a b, lt a b = klt (key a) (key b))
    (l1 l2 : List α) (h1 : l1.Pairwise fun a b => lt a b = true)
    (h2 : l2.Pairwise fun a b => lt a b = true) (hm : ∀ y, y ∈ l1 ↔ y ∈ l2) : l1 = l2 := by
  induction l1 generalizing l2 with
  | nil =>
    cases l2 with
    | nil => rfl
    | cons b bs => exact absurd ((hm b).mpr (List.mem_cons_self _ _)) (by simp)
  | cons a as ih =>
    cases l2 with
    | nil => exact absurd ((hm a).mp (List.mem_cons_self _ _)) (by simp)
    | cons b bs =>
      obtain ⟨ha, has⟩ := List.pairwise_cons.mp h1
      obtain ⟨hb, hbs⟩ := List.pairwise_cons.mp h2
      have hab : a = b := by
        rcases List.mem_cons.mp ((hm a).mp (List.mem_cons_self _ _)) with h | h
        · exact h
        · rcases List.mem_cons.mp ((hm b).mpr (List.mem_cons_self _ _)) with h' | h'
          · exact h'.symm
          · have x1 := hb a h
            have x2 := ha b h'
            rw [keyed_asymm lt klt key hk hlt b a x1] at x2
            exact absurd x2 (by simp)
      subst hab
      congr 1
      apply ih bs has hbs
      intro y
      constructor
      · intro hy
        rcases List.mem_cons.mp ((hm y).mp (List.mem_cons_of_mem _ hy)) with h | h
        · have := ha y hy
          rw [h, keyed_irrefl lt klt key hk hlt a a rfl] at this
          exact absurd this (by simp)
        · exact h
      · intro hy
        rcases List.mem_cons.mp ((hm y).mpr (List.mem_cons_of_mem _ hy)) with h | h
        · have := hb y hy
          rw [h, keyed_irrefl lt klt key hk hlt a a rfl] at this
          exact absurd this (by simp)
        · exact h

/-- Member `erase` removes the elements with the key of `x`. -/
theorem set_erase_eq (hk : StrictTotal klt) (hlt : ∀ a b, lt a b = klt (key a) (key b))
    (l : List α) (x : α) [DecidableEq κ] :
    set_erase lt l x = l.filter fun y => decide (key y ≠ key x) := by
  unfold set_erase
  apply List.filter_congr
  intro y _
  by_cases h : key y = key x
  · rw [keyed_irrefl lt klt key hk hlt x y h.symm, keyed_irrefl lt klt key hk hlt y x h]
    simp [h]
  · have := keyed_comparable lt klt key hk hlt y x h
    simp only [ne_eq, h, not_false_eq_true, decide_True, Bool.or_eq_true]
    tauto

end

section
open JoinOptimizer

theorem step_cons_some (b : Bool) (rest r : List Bool) (h : next_permutation_step rest = some r) :
    next_permutation_step (b :: rest) = some (b :: r) := by
  simp only [next_permutation_step, h]

theorem step_cons_none (b : Bool) (rest : List Bool) (h : next_permutation_step rest = none)
    (hb : ∀ c, rest.head? = some c → (!b && c) = false) :
    next_permutation_step (b :: rest) = none := by
  simp only [next_permutation_step, h]
  cases rest with
  | nil => rfl
  | cons c cs =>
    simp only
    rw [if_neg]
    simp [hb c rfl]

theorem step_replicate_false (q : Nat) : next_permutation_step (List.replicate q false) = none := by
  induction q with
  | zero => rfl
  | succ q ih =>
    rw [List.replicate_succ]
    apply step_cons_none _ _ ih
    intro c hc
    cases q with
    | zero => simp at hc
    | succ q =>
      simp only [List.replicate_succ, List.head?_cons, Option.some.injEq] at hc
      subst hc
      rfl

/-- A non-increasing bit vector is the last permutation. -/
theorem step_last (k q : Nat) :
    next_permutation_step (List.replicate k true ++ List.replicate q false) = none := by
  induction k with
  | zero => simpa using step_replicate_false q
  | succ k ih =>
    rw [List.replicate_succ, List.cons_append]
    apply step_cons_none _ _ ih
    intro c _
    rfl

theorem findIdx_replicate_false_append (p : Bool → Bool) (hf : p false = false)
    (ht : p true = true) (q : Nat) (l : List Bool) :
    (List.replicate q false ++ true :: l).findIdx p = q := by
  induction q with
  | zero => simp [List.findIdx_cons, ht]
  | succ q ih =>
    rw [List.replicate_succ, List.cons_append, List.findIdx_cons, hf, ih]
    rfl

/-- The step from the last bit vector that starts with `false` to the first one
that starts with `true`. -/
theorem step_boundary (k q : Nat) :
    next_permutation_step (false :: (List.replicate (k + 1) true ++ List.replicate q false))
      = some (true :: (List.replicate (q + 1) false ++ List.replicate k true)) := by
  have hrest := step_last (k + 1) q
  have hrev : (List.replicate (k + 1) true ++ List.replicate q false).reverse
      = List.replicate q false ++ true :: List.replicate k true := by
    rw [List.reverse_append, List.reverse_replicate, List.reverse_replicate,
      List.replicate_succ]
  have hidx : (List.replicate (k + 1) true ++ List.replicate q false).length - 1
      - (List.replicate (k + 1) true ++ List.replicate q false).reverse.findIdx
          (fun x => !false && x) = k := by
    rw [hrev, findIdx_replicate_false_append _ rfl rfl]
    simp
  have hget : (List.replicate (k + 1) true ++ List.replicate q false).getD k false = true := by
    rw [List.getD_eq_getElem?_getD, List.getElem?_append_left (by simp)]
    simp
  have hset : ((List.replicate (k + 1) true ++ List.replicate q false).set k false).reverse
      = List.replicate (q + 1) false ++ List.replicate k true := by
    have e : List.replicate (k + 1) true ++ List.replicate q false
        = List.replicate k true ++ true :: List.replicate q false := by
      rw [List.replicate_succ', List.append_assoc]
      rfl
    rw [e, List.set_append_right _ _ (by simp)]
    simp only [List.length_replicate, Nat.sub_self, List.set_cons_zero, List.reverse_append,
      List.reverse_cons, List.reverse_replicate]
    rw [List.replicate_succ']
  generalize hR : List.replicate (k + 1) true ++ List.replicate q false = R at *
  have hhead : ∃ cs, R = true :: cs := by
    rw [← hR, List.replicate_succ, List.cons_append]
    exact ⟨_, rfl⟩
  obtain ⟨cs, hcs⟩ := hhead
  have : next_permutation_step (false :: R)
      = some (R.getD (R.length - 1 - R.reverse.findIdx fun x => !false && x) false ::
          (R.set (R.length - 1 - R.reverse.findIdx fun x => !false && x) false).reverse) := by
    simp only [next_permutation_step, hrest]
    rw [hcs]
    rfl
  rw [this, hidx, hget, hset]

end

section
open JoinOptimizer

theorem bit_vectors_nil (n k : Nat) (h : n < k) : bit_vectors n k = [] := by
  induction n generalizing k with
  | zero =>
    cases k with
    | zero => omega
    | succ k => rfl
  | succ n ih =>
    cases k with
    | zero => omega
    | succ k =>
      simp only [bit_vectors, ih (k + 1) (by omega), ih k (by omega), List.map_nil,
        List.append_nil]

theorem bit_vectors_head (n k : Nat) (h : k ≤ n) :
    (bit_vectors n k).head? = some (List.replicate (n - k) false ++ List.replicate k true) := by
  induction n generalizing k with
  | zero =>
    have : k = 0 := by omega
    subst this
    rfl
  | succ n ih =>
    cases k with
    | zero =>
      simp only [bit_vectors, List.head?_map, ih 0 (by omega)]
      simp [List.replicate_succ]
    | succ k =>
      simp only [bit_vectors, List.head?_append, List.head?_map]
      by_cases hk : k + 1 ≤ n
      · rw [ih (k + 1) hk]
        have : n + 1 - (k + 1) = (n - (k + 1)) + 1 := by omega
        simp [this, List.replicate_succ]
      · have e : k = n := by omega
        subst e
        rw [bit_vectors_nil k (k + 1) (by omega), ih k (le_refl k)]
        simp [List.replicate_succ]

theorem bit_vectors_last (n k : Nat) (h : k ≤ n) :
    (bit_vectors n k).getLast? = some (List.replicate k true ++ List.replicate (n - k) false) := by
  induction n generalizing k with
  | zero =>
    have : k = 0 := by omega
    subst this
    rfl
  | succ n ih =>
    cases k with
    | zero =>
      simp only [bit_vectors, List.getLast?_map, ih 0 (by omega)]
      simp [List.replicate_succ]
    | succ k =>
      simp only [bit_vectors, List.getLast?_append, List.getLast?_map]
      rw [ih k (by omega)]
      have : n + 1 - (k + 1) = n - k := by omega
      simp [this, List.replicate_succ]

/-- Each bit vector of the enumeration is followed by its next permutation. -/
theorem bit_vectors_chain (n k : Nat) :
    List.Chain' (fun x y => next_permutation_step x = some y) (bit_vectors n k) := by
  induction n generalizing k with
  | zero => cases k <;> simp [bit_vectors]
  | succ n ih =>
    cases k with
    | zero =>
      simp only [bit_vectors]
      rw [List.chain'_map]
      exact (ih 0).imp fun {a b} hab => step_cons_some false a b hab
    | succ k =>
      simp only [bit_vectors]
      rw [List.chain'_append]
      refine ⟨?_, ?_, ?_⟩
      · rw [List.chain'_map]
        exact (ih (k + 1)).imp fun {a b} hab => step_cons_some false a b hab
      · rw [List.chain'_map]
        exact (ih k).imp fun {a b} hab => step_cons_some true a b hab
      · intro x hx y hy
        by_cases hk : k + 1 ≤ n
        · rw [List.getLast?_map, bit_vectors_last n (k + 1) hk] at hx
          rw [List.head?_map, bit_vectors_head n k (by omega)] at hy
          simp only [Option.map_some', Option.mem_def, Option.some.injEq] at hx hy
          subst hx
          subst hy
          have := step_boundary k (n - (k + 1))
          rw [this]
          have e : n - (k + 1) + 1 = n - k := by omega
          rw [e]
        · rw [bit_vectors_nil n (k + 1) (by omega)] at hx
          simp at hx

/-- The last bit vector of the enumeration has no next permutation. -/
theorem bit_vectors_last_step (n k : Nat) (x : List Bool)
    (hx : (bit_vectors n k).getLast? = some x) : next_permutation_step x = none := by
  by_cases h : k ≤ n
  · rw [bit_vectors_last n k h] at hx
    simp only [Option.some.injEq] at hx
    rw [← hx]
    exact step_last k (n - k)
  · rw [bit_vectors_nil n k (by omega)] at hx
    simp at hx

theorem mem_bit_vectors (n k : Nat) (b : List Bool) :
    b ∈ bit_vectors n k ↔ b.length = n ∧ b.count true = k := by
  induction n generalizing k b with
  | zero =>
    cases k with
    | zero =>
      simp only [bit_vectors, List.mem_singleton, List.length_eq_zero]
      constructor
      · rintro rfl; exact ⟨rfl, rfl⟩
      · rintro ⟨h, _⟩; exact h
    | succ k =>
      simp only [bit_vectors, List.not_mem_nil, List.length_eq_zero, false_iff, not_and]
      rintro rfl
      simp
  | succ n ih =>
    cases k with
    | zero =>
      simp only [bit_vectors, List.mem_map, ih]
      constructor
      · rintro ⟨a, ⟨h1, h2⟩, rfl⟩
        simp [h1, h2]
      · rintro ⟨h1, h2⟩
        cases b with
        | nil => simp at h1
        | cons c cs =>
          cases c with
          | true => simp at h2
          | false =>
            refine ⟨cs, ⟨by simpa using h1, by simpa using h2⟩, rfl⟩
    | succ k =>
      simp only [bit_vectors, List.mem_append, List.mem_map, ih]
      constructor
      · rintro (⟨a, ⟨h1, h2⟩, rfl⟩ | ⟨a, ⟨h1, h2⟩, rfl⟩)
        · simp [h1, h2]
        · simp [h1, h2]
      · rintro ⟨h1, h2⟩
        cases b with
        | nil => simp at h1
        | cons c cs =>
          cases c with
          | true =>
            right
            refine ⟨cs, ⟨by simpa using h1, by simpa using h2⟩, rfl⟩
          | false =>
            left
            refine ⟨cs, ⟨by simpa using h1, by simpa using h2⟩, rfl⟩

theorem bit_vectors_length (n k : Nat) : (bit_vectors n k).length = n.choose k := by
  induction n generalizing k with
  | zero => cases k <;> simp [bit_vectors]
  | succ n ih =>
    cases k with
    | zero => simp [bit_vectors, ih]
    | succ k =>
      simp only [bit_vectors, List.length_append, List.length_map, ih, Nat.choose_succ_succ,
        Nat.succ_eq_add_one]
      omega

theorem bit_vectors_nodup (n k : Nat) : (bit_vectors n k).Nodup := by
  induction n generalizing k with
  | zero => cases k <;> simp [bit_vectors]
  | succ n ih =>
    have hinj : ∀ c : Bool, Function.Injective fun b : List Bool => c :: b := by
      intro c a b h
      simpa using h
    cases k with
    | zero =>
      simp only [bit_vectors]
      exact (ih 0).map (hinj false)
    | succ k =>
      simp only [bit_vectors]
      apply List.Nodup.append ((ih (k + 1)).map (hinj false)) ((ih k).map (hinj true))
      intro x h1 h2
      obtain ⟨a, _, rfl⟩ := List.mem_map.mp h1
      obtain ⟨b, _, hb⟩ := List.mem_map.mp h2
      simp at hb

end

section
open JoinOptimizer

theorem choose_le_two_pow (n k : Nat) : n.choose k ≤ 2 ^ n := by
  induction n generalizing k with
  | zero => cases k <;> simp
  | succ n ih =>
    cases k with
    | zero => simp [Nat.one_le_two_pow]
    | succ k =>
      rw [Nat.choose_succ_succ, pow_succ, Nat.succ_eq_add_one]
      have := ih k
      have := ih (k + 1)
      omega

theorem enumerate_loop_chain (v : List LogicalJoinNode) (bs : List (List Bool)) (b : List Bool)
    (res : List JoinSet) (fuel : Nat)
    (hc : List.Chain (fun x y => next_permutation_step x = some y) b bs)
    (hl : ∀ x, (b :: bs).getLast? = some x → next_permutation_step x = none)
    (hf : bs.length < fuel) :
    enumerate_loop v fuel b res
      = some ((b :: bs).foldl (fun r x => set_insert JoinSet.lt r (select_subset v x)) res) := by
  induction bs generalizing b res fuel with
  | nil =>
    cases fuel with
    | zero => simp at hf
    | succ f =>
      have h := hl b rfl
      simp only [enumerate_loop, next_permutation, h, List.foldl_cons, List.foldl_nil]
  | cons c cs ih =>
    cases fuel with
    | zero => simp at hf
    | succ f =>
      obtain ⟨h1, h2⟩ := List.chain_cons.mp hc
      simp only [enumerate_loop, next_permutation, h1, List.foldl_cons]
      rw [ih c _ f h2 _ (by simpa using hf)]
      · rfl
      · intro x hx
        apply hl x
        rw [List.getLast?_cons_cons]
        exact hx

/-- Function `enumerate_subsets` returns: the loop visits the bit vectors with
`size` ones in lexicographic order and inserts the subset of each. -/
theorem enumerate_subsets_eq (v : List LogicalJoinNode) (size : Nat) (h : size ≤ v.length) :
    enumerate_subsets v size
      = some ((bit_vectors v.length size).foldl
          (fun r x => set_insert JoinSet.lt r (select_subset v x)) []) := by
  unfold enumerate_subsets
  rw [if_neg (by omega)]
  have hh := bit_vectors_head v.length size h
  have hch := bit_vectors_chain v.length size
  have hlen := bit_vectors_length v.length size
  have hlast := bit_vectors_last_step v.length size
  cases hbv : bit_vectors v.length size with
  | nil => rw [hbv] at hh; simp at hh
  | cons b bs =>
    rw [hbv] at hh hch hlen hlast
    simp only [List.head?_cons, Option.some.injEq] at hh
    rw [← hh]
    apply enumerate_loop_chain v bs b [] _ hch hlast
    have := choose_le_two_pow v.length size
    simp only [List.length_cons] at hlen
    omega

end

section
variable {α κ : Type} (lt : α → α → Bool) (klt : κ → κ → Bool) (key : α → κ)

/-- Inserting elements with pairwise distinct new keys, one after the other:
the result is ascending and holds them all. -/
theorem foldl_set_insert_spec (hk : StrictTotal klt)
    (hlt : ∀ a b, lt a b = klt (key a) (key b)) (xs acc : List α)
    (hx : xs.Pairwise fun a b => key a ≠ key b)
    (hacc : acc.Pairwise fun a b => lt a b = true)
    (hd : ∀ a ∈ acc, ∀ x ∈ xs, key a ≠ key x) :
    (xs.foldl (set_insert lt) acc).Pairwise (fun a b => lt a b = true) ∧
    (∀ y, y ∈ xs.foldl (set_insert lt) acc ↔ y ∈ acc ∨ y ∈ xs) ∧
    (xs.foldl (set_insert lt) acc).length = acc.length + xs.length := by
  induction xs generalizing acc with
  | nil => simp [hacc]
  | cons x xs ih =>
    obtain ⟨hx1, hx2⟩ := List.pairwise_cons.mp hx
    have hc : ∀ z ∈ acc, key z ≠ key x := fun z hz => hd z hz x (List.mem_cons_self _ _)
    have hm := mem_set_insert lt klt key hk hlt acc x
    obtain ⟨i1, i2, i3⟩ := ih (set_insert lt acc x) hx2
      (set_insert_sorted lt klt key hk hlt acc x hacc)
      (by
        intro a ha y hy
        rcases (hm a hc).mp ha with h | h
        · exact hd a h y (List.mem_cons_of_mem _ hy)
        · rw [h]; exact hx1 y hy)
    rw [List.foldl_cons]
    refine ⟨i1, ?_, ?_⟩
    · intro y
      rw [i2 y, hm y hc, List.mem_cons]
      tauto
    · rw [i3, (set_insert_new lt klt key hk hlt acc x hc).2, List.length_cons]
      omega

end

section
open JoinOptimizer

/-- The subset of `v` that a bit vector selects, as the list of the selected
elements inserted one after the other. -/
theorem select_subset_eq (v : List LogicalJoinNode) (b : List Bool) :
    select_subset v b
      = (((v.zip b).filter fun p => p.2).map fun p => p.1).foldl
          (set_insert LogicalJoinNode.lt) [] := by
  unfold select_subset
  generalize ([] : JoinSet) = acc
  generalize v.zip b = z
  induction z generalizing acc with
  | nil => rfl
  | cons p ps ih =>
    rw [List.foldl_cons, ih]
    by_cases hp : p.2 = true
    · simp [hp, List.filter_cons]
    · simp [hp, List.filter_cons]

theorem selected_sublist (v : List LogicalJoinNode) (b : List Bool) :
    List.Sublist (((v.zip b).filter fun p => p.2).map fun p => p.1) v := by
  induction v generalizing b with
  | nil => simp
  | cons x xs ih =>
    cases b with
    | nil => simp
    | cons c cs =>
      cases c with
      | true =>
        simp only [List.zip_cons_cons, List.filter_cons_of_pos, List.map_cons]
        exact (ih cs).cons₂ x
      | false =>
        simp only [List.zip_cons_cons, Bool.false_eq_true, not_false_eq_true,
          List.filter_cons_of_neg]
        exact (ih cs).cons x

theorem selected_length (v : List LogicalJoinNode) (b : List Bool) (h : b.length = v.length) :
    (((v.zip b).filter fun p => p.2).map fun p => p.1).length = b.count true := by
  induction v generalizing b with
  | nil =>
    cases b with
    | nil => rfl
    | cons c cs => simp at h
  | cons x xs ih =>
    cases b with
    | nil => simp at h
    | cons c cs =>
      have := ih cs (by simpa using h)
      cases c with
      | true => simp [List.filter_cons] at this ⊢; exact this
      | false => simp [List.filter_cons] at this ⊢; exact this

/-- The set selected by a bit vector from pairwise distinct joins: it is
ascending, it holds the selected joins, and as many as the vector has ones. -/
theorem select_subset_spec (v : List LogicalJoinNode) (b : List Bool)
    (hv : v.Pairwise fun a b => a.tie ≠ b.tie) :
    (select_subset v b).Pairwise (fun a b => LogicalJoinNode.lt a b = true) ∧
    (∀ y, y ∈ select_subset v b ↔ (y, true) ∈ v.zip b) ∧
    (b.length = v.length → (select_subset v b).length = b.count true) := by
  have hsub := selected_sublist v b
  obtain ⟨h1, h2, h3⟩ := foldl_set_insert_spec LogicalJoinNode.lt _ LogicalJoinNode.tie
    tie_lt_strict (fun _ _ => rfl) (((v.zip b).filter fun p => p.2).map fun p => p.1) []
    (hv.sublist hsub) List.Pairwise.nil (by simp)
  rw [select_subset_eq]
  refine ⟨h1, ?_, ?_⟩
  · intro y
    rw [h2 y]
    simp only [List.not_mem_nil, false_or, List.mem_map, List.mem_filter]
    constructor
    · rintro ⟨⟨a, c⟩, ⟨hm, hc⟩, rfl⟩
      simp only at hc
      rw [hc] at hm
      exact hm
    · intro hm
      exact ⟨(y, true), ⟨hm, rfl⟩, rfl⟩
  · intro hl
    rw [h3, selected_length v b hl]
    simp

end

section
open JoinOptimizer

theorem tie_inj_on (v : List LogicalJoinNode) (hv : v.Pairwise fun a b => a.tie ≠ b.tie)
    (x y : LogicalJoinNode) (hx : x ∈ v) (hy : y ∈ v) (h : x.tie = y.tie) : x = y := by
  by_contra hne
  exact (hv.forall (fun a b hab => fun e => hab e.symm) hx hy hne) h

theorem nodup_of_tie_distinct (v : List LogicalJoinNode)
    (hv : v.Pairwise fun a b => a.tie ≠ b.tie) : v.Nodup :=
  hv.imp fun {a b} h => fun e => h (by rw [e])

theorem map_tie_inj (v : List LogicalJoinNode) (hv : v.Pairwise fun a b => a.tie ≠ b.tie)
    (s1 s2 : List LogicalJoinNode) (h1 : ∀ x ∈ s1, x ∈ v) (h2 : ∀ x ∈ s2, x ∈ v)
    (h : s1.map LogicalJoinNode.tie = s2.map LogicalJoinNode.tie) : s1 = s2 := by
  induction s1 generalizing s2 with
  | nil =>
    cases s2 with
    | nil => rfl
    | cons b bs => simp at h
  | cons a as ih =>
    cases s2 with
    | nil => simp at h
    | cons b bs =>
      simp only [List.map_cons, List.cons.injEq] at h
      have e := tie_inj_on v hv a b (h1 a (List.mem_cons_self _ _)) (h2 b (List.mem_cons_self _ _))
        h.1
      rw [e, ih bs (fun x hx => h1 x (List.mem_cons_of_mem _ hx))
        (fun x hx => h2 x (List.mem_cons_of_mem _ hx)) h.2]

theorem mem_zip_left {β γ : Type} (l : List β) (m : List γ) (x : β) (c : γ)
    (h : (x, c) ∈ l.zip m) : x ∈ l := by
  induction l generalizing m with
  | nil => simp at h
  | cons a as ih =>
    cases m with
    | nil => simp at h
    | cons d ds =>
      simp only [List.zip_cons_cons, List.mem_cons, Prod.mk.injEq] at h
      rcases h with h | h
      · rw [h.1]; exact List.mem_cons_self _ _
      · exact List.mem_cons_of_mem _ (ih ds h)

/-- Two bit vectors that select the same joins are equal. -/
theorem zip_true_inj (v : List LogicalJoinNode) (hv : v.Nodup) (b b' : List Bool)
    (hb : b.length = v.length) (hb' : b'.length = v.length)
    (h : ∀ y, (y, true) ∈ v.zip b ↔ (y, true) ∈ v.zip b') : b = b' := by
  induction v generalizing b b' with
  | nil =>
    rw [List.length_eq_zero.mp hb, List.length_eq_zero.mp hb']
  | cons x xs ih =>
    cases b with
    | nil => simp at hb
    | cons c cs =>
      cases b' with
      | nil => simp at hb'
      | cons c' cs' =>
        obtain ⟨hx, hxs⟩ := List.nodup_cons.mp hv
        have hnot : ∀ (m : List Bool), (x, true) ∉ xs.zip m :=
          fun m hm => hx (mem_zip_left xs m x true hm)
        have hc : c = c' := by
          have := h x
          simp only [List.zip_cons_cons, List.mem_cons, Prod.mk.injEq, true_and, hnot,
            or_false] at this
          cases c <;> cases c' <;> simp_all
        have htail : cs = cs' := by
          apply ih hxs cs cs' (by simpa using hb) (by simpa using hb')
          intro y
          have := h y
          simp only [List.zip_cons_cons, List.mem_cons, Prod.mk.injEq] at this
          constructor
          · intro hy
            have hyx : y ≠ x := fun e => hnot cs (e ▸ hy)
            rcases this.mp (Or.inr hy) with h' | h'
            · exact absurd h'.1 hyx
            · exact h'
          · intro hy
            have hyx : y ≠ x := fun e => hnot cs' (e ▸ hy)
            rcases this.mpr (Or.inr hy) with h' | h'
            · exact absurd h'.1 hyx
            · exact h'
        rw [hc, htail]

theorem mem_zip_map (v : List LogicalJoinNode) (f : LogicalJoinNode → Bool)
    (y : LogicalJoinNode) : (y, true) ∈ v.zip (v.map f) ↔ y ∈ v ∧ f y = true := by
  induction v with
  | nil => simp
  | cons x xs ih =>
    simp only [List.map_cons, List.zip_cons_cons, List.mem_cons, Prod.mk.injEq, ih]
    constructor
    · rintro (⟨rfl, h⟩ | ⟨h1, h2⟩)
      · exact ⟨Or.inl rfl, h.symm⟩
      · exact ⟨Or.inr h1, h2⟩
    · rintro ⟨rfl | h1, h2⟩
      · exact Or.inl ⟨rfl, h2.symm⟩
      · exact Or.inr ⟨h1, h2⟩

/-- The sets that `enumerate_subsets` returns for pairwise distinct joins: an
ascending list without repetition of the sets selected by the bit vectors with
`size` ones. -/
theorem enumerate_subsets_spec (v : List LogicalJoinNode) (size : Nat)
    (hv : v.Pairwise fun a b => a.tie ≠ b.tie) (hs : size ≤ v.length) :
    ∃ res, enumerate_subsets v size = some res ∧
      res.Pairwise (fun a b => JoinSet.lt a b = true) ∧
      (∀ s, s ∈ res ↔ ∃ b ∈ bit_vectors v.length size, s = select_subset v b) ∧
      res.length = v.length.choose size := by
  refine ⟨_, enumerate_subsets_eq v size hs, ?_⟩
  have hfold : (bit_vectors v.length size).foldl
      (fun r x => set_insert JoinSet.lt r (select_subset v x)) []
      = ((bit_vectors v.length size).map (select_subset v)).foldl (set_insert JoinSet.lt) [] := by
    rw [List.foldl_map]
  rw [hfold]
  have hdist : ((bit_vectors v.length size).map (select_subset v)).Pairwise
      fun a b => a.map LogicalJoinNode.tie ≠ b.map LogicalJoinNode.tie := by
    rw [List.pairwise_map]
    apply (bit_vectors_nodup v.length size).imp_of_mem
    intro b b' hb hb' hne heq
    apply hne
    obtain ⟨l1, _⟩ := (mem_bit_vectors _ _ b).mp hb
    obtain ⟨l2, _⟩ := (mem_bit_vectors _ _ b').mp hb'
    obtain ⟨_, m1, _⟩ := select_subset_spec v b hv
    obtain ⟨_, m2, _⟩ := select_subset_spec v b' hv
    have e := map_tie_inj v hv (select_subset v b) (select_subset v b')
      (fun x hx => mem_zip_left v b x true ((m1 x).mp hx))
      (fun x hx => mem_zip_left v b' x true ((m2 x).mp hx)) heq
    apply zip_true_inj v (nodup_of_tie_distinct v hv) b b' l1 l2
    intro y
    rw [← m1 y, ← m2 y, e]
  obtain ⟨h1, h2, h3⟩ := foldl_set_insert_spec JoinSet.lt _ (List.map LogicalJoinNode.tie)
    (lexicographical_compare_strict _ tie_lt_strict) JoinSet_lt_eq
    ((bit_vectors v.length size).map (select_subset v)) [] hdist List.Pairwise.nil (by simp)
  refine ⟨h1, ?_, ?_⟩
  · intro s
    rw [h2 s]
    simp only [List.not_mem_nil, false_or, List.mem_map]
    constructor
    · rintro ⟨b, hb, rfl⟩; exact ⟨b, hb, rfl⟩
    · rintro ⟨b, hb, rfl⟩; exact ⟨b, hb, rfl⟩
  · rw [h3, List.length_map, bit_vectors_length]
    simp

/-- Function `enumerate_subsets(v, size)` on pairwise distinct joins returns
exactly the `size`-element sets of joins of `v`, each once. -/
theorem enumerate_subsets_complete (v : List LogicalJoinNode) (size : Nat)
    (hv : v.Pairwise fun a b => a.tie ≠ b.tie) (hs : size ≤ v.length) :
    ∃ res, enumerate_subsets v size = some res ∧ res.Nodup ∧
      res.length = v.length.choose size ∧
      ∀ s : JoinSet, s ∈ res ↔
        (s.Pairwise (fun a b => LogicalJoinNode.lt a b = true) ∧ s.length = size ∧
          ∀ x ∈ s, x ∈ v) := by
  obtain ⟨res, h0, h1, h2, h3⟩ := enumerate_subsets_spec v size hv hs
  refine ⟨res, h0, ?_, h3, ?_⟩
  · apply h1.imp
    intro a b hab e
    rw [e, keyed_irrefl JoinSet.lt _ (List.map LogicalJoinNode.tie)
      (lexicographical_compare_strict _ tie_lt_strict) JoinSet_lt_eq b b rfl] at hab
    exact absurd hab (by simp)
  · intro s
    rw [h2 s]
    constructor
    · rintro ⟨b, hb, rfl⟩
      obtain ⟨l1, l2⟩ := (mem_bit_vectors _ _ b).mp hb
      obtain ⟨s1, s2, s3⟩ := select_subset_spec v b hv
      exact ⟨s1, by rw [s3 l1, l2], fun x hx => mem_zip_left v b x true ((s2 x).mp hx)⟩
    · rintro ⟨hsort, hlen, hsub⟩
      obtain ⟨s1, s2, s3⟩ := select_subset_spec v (v.map fun x => decide (x ∈ s)) hv
      have e : s = select_subset v (v.map fun x => decide (x ∈ s)) := by
        apply sorted_ext LogicalJoinNode.lt _ LogicalJoinNode.tie tie_lt_strict (fun _ _ => rfl)
          _ _ hsort s1
        intro y
        rw [s2 y, mem_zip_map]
        simp only [decide_eq_true_eq]
        exact ⟨fun h => ⟨hsub y h, h⟩, fun h => h.2⟩
      refine ⟨v.map fun x => decide (x ∈ s), ?_, e⟩
      rw [mem_bit_vectors]
      refine ⟨by simp, ?_⟩
      rw [← s3 (by simp), ← e, hlen]

end

section
open JoinOptimizer

/-- A set of joins of `v`: an ascending list of elements of `v`. -/
theorem equiv_eq_of_valid (v : List LogicalJoinNode) (hv : v.Pairwise fun a b => a.tie ≠ b.tie)
    (s t : JoinSet) (hs : ∀ x ∈ s, x ∈ v) (ht : ∀ x ∈ t, x ∈ v)
    (h : JoinSet.equiv s t = true) : s = t := by
  unfold JoinSet.equiv at h
  simp only [Bool.and_eq_true, Bool.not_eq_true'] at h
  rw [JoinSet_lt_eq, JoinSet_lt_eq] at h
  exact map_tie_inj v hv s t hs ht
    ((lexicographical_compare_strict _ tie_lt_strict).total _ _ h.1 h.2)

theorem equiv_refl (s : JoinSet) : JoinSet.equiv s s = true := by
  unfold JoinSet.equiv
  rw [keyed_irrefl JoinSet.lt _ (List.map LogicalJoinNode.tie)
    (lexicographical_compare_strict _ tie_lt_strict) JoinSet_lt_eq s s rfl]
  rfl

theorem equiv_length (s t : JoinSet) (h : JoinSet.equiv s t = true) : s.length = t.length := by
  unfold JoinSet.equiv at h
  simp only [Bool.and_eq_true, Bool.not_eq_true'] at h
  rw [JoinSet_lt_eq, JoinSet_lt_eq] at h
  have := (lexicographical_compare_strict _ tie_lt_strict).total _ _ h.1 h.2
  have e := congrArg List.length this
  simpa using e

theorem get_order_add_plan (pc : PlanCache) (s t : JoinSet) (cost : ℚ) (card : Int)
    (order : List LogicalJoinNode) :
    (pc.add_plan s cost card order).get_order t
      = if JoinSet.equiv s t = true then order else pc.get_order t := by
  unfold PlanCache.get_order PlanCache.add_plan PlanCache.assign
  simp only
  split_ifs <;> rfl

theorem get_cost_add_plan (pc : PlanCache) (s t : JoinSet) (cost : ℚ) (card : Int)
    (order : List LogicalJoinNode) :
    (pc.add_plan s cost card order).get_cost t
      = if JoinSet.equiv s t = true then cost else pc.get_cost t := by
  unfold PlanCache.get_cost PlanCache.add_plan PlanCache.assign
  simp only
  split_ifs <;> rfl

theorem get_card_add_plan (pc : PlanCache) (s t : JoinSet) (cost : ℚ) (card : Int)
    (order : List LogicalJoinNode) :
    (pc.add_plan s cost card order).get_card t
      = if JoinSet.equiv s t = true then card else pc.get_card t := by
  unfold PlanCache.get_card PlanCache.add_plan PlanCache.assign
  simp only
  split_ifs <;> rfl

theorem get_order_new (t : JoinSet) : PlanCache.new.get_order t = [] := rfl

theorem does_join_iff (p : List LogicalJoinNode) (t : List Nat) :
    does_join p t = true ↔ ∃ x ∈ p, x.left_table = t ∨ x.right_table = t := by
  unfold does_join
  simp [List.any_eq_true]

theorem does_join_oriented (p s : List LogicalJoinNode) (t : List Nat)
    (h : oriented_permutation p s) : does_join p t = does_join s t := by
  obtain ⟨q, hq, hf⟩ := h
  have h1 : does_join p t = does_join q t := by
    rw [Bool.eq_iff_iff, does_join_iff, does_join_iff]
    clear hq
    induction hf with
    | nil => simp
    | cons hab _ ih =>
      simp only [List.mem_cons, exists_eq_or_imp, ih]
      rcases hab with rfl | rfl
      · rfl
      · simp only [LogicalJoinNode.swap_inner_outer]
        rw [or_comm (a := _ = t) (b := _ = t)]
  have h2 : does_join q t = does_join s t := by
    rw [Bool.eq_iff_iff, does_join_iff, does_join_iff]
    constructor
    · rintro ⟨x, hx, h⟩; exact ⟨x, hq.mem_iff.mp hx, h⟩
    · rintro ⟨x, hx, h⟩; exact ⟨x, hq.mem_iff.mpr hx, h⟩
  rw [h1, h2]

theorem oriented_permutation_length (p s : List LogicalJoinNode)
    (h : oriented_permutation p s) : p.length = s.length := by
  obtain ⟨q, hq, hf⟩ := h
  rw [hf.length_eq, hq.length_eq]

theorem oriented_permutation_snoc (p s t : List LogicalJoinNode) (j j' : LogicalJoinNode)
    (h : oriented_permutation p s) (hj : j' = j ∨ j' = j.swap_inner_outer)
    (ht : t.Perm (j :: s)) : oriented_permutation (p ++ [j']) t := by
  obtain ⟨q, hq, hf⟩ := h
  refine ⟨q ++ [j], ?_, ?_⟩
  · calc (q ++ [j]).Perm (j :: q) := List.perm_append_singleton j q
      _ |>.Perm (j :: s) := List.Perm.cons j hq
      _ |>.Perm t := ht.symm
  · exact List.rel_append hf (List.Forall₂.cons hj List.Forall₂.nil)

end

section
open JoinOptimizer

theorem choose_orientation_eq (j : LogicalJoinNode) (o : JoinOperands) (best : ℚ) :
    choose_orientation j o best
      = if best ≤ (cheaper_orientation j o).cost then none else some (cheaper_orientation j o) := by
  unfold choose_orientation cheaper_orientation
  simp only
  by_cases h : estimate_join_cost j.swap_inner_outer o.t2_card o.t1_card o.t2_cost o.t1_cost
      < estimate_join_cost j o.t1_card o.t2_card o.t1_cost o.t2_cost
  · simp only [h, decide_True, if_true, ge_iff_le]
  · simp only [h, decide_False, if_false, ge_iff_le, Bool.false_eq_true]

/-- Function `compute_cost_and_card_of_subplan` in terms of the operands and of
the cheaper orientation. -/
theorem compute_eq (stats : List Nat → TableStats) (sel : List Nat → ℚ) (j : LogicalJoinNode)
    (s : JoinSet) (best : ℚ) (pc : PlanCache) :
    compute_cost_and_card_of_subplan stats sel j s best pc
      = match cached_operands stats sel pc s j with
        | none => none
        | some o =>
          if best ≤ (cheaper_orientation j o).cost then none
          else some (cheaper_orientation j o) := by
  unfold compute_cost_and_card_of_subplan cached_operands
  simp only
  cases join_operands stats sel j (set_erase LogicalJoinNode.lt s j).isEmpty
      (pc.get_order (set_erase LogicalJoinNode.lt s j))
      (pc.get_cost (set_erase LogicalJoinNode.lt s j))
      (pc.get_card (set_erase LogicalJoinNode.lt s j)) with
  | none => rfl
  | some o => simp only [choose_orientation_eq]

/-- The loop over the joins of a set keeps the cheapest candidate, the first one
among equally cheap ones. -/
theorem best_plan_fold (stats : List Nat → TableStats) (sel : List Nat → ℚ) (pc : PlanCache)
    (s : JoinSet) (l : List LogicalJoinNode) (acc : ℚ × CostCard) :
    (l.foldl
        (fun acc ljnode =>
          match compute_cost_and_card_of_subplan stats sel ljnode s acc.1 pc with
          | some cc => (cc.cost, cc)
          | none => acc) acc).1 ≤ acc.1 ∧
    ((l.foldl
        (fun acc ljnode =>
          match compute_cost_and_card_of_subplan stats sel ljnode s acc.1 pc with
          | some cc => (cc.cost, cc)
          | none => acc) acc) = acc ∨
      ∃ j ∈ l, ∃ o, cached_operands stats sel pc s j = some o ∧
        (l.foldl
          (fun acc ljnode =>
            match compute_cost_and_card_of_subplan stats sel ljnode s acc.1 pc with
            | some cc => (cc.cost, cc)
            | none => acc) acc)
          = ((cheaper_orientation j o).cost, cheaper_orientation j o) ∧
        (cheaper_orientation j o).cost < acc.1) ∧
    ∀ j ∈ l, ∀ o, cached_operands stats sel pc s j = some o →
      (l.foldl
        (fun acc ljnode =>
          match compute_cost_and_card_of_subplan stats sel ljnode s acc.1 pc with
          | some cc => (cc.cost, cc)
          | none => acc) acc).1 ≤ (cheaper_orientation j o).cost := by
  induction l generalizing acc with
  | nil => simp
  | cons x xs ih =>
    rw [List.foldl_cons]
    rw [compute_eq]
    cases hx : cached_operands stats sel pc s x with
    | none =>
      simp only
      obtain ⟨i1, i2, i3⟩ := ih acc
      refine ⟨i1, ?_, ?_⟩
      · rcases i2 with h | ⟨j, hj, o, h1, h2, h3⟩
        · exact Or.inl h
        · exact Or.inr ⟨j, List.mem_cons_of_mem _ hj, o, h1, h2, h3⟩
      · intro j hj o ho
        rcases List.mem_cons.mp hj with h | h
        · rw [h, hx] at ho; exact absurd ho (by simp)
        · exact i3 j h o ho
    | some ox =>
      simp only
      by_cases hb : acc.1 ≤ (cheaper_orientation x ox).cost
      · rw [if_pos hb]
        simp only
        obtain ⟨i1, i2, i3⟩ := ih acc
        refine ⟨i1, ?_, ?_⟩
        · rcases i2 with h | ⟨j, hj, o, h1, h2, h3⟩
          · exact Or.inl h
          · exact Or.inr ⟨j, List.mem_cons_of_mem _ hj, o, h1, h2, h3⟩
        · intro j hj o ho
          rcases List.mem_cons.mp hj with h | h
          · subst h
            rw [hx] at ho
            simp only [Option.some.injEq] at ho
            rw [← ho]
            exact le_trans i1 hb
          · exact i3 j h o ho
      · rw [if_neg hb]
        simp only
        have hlt : (cheaper_orientation x ox).cost < acc.1 := lt_of_not_le hb
        obtain ⟨i1, i2, i3⟩ := ih ((cheaper_orientation x ox).cost, cheaper_orientation x ox)
        simp only at i1
        refine ⟨le_trans i1 hlt.le, ?_, ?_⟩
        · right
          rcases i2 with h | ⟨j, hj, o, h1, h2, h3⟩
          · exact ⟨x, List.mem_cons_self _ _, ox, hx, h, hlt⟩
          · exact ⟨j, List.mem_cons_of_mem _ hj, o, h1, h2, lt_trans h3 hlt⟩
        · intro j hj o ho
          rcases List.mem_cons.mp hj with h | h
          · subst h
            rw [hx] at ho
            simp only [Option.some.injEq] at ho
            rw [← ho]
            exact i1
          · exact i3 j h o ho

/-- The result `(bestres, bcc)` of the loop over the joins of `s`: either no
candidate is below `DBL_MAX` and `bcc` is empty, or `bcc` is the cheapest
candidate. -/
theorem best_plan_spec (stats : List Nat → TableStats) (sel : List Nat → ℚ) (pc : PlanCache)
    (s : JoinSet) :
    (best_plan stats sel pc s).1 ≤ DBL_MAX ∧
    (best_plan stats sel pc s = (DBL_MAX, { cost := 0, card := 0, plan := [] }) ∨
      ∃ j ∈ s, ∃ o, cached_operands stats sel pc s j = some o ∧
        best_plan stats sel pc s = ((cheaper_orientation j o).cost, cheaper_orientation j o) ∧
        (cheaper_orientation j o).cost < DBL_MAX) ∧
    ∀ j ∈ s, ∀ o, cached_operands stats sel pc s j = some o →
      (best_plan stats sel pc s).1 ≤ (cheaper_orientation j o).cost :=
  best_plan_fold stats sel pc s s (DBL_MAX, { cost := 0, card := 0, plan := [] })

end

section
open JoinOptimizer

/-- The set `s.erase(j)` for a join `j` of an ascending set `s`. -/
theorem set_erase_spec (s : JoinSet) (j : LogicalJoinNode)
    (hs : s.Pairwise fun a b => LogicalJoinNode.lt a b = true) (hj : j ∈ s) :
    (set_erase LogicalJoinNode.lt s j).Pairwise (fun a b => LogicalJoinNode.lt a b = true) ∧
    (∀ x, x ∈ set_erase LogicalJoinNode.lt s j ↔ x ∈ s ∧ x ≠ j) ∧
    s.Perm (j :: set_erase LogicalJoinNode.lt s j) ∧
    (set_erase LogicalJoinNode.lt s j).length + 1 = s.length := by
  have hkeys := sorted_keys_nodup LogicalJoinNode.lt _ LogicalJoinNode.tie tie_lt_strict
    (fun _ _ => rfl) s hs
  have he := set_erase_eq LogicalJoinNode.lt _ LogicalJoinNode.tie tie_lt_strict
    (fun _ _ => rfl) s j
  have hmem : ∀ x, x ∈ set_erase LogicalJoinNode.lt s j ↔ x ∈ s ∧ x ≠ j := by
    intro x
    rw [he, List.mem_filter]
    simp only [ne_eq, decide_not, Bool.not_eq_true', decide_eq_false_iff_not]
    constructor
    · rintro ⟨h1, h2⟩
      exact ⟨h1, fun e => h2 (by rw [e])⟩
    · rintro ⟨h1, h2⟩
      exact ⟨h1, fun e => h2 (tie_inj_on s hkeys x j h1 hj e)⟩
  have hsorted : (set_erase LogicalJoinNode.lt s j).Pairwise
      (fun a b => LogicalJoinNode.lt a b = true) := by
    rw [he]
    exact hs.sublist (List.filter_sublist _)
  have hnd : s.Nodup := nodup_of_tie_distinct s hkeys
  have hperm : s.Perm (j :: set_erase LogicalJoinNode.lt s j) := by
    rw [List.perm_ext_iff_of_nodup hnd]
    · intro a
      rw [List.mem_cons, hmem]
      constructor
      · intro ha
        by_cases e : a = j
        · exact Or.inl e
        · exact Or.inr ⟨ha, e⟩
      · rintro (h | h)
        · rw [h]; exact hj
        · exact h.1
    · rw [List.nodup_cons]
      refine ⟨fun h => ((hmem j).mp h).2 rfl, ?_⟩
      rw [he]
      exact hnd.sublist (List.filter_sublist _)
  refine ⟨hsorted, hmem, hperm, ?_⟩
  have := hperm.length_eq
  simp only [List.length_cons] at this
  omega

theorem int_to_uint64_lt (z : Int) : int_to_uint64 z < 2 ^ 64 := by
  unfold int_to_uint64
  have h1 : 0 ≤ z % 2 ^ 64 := Int.emod_nonneg _ (by norm_num)
  have h2 : z % 2 ^ 64 < 2 ^ 64 := Int.emod_lt_of_pos _ (by norm_num)
  omega

theorem estimate_table_cardinality_lt (ts : TableStats) (sf : ℚ) :
    ts.estimate_table_cardinality sf < 2 ^ 64 :=
  int_to_uint64_lt _

theorem card_mul_scan_le (c : Nat) (x : ℚ) (hc : c < 2 ^ 64) (hx : x ≤ 2 ^ 64) :
    (c : ℚ) * x ≤ 2 ^ 128 := by
  have h0 : (0 : ℚ) ≤ (c : ℚ) := Nat.cast_nonneg c
  have h1 : (c : ℚ) ≤ 2 ^ 64 := by exact_mod_cast hc.le
  by_cases hx0 : 0 ≤ x
  · calc (c : ℚ) * x ≤ 2 ^ 64 * 2 ^ 64 := mul_le_mul h1 hx hx0 (by norm_num)
      _ = 2 ^ 128 := by norm_num
  · have : (c : ℚ) * x ≤ 0 := mul_nonpos_of_nonneg_of_nonpos h0 (le_of_not_le hx0)
    linarith [show (0 : ℚ) ≤ 2 ^ 128 by norm_num]

theorem mod_cast_le (a b : Nat) : (((a * b) % 2 ^ 64 : Nat) : ℚ) ≤ 2 ^ 64 := by
  have : (a * b) % 2 ^ 64 < 2 ^ 64 := Nat.mod_lt _ (by norm_num)
  exact_mod_cast this.le

/-- The cost of joining a plan of cost `c` and a table of scan cost at most
`2 ^ 64`, the plan being the outer input. -/
theorem join_cost_le (j : LogicalJoinNode) (card1 card2 : Nat) (c x : ℚ) (h1 : card1 < 2 ^ 64)
    (hx : x ≤ 2 ^ 64) :
    estimate_join_cost j card1 card2 c x ≤ c + (2 ^ 128 + 2 ^ 64) := by
  unfold estimate_join_cost
  simp only
  have a := card_mul_scan_le card1 x h1 hx
  have b := mod_cast_le card1 card2
  linarith

theorem cheaper_orientation_cost_le (j : LogicalJoinNode) (o : JoinOperands) :
    (cheaper_orientation j o).cost
        ≤ estimate_join_cost j o.t1_card o.t2_card o.t1_cost o.t2_cost ∧
    (cheaper_orientation j o).cost
        ≤ estimate_join_cost j.swap_inner_outer o.t2_card o.t1_card o.t2_cost o.t1_cost := by
  unfold cheaper_orientation
  split_ifs with h
  · exact ⟨h.le, le_refl _⟩
  · exact ⟨le_refl _, le_of_not_lt h⟩

theorem cheaper_orientation_plan (j : LogicalJoinNode) (o : JoinOperands) :
    ∃ j', (j' = j ∨ j' = j.swap_inner_outer) ∧
      (cheaper_orientation j o).plan = o.prev_best ++ [j'] := by
  unfold cheaper_orientation
  split_ifs
  · exact ⟨_, Or.inr rfl, rfl⟩
  · exact ⟨_, Or.inl rfl, rfl⟩

/-- The cases of the operands of a join. -/
theorem join_operands_cases (stats : List Nat → TableStats) (sel : List Nat → ℚ)
    (j : LogicalJoinNode) (s_empty : Bool) (prev_best : List LogicalJoinNode) (c : ℚ) (k : Int)
    (o : JoinOperands) (h : join_operands stats sel j s_empty prev_best c k = some o) :
    (s_empty = true ∧ o.prev_best = [] ∧
      o.t1_cost = (stats j.left_table).estimate_scan_cost ∧
      o.t2_cost = (stats j.right_table).estimate_scan_cost ∧
      o.t1_card = (stats j.left_table).estimate_table_cardinality (sel j.left_table) ∧
      o.t2_card = (stats j.right_table).estimate_table_cardinality (sel j.right_table) ∧
      o.left_Pkey = decide (j.left_field = 0) ∧ o.right_Pkey = decide (j.right_field = 0)) ∨
    (s_empty = false ∧ prev_best ≠ [] ∧ o.prev_best = prev_best ∧
      does_join prev_best j.left_table = true ∧
      o.t1_cost = c ∧ o.t1_card = int_to_uint64 k ∧ o.left_Pkey = has_Pkey prev_best ∧
      o.t2_cost = (stats j.right_table).estimate_scan_cost ∧
      o.t2_card = (stats j.right_table).estimate_table_cardinality (sel j.right_table) ∧
      o.right_Pkey = decide (j.right_field = 0)) ∨
    (s_empty = false ∧ prev_best ≠ [] ∧ o.prev_best = prev_best ∧
      does_join prev_best j.left_table = false ∧ does_join prev_best j.right_table = true ∧
      o.t2_cost = c ∧ o.t2_card = int_to_uint64 k ∧ o.right_Pkey = has_Pkey prev_best ∧
      o.t1_cost = (stats j.left_table).estimate_scan_cost ∧
      o.t1_card = (stats j.left_table).estimate_table_cardinality (sel j.left_table) ∧
      o.left_Pkey = decide (j.left_field = 0)) := by
  unfold join_operands at h
  simp only at h
  by_cases he : s_empty = true
  · rw [if_pos he] at h
    simp only [Option.some.injEq] at h
    subst h
    exact Or.inl ⟨he, rfl, rfl, rfl, rfl, rfl, rfl, rfl⟩
  · rw [if_neg he] at h
    have he' : s_empty = false := by simpa using he
    by_cases hp : prev_best.length = 0
    · rw [if_pos hp] at h; exact absurd h (by simp)
    · rw [if_neg hp] at h
      have hp' : prev_best ≠ [] := fun e => hp (by rw [e]; rfl)
      by_cases h1 : does_join prev_best j.left_table = true
      · rw [if_pos h1] at h
        simp only [Option.some.injEq] at h
        subst h
        exact Or.inr (Or.inl ⟨he', hp', rfl, h1, rfl, rfl, rfl, rfl, rfl, rfl⟩)
      · rw [if_neg h1] at h
        by_cases h2 : does_join prev_best j.right_table = true
        · rw [if_pos h2] at h
          simp only [Option.some.injEq] at h
          subst h
          exact Or.inr (Or.inr ⟨he', hp', rfl, by simpa using h1, h2, rfl, rfl, rfl, rfl, rfl,
            rfl⟩)
        · rw [if_neg h2] at h; exact absurd h (by simp)

/-- The operands of a join exist when its set is the join alone, or when the
cached plan of the other joins has one of its tables. -/
theorem join_operands_some (stats : List Nat → TableStats) (sel : List Nat → ℚ)
    (j : LogicalJoinNode) (s_empty : Bool) (prev_best : List LogicalJoinNode) (c : ℚ) (k : Int)
    (h : s_empty = true ∨ (prev_best ≠ [] ∧
      (does_join prev_best j.left_table = true ∨ does_join prev_best j.right_table = true))) :
    ∃ o, join_operands stats sel j s_empty prev_best c k = some o := by
  unfold join_operands
  simp only
  by_cases he : s_empty = true
  · rw [if_pos he]; exact ⟨_, rfl⟩
  · rw [if_neg he]
    rcases h with h | ⟨hp, hd⟩
    · exact absurd h he
    · have hp' : ¬ prev_best.length = 0 := fun e => hp (List.length_eq_zero.mp e)
      rw [if_neg hp']
      by_cases h1 : does_join prev_best j.left_table = true
      · rw [if_pos h1]; exact ⟨_, rfl⟩
      · rw [if_neg h1]
        rcases hd with hd | hd
        · exact absurd hd h1
        · rw [if_pos hd]; exact ⟨_, rfl⟩

end

section
open JoinOptimizer

theorem does_join_perm (p q : List LogicalJoinNode) (t : List Nat) (h : p.Perm q) :
    does_join p t = does_join q t := by
  rw [Bool.eq_iff_iff, does_join_iff, does_join_iff]
  constructor
  · rintro ⟨x, hx, h'⟩; exact ⟨x, h.mem_iff.mp hx, h'⟩
  · rintro ⟨x, hx, h'⟩; exact ⟨x, h.mem_iff.mpr hx, h'⟩

/-- An ordering that ends with `j` is free of cross products when the ordering
before `j` is and `j` has a table of an earlier join. -/
theorem cross_product_free_snoc (e l : List LogicalJoinNode) (j : LogicalJoinNode) :
    cross_product_free e (l ++ [j])
      = (cross_product_free e l &&
          ((e ++ l).isEmpty || does_join (e ++ l) j.left_table ||
            does_join (e ++ l) j.right_table)) := by
  induction l generalizing e with
  | nil => simp [cross_product_free]
  | cons x xs ih =>
    have : e ++ [x] ++ xs = e ++ x :: xs := by simp
    rw [List.cons_append, cross_product_free, cross_product_free, ih, this, Bool.and_assoc]

theorem oriented_permutation_nil : oriented_permutation [] [] :=
  ⟨[], List.Perm.refl _, List.Forall₂.nil⟩

theorem oriented_permutation_perm (p s t : List LogicalJoinNode)
    (h : oriented_permutation p s) (hst : s.Perm t) : oriented_permutation p t := by
  obtain ⟨q, hq, hf⟩ := h
  exact ⟨q, hq.trans hst, hf⟩

/-- A candidate over a sound cache orders the joins of its set and costs at
most `2 ^ 128 + 2 ^ 65` a join. -/
theorem candidate_sound (v : List LogicalJoinNode) (stats : List Nat → TableStats)
    (sel : List Nat → ℚ) (hscan : ∀ t, (stats t).estimate_scan_cost ≤ 2 ^ 64) (pc : PlanCache)
    (hpc : pc.sound v) (s : JoinSet)
    (hs : s.Pairwise fun a b => LogicalJoinNode.lt a b = true) (hsv : ∀ x ∈ s, x ∈ v)
    (j : LogicalJoinNode) (hj : j ∈ s) (o : JoinOperands)
    (ho : cached_operands stats sel pc s j = some o) :
    oriented_permutation (cheaper_orientation j o).plan s ∧
    (cheaper_orientation j o).cost ≤ (s.length : ℚ) * (2 ^ 128 + 2 ^ 65) ∧
    (cheaper_orientation j o).plan ≠ [] := by
  obtain ⟨e1, e2, e3, e4⟩ := set_erase_spec s j hs hj
  obtain ⟨j', hj', hplan⟩ := cheaper_orientation_plan j o
  obtain ⟨c1, c2⟩ := cheaper_orientation_cost_le j o
  have hlen : (s.length : ℚ) = ((set_erase LogicalJoinNode.lt s j).length : ℚ) + 1 := by
    rw [← e4]; push_cast; ring
  have hne : (cheaper_orientation j o).plan ≠ [] := by rw [hplan]; simp
  unfold cached_operands at ho
  rcases join_operands_cases stats sel j _ _ _ _ o ho with
    ⟨h1, h2, h3, h4, h5, h6, _, _⟩ | ⟨h1, h2, h3, h4, h5, h6, _, h8, h9, _⟩ |
    ⟨h1, h2, h3, h4, h5, h6, h7, _, h9, h10, _⟩
  · have hnil : set_erase LogicalJoinNode.lt s j = [] := List.isEmpty_iff.mp h1
    rw [hnil] at e3 hlen
    refine ⟨?_, ?_, hne⟩
    · rw [hplan, h2]
      exact oriented_permutation_snoc [] [] s j j' oriented_permutation_nil hj' e3
    · have hb := join_cost_le j o.t1_card o.t2_card o.t1_cost o.t2_cost
        (by rw [h5]; exact estimate_table_cardinality_lt _ _) (by rw [h4]; exact hscan _)
      have hs1 : o.t1_cost ≤ 2 ^ 64 := by rw [h3]; exact hscan _
      rw [hlen]
      simp only [List.length_nil, Nat.cast_zero, zero_add, one_mul]
      have : (2 : ℚ) ^ 65 = 2 ^ 64 + 2 ^ 64 := by norm_num
      linarith
  · obtain ⟨g1, g2⟩ := hpc _ e1 (fun x hx => hsv x ((e2 x).mp hx).1) h2
    refine ⟨?_, ?_, hne⟩
    · rw [hplan, h3]
      exact oriented_permutation_snoc _ _ s j j' g1 hj' e3
    · have hb := join_cost_le j o.t1_card o.t2_card o.t1_cost o.t2_cost
        (by rw [h6]; exact int_to_uint64_lt _) (by rw [h8]; exact hscan _)
      rw [h5] at hb c1
      rw [hlen]
      have : (2 : ℚ) ^ 65 = 2 ^ 64 + 2 ^ 64 := by norm_num
      linarith
  · obtain ⟨g1, g2⟩ := hpc _ e1 (fun x hx => hsv x ((e2 x).mp hx).1) h2
    refine ⟨?_, ?_, hne⟩
    · rw [hplan, h3]
      exact oriented_permutation_snoc _ _ s j j' g1 hj' e3
    · have hb := join_cost_le j.swap_inner_outer o.t2_card o.t1_card o.t2_cost o.t1_cost
        (by rw [h7]; exact int_to_uint64_lt _) (by rw [h9]; exact hscan _)
      rw [h6] at hb c2
      rw [hlen]
      have : (2 : ℚ) ^ 65 = 2 ^ 64 + 2 ^ 64 := by norm_num
      linarith

/-- A linkable set has a candidate when the cache is sound and holds the plans
of the smaller linkable sets. -/
theorem candidate_exists (v : List LogicalJoinNode) (stats : List Nat → TableStats)
    (sel : List Nat → ℚ) (pc : PlanCache) (hpc : pc.sound v) (s : JoinSet)
    (hs : s.Pairwise fun a b => LogicalJoinNode.lt a b = true) (hsv : ∀ x ∈ s, x ∈ v)
    (hs1 : 1 ≤ s.length) (hcomp : pc.complete v (s.length - 1)) (hl : linkable s) :
    ∃ j ∈ s, ∃ o, cached_operands stats sel pc s j = some o := by
  obtain ⟨q, hq, hcpf⟩ := hl
  have hqne : q ≠ [] := by
    intro e
    have := hq.length_eq
    rw [e] at this
    simp at this
    omega
  have hqd : q = q.dropLast ++ [q.getLast hqne] := (List.dropLast_append_getLast hqne).symm
  set j := q.getLast hqne with hjdef
  set q' := q.dropLast with hq'def
  have hjq : j ∈ q := List.getLast_mem hqne
  have hj : j ∈ s := hq.mem_iff.mp hjq
  obtain ⟨e1, e2, e3, e4⟩ := set_erase_spec s j hs hj
  rw [hqd, cross_product_free_snoc] at hcpf
  simp only [List.nil_append, Bool.and_eq_true, Bool.or_eq_true] at hcpf
  obtain ⟨hcpf', hlink⟩ := hcpf
  have hperm : q'.Perm (set_erase LogicalJoinNode.lt s j) := by
    have h1 : (j :: q').Perm q := by
      rw [hqd]
      exact (List.perm_append_singleton j q').symm
    exact List.Perm.cons_inv ((h1.trans hq).trans e3)
  refine ⟨j, hj, ?_⟩
  unfold cached_operands
  apply join_operands_some
  by_cases hq'e : q' = []
  · left
    rw [hq'e] at hperm
    rw [List.isEmpty_iff]
    exact List.perm_nil.mp hperm.symm
  · right
    have hlinkable : linkable (set_erase LogicalJoinNode.lt s j) := ⟨q', hperm, hcpf'⟩
    have hlen1 : 1 ≤ (set_erase LogicalJoinNode.lt s j).length := by
      rw [← hperm.length_eq]
      exact List.length_pos.mpr hq'e
    have hne := hcomp _ e1 (fun x hx => hsv x ((e2 x).mp hx).1) hlen1 (by omega) hlinkable
    obtain ⟨g1, _⟩ := hpc _ e1 (fun x hx => hsv x ((e2 x).mp hx).1) hne
    refine ⟨hne, ?_⟩
    rw [does_join_oriented _ _ _ g1, does_join_oriented _ _ _ g1, ← does_join_perm _ _ _ hperm,
      ← does_join_perm _ _ _ hperm]
    rcases hlink with (h | h) | h
    · exact absurd (List.isEmpty_iff.mp h) hq'e
    · exact Or.inl h
    · exact Or.inr h

end

section
open JoinOptimizer

theorem bound_lt_DBL_MAX (n : Nat) (h : n < 2 ^ 31) :
    (n : ℚ) * (2 ^ 128 + 2 ^ 65) < DBL_MAX := by
  have h1 : (n : ℚ) ≤ 2 ^ 31 := by exact_mod_cast h.le
  have h2 : (n : ℚ) * (2 ^ 128 + 2 ^ 65) ≤ 2 ^ 31 * (2 ^ 128 + 2 ^ 65) :=
    mul_le_mul_of_nonneg_right h1 (by norm_num)
  have h3 : (2 : ℚ) ^ 31 * (2 ^ 128 + 2 ^ 65) < DBL_MAX := by
    rw [DBL_MAX_eq]
    norm_num
  linarith

/-- One round of the loop over the subsets, on a set of joins of `v`: the cache
stays sound, no plan is lost, and a linkable set gets a plan, which is also the
`bcc` of the round. -/
theorem plan_subset_step (v : List LogicalJoinNode) (stats : List Nat → TableStats)
    (sel : List Nat → ℚ) (hv : v.Pairwise fun a b => a.tie ≠ b.tie)
    (hscan : ∀ t, (stats t).estimate_scan_cost ≤ 2 ^ 64)
    (bcc : CostCard) (pc : PlanCache) (hpc : pc.sound v) (s : JoinSet)
    (hs : s.Pairwise fun a b => LogicalJoinNode.lt a b = true) (hsv : ∀ x ∈ s, x ∈ v)
    (hs1 : 1 ≤ s.length) (hs2 : s.length < 2 ^ 31) (hcomp : pc.complete v (s.length - 1)) :
    (plan_subset stats sel (bcc, pc) s).2.sound v ∧
    (∀ t, pc.get_order t ≠ [] → (plan_subset stats sel (bcc, pc) s).2.get_order t ≠ []) ∧
    (linkable s →
      (plan_subset stats sel (bcc, pc) s).2.get_order s ≠ [] ∧
      oriented_permutation (plan_subset stats sel (bcc, pc) s).1.plan s) := by
  obtain ⟨r1, r2, r3⟩ := best_plan_spec stats sel pc s
  have hbound := bound_lt_DBL_MAX s.length hs2
  unfold plan_subset
  simp only
  rcases r2 with h | ⟨j, hj, o, ho, h, hlt⟩
  · rw [h]
    simp only [ne_eq, not_true_eq_false, if_false]
    refine ⟨hpc, fun t ht => ht, ?_⟩
    intro hl
    exfalso
    obtain ⟨j, hj, o, ho⟩ := candidate_exists v stats sel pc hpc s hs hsv hs1 hcomp hl
    obtain ⟨_, c2, _⟩ := candidate_sound v stats sel hscan pc hpc s hs hsv j hj o ho
    have := r3 j hj o ho
    rw [h] at this
    simp only at this
    linarith
  · obtain ⟨c1, c2, c3⟩ := candidate_sound v stats sel hscan pc hpc s hs hsv j hj o ho
    rw [h]
    simp only [ne_eq]
    rw [if_pos (ne_of_lt hlt)]
    refine ⟨?_, ?_, ?_⟩
    · intro t ht1 ht2 hne
      rw [get_order_add_plan] at hne ⊢
      rw [get_cost_add_plan]
      by_cases he : JoinSet.equiv s t = true
      · have := equiv_eq_of_valid v hv s t hsv ht2 he
        subst this
        rw [if_pos he, if_pos he]
        exact ⟨c1, c2⟩
      · rw [if_neg he] at hne ⊢
        rw [if_neg he]
        exact hpc t ht1 ht2 hne
    · intro t ht
      rw [get_order_add_plan]
      split_ifs
      · exact c3
      · exact ht
    · intro _
      rw [get_order_add_plan, if_pos (equiv_refl s)]
      exact ⟨c3, c1⟩

/-- The loop over the subsets of one size keeps the cache sound and loses no
plan; afterwards every linkable set among them has a plan. -/
theorem plan_subsets_fold (v : List LogicalJoinNode) (stats : List Nat → TableStats)
    (sel : List Nat → ℚ) (hv : v.Pairwise fun a b => a.tie ≠ b.tie)
    (hscan : ∀ t, (stats t).estimate_scan_cost ≤ 2 ^ 64) (i : Nat) (hi1 : 1 ≤ i)
    (hi2 : i < 2 ^ 31) (l : List JoinSet)
    (hl : ∀ s ∈ l, s.Pairwise (fun a b => LogicalJoinNode.lt a b = true) ∧ s.length = i ∧
      ∀ x ∈ s, x ∈ v)
    (st : CostCard × PlanCache) (hpc : st.2.sound v) (hcomp : st.2.complete v (i - 1)) :
    (l.foldl (plan_subset stats sel) st).2.sound v ∧
    (∀ t, st.2.get_order t ≠ [] → (l.foldl (plan_subset stats sel) st).2.get_order t ≠ []) ∧
    (∀ s ∈ l, linkable s → (l.foldl (plan_subset stats sel) st).2.get_order s ≠ []) := by
  induction l generalizing st with
  | nil => exact ⟨hpc, fun t ht => ht, fun s hs => absurd hs (by simp)⟩
  | cons s ss ih =>
    obtain ⟨a1, a2, a3⟩ := hl s (List.mem_cons_self _ _)
    obtain ⟨b1, b2, b3⟩ := plan_subset_step v stats sel hv hscan st.1 st.2 hpc s a1 a3
      (by omega) (by omega) (by rw [a2]; exact hcomp)
    have hcomp' : (plan_subset stats sel st s).2.complete v (i - 1) := by
      intro t t1 t2 t3 t4 t5
      exact b2 t (hcomp t t1 t2 t3 t4 t5)
    obtain ⟨c1, c2, c3⟩ := ih (fun s' hs' => hl s' (List.mem_cons_of_mem _ hs'))
      (plan_subset stats sel st s) b1 hcomp'
    rw [List.foldl_cons]
    refine ⟨c1, fun t ht => c2 t (b2 t ht), ?_⟩
    intro s' hs' hlink
    rcases List.mem_cons.mp hs' with h | h
    · subst h
      exact c2 _ (b3 hlink).1
    · exact c3 s' h hlink

/-- Round `i` of `order_joins` returns, keeps the cache sound and completes it
for the sets of `i` joins. -/
theorem plan_size_spec (v : List LogicalJoinNode) (stats : List Nat → TableStats)
    (sel : List Nat → ℚ) (hv : v.Pairwise fun a b => a.tie ≠ b.tie)
    (hscan : ∀ t, (stats t).estimate_scan_cost ≤ 2 ^ 64) (i : Nat) (hi1 : 1 ≤ i)
    (hi2 : i ≤ v.length) (hN : v.length < 2 ^ 31)
    (st : CostCard × PlanCache) (hpc : st.2.sound v) (hcomp : st.2.complete v (i - 1)) :
    ∃ st', plan_size v stats sel st i = some st' ∧ st'.2.sound v ∧ st'.2.complete v i := by
  obtain ⟨res, h0, _, _, h3⟩ := enumerate_subsets_complete v i hv hi2
  unfold plan_size
  rw [h0]
  refine ⟨_, rfl, ?_⟩
  obtain ⟨c1, c2, c3⟩ := plan_subsets_fold v stats sel hv hscan i hi1 (by omega) res
    (fun s hs => (h3 s).mp hs) st hpc hcomp
  refine ⟨c1, ?_⟩
  intro t t1 t2 t3 t4 t5
  by_cases hlen : t.length = i
  · exact c3 t ((h3 t).mpr ⟨t1, hlen, t2⟩) t5
  · exact c2 t (hcomp t t1 t2 t3 (by omega) t5)

end

section
open JoinOptimizer

theorem order_joins_rounds_zero (v : List LogicalJoinNode) (stats : List Nat → TableStats)
    (sel : List Nat → ℚ) :
    order_joins_rounds v stats sel 0
      = some ({ cost := 0, card := 0, plan := [] }, PlanCache.new) := rfl

/-- Round `n + 1` follows the first `n` rounds. -/
theorem order_joins_rounds_succ (v : List LogicalJoinNode) (stats : List Nat → TableStats)
    (sel : List Nat → ℚ) (n : Nat) :
    order_joins_rounds v stats sel (n + 1)
      = (order_joins_rounds v stats sel n).bind fun st => plan_size v stats sel st (n + 1) := by
  unfold order_joins_rounds
  rw [List.range'_1_concat, List.foldlM_append]
  simp only [List.foldlM_cons, List.foldlM_nil, bind_pure, Nat.add_comm 1 n]
  rfl

theorem sound_new (v : List LogicalJoinNode) : PlanCache.new.sound v :=
  fun t _ _ h => absurd (get_order_new t) h

/-- The first `n` rounds of `order_joins` return, leaving a sound cache that
holds a plan for every linkable set of at most `n` joins. -/
theorem order_joins_rounds_spec (v : List LogicalJoinNode) (stats : List Nat → TableStats)
    (sel : List Nat → ℚ) (hv : v.Pairwise fun a b => a.tie ≠ b.tie)
    (hscan : ∀ t, (stats t).estimate_scan_cost ≤ 2 ^ 64) (hN : v.length < 2 ^ 31) (n : Nat)
    (hn : n ≤ v.length) :
    ∃ st, order_joins_rounds v stats sel n = some st ∧ st.2.sound v ∧ st.2.complete v n := by
  induction n with
  | zero =>
    refine ⟨_, order_joins_rounds_zero v stats sel, sound_new v, ?_⟩
    intro t _ _ h1 h2 _
    omega
  | succ n ih =>
    obtain ⟨st, h1, h2, h3⟩ := ih (by omega)
    obtain ⟨st', g1, g2, g3⟩ := plan_size_spec v stats sel hv hscan (n + 1) (by omega) hn hN st
      h2 (by simpa using h3)
    refine ⟨st', ?_, g2, g3⟩
    rw [order_joins_rounds_succ, h1]
    exact g1

/-- The set of all joins of `v`: the only set the last round enumerates. -/
theorem enumerate_subsets_all (v : List LogicalJoinNode)
    (hv : v.Pairwise fun a b => a.tie ≠ b.tie) :
    ∃ s : JoinSet, enumerate_subsets v v.length = some [s] ∧
      s.Pairwise (fun a b => LogicalJoinNode.lt a b = true) ∧ s.length = v.length ∧
      (∀ x ∈ s, x ∈ v) ∧ s.Perm v := by
  obtain ⟨res, h0, _, h2, h3⟩ := enumerate_subsets_complete v v.length hv (le_refl _)
  rw [Nat.choose_self] at h2
  obtain ⟨s, hs⟩ := List.length_eq_one.mp h2
  subst hs
  obtain ⟨a1, a2, a3⟩ := (h3 s).mp (List.mem_singleton_self s)
  refine ⟨s, h0, a1, a2, a3, ?_⟩
  have hnd : s.Nodup := nodup_of_tie_distinct s
    (sorted_keys_nodup LogicalJoinNode.lt _ LogicalJoinNode.tie tie_lt_strict (fun _ _ => rfl)
      s a1)
  exact (List.subperm_of_subset hnd a3).perm_of_length_le (by omega)

/-- Function `order_joins` on pairwise distinct, linkable joins returns a plan
that holds every join once, as given or swapped. -/
theorem order_joins_spec (v : List LogicalJoinNode) (stats : List Nat → TableStats)
    (sel : List Nat → ℚ) (hv : v.Pairwise fun a b => a.tie ≠ b.tie)
    (hscan : ∀ t, (stats t).estimate_scan_cost ≤ 2 ^ 64) (hN : v.length < 2 ^ 31)
    (hl : linkable v) :
    ∃ plan, order_joins v stats sel = some plan ∧ plan.length = v.length ∧
      oriented_permutation plan v := by
  unfold order_joins
  cases hlen : v.length with
  | zero =>
    have hnil : v = [] := List.length_eq_zero.mp hlen
    subst hnil
    exact ⟨[], rfl, rfl, oriented_permutation_nil⟩
  | succ n =>
    obtain ⟨st, h1, h2, h3⟩ := order_joins_rounds_spec v stats sel hv hscan hN n (by omega)
    obtain ⟨s, e0, e1, e2, e3, e4⟩ := enumerate_subsets_all v hv
    have hround : order_joins_rounds v stats sel (n + 1)
        = some (plan_subset stats sel st s) := by
      rw [order_joins_rounds_succ, h1]
      simp only [Option.some_bind]
      unfold plan_size
      rw [← hlen, e0]
      rfl
    rw [hround]
    have hls : linkable s := by
      obtain ⟨q, hq, hc⟩ := hl
      exact ⟨q, hq.trans e4.symm, hc⟩
    obtain ⟨_, _, b3⟩ := plan_subset_step v stats sel hv hscan st.1 st.2 h2 s e1 e3
      (by omega) (by omega) (by rw [e2, hlen]; simpa using h3)
    obtain ⟨_, hop⟩ := b3 hls
    refine ⟨_, rfl, ?_, oriented_permutation_perm _ _ _ hop e4⟩
    rw [oriented_permutation_length _ _ hop, e2, hlen]

end

section
open JoinOptimizer

theorem join_operands_empty (stats : List Nat → TableStats) (sel : List Nat → ℚ)
    (j : LogicalJoinNode) (p p' : List LogicalJoinNode) (c c' : ℚ) (k k' : Int) :
    join_operands stats sel j true p c k = join_operands stats sel j true p' c' k' := by
  unfold join_operands
  simp only [if_true]

/-- A step of an ordering on top of the cached plan of the other joins of a set,
in terms of the operands of `compute_cost_and_card_of_subplan`. -/
theorem ordering_step_cached (stats : List Nat → TableStats) (sel : List Nat → ℚ)
    (pc : PlanCache) (s : JoinSet) (j : LogicalJoinNode) (swapped : Bool) :
    ordering_step stats sel (pc.cached (set_erase LogicalJoinNode.lt s j)) j swapped
      = (cached_operands stats sel pc s j).map fun o =>
          if swapped = true then
            { cost := estimate_join_cost j.swap_inner_outer o.t2_card o.t1_card o.t2_cost
                o.t1_cost
              card := estimate_join_cardinality j.swap_inner_outer o.t1_card o.t2_card
                o.right_Pkey o.left_Pkey
              plan := o.prev_best ++ [j.swap_inner_outer] }
          else
            { cost := estimate_join_cost j o.t1_card o.t2_card o.t1_cost o.t2_cost
              card := estimate_join_cardinality j o.t1_card o.t2_card o.left_Pkey o.right_Pkey
              plan := o.prev_best ++ [j] } := by
  have hops : join_operands stats sel j (pc.cached (set_erase LogicalJoinNode.lt s j)).isNone
      ((pc.cached (set_erase LogicalJoinNode.lt s j)).elim [] fun cc => cc.plan)
      ((pc.cached (set_erase LogicalJoinNode.lt s j)).elim 0 fun cc => cc.cost)
      ((pc.cached (set_erase LogicalJoinNode.lt s j)).elim 0 fun cc => cc.card)
      = cached_operands stats sel pc s j := by
    unfold PlanCache.cached cached_operands
    by_cases he : (set_erase LogicalJoinNode.lt s j).isEmpty = true
    · rw [if_pos he, he]
      exact join_operands_empty _ _ _ _ _ _ _ _ _
    · rw [if_neg he]
      have he' : (set_erase LogicalJoinNode.lt s j).isEmpty = false := by simpa using he
      rw [he']
      rfl
  unfold ordering_step
  rw [hops]
  cases cached_operands stats sel pc s j with
  | none => rfl
  | some o =>
    cases swapped
    · rfl
    · rfl

/-- The cheaper orientation is one of the two steps and costs no more than
either. -/
theorem cheaper_orientation_step (stats : List Nat → TableStats) (sel : List Nat → ℚ)
    (pc : PlanCache) (s : JoinSet) (j : LogicalJoinNode) (o : JoinOperands)
    (ho : cached_operands stats sel pc s j = some o) :
    (∃ swapped, ordering_step stats sel (pc.cached (set_erase LogicalJoinNode.lt s j)) j swapped
      = some (cheaper_orientation j o)) ∧
    ∀ swapped cc,
      ordering_step stats sel (pc.cached (set_erase LogicalJoinNode.lt s j)) j swapped = some cc →
      (cheaper_orientation j o).cost ≤ cc.cost := by
  obtain ⟨c1, c2⟩ := cheaper_orientation_cost_le j o
  constructor
  · refine ⟨decide (estimate_join_cost j.swap_inner_outer o.t2_card o.t1_card o.t2_cost o.t1_cost
      < estimate_join_cost j o.t1_card o.t2_card o.t1_cost o.t2_cost), ?_⟩
    rw [ordering_step_cached, ho]
    simp only [Option.map_some', decide_eq_true_eq]
    rfl
  · intro swapped cc h
    rw [ordering_step_cached, ho] at h
    simp only [Option.map_some', Option.some.injEq] at h
    rw [← h]
    cases swapped
    · simpa using c1
    · simpa using c2

/-- The last round of `order_joins`: the plan returned appends one join, in one
orientation, to the plan cached for the other joins, and no such step is
cheaper. -/
theorem order_joins_last_round (v : List LogicalJoinNode) (stats : List Nat → TableStats)
    (sel : List Nat → ℚ) (hv : v.Pairwise fun a b => a.tie ≠ b.tie)
    (hscan : ∀ t, (stats t).estimate_scan_cost ≤ 2 ^ 64) (hN : v.length < 2 ^ 31)
    (hl : linkable v) (h1 : 1 ≤ v.length) :
    ∃ st s bcc,
      order_joins_rounds v stats sel (v.length - 1) = some st ∧
      s.Perm v ∧ s.Pairwise (fun a b => LogicalJoinNode.lt a b = true) ∧
      order_joins v stats sel = some bcc.plan ∧
      (∃ j ∈ v, ∃ swapped,
        ordering_step stats sel (st.2.cached (set_erase LogicalJoinNode.lt s j)) j swapped
          = some bcc) ∧
      ∀ j ∈ v, ∀ swapped cc,
        ordering_step stats sel (st.2.cached (set_erase LogicalJoinNode.lt s j)) j swapped
          = some cc →
        bcc.cost ≤ cc.cost := by
  obtain ⟨n, hn⟩ : ∃ n, v.length = n + 1 := ⟨v.length - 1, by omega⟩
  obtain ⟨st, r1, r2, r3⟩ := order_joins_rounds_spec v stats sel hv hscan hN n (by omega)
  obtain ⟨s, e0, e1, e2, e3, e4⟩ := enumerate_subsets_all v hv
  have hround : order_joins_rounds v stats sel (n + 1) = some (plan_subset stats sel st s) := by
    rw [order_joins_rounds_succ, r1]
    simp only [Option.some_bind]
    unfold plan_size
    rw [← hn, e0]
    rfl
  have hls : linkable s := by
    obtain ⟨q, hq, hc⟩ := hl
    exact ⟨q, hq.trans e4.symm, hc⟩
  have hcomp : st.2.complete v (s.length - 1) := by rw [e2, hn]; simpa using r3
  obtain ⟨b1, b2, b3⟩ := best_plan_spec stats sel st.2 s
  obtain ⟨j0, hj0, o0, ho0⟩ := candidate_exists v stats sel st.2 r2 s e1 e3 (by omega) hcomp hls
  obtain ⟨_, c2, _⟩ := candidate_sound v stats sel hscan st.2 r2 s e1 e3 j0 hj0 o0 ho0
  have hbound := bound_lt_DBL_MAX s.length (by omega)
  have hlt : (best_plan stats sel st.2 s).1 < DBL_MAX :=
    lt_of_le_of_lt (b3 j0 hj0 o0 ho0) (lt_of_le_of_lt c2 hbound)
  rcases b2 with h | ⟨j, hj, o, ho, h, _⟩
  · rw [h] at hlt
    exact absurd hlt (lt_irrefl _)
  · refine ⟨st, s, cheaper_orientation j o, ?_, e4, e1, ?_, ?_, ?_⟩
    · rw [hn]; exact r1
    · unfold order_joins
      rw [hn, hround]
      unfold plan_subset
      simp only [Option.map_some', h]
    · obtain ⟨⟨sw, hsw⟩, _⟩ := cheaper_orientation_step stats sel st.2 s j o ho
      exact ⟨j, e4.mem_iff.mp hj, sw, hsw⟩
    · intro j' hj' sw cc hcc
      have hj's : j' ∈ s := e4.mem_iff.mpr hj'
      have hsome : ∃ o', cached_operands stats sel st.2 s j' = some o' := by
        rw [ordering_step_cached] at hcc
        cases hc : cached_operands stats sel st.2 s j' with
        | none => rw [hc] at hcc; simp at hcc
        | some o' => exact ⟨o', rfl⟩
      obtain ⟨o', ho'⟩ := hsome
      have h3 := b3 j' hj's o' ho'
      rw [h] at h3
      simp only at h3
      exact le_trans h3 ((cheaper_orientation_step stats sel st.2 s j' o' ho').2 sw cc hcc)

end

section
open JoinOptimizer Example

/-- A scan cost whose page product fits `int64_t` is at most `2 ^ 64`. -/
theorem scan_cost_le_of_fits (stats : List Nat → TableStats)
    (hfit : ∀ t, (stats t).io_cost * (stats t).nump < 2 ^ 63) (t : List Nat) :
    (stats t).estimate_scan_cost ≤ 2 ^ 64 := by
  unfold TableStats.estimate_scan_cost
  simp only
  have h : (((stats t).io_cost * (stats t).nump : Int) : ℚ) ≤ 2 ^ 63 := by
    exact_mod_cast (hfit t).le
  linarith

theorem test_stats_fit (t : List Nat) : (test_stats t).io_cost * (test_stats t).nump < 2 ^ 63 := by
  unfold test_stats
  split_ifs <;> decide

theorem test_joins_linkable : linkable test_joins :=
  ⟨[test_joins.getD 1 join_ca, test_joins.getD 2 join_ca, test_joins.getD 0 join_ca],
    by decide, by decide⟩

end

section
open SlottedPage

/-- The slot word for any offset and length: the marker `0xFF`, the low 24 bits
of the offset and the low 24 bits of the length. -/
theorem slotValue_general (offset length : Nat) :
    slotValue offset length = 255 * 2 ^ 56 + (offset % 2 ^ 24) * 2 ^ 24 + length % 2 ^ 24 := by
  unfold slotValue
  simp only [Nat.shiftLeft_eq, Nat.shiftRight_eq_div_pow]
  norm_num
  omega

/-- The slot word is never 0: its top byte is the marker `0xFF`. -/
theorem slotValue_ne_zero (offset length : Nat) : slotValue offset length ≠ 0 := by
  rw [slotValue_general]
  omega

/-- What `List.find?` on an initial segment of the naturals returns. -/
theorem find_range_spec (p : Nat → Bool) (n : Nat) :
    match (List.range n).find? p with
    | some f => f < n ∧ p f = true ∧ ∀ i, i < f → p i = false
    | none => ∀ i, i < n → p i = false := by
  induction n with
  | zero => simp
  | succ n ih =>
    rw [List.range_succ, List.find?_append]
    cases h : (List.range n).find? p with
    | some f =>
      rw [h] at ih
      show f < n + 1 ∧ p f = true ∧ ∀ i, i < f → p i = false
      exact ⟨by omega, ih.2.1, ih.2.2⟩
    | none =>
      rw [h] at ih
      simp only [Option.or, List.find?_cons, List.find?_nil]
      cases hp : p n with
      | true =>
        simp only
        exact ⟨by omega, hp, ih⟩
      | false =>
        simp only
        intro i hi
        by_cases hin : i < n
        · exact ih i hin
        · have : i = n := by omega
          rw [this]; exact hp

/-- The closing loop of `addSlot` leaves `first_free_slot` at the first zero slot
below `slot_count`, or at `slot_count`. -/
theorem update_first_free_slot_spec (page : SlottedPage) (hlen : 20 ≤ page.length)
    (hsc : slot_count page < 2 ^ 16) :
    first_free_slot (update_first_free_slot page) ≤ slot_count page ∧
    (∀ k, k < first_free_slot (update_first_free_slot page) → getSlot page k ≠ 0) ∧
    (first_free_slot (update_first_free_slot page) < slot_count page →
      getSlot page (first_free_slot (update_first_free_slot page)) = 0) := by
  have hspec := find_range_spec (fun i => decide (getSlot page i = 0)) (slot_count page)
  unfold update_first_free_slot
  cases h : (List.range (slot_count page)).find? fun i => decide (getSlot page i = 0) with
  | some f =>
    rw [h] at hspec
    obtain ⟨h1, h2, h3⟩ := hspec
    have hf : first_free_slot (set_first_free_slot page f) = f := by
      simp only [first_free_slot, set_first_free_slot]
      rw [load_store_same _ _ _ _ (by omega)]
      apply Nat.mod_eq_of_lt
      norm_num at hsc ⊢; omega
    simp only [hf]
    refine ⟨by omega, fun k hk => ?_, fun _ => ?_⟩
    · simpa using h3 k hk
    · simpa using h2
  | none =>
    rw [h] at hspec
    have hf : first_free_slot (set_first_free_slot page (slot_count page)) = slot_count page := by
      simp only [first_free_slot, set_first_free_slot]
      rw [load_store_same _ _ _ _ (by omega)]
      apply Nat.mod_eq_of_lt
      norm_num at hsc ⊢; omega
    simp only [hf]
    refine ⟨le_refl _, fun k hk => ?_, fun hlt => absurd hlt (lt_irrefl _)⟩
    simpa using hspec k hk

theorem slot_count_lt (page : SlottedPage) : slot_count page < 2 ^ 16 := by
  have := load_lt page 16 2
  unfold slot_count
  norm_num at this ⊢
  exact this

/-- The slot directory after `place_slot`. -/
theorem place_slot_spec (page : SlottedPage) (v : Nat) (hv : v < 2 ^ 64)
    (hin : sizeof_header + sizeof_slot * (first_free_slot page + 1) ≤ page.length)
    (hcount : slot_count page + 1 < 2 ^ 16) :
    getSlot (place_slot page v) (first_free_slot page) = v ∧
    slot_count (place_slot page v) =
      (if first_free_slot page = slot_count page then slot_count page + 1 else slot_count page) ∧
    ∀ k, k ≠ first_free_slot page → getSlot (place_slot page v) k = getSlot page k := by
  refine ⟨getSlot_place_slot page v hv hin, ?_, ?_⟩
  · unfold place_slot
    simp only [sizeof_header, sizeof_slot] at hin
    split_ifs with h
    · simp only [slot_count, set_slot_count, setSlot, length_store]
      rw [load_store_same _ _ _ _ (by rw [length_store]; omega),
        load_store_disjoint _ _ _ _ _ _ (by simp only [sizeof_header, sizeof_slot]; omega)]
      have : (load page 16 2 + 1) % 2 ^ 16 = load page 16 2 + 1 :=
        Nat.mod_eq_of_lt hcount
      rw [this]
      apply Nat.mod_eq_of_lt
      have hc : load page 16 2 + 1 < 2 ^ 16 := hcount
      norm_num at hc ⊢
      exact hc
    · simp only [slot_count, setSlot, sizeof_header, sizeof_slot]
      rw [load_store_disjoint _ _ _ _ _ _ (by omega)]
  · intro k hk
    unfold place_slot
    split_ifs with h
    · simp only [getSlot, set_slot_count, setSlot, sizeof_header, sizeof_slot]
      rw [load_store_disjoint _ _ _ _ _ _ (by omega),
        load_store_disjoint _ _ _ _ _ _ (by rw [← h]; omega)]
    · simp only [getSlot, setSlot, sizeof_header, sizeof_slot]
      rw [load_store_disjoint _ _ _ _ _ _ (by omega)]

/-- The slot directory after a successful `addSlot`. -/
theorem add_slot_directory_spec (page : SlottedPage) (size : Nat)
    (hsize : size ≤ free_space page)
    (hin : sizeof_header + sizeof_slot * (first_free_slot page + 1) ≤ page.length)
    (hcount : slot_count page + 1 < 2 ^ 16) :
    ∃ page' tid, addSlot page size = some (page', tid) ∧
      getSlot page' (first_free_slot page)
        = slotValue ((data_start page + 2 ^ 32 - size) % 2 ^ 32) size ∧
      getSlot page' (first_free_slot page) ≠ 0 ∧
      slot_count page' =
        (if first_free_slot page = slot_count page then slot_count page + 1
         else slot_count page) ∧
      (∀ k, k ≠ first_free_slot page → getSlot page' k = getSlot page k) ∧
      first_free_slot page' ≤ slot_count page' ∧
      (∀ k, k < first_free_slot page' → getSlot page' k ≠ 0) ∧
      (first_free_slot page' < slot_count page' → getSlot page' (first_free_slot page') = 0) := by
  have hd := set_data_start_header page ((data_start page + 2 ^ 32 - size) % 2 ^ 32)
  have hds : ∀ k, getSlot (set_data_start page ((data_start page + 2 ^ 32 - size) % 2 ^ 32)) k
      = getSlot page k := by
    intro k
    simp only [getSlot, set_data_start, sizeof_header, sizeof_slot]
    rw [load_store_disjoint _ _ _ _ _ _ (by omega)]
  obtain ⟨p1, p2, p3⟩ := place_slot_spec
    (set_data_start page ((data_start page + 2 ^ 32 - size) % 2 ^ 32))
    (slotValue ((data_start page + 2 ^ 32 - size) % 2 ^ 32) size) (slotValue_lt _ _)
    (by rw [hd.2.1, hd.2.2.2.2]; exact hin) (by rw [hd.2.2.1]; exact hcount)
  rw [hd.2.1] at p1 p3
  rw [hd.2.1, hd.2.2.1] at p2
  have hu := update_free_space_header (place_slot
    (set_data_start page ((data_start page + 2 ^ 32 - size) % 2 ^ 32))
    (slotValue ((data_start page + 2 ^ 32 - size) % 2 ^ 32) size))
  have hf := update_first_free_slot_header (update_free_space (place_slot
    (set_data_start page ((data_start page + 2 ^ 32 - size) % 2 ^ 32))
    (slotValue ((data_start page + 2 ^ 32 - size) % 2 ^ 32) size)))
  have hlen : 20 ≤ (update_free_space (place_slot
      (set_data_start page ((data_start page + 2 ^ 32 - size) % 2 ^ 32))
      (slotValue ((data_start page + 2 ^ 32 - size) % 2 ^ 32) size))).length := by
    rw [hu.2.2.2.2.1, (place_slot_header _ _).2.2.2.2, hd.2.2.2.2]
    simp only [sizeof_header, sizeof_slot] at hin
    omega
  obtain ⟨s1, s2, s3⟩ := update_first_free_slot_spec _ hlen (slot_count_lt _)
  refine ⟨update_first_free_slot (update_free_space (place_slot
      (set_data_start page ((data_start page + 2 ^ 32 - size) % 2 ^ 32))
      (slotValue ((data_start page + 2 ^ 32 - size) % 2 ^ 32) size))),
    TID.new (overall_page_id page) (first_free_slot page), ?_, ?_, ?_, ?_, ?_, ?_, ?_, ?_⟩
  · rw [addSlot_eq, if_neg (by omega)]
  · rw [hf.2.2.2.2.2, hu.2.2.2.2.2, p1]
  · rw [hf.2.2.2.2.2, hu.2.2.2.2.2, p1]; exact slotValue_ne_zero _ _
  · rw [hf.2.2.1, hu.2.2.2.1, p2]
  · intro k hk
    rw [hf.2.2.2.2.2, hu.2.2.2.2.2, p3 k hk, hds]
  · rw [hf.2.2.1]; exact s1
  · intro k hk
    rw [hf.2.2.2.2.2]; exact s2 k hk
  · intro hlt
    rw [hf.2.2.2.2.2]
    rw [hf.2.2.1] at hlt
    exact s3 hlt

end

section
open IntHistogram

/-- The counts above bucket `b` contain bucket `b + 1`. -/
theorem range_sum_step (l : List Int) (N b : Nat) (hb : b + 1 < N) :
    ((List.range' (b + 1) (N - (b + 1))).map fun i => l.getD i 0).sum =
      l.getD (b + 1) 0 + ((List.range' (b + 1 + 1) (N - (b + 1 + 1))).map fun i => l.getD i 0).sum := by
  have : N - (b + 1) = (N - (b + 1 + 1)) + 1 := by omega
  rw [this, List.range'_succ, List.map_cons, List.sum_cons]

/-- The counts above a bucket contain every higher bucket and the counts above
it. -/
theorem range_sum_antitone (l : List Int) (hnn : ∀ x ∈ l, 0 ≤ x) (N b b' : Nat)
    (hlt : b < b') (hN : b' < N) :
    l.getD b' 0 + ((List.range' (b' + 1) (N - (b' + 1))).map fun i => l.getD i 0).sum ≤
      ((List.range' (b + 1) (N - (b + 1))).map fun i => l.getD i 0).sum := by
  induction b' with
  | zero => omega
  | succ k ih =>
    by_cases hk : b = k
    · subst hk
      rw [range_sum_step l N b hN]
    · have h1 := ih (by omega) (by omega)
      rw [range_sum_step l N k hN] at h1
      have h2 := getD_nonneg_of_mem l hnn k
      omega

/-- The quotient `h / ntups` of two `int`s with `0 ≤ h ≤ ntups`, `ntups ≥ 1`. -/
theorem tdiv_height (ht n : Int) (h0 : 0 ≤ ht) (h1 : ht ≤ n) (hn : 1 ≤ n) :
    Int.tdiv ht n = if ht = n then 1 else 0 := by
  split_ifs with hfull
  · rw [hfull, Int.tdiv_self (by omega)]
  · rw [Int.tdiv_eq_ediv h0 (by omega)]
    exact Int.ediv_eq_zero_of_lt h0 (by omega)

/-- The bucket index does not decrease with the value. -/
theorem b_idx_mono (h : IntHistogram) (v w : Int) (hspan : 0 < h.span) (hB : 1 ≤ h.NumB)
    (hv : h.min_v ≤ v) (hvw : v ≤ w) : h.b_idx v ≤ h.b_idx w := by
  rw [(b_idx_spec h v hspan hB hv).1, (b_idx_spec h w hspan hB (by omega)).1]
  apply min_le_min _ (le_refl _)
  apply Int.floor_le_floor
  apply div_le_div_of_nonneg_right _ hspan.le
  exact_mod_cast (show v - h.min_v ≤ w - h.min_v by omega)

/-- The part of its bucket that lies above a value of the range, as a
fraction of the bucket width. -/
theorem bucket_fraction_bounds (h : IntHistogram) (v : Int) (hspan : 1 ≤ h.span)
    (hB : 1 ≤ h.NumB)
    (hcover : (h.max_v : ℚ) - (h.min_v : ℚ) + 1 ≤ (h.NumB : ℚ) * h.span)
    (hv1 : h.min_v ≤ v) (hv2 : v ≤ h.max_v) :
    0 ≤ ((h.min_v : ℚ) + ((h.b_idx v + 1 : Int) : ℚ) * h.span - (v : ℚ)) / h.span ∧
    ((h.min_v : ℚ) + ((h.b_idx v + 1 : Int) : ℚ) * h.span - (v : ℚ)) / h.span ≤ 1 := by
  have hs0 : (0 : ℚ) < h.span := by linarith
  obtain ⟨hb, hb0, hbN⟩ := b_idx_spec h v hs0 hB hv1
  have hq : (0 : ℚ) ≤ ((v - h.min_v : Int) : ℚ) / h.span := by
    apply div_nonneg _ hs0.le
    exact_mod_cast (show (0 : Int) ≤ v - h.min_v by omega)
  have hfl : ((h.b_idx v : Int) : ℚ) ≤ ((v - h.min_v : Int) : ℚ) / h.span := by
    have : h.b_idx v ≤ ⌊((v - h.min_v : Int) : ℚ) / h.span⌋ := by
      rw [hb]; exact min_le_left _ _
    calc ((h.b_idx v : Int) : ℚ) ≤ ((⌊((v - h.min_v : Int) : ℚ) / h.span⌋ : Int) : ℚ) := by
          exact_mod_cast this
      _ ≤ _ := Int.floor_le _
  have hup : ((v - h.min_v : Int) : ℚ) / h.span ≤ ((h.b_idx v + 1 : Int) : ℚ) := by
    rcases le_total ⌊((v - h.min_v : Int) : ℚ) / h.span⌋ (h.NumB - 1) with c | c
    · rw [hb, min_eq_left c]
      push_cast
      exact (Int.lt_floor_add_one _).le
    · rw [hb, min_eq_right c, div_le_iff₀ hs0]
      have : ((v : Int) : ℚ) ≤ (h.max_v : ℚ) := by exact_mod_cast hv2
      push_cast
      linarith
  constructor
  · apply div_nonneg _ hs0.le
    rw [div_le_iff₀ hs0] at hup
    push_cast at hup ⊢
    linarith
  · rw [div_le_one hs0]
    rw [le_div_iff₀ hs0] at hfl
    push_cast at hfl ⊢
    linarith

/-- The branch `GT` does not increase with the constant. -/
theorem estimate_GT_antitone (h : IntHistogram) (v w : Int) (hspan : 1 ≤ h.span)
    (hB : 1 ≤ h.NumB)
    (hcover : (h.max_v : ℚ) - (h.min_v : ℚ) + 1 ≤ (h.NumB : ℚ) * h.span)
    (hnn : ∀ x ∈ h.umap, 0 ≤ x) (hsum : h.umap.sum = h.ntups) (hn : 1 ≤ h.ntups)
    (hvw : v ≤ w) : h.estimate_GT w ≤ h.estimate_GT v := by
  have bw := estimate_GT_bounds h w hspan hB hcover hnn hsum hn
  have bv := estimate_GT_bounds h v hspan hB hcover hnn hsum hn
  by_cases c1 : v ≤ h.min_v
  · have : h.estimate_GT v = 1 := by unfold estimate_GT; rw [if_pos c1]
    rw [this]; exact bw.2
  by_cases c2 : w ≥ h.max_v
  · have : h.estimate_GT w = 0 := by
      unfold estimate_GT
      split_ifs with d1
      · omega
      · rfl
    rw [this]; exact bv.1
  have hs0 : (0 : ℚ) < h.span := by linarith
  have qn : (0 : ℚ) < (h.ntups : ℚ) := by exact_mod_cast (show (0 : Int) < h.ntups by omega)
  obtain ⟨-, hv0, hvN⟩ := b_idx_spec h v hs0 hB (by omega)
  obtain ⟨-, hw0, hwN⟩ := b_idx_spec h w hs0 hB (by omega)
  have hmono := b_idx_mono h v w hs0 hB (by omega) hvw
  obtain ⟨fv0, fv1⟩ := bucket_fraction_bounds h v hspan hB hcover (by omega) (by omega)
  obtain ⟨fw0, fw1⟩ := bucket_fraction_bounds h w hspan hB hcover (by omega) (by omega)
  -- heights and counts
  have hv_h0 := getD_nonneg_of_mem h.umap hnn (h.b_idx v).toNat
  have hw_h0 := getD_nonneg_of_mem h.umap hnn (h.b_idx w).toNat
  have hv_s := getD_add_range_sum_le h.umap hnn (h.b_idx v).toNat
    (h.NumB - (h.b_idx v + 1)).toNat
  have hw_s := getD_add_range_sum_le h.umap hnn (h.b_idx w).toNat
    (h.NumB - (h.b_idx w + 1)).toNat
  have hv_c := range_sum_nonneg h.umap hnn (h.NumB - (h.b_idx v + 1)).toNat
    ((h.b_idx v).toNat + 1)
  have hw_c := range_sum_nonneg h.umap hnn (h.NumB - (h.b_idx w + 1)).toNat
    ((h.b_idx w).toNat + 1)
  rw [hsum] at hv_s hw_s
  have ev : h.estimate_GT v =
      ((Int.tdiv (h.umap.getD (h.b_idx v).toNat 0) h.ntups : Int) : ℚ) *
        (((h.min_v : ℚ) + ((h.b_idx v + 1 : Int) : ℚ) * h.span - (v : ℚ)) / h.span) +
      1 * ((((List.range' ((h.b_idx v).toNat + 1) (h.NumB - (h.b_idx v + 1)).toNat).map
        fun i => h.umap.getD i 0).sum : Int) : ℚ) / (h.ntups : ℚ) := by
    unfold estimate_GT count_above
    rw [if_neg c1, if_neg (by omega)]
    have : (h.b_idx v + 1).toNat = (h.b_idx v).toNat + 1 := by omega
    simp only [this]
  have ew : h.estimate_GT w =
      ((Int.tdiv (h.umap.getD (h.b_idx w).toNat 0) h.ntups : Int) : ℚ) *
        (((h.min_v : ℚ) + ((h.b_idx w + 1 : Int) : ℚ) * h.span - (w : ℚ)) / h.span) +
      1 * ((((List.range' ((h.b_idx w).toNat + 1) (h.NumB - (h.b_idx w + 1)).toNat).map
        fun i => h.umap.getD i 0).sum : Int) : ℚ) / (h.ntups : ℚ) := by
    unfold estimate_GT count_above
    rw [if_neg (by omega), if_neg c2]
    have : (h.b_idx w + 1).toNat = (h.b_idx w).toNat + 1 := by omega
    simp only [this]
  rw [tdiv_height _ _ hv_h0 (by omega) hn] at ev
  rw [tdiv_height _ _ hw_h0 (by omega) hn] at ew
  rcases eq_or_lt_of_le hmono with heq | hlt
  · -- same bucket
    rw [ev, ew, ← heq]
    have hfr : ((h.min_v : ℚ) + ((h.b_idx v + 1 : Int) : ℚ) * h.span - (w : ℚ)) / h.span ≤
        ((h.min_v : ℚ) + ((h.b_idx v + 1 : Int) : ℚ) * h.span - (v : ℚ)) / h.span := by
      apply div_le_div_of_nonneg_right _ hs0.le
      have : (v : ℚ) ≤ (w : ℚ) := by exact_mod_cast hvw
      linarith
    have ht0 : (0 : ℚ) ≤ ((if h.umap.getD (h.b_idx v).toNat 0 = h.ntups then (1 : Int) else 0 : Int) : ℚ) := by
      split_ifs <;> simp
    have := mul_le_mul_of_nonneg_left hfr ht0
    linarith
  · -- a lower bucket
    have hanti := range_sum_antitone h.umap hnn h.NumB.toNat (h.b_idx v).toNat (h.b_idx w).toNat
      (by omega) (by omega)
    have e1 : (h.NumB - (h.b_idx v + 1)).toNat = h.NumB.toNat - ((h.b_idx v).toNat + 1) := by omega
    have e2 : (h.NumB - (h.b_idx w + 1)).toNat = h.NumB.toNat - ((h.b_idx w).toNat + 1) := by omega
    rw [e1] at ev hv_s hv_c
    rw [e2] at ew hw_s hw_c
    generalize ((List.range' ((h.b_idx v).toNat + 1) (h.NumB.toNat - ((h.b_idx v).toNat + 1))).map
      fun i => h.umap.getD i 0).sum = cv at ev hv_s hv_c hanti
    generalize ((List.range' ((h.b_idx w).toNat + 1) (h.NumB.toNat - ((h.b_idx w).toNat + 1))).map
      fun i => h.umap.getD i 0).sum = cw at ew hw_s hw_c hanti
    generalize h.umap.getD (h.b_idx w).toNat 0 = tw at ew hw_h0 hw_s hanti
    generalize h.umap.getD (h.b_idx v).toNat 0 = tv at ev hv_h0 hv_s
    have htv : (0 : ℚ) ≤ ((if tv = h.ntups then (1 : Int) else 0 : Int) : ℚ) := by
      split_ifs <;> simp
    have hlow : (cv : ℚ) / (h.ntups : ℚ) ≤ h.estimate_GT v := by
      rw [ev, one_mul]
      have := mul_nonneg htv fv0
      linarith
    by_cases hfull : tw = h.ntups
    · have : h.ntups ≤ cv := by omega
      have h1 : (1 : ℚ) ≤ (cv : ℚ) / (h.ntups : ℚ) := by
        rw [le_div_iff₀ qn]
        have : (h.ntups : ℚ) ≤ (cv : ℚ) := by exact_mod_cast this
        linarith
      linarith [bw.2]
    · rw [if_neg hfull] at ew
      rw [ew]
      have : (cw : ℚ) / (h.ntups : ℚ) ≤ (cv : ℚ) / (h.ntups : ℚ) := by
        apply div_le_div_of_nonneg_right _ qn.le
        exact_mod_cast (show cw ≤ cv by omega)
      simp only [Int.cast_zero, zero_mul, one_mul, zero_add]
      linarith

/-- Monotonicity of the greater-than estimate on the histogram built by the
constructor and any sequence of `add_value` calls, at least one of them on a
value of the range. -/
theorem gt_antitone_spec (NumB lo hi : Int) (vals : List Int) (hB : 1 ≤ NumB)
    (hne : ∃ x ∈ vals, lo ≤ x ∧ x ≤ hi) (v w : Int) (hvw : v ≤ w) :
    (vals.foldl add_value (IntHistogram.new NumB lo hi)).estimate_selectivity PredicateType.GT w ≤
    (vals.foldl add_value (IntHistogram.new NumB lo hi)).estimate_selectivity PredicateType.GT v := by
  obtain ⟨x0, hx0, hx1, hx2⟩ := hne
  obtain ⟨n1, n2, n3, n4, n5, n6⟩ := new_fields NumB lo hi
  obtain ⟨f1, f2, f3, f4, f5⟩ := foldl_add_value_fields vals (IntHistogram.new NumB lo hi)
  have hs1 := new_span_ge_one NumB lo hi
  obtain ⟨c1, c2⟩ := foldl_add_value_counts vals (IntHistogram.new NumB lo hi)
    (by linarith) (by rw [n3]; exact hB) (by rw [n5, n3])
  have hpos : 0 < (vals.filter fun v => decide ((IntHistogram.new NumB lo hi).min_v ≤ v ∧
      v ≤ (IntHistogram.new NumB lo hi).max_v)).length := by
    apply List.length_pos_of_mem (a := x0)
    rw [List.mem_filter]
    exact ⟨hx0, by rw [n1, n2]; simpa using ⟨hx1, hx2⟩⟩
  show (vals.foldl add_value (IntHistogram.new NumB lo hi)).estimate_GT w ≤
    (vals.foldl add_value (IntHistogram.new NumB lo hi)).estimate_GT v
  apply estimate_GT_antitone _ _ _ _ _ _ _ _ _ hvw
  · rw [f1]; exact hs1
  · rw [f4, n3]; exact hB
  · rw [f1, f2, f3, f4, n1, n2, n3]; exact new_cover NumB lo hi hB
  · apply foldl_add_value_nonneg
    intro x hx
    simp only [IntHistogram.new] at hx
    rw [List.eq_of_mem_replicate hx]
  · rw [c1, c2, n4, n6]
  · rw [c1, n4]; omega

end

section

theorem flush_page_pool (bm : BufferManager) (disk : Disk) (page_id : Nat)
    (bm' : BufferManager) (disk' : Disk) (h : bm.flush_page disk page_id = some (bm', disk')) :
    bm' = bm := by
  unfold flush_page at h
  simp only at h
  split_ifs at h
  · cases hw : bm.write_frame disk (bm.get_frame_id_of_page page_id) with
    | none => rw [hw] at h; simp at h
    | some d => rw [hw] at h; simp at h; exact h.1.symm
  · simp at h; exact h.1.symm
  · simp at h; exact h.1.symm

theorem flush_all_pages_pool (bm : BufferManager) (disk : Disk)
    (bm' : BufferManager) (disk' : Disk) (h : bm.flush_all_pages disk = some (bm', disk')) :
    bm' = bm := by
  unfold flush_all_pages at h
  cases hw : bm.flush_frames (List.range bm.capacity_) disk with
  | none => rw [hw] at h; simp at h
  | some d => rw [hw] at h; simp at h; exact h.1.symm

theorem set_frame_out_of_range (bm : BufferManager) (i : Nat) (g : BufferFrame)
    (h : bm.pool_.length ≤ i) : bm.set_frame i g = bm := by
  unfold BufferManager.set_frame
  rw [List.set_eq_of_length_le h]

/-- The step `unfix_page` keeps the shape of the pool and every page id. -/
theorem unfix_page_pool (bm : BufferManager) (page : Nat) (is_dirty : Bool) (hwf : bm.WF) :
    (bm.unfix_page page is_dirty).WF ∧
    (bm.unfix_page page is_dirty).capacity_ = bm.capacity_ ∧
    (bm.unfix_page page is_dirty).page_counter_ = bm.page_counter_ ∧
    ∀ i, ((bm.unfix_page page is_dirty).frame i).page_id = (bm.frame i).page_id := by
  unfold unfix_page
  split_ifs with hd
  · by_cases hp : page < bm.pool_.length
    · refine ⟨WF_set_frame bm page _ hwf ?_, rfl, rfl, fun i => ?_⟩
      · exact frame_data_length bm hwf page (by rw [← hwf.1]; exact hp)
      · by_cases hi : page = i
        · subst hi; rw [frame_set_frame_same _ _ _ hp]
        · rw [frame_set_frame_other _ _ _ _ hi]
    · rw [set_frame_out_of_range _ _ _ (by omega)]
      exact ⟨hwf, rfl, rfl, fun _ => rfl⟩
  · exact ⟨hwf, rfl, rfl, fun _ => rfl⟩

theorem discarded_frame_fields (bm : BufferManager) :
    bm.discarded_frame.page_id = INVALID_PAGE_ID ∧
    bm.discarded_frame.data.length = bm.page_size_ := by
  simp [BufferManager.discarded_frame, vector_resize, BufferFrame.new]

/-- The step `discard_page` keeps the shape of the pool and the frame counter,
and every frame keeps its page id or becomes invalid. -/
theorem discard_page_pool (bm : BufferManager) (page_id : Nat) (hwf : bm.WF) :
    (bm.discard_page page_id).WF ∧
    (bm.discard_page page_id).capacity_ = bm.capacity_ ∧
    (bm.discard_page page_id).page_counter_ = bm.page_counter_ ∧
    ∀ i, ((bm.discard_page page_id).frame i).page_id = (bm.frame i).page_id ∨
      ((bm.discard_page page_id).frame i).page_id = INVALID_PAGE_ID := by
  unfold discard_page
  simp only
  split_ifs with hres
  · obtain ⟨hk, _⟩ := get_frame_id_of_page_spec bm page_id hres
    refine ⟨WF_set_frame bm _ _ hwf (discarded_frame_fields bm).2, rfl, rfl, fun i => ?_⟩
    by_cases hi : bm.get_frame_id_of_page page_id = i
    · right
      rw [← hi, frame_set_frame_same _ _ _ (by rw [hwf.1]; exact hk)]
      exact (discarded_frame_fields bm).1
    · left; rw [frame_set_frame_other _ _ _ _ hi]
  · exact ⟨hwf, rfl, rfl, fun _ => Or.inl rfl⟩

theorem discard_all_pages_pool (bm : BufferManager) (hwf : bm.WF) :
    bm.discard_all_pages.WF ∧
    bm.discard_all_pages.capacity_ = bm.capacity_ ∧
    bm.discard_all_pages.page_counter_ = bm.page_counter_ ∧
    ∀ i, (bm.discard_all_pages.frame i).page_id = (bm.frame i).page_id ∨
      (bm.discard_all_pages.frame i).page_id = INVALID_PAGE_ID := by
  obtain ⟨h1, h2, h3, h4, h5⟩ := discard_all_pages_spec bm hwf
  refine ⟨h4, h1, h3, fun i => ?_⟩
  by_cases hi : i < bm.capacity_
  · right; rw [h5 i hi]; exact (discarded_frame_fields bm).1
  · left
    rw [frame_of_ge _ _ (by rw [h4.1, h1]; omega), frame_of_ge _ _ (by rw [hwf.1]; omega)]

/-- The page-fault path of `fix_page`: the frame at `page_counter_` takes the
page, the counter advances, every other frame is untouched. -/
theorem fix_page_fault_pool (bm : BufferManager) (disk : Disk) (pid : Nat) (exclusive : Bool)
    (bm' : BufferManager) (f : Nat) (hwf : bm.WF) (hres : ¬ bm.resident pid)
    (h : bm.fix_page disk pid exclusive = some (bm', f)) :
    f = bm.page_counter_ ∧ bm'.page_counter_ = bm.page_counter_ + 1 ∧
    bm.page_counter_ + 1 < bm.capacity_ ∧
    (∀ g, g ≠ bm.page_counter_ → bm'.frame g = bm.frame g) ∧
    (bm'.frame bm.page_counter_).page_id = pid := by
  by_cases h1 : pid = INVALID_PAGE_ID
  · simp [fix_page, h1] at h
  obtain ⟨_, _, _, hp, _, _, _⟩ := fix_page_post bm disk pid exclusive bm' f hwf h
  rw [fix_page_fault bm disk pid exclusive hwf h1 hres] at h
  split_ifs at h with hfull hrange
  simp only [Option.some.injEq, Prod.mk.injEq] at h
  obtain ⟨rfl, rfl⟩ := h
  refine ⟨rfl, rfl, by omega, ?_, hp⟩
  intro g hg
  simp [BufferManager.frame, List.getD_eq_getElem?_getD, List.getElem?_set_ne (Ne.symm hg)]

/-- What one returning call does to the pool: either the frame counter stays
and every frame keeps its page id or becomes invalid, or the call is a
`fix_page` for a page no frame held, which takes the frame at the counter. -/
theorem run_step (c : PoolCall) (bm : BufferManager) (disk : Disk) (bm' : BufferManager)
    (disk' : Disk) (hwf : bm.WF) (h : c.run bm disk = some (bm', disk')) :
    bm'.WF ∧ bm'.capacity_ = bm.capacity_ ∧
    ((c.faults bm = 0 ∧ bm'.page_counter_ = bm.page_counter_ ∧
        ∀ i, (bm'.frame i).page_id = (bm.frame i).page_id ∨
          (bm'.frame i).page_id = INVALID_PAGE_ID) ∨
     (c.faults bm = 1 ∧ bm'.page_counter_ = bm.page_counter_ + 1 ∧
        bm.page_counter_ + 1 < bm.capacity_ ∧
        (∀ g, g ≠ bm.page_counter_ → bm'.frame g = bm.frame g) ∧
        (bm'.frame bm.page_counter_).page_id ≠ INVALID_PAGE_ID ∧
        ∀ i, i < bm.capacity_ → (bm.frame i).page_id ≠ (bm'.frame bm.page_counter_).page_id)) := by
  cases c with
  | fix_page pid e =>
    simp only [PoolCall.run] at h
    cases hf : bm.fix_page disk pid e with
    | none => rw [hf] at h; simp at h
    | some r =>
      obtain ⟨b, f⟩ := r
      rw [hf] at h
      simp only [Option.some.injEq, Prod.mk.injEq] at h
      obtain ⟨rfl, rfl⟩ := h
      obtain ⟨w1, _, _, _, hne, _, hcap⟩ := fix_page_post bm disk pid e b f hwf hf
      refine ⟨w1, hcap, ?_⟩
      by_cases hres : bm.resident pid
      · left
        rw [fix_page_resident bm disk pid e hne hres] at hf
        simp only [Option.some.injEq, Prod.mk.injEq] at hf
        obtain ⟨rfl, _⟩ := hf
        refine ⟨?_, rfl, fun _ => Or.inl rfl⟩
        unfold resident at hres
        simp [PoolCall.faults, hres]
      · right
        obtain ⟨_, g2, g3, g4, g5⟩ := fix_page_fault_pool bm disk pid e b f hwf hres hf
        refine ⟨?_, g2, g3, g4, by rw [g5]; exact hne, ?_⟩
        · unfold resident at hres
          simp only [ne_eq, not_not] at hres
          simp [PoolCall.faults, hres]
        · rw [g5]
          unfold resident at hres
          exact get_frame_id_of_page_none bm pid hwf.2.2.1 (by simpa using hres)
  | unfix_page page d =>
    simp only [PoolCall.run, Option.some.injEq, Prod.mk.injEq] at h
    obtain ⟨rfl, rfl⟩ := h
    obtain ⟨a1, a2, a3, a4⟩ := unfix_page_pool bm page d hwf
    exact ⟨a1, a2, Or.inl ⟨rfl, a3, fun i => Or.inl (a4 i)⟩⟩
  | flush_page pid =>
    simp only [PoolCall.run] at h
    have := flush_page_pool bm disk pid bm' disk' h
    subst this
    exact ⟨hwf, rfl, Or.inl ⟨rfl, rfl, fun _ => Or.inl rfl⟩⟩
  | flush_all_pages =>
    simp only [PoolCall.run] at h
    have := flush_all_pages_pool bm disk bm' disk' h
    subst this
    exact ⟨hwf, rfl, Or.inl ⟨rfl, rfl, fun _ => Or.inl rfl⟩⟩
  | discard_page pid =>
    simp only [PoolCall.run, Option.some.injEq, Prod.mk.injEq] at h
    obtain ⟨rfl, rfl⟩ := h
    obtain ⟨a1, a2, a3, a4⟩ := discard_page_pool bm pid hwf
    exact ⟨a1, a2, Or.inl ⟨rfl, a3, a4⟩⟩
  | discard_all_pages =>
    simp only [PoolCall.run, Option.some.injEq, Prod.mk.injEq] at h
    obtain ⟨rfl, rfl⟩ := h
    obtain ⟨a1, a2, a3, a4⟩ := discard_all_pages_pool bm hwf
    exact ⟨a1, a2, Or.inl ⟨rfl, a3, a4⟩⟩

/-- One returning call preserves the residency invariant. -/
theorem run_step_invariant (c : PoolCall) (bm : BufferManager) (disk : Disk)
    (bm' : BufferManager) (disk' : Disk) (hwf : bm.WF) (hu : bm.unused_frames_invalid)
    (hs : no_shared_page bm) (h : c.run bm disk = some (bm', disk')) :
    bm'.WF ∧ bm'.unused_frames_invalid ∧ no_shared_page bm' := by
  obtain ⟨w, hcap, hcase⟩ := run_step c bm disk bm' disk' hwf h
  refine ⟨w, ?_, ?_⟩
  · rcases hcase with ⟨_, hc, hf⟩ | ⟨_, hc, hroom, hf, _, _⟩
    · intro i h1 h2
      rw [hc] at h1
      rw [hcap] at h2
      rcases hf i with e | e
      · rw [e]; exact hu i h1 h2
      · exact e
    · intro i h1 h2
      rw [hc] at h1
      rw [hcap] at h2
      rw [hf i (by omega)]
      exact hu i (by omega) h2
  · rcases hcase with ⟨_, hc, hf⟩ | ⟨_, hc, hroom, hf, hne, hnew⟩
    · intro i j hi hj hvalid heq
      rw [hcap] at hi hj
      have ei : (bm'.frame i).page_id = (bm.frame i).page_id := by
        rcases hf i with e | e
        · exact e
        · exact absurd e hvalid
      have ej : (bm'.frame j).page_id = (bm.frame j).page_id := by
        rcases hf j with e | e
        · exact e
        · exact absurd (heq.trans e) hvalid
      exact hs i j hi hj (by rw [← ei]; exact hvalid) (by rw [← ei, ← ej]; exact heq)
    · intro i j hi hj hvalid heq
      rw [hcap] at hi hj
      by_cases h1 : i = bm.page_counter_
      · by_cases h2 : j = bm.page_counter_
        · rw [h1, h2]
        · rw [hf j h2, h1] at heq
          exact absurd heq.symm (hnew j hj)
      · by_cases h2 : j = bm.page_counter_
        · rw [hf i h1, h2] at heq
          exact absurd heq (hnew i hi)
        · rw [hf i h1] at hvalid heq
          rw [hf j h2] at heq
          exact hs i j hi hj hvalid heq

theorem new_invariant (page_size page_count : Nat) (h : page_count < 2 ^ 64) :
    (BufferManager.new page_size page_count).WF ∧
    (BufferManager.new page_size page_count).unused_frames_invalid ∧
    no_shared_page (BufferManager.new page_size page_count) := by
  refine ⟨new_WF _ _ h, ?_, ?_⟩
  · intro i _ hi
    have hi' : i < page_count := hi
    rw [new_frame _ _ _ hi']
  · intro i j hi _ hvalid _
    have hi' : i < page_count := hi
    rw [new_frame _ _ _ hi'] at hvalid
    exact absurd rfl hvalid

theorem run_calls_invariant (calls : List PoolCall) (bm : BufferManager) (disk : Disk)
    (bm' : BufferManager) (disk' : Disk) (hwf : bm.WF) (hu : bm.unused_frames_invalid)
    (hs : no_shared_page bm) (h : run_calls calls bm disk = some (bm', disk')) :
    bm'.WF ∧ bm'.unused_frames_invalid ∧ no_shared_page bm' := by
  induction calls generalizing bm disk with
  | nil =>
    simp only [run_calls, Option.some.injEq, Prod.mk.injEq] at h
    obtain ⟨rfl, rfl⟩ := h
    exact ⟨hwf, hu, hs⟩
  | cons c rest ih =>
    simp only [run_calls] at h
    cases hc : c.run bm disk with
    | none => rw [hc] at h; simp at h
    | some r =>
      obtain ⟨b, d⟩ := r
      rw [hc] at h
      obtain ⟨w1, w2, w3⟩ := run_step_invariant c bm disk b d hwf hu hs hc
      exact ih b d w1 w2 w3 h

/-- In a pool where no two frames share a valid page id, the linear search
returns the frame that holds the page. -/
theorem get_frame_id_of_page_unique (bm : BufferManager) (hs : no_shared_page bm)
    (page_id i : Nat) (hne : page_id ≠ INVALID_PAGE_ID) (hi : i < bm.capacity_)
    (hp : (bm.frame i).page_id = page_id) (hcap : bm.capacity_ < 2 ^ 64) :
    bm.get_frame_id_of_page page_id = i := by
  have hres : bm.get_frame_id_of_page page_id ≠ INVALID_FRAME_ID := by
    intro hnone
    exact get_frame_id_of_page_none bm page_id hcap hnone i hi hp
  obtain ⟨hk, hkp⟩ := get_frame_id_of_page_spec bm page_id hres
  exact hs _ _ hk hi (by rw [hkp]; exact hne) (by rw [hkp, hp])

/-- The residency invariant of reachable pools. -/
theorem residency_invariant_spec (bm : BufferManager) (h : reachable_pool bm) :
    no_shared_page bm ∧ bm.unused_frames_invalid ∧
    ∀ page_id i, page_id ≠ INVALID_PAGE_ID → i < bm.capacity_ →
      (bm.frame i).page_id = page_id → bm.get_frame_id_of_page page_id = i := by
  obtain ⟨ps, pc, disk, calls, disk', hpc, hrun⟩ := h
  obtain ⟨n1, n2, n3⟩ := new_invariant ps pc hpc
  obtain ⟨w1, w2, w3⟩ := run_calls_invariant calls _ disk bm disk' n1 n2 n3 hrun
  exact ⟨w3, w2, fun page_id i hne hi hp =>
    get_frame_id_of_page_unique bm w3 page_id i hne hi hp w1.2.2.1⟩

/-- Page faults that return are bounded by the frames still unused, the last
frame never being handed out. -/
theorem page_faults_le (calls : List PoolCall) (bm : BufferManager) (disk : Disk)
    (hwf : bm.WF) : page_faults calls bm disk + bm.page_counter_ ≤ bm.capacity_ - 1 := by
  induction calls generalizing bm disk with
  | nil =>
    simp only [page_faults, Nat.zero_add]
    have := hwf.2.2.2
    omega
  | cons c rest ih =>
    simp only [page_faults]
    cases hc : c.run bm disk with
    | none =>
      simp only [Nat.zero_add]
      have := hwf.2.2.2
      omega
    | some r =>
      obtain ⟨b, d⟩ := r
      simp only
      obtain ⟨w, hcap, hcase⟩ := run_step c bm disk b d hwf hc
      have := ih b d w
      rcases hcase with ⟨f0, hcnt, _⟩ | ⟨f1, hcnt, _⟩
      · rw [f0]; omega
      · rw [f1]; omega

/-- No returning call decreases the frame counter, and the discards leave it
as it is. -/
theorem page_counter_monotone (c : PoolCall) (bm : BufferManager) (disk : Disk)
    (bm' : BufferManager) (disk' : Disk) (hwf : bm.WF) (h : c.run bm disk = some (bm', disk')) :
    bm.page_counter_ ≤ bm'.page_counter_ := by
  obtain ⟨_, _, hcase⟩ := run_step c bm disk bm' disk' hwf h
  rcases hcase with ⟨_, hcnt, _⟩ | ⟨_, hcnt, _⟩
  · omega
  · omega

end

section
open JoinOptimizer

theorem agree_refl (pc : PlanCache) (t : JoinSet) : pc.agree pc t := ⟨rfl, rfl, rfl⟩

theorem agree_symm (pc pc' : PlanCache) (t : JoinSet) (h : pc.agree pc' t) : pc'.agree pc t :=
  ⟨h.1.symm, h.2.1.symm, h.2.2.symm⟩

theorem agree_trans (a b c : PlanCache) (t : JoinSet) (h1 : a.agree b t) (h2 : b.agree c t) :
    a.agree c t :=
  ⟨h1.1.trans h2.1, h1.2.1.trans h2.2.1, h1.2.2.trans h2.2.2⟩

/-- Adding a plan for `s` leaves the entry of every key that is not equivalent
to `s`. -/
theorem add_plan_agree (pc : PlanCache) (s t : JoinSet) (cost : ℚ) (card : Int)
    (order : List LogicalJoinNode) (h : ¬ JoinSet.equiv s t = true) :
    (pc.add_plan s cost card order).agree pc t := by
  refine ⟨?_, ?_, ?_⟩
  · rw [get_order_add_plan, if_neg h]
  · rw [get_cost_add_plan, if_neg h]
  · rw [get_card_add_plan, if_neg h]

/-- The round of the set `s` leaves the entry of every key that is not
equivalent to `s`. -/
theorem plan_subset_agree (stats : List Nat → TableStats) (sel : List Nat → ℚ)
    (st : CostCard × PlanCache) (s t : JoinSet) (h : ¬ JoinSet.equiv s t = true) :
    (plan_subset stats sel st s).2.agree st.2 t := by
  unfold plan_subset
  simp only
  split_ifs
  · exact add_plan_agree _ _ _ _ _ _ h
  · exact agree_refl _ _

/-- The round of the set `s` sets the entry of `s` to the outcome of the loop
over its joins, if a candidate was accepted. -/
theorem plan_subset_entry (stats : List Nat → TableStats) (sel : List Nat → ℚ)
    (st : CostCard × PlanCache) (s : JoinSet) :
    ((best_plan stats sel st.2 s).1 = DBL_MAX → (plan_subset stats sel st s).2 = st.2) ∧
    ((best_plan stats sel st.2 s).1 ≠ DBL_MAX →
      (plan_subset stats sel st s).2.get_order s = (best_plan stats sel st.2 s).2.plan ∧
      (plan_subset stats sel st s).2.get_cost s = (best_plan stats sel st.2 s).2.cost ∧
      (plan_subset stats sel st s).2.get_card s = (best_plan stats sel st.2 s).2.card) := by
  unfold plan_subset
  simp only
  constructor
  · intro h
    rw [if_neg (by simpa using h)]
  · intro h
    rw [if_pos h, get_order_add_plan, get_cost_add_plan, get_card_add_plan,
      if_pos (equiv_refl s), if_pos (equiv_refl s), if_pos (equiv_refl s)]
    exact ⟨rfl, rfl, rfl⟩

/-- The operands of a join depend on the cache through the entry of the other
joins of the set only. -/
theorem cached_operands_congr (stats : List Nat → TableStats) (sel : List Nat → ℚ)
    (pc pc' : PlanCache) (s : JoinSet) (j : LogicalJoinNode)
    (h : set_erase LogicalJoinNode.lt s j = [] ∨
      pc.agree pc' (set_erase LogicalJoinNode.lt s j)) :
    cached_operands stats sel pc s j = cached_operands stats sel pc' s j := by
  unfold cached_operands
  rcases h with h | h
  · rw [h]
    exact join_operands_empty _ _ _ _ _ _ _ _ _
  · rw [h.1, h.2.1, h.2.2]

/-- The loop over the joins of a set depends on the cache through the operands
only. -/
theorem best_plan_congr (stats : List Nat → TableStats) (sel : List Nat → ℚ)
    (pc pc' : PlanCache) (s : JoinSet)
    (h : ∀ j ∈ s, cached_operands stats sel pc s j = cached_operands stats sel pc' s j) :
    best_plan stats sel pc s = best_plan stats sel pc' s := by
  unfold best_plan
  apply List.foldl_ext
  intro acc j hj
  rw [compute_eq, compute_eq, h j hj]

/-- A settled entry stays settled in a cache with the same entry and the same
operands. -/
theorem settled_congr (stats : List Nat → TableStats) (sel : List Nat → ℚ)
    (pc pc' : PlanCache) (s : JoinSet) (ha : pc'.agree pc s)
    (h : ∀ j ∈ s, cached_operands stats sel pc' s j = cached_operands stats sel pc s j)
    (hs : pc.settled stats sel s) : pc'.settled stats sel s := by
  unfold PlanCache.settled at hs ⊢
  rw [best_plan_congr stats sel pc' pc s h, ha.1, ha.2.1, ha.2.2]
  exact hs

/-- The loop over the joins of a set keeps the first of its cheapest
candidates: the candidates before it cost more, those behind it at least as
much. -/
theorem best_plan_first (stats : List Nat → TableStats) (sel : List Nat → ℚ) (pc : PlanCache)
    (s : JoinSet) (l : List LogicalJoinNode) (acc : ℚ × CostCard) :
    ((l.foldl
        (fun acc ljnode =>
          match compute_cost_and_card_of_subplan stats sel ljnode s acc.1 pc with
          | some cc => (cc.cost, cc)
          | none => acc) acc) = acc ∧
      ∀ j ∈ l, ∀ o, cached_operands stats sel pc s j = some o →
        acc.1 ≤ (cheaper_orientation j o).cost) ∨
    ∃ l1 j l2 o, l = l1 ++ j :: l2 ∧ cached_operands stats sel pc s j = some o ∧
      (l.foldl
        (fun acc ljnode =>
          match compute_cost_and_card_of_subplan stats sel ljnode s acc.1 pc with
          | some cc => (cc.cost, cc)
          | none => acc) acc)
        = ((cheaper_orientation j o).cost, cheaper_orientation j o) ∧
      (cheaper_orientation j o).cost < acc.1 ∧
      (∀ j' ∈ l1, ∀ o', cached_operands stats sel pc s j' = some o' →
        (cheaper_orientation j o).cost < (cheaper_orientation j' o').cost) ∧
      (∀ j' ∈ l2, ∀ o', cached_operands stats sel pc s j' = some o' →
        (cheaper_orientation j o).cost ≤ (cheaper_orientation j' o').cost) := by
  induction l generalizing acc with
  | nil => left; exact ⟨rfl, fun j hj => absurd hj (List.not_mem_nil _)⟩
  | cons x xs ih =>
    rw [List.foldl_cons]
    rw [compute_eq]
    cases hx : cached_operands stats sel pc s x with
    | none =>
      simp only
      rcases ih acc with ⟨h1, h2⟩ | ⟨l1, j, l2, o, e, ho, hr, hlt, hb, ha⟩
      · left
        refine ⟨h1, ?_⟩
        intro j hj o ho
        rcases List.mem_cons.mp hj with h | h
        · rw [h, hx] at ho; exact absurd ho (by simp)
        · exact h2 j h o ho
      · right
        refine ⟨x :: l1, j, l2, o, by rw [e]; rfl, ho, hr, hlt, ?_, ha⟩
        intro j' hj' o' ho'
        rcases List.mem_cons.mp hj' with h | h
        · rw [h, hx] at ho'; exact absurd ho' (by simp)
        · exact hb j' h o' ho'
    | some ox =>
      simp only
      by_cases hbest : acc.1 ≤ (cheaper_orientation x ox).cost
      · rw [if_pos hbest]
        simp only
        rcases ih acc with ⟨h1, h2⟩ | ⟨l1, j, l2, o, e, ho, hr, hlt, hb, ha⟩
        · left
          refine ⟨h1, ?_⟩
          intro j hj o ho
          rcases List.mem_cons.mp hj with h | h
          · subst h
            rw [hx] at ho
            simp only [Option.some.injEq] at ho
            rw [← ho]; exact hbest
          · exact h2 j h o ho
        · right
          refine ⟨x :: l1, j, l2, o, by rw [e]; rfl, ho, hr, hlt, ?_, ha⟩
          intro j' hj' o' ho'
          rcases List.mem_cons.mp hj' with h | h
          · subst h
            rw [hx] at ho'
            simp only [Option.some.injEq] at ho'
            rw [← ho']
            exact lt_of_lt_of_le hlt hbest
          · exact hb j' h o' ho'
      · rw [if_neg hbest]
        simp only
        have hlt0 : (cheaper_orientation x ox).cost < acc.1 := lt_of_not_le hbest
        right
        rcases ih ((cheaper_orientation x ox).cost, cheaper_orientation x ox) with
          ⟨h1, h2⟩ | ⟨l1, j, l2, o, e, ho, hr, hlt, hb, ha⟩
        · exact ⟨[], x, xs, ox, rfl, hx, h1, hlt0,
            fun j' hj' => absurd hj' (List.not_mem_nil _), h2⟩
        · refine ⟨x :: l1, j, l2, o, by rw [e]; rfl, ho, hr, lt_trans hlt hlt0, ?_, ha⟩
          intro j' hj' o' ho'
          rcases List.mem_cons.mp hj' with h | h
          · subst h
            rw [hx] at ho'
            simp only [Option.some.injEq] at ho'
            rw [← ho']
            exact hlt
          · exact hb j' h o' ho'

end

section
open JoinOptimizer

/-- The rounds of the sets in `l`, all of `i` joins of `v` and pairwise
different: the entries of the keys of other sizes and of the other sets of
joins of `v` stay, and every set of `l` is settled afterwards. -/
theorem plan_subsets_settled (v : List LogicalJoinNode) (stats : List Nat → TableStats)
    (sel : List Nat → ℚ) (hv : v.Pairwise fun a b => a.tie ≠ b.tie) (i : Nat)
    (P0 : PlanCache) (l : List JoinSet)
    (hl : ∀ s ∈ l, s.Pairwise (fun a b => LogicalJoinNode.lt a b = true) ∧ s.length = i ∧
      ∀ x ∈ s, x ∈ v)
    (hnd : l.Nodup) (st : CostCard × PlanCache)
    (hA : ∀ t : JoinSet, t.length ≠ i → st.2.agree P0 t)
    (hB : ∀ t ∈ l, st.2.get_order t = []) :
    (∀ t : JoinSet, t.length ≠ i → (l.foldl (plan_subset stats sel) st).2.agree P0 t) ∧
    (∀ t : JoinSet, (∀ x ∈ t, x ∈ v) → t ∉ l →
      (l.foldl (plan_subset stats sel) st).2.agree st.2 t) ∧
    (∀ t ∈ l, (l.foldl (plan_subset stats sel) st).2.settled stats sel t) := by
  induction l generalizing st with
  | nil =>
    exact ⟨hA, fun t _ _ => agree_refl _ _, fun t ht => absurd ht (List.not_mem_nil _)⟩
  | cons s ss ih =>
    obtain ⟨s1, s2, s3⟩ := hl s (List.mem_cons_self _ _)
    have hnd' := List.nodup_cons.mp hnd
    have hne_len : ∀ t : JoinSet, t.length ≠ i → ¬ JoinSet.equiv s t = true := by
      intro t ht he
      exact ht ((equiv_length s t he).symm.trans s2)
    have hne_set : ∀ t : JoinSet, (∀ x ∈ t, x ∈ v) → t ≠ s → ¬ JoinSet.equiv s t = true := by
      intro t ht hts he
      exact hts (equiv_eq_of_valid v hv s t s3 ht he).symm
    have hA1 : ∀ t : JoinSet, t.length ≠ i → (plan_subset stats sel st s).2.agree P0 t :=
      fun t ht => agree_trans _ _ _ _ (plan_subset_agree stats sel st s t (hne_len t ht)) (hA t ht)
    have hB1 : ∀ t ∈ ss, (plan_subset stats sel st s).2.get_order t = [] := by
      intro t ht
      have hts : t ≠ s := fun e => hnd'.1 (e ▸ ht)
      rw [(plan_subset_agree stats sel st s t
        (hne_set t (hl t (List.mem_cons_of_mem _ ht)).2.2 hts)).1]
      exact hB t (List.mem_cons_of_mem _ ht)
    obtain ⟨a, b, c⟩ := ih (fun s' hs' => hl s' (List.mem_cons_of_mem _ hs')) hnd'.2
      (plan_subset stats sel st s) hA1 hB1
    rw [List.foldl_cons]
    refine ⟨a, ?_, ?_⟩
    · intro t ht hnot
      have hts : t ≠ s := fun e => hnot (e ▸ List.mem_cons_self _ _)
      have htss : t ∉ ss := fun h => hnot (List.mem_cons_of_mem _ h)
      exact agree_trans _ _ _ _ (b t ht htss) (plan_subset_agree stats sel st s t (hne_set t ht hts))
    · intro t ht
      rcases List.mem_cons.mp ht with h | h
      · subst h
        have hops : ∀ j ∈ t, cached_operands stats sel
            (ss.foldl (plan_subset stats sel) (plan_subset stats sel st t)).2 t j
            = cached_operands stats sel st.2 t j := by
          intro j hj
          apply cached_operands_congr
          right
          have hlen := (set_erase_spec t j s1 hj).2.2.2
          have hne : (set_erase LogicalJoinNode.lt t j).length ≠ i := by omega
          exact agree_trans _ _ _ _ (a _ hne) (agree_symm _ _ _ (hA _ hne))
        have hent := b t s3 hnd'.1
        obtain ⟨p1, p2⟩ := plan_subset_entry stats sel st t
        unfold PlanCache.settled
        rw [best_plan_congr stats sel _ st.2 t hops, hent.1, hent.2.1, hent.2.2]
        constructor
        · intro hmax
          rw [p1 hmax]
          exact hB t (List.mem_cons_self _ _)
        · intro hmax
          exact p2 hmax
      · exact c t h

/-- Round `i` of `order_joins` settles the sets of `i` joins and keeps the
smaller sets settled. -/
theorem plan_size_settled (v : List LogicalJoinNode) (stats : List Nat → TableStats)
    (sel : List Nat → ℚ) (hv : v.Pairwise fun a b => a.tie ≠ b.tie) (i : Nat) (hi1 : 1 ≤ i)
    (hi2 : i ≤ v.length) (st : CostCard × PlanCache)
    (hinv : st.2.settled_upto stats sel v (i - 1)) :
    ∃ st', plan_size v stats sel st i = some st' ∧ st'.2.settled_upto stats sel v i := by
  obtain ⟨res, h0, hnd, _, h3⟩ := enumerate_subsets_complete v i hv hi2
  unfold plan_size
  rw [h0]
  refine ⟨_, rfl, ?_⟩
  obtain ⟨a, b, c⟩ := plan_subsets_settled v stats sel hv i st.2 res (fun s hs => (h3 s).mp hs)
    hnd st (fun t _ => agree_refl _ _)
    (fun t ht => by
      obtain ⟨t1, t2, t3⟩ := (h3 t).mp ht
      exact (hinv t t1 t3).1 (Or.inr (by omega)))
  intro t t1 t2
  constructor
  · intro hlen
    rw [(a t (by omega)).1]
    exact (hinv t t1 t2).1 (by omega)
  · intro hl1 hl2
    by_cases hlen : t.length = i
    · exact c t ((h3 t).mpr ⟨t1, hlen, t2⟩)
    · apply settled_congr stats sel st.2 _ t (a t hlen) _ ((hinv t t1 t2).2 hl1 (by omega))
      intro j hj
      apply cached_operands_congr
      right
      have := (set_erase_spec t j t1 hj).2.2.2
      exact a _ (by omega)

/-- The first `n` rounds of `order_joins` on pairwise distinct joins return and
leave the sets of up to `n` joins settled. -/
theorem order_joins_rounds_settled (v : List LogicalJoinNode) (stats : List Nat → TableStats)
    (sel : List Nat → ℚ) (hv : v.Pairwise fun a b => a.tie ≠ b.tie) (n : Nat)
    (hn : n ≤ v.length) :
    ∃ st, order_joins_rounds v stats sel n = some st ∧ st.2.settled_upto stats sel v n := by
  induction n with
  | zero =>
    refine ⟨_, order_joins_rounds_zero v stats sel, ?_⟩
    intro t _ _
    exact ⟨fun _ => get_order_new t, fun h1 h2 => by omega⟩
  | succ n ih =>
    obtain ⟨st, h1, h2⟩ := ih (by omega)
    obtain ⟨st', g1, g2⟩ := plan_size_settled v stats sel hv (n + 1) (by omega) hn st
      (by simpa using h2)
    refine ⟨st', ?_, g2⟩
    rw [order_joins_rounds_succ, h1]
    exact g1

end

section
open JoinOptimizer

/-- A join is admissible exactly when `compute_cost_and_card_of_subplan` finds
operands for it. -/
theorem admissible_iff (stats : List Nat → TableStats) (sel : List Nat → ℚ) (pc : PlanCache)
    (s : JoinSet) (j : LogicalJoinNode) :
    admissible pc s j ↔ ∃ o, cached_operands stats sel pc s j = some o := by
  unfold admissible cached_operands
  constructor
  · intro h
    apply join_operands_some
    rcases h with h | h
    · left; rw [h]; rfl
    · right; exact h
  · rintro ⟨o, ho⟩
    rcases join_operands_cases stats sel j _ _ _ _ o ho with
      ⟨h1, _⟩ | ⟨_, h2, _, h4, _⟩ | ⟨_, h2, _, _, h5, _⟩
    · left; exact List.isEmpty_iff.mp h1
    · right; exact ⟨h2, Or.inl h4⟩
    · right; exact ⟨h2, Or.inr h5⟩

/-- The plan the operands start from is the cached plan of the other joins. -/
theorem operands_prev_best (stats : List Nat → TableStats) (sel : List Nat → ℚ) (pc : PlanCache)
    (s : JoinSet) (j : LogicalJoinNode) (o : JoinOperands) (hnil : pc.get_order [] = [])
    (ho : cached_operands stats sel pc s j = some o) :
    o.prev_best = pc.get_order (set_erase LogicalJoinNode.lt s j) := by
  unfold cached_operands at ho
  rcases join_operands_cases stats sel j _ _ _ _ o ho with
    ⟨h1, h2, _⟩ | ⟨_, _, h3, _⟩ | ⟨_, _, h3, _⟩
  · rw [h2, List.isEmpty_iff.mp h1, hnil]
  · exact h3
  · exact h3

/-- Cost and plan of the cheaper orientation, spelled out. -/
theorem cheaper_orientation_eq (j : LogicalJoinNode) (o : JoinOperands) :
    (cheaper_orientation j o).cost
      = min (estimate_join_cost j o.t1_card o.t2_card o.t1_cost o.t2_cost)
          (estimate_join_cost j.swap_inner_outer o.t2_card o.t1_card o.t2_cost o.t1_cost) ∧
    (cheaper_orientation j o).plan
      = o.prev_best ++
        [if estimate_join_cost j.swap_inner_outer o.t2_card o.t1_card o.t2_cost o.t1_cost
            < estimate_join_cost j o.t1_card o.t2_card o.t1_cost o.t2_cost
          then j.swap_inner_outer else j] := by
  unfold cheaper_orientation
  split_ifs with h
  · exact ⟨(min_eq_right h.le).symm, rfl⟩
  · exact ⟨(min_eq_left (le_of_not_lt h)).symm, rfl⟩

/-- What a settled entry holds: nothing when no candidate is below `DBL_MAX`,
else the first of the cheapest candidates. -/
theorem settled_entry (stats : List Nat → TableStats) (sel : List Nat → ℚ) (pc : PlanCache)
    (s : JoinSet) (hs : s.Pairwise fun a b => LogicalJoinNode.lt a b = true)
    (hset : pc.settled stats sel s) :
    (pc.get_order s = [] ∧
      ∀ j ∈ s, ∀ o, cached_operands stats sel pc s j = some o →
        DBL_MAX ≤ (cheaper_orientation j o).cost) ∨
    (pc.get_order s ≠ [] ∧
      ∃ j ∈ s, ∃ o, cached_operands stats sel pc s j = some o ∧
        pc.get_order s = (cheaper_orientation j o).plan ∧
        pc.get_cost s = (cheaper_orientation j o).cost ∧
        pc.get_card s = (cheaper_orientation j o).card ∧
        (∀ j' ∈ s, ∀ o', cached_operands stats sel pc s j' = some o' →
          (cheaper_orientation j o).cost ≤ (cheaper_orientation j' o').cost) ∧
        (∀ j' ∈ s, LogicalJoinNode.lt j' j = true → ∀ o',
          cached_operands stats sel pc s j' = some o' →
          (cheaper_orientation j o).cost < (cheaper_orientation j' o').cost)) := by
  obtain ⟨g1, g2⟩ := hset
  have hfold := best_plan_first stats sel pc s s (DBL_MAX, { cost := 0, card := 0, plan := [] })
  rcases hfold with ⟨h1, h2⟩ | ⟨l1, j, l2, o, e, ho, hr, hlt, hb, ha⟩
  · left
    have hbp : best_plan stats sel pc s = (DBL_MAX, { cost := 0, card := 0, plan := [] }) := h1
    exact ⟨g1 (by rw [hbp]), h2⟩
  · right
    have hbp : best_plan stats sel pc s
        = ((cheaper_orientation j o).cost, cheaper_orientation j o) := hr
    have hne : (best_plan stats sel pc s).1 ≠ DBL_MAX := by
      rw [hbp]; exact ne_of_lt hlt
    obtain ⟨k1, k2, k3⟩ := g2 hne
    rw [hbp] at k1 k2 k3
    simp only at k1 k2 k3
    have hjs : j ∈ s := by rw [e]; simp
    obtain ⟨j', _, hplan⟩ := cheaper_orientation_plan j o
    refine ⟨by rw [k1, hplan]; simp, j, hjs, o, ho, k1, k2, k3, ?_, ?_⟩
    · intro j' hj' o' ho'
      rw [e] at hj'
      rcases List.mem_append.mp hj' with h | h
      · exact (hb j' h o' ho').le
      · rcases List.mem_cons.mp h with h | h
        · subst h
          rw [ho] at ho'
          simp only [Option.some.injEq] at ho'
          rw [ho']
        · exact ha j' h o' ho'
    · intro j' hj' hlt' o' ho'
      rw [e] at hj' hs
      rcases List.mem_append.mp hj' with h | h
      · exact hb j' h o' ho'
      · exfalso
        rcases List.mem_cons.mp h with h | h
        · subst h
          rw [keyed_irrefl LogicalJoinNode.lt _ LogicalJoinNode.tie tie_lt_strict
            (fun _ _ => rfl) j' j' rfl] at hlt'
          exact absurd hlt' (by simp)
        · have hp := (List.pairwise_append.mp hs).2.1
          have hjj' := (List.pairwise_cons.mp hp).1 j' h
          rw [keyed_asymm LogicalJoinNode.lt _ LogicalJoinNode.tie tie_lt_strict
            (fun _ _ => rfl) j j' hjj'] at hlt'
          exact absurd hlt' (by simp)

/-- The step of `order_joins` for a set of joins, on pairwise distinct joins
whose candidate costs stay below `DBL_MAX`: after the first `n` rounds the
cache holds a plan for a set of at most `n` joins exactly when one of its
joins is admissible, and the entry is the first of the cheapest candidates. -/
theorem dp_step_spec (v : List LogicalJoinNode) (stats : List Nat → TableStats)
    (sel : List Nat → ℚ) (hv : v.Pairwise fun a b => a.tie ≠ b.tie)
    (hscan : ∀ t, (stats t).estimate_scan_cost ≤ 2 ^ 64) (hN : v.length < 2 ^ 31) (n : Nat)
    (hn : n ≤ v.length) :
    ∃ st, order_joins_rounds v stats sel n = some st ∧
      ∀ s : JoinSet, s.Pairwise (fun a b => LogicalJoinNode.lt a b = true) →
        (∀ x ∈ s, x ∈ v) → 1 ≤ s.length → s.length ≤ n →
        (st.2.get_order s ≠ [] ↔ ∃ j ∈ s, admissible st.2 s j) ∧
        (st.2.get_order s ≠ [] →
          ∃ j ∈ s, ∃ o, admissible st.2 s j ∧ cached_operands stats sel st.2 s j = some o ∧
            st.2.get_cost s
              = min (estimate_join_cost j o.t1_card o.t2_card o.t1_cost o.t2_cost)
                  (estimate_join_cost j.swap_inner_outer o.t2_card o.t1_card o.t2_cost
                    o.t1_cost) ∧
            st.2.get_order s
              = st.2.get_order (set_erase LogicalJoinNode.lt s j) ++
                [if estimate_join_cost j.swap_inner_outer o.t2_card o.t1_card o.t2_cost o.t1_cost
                    < estimate_join_cost j o.t1_card o.t2_card o.t1_cost o.t2_cost
                  then j.swap_inner_outer else j] ∧
            (∀ j' ∈ s, ∀ o', cached_operands stats sel st.2 s j' = some o' →
              st.2.get_cost s
                ≤ min (estimate_join_cost j' o'.t1_card o'.t2_card o'.t1_cost o'.t2_cost)
                    (estimate_join_cost j'.swap_inner_outer o'.t2_card o'.t1_card o'.t2_cost
                      o'.t1_cost)) ∧
            (∀ j' ∈ s, LogicalJoinNode.lt j' j = true → ∀ o',
              cached_operands stats sel st.2 s j' = some o' →
              st.2.get_cost s
                < min (estimate_join_cost j' o'.t1_card o'.t2_card o'.t1_cost o'.t2_cost)
                    (estimate_join_cost j'.swap_inner_outer o'.t2_card o'.t1_card o'.t2_cost
                      o'.t1_cost))) := by
  obtain ⟨st, h1, hset⟩ := order_joins_rounds_settled v stats sel hv n hn
  obtain ⟨st', h1', hsound, _⟩ := order_joins_rounds_spec v stats sel hv hscan hN n hn
  rw [h1] at h1'
  simp only [Option.some.injEq] at h1'
  subst h1'
  refine ⟨st, h1, ?_⟩
  intro s hs hsv hl1 hl2
  have hnil : st.2.get_order [] = [] :=
    (hset [] List.Pairwise.nil (fun x hx => absurd hx (List.not_mem_nil _))).1 (Or.inl rfl)
  have hentry := settled_entry stats sel st.2 s hs ((hset s hs hsv).2 hl1 hl2)
  have hchar : st.2.get_order s ≠ [] →
      ∃ j ∈ s, ∃ o, cached_operands stats sel st.2 s j = some o ∧
        st.2.get_order s = (cheaper_orientation j o).plan ∧
        st.2.get_cost s = (cheaper_orientation j o).cost ∧
        st.2.get_card s = (cheaper_orientation j o).card ∧
        (∀ j' ∈ s, ∀ o', cached_operands stats sel st.2 s j' = some o' →
          (cheaper_orientation j o).cost ≤ (cheaper_orientation j' o').cost) ∧
        (∀ j' ∈ s, LogicalJoinNode.lt j' j = true → ∀ o',
          cached_operands stats sel st.2 s j' = some o' →
          (cheaper_orientation j o).cost < (cheaper_orientation j' o').cost) := by
    intro hne
    rcases hentry with ⟨he, _⟩ | ⟨_, h⟩
    · exact absurd he hne
    · exact h
  constructor
  · constructor
    · intro hne
      obtain ⟨j, hj, o, ho, _⟩ := hchar hne
      exact ⟨j, hj, (admissible_iff stats sel st.2 s j).mpr ⟨o, ho⟩⟩
    · rintro ⟨j, hj, hadm⟩
      obtain ⟨o, ho⟩ := (admissible_iff stats sel st.2 s j).mp hadm
      rcases hentry with ⟨_, hall⟩ | ⟨hne, _⟩
      · exfalso
        obtain ⟨_, c2, _⟩ := candidate_sound v stats sel hscan st.2 hsound s hs hsv j hj o ho
        have hb := bound_lt_DBL_MAX s.length (by omega)
        have := hall j hj o ho
        linarith
      · exact hne
  · intro hne
    obtain ⟨j, hj, o, ho, k1, k2, _, k4, k5⟩ := hchar hne
    obtain ⟨c1, c2⟩ := cheaper_orientation_eq j o
    refine ⟨j, hj, o, (admissible_iff stats sel st.2 s j).mpr ⟨o, ho⟩, ho, ?_, ?_, ?_, ?_⟩
    · rw [k2, c1]
    · rw [k1, c2, operands_prev_best stats sel st.2 s j o hnil ho]
    · intro j' hj' o' ho'
      rw [k2, ← (cheaper_orientation_eq j' o').1]
      exact k4 j' hj' o' ho'
    · intro j' hj' hlt o' ho'
      rw [k2, ← (cheaper_orientation_eq j' o').1]
      exact k5 j' hj' hlt o' ho'

end

section
open JoinOptimizer

/-- A candidate on top of a cached plan without cross product has none
either. -/
theorem candidate_cpf (stats : List Nat → TableStats) (sel : List Nat → ℚ) (pc : PlanCache)
    (s : JoinSet) (j : LogicalJoinNode) (o : JoinOperands)
    (hcpf : cross_product_free [] (pc.get_order (set_erase LogicalJoinNode.lt s j)) = true)
    (ho : cached_operands stats sel pc s j = some o) :
    cross_product_free [] (cheaper_orientation j o).plan = true := by
  obtain ⟨j', hj', hplan⟩ := cheaper_orientation_plan j o
  rw [hplan, cross_product_free_snoc]
  simp only [List.nil_append, Bool.and_eq_true, Bool.or_eq_true]
  unfold cached_operands at ho
  rcases join_operands_cases stats sel j _ _ _ _ o ho with
    ⟨_, h2, _⟩ | ⟨_, _, h3, h4, _⟩ | ⟨_, _, h3, _, h5, _⟩
  · rw [h2]
    exact ⟨rfl, Or.inl (Or.inl rfl)⟩
  · rw [h3]
    refine ⟨hcpf, ?_⟩
    rcases hj' with rfl | rfl
    · exact Or.inl (Or.inr h4)
    · exact Or.inr h4
  · rw [h3]
    refine ⟨hcpf, ?_⟩
    rcases hj' with rfl | rfl
    · exact Or.inr h5
    · exact Or.inl (Or.inr h5)

/-- One round of the loop over the subsets keeps every plan of the state free
of cross products. -/
theorem plan_subset_cpf (stats : List Nat → TableStats) (sel : List Nat → ℚ)
    (st : CostCard × PlanCache) (s : JoinSet)
    (h : ∀ t, cross_product_free [] (st.2.get_order t) = true) :
    cross_product_free [] (plan_subset stats sel st s).1.plan = true ∧
    ∀ t, cross_product_free [] ((plan_subset stats sel st s).2.get_order t) = true := by
  have hbest : cross_product_free [] (best_plan stats sel st.2 s).2.plan = true := by
    rcases (best_plan_spec stats sel st.2 s).2.1 with e | ⟨j, _, o, ho, e, _⟩
    · rw [e]; rfl
    · rw [e]
      exact candidate_cpf stats sel st.2 s j o (h _) ho
  unfold plan_subset
  simp only
  refine ⟨hbest, fun t => ?_⟩
  split_ifs
  · rw [get_order_add_plan]
    split_ifs
    · exact hbest
    · exact h t
  · exact h t

theorem plan_subsets_cpf (stats : List Nat → TableStats) (sel : List Nat → ℚ)
    (l : List JoinSet) (st : CostCard × PlanCache)
    (h1 : cross_product_free [] st.1.plan = true)
    (h2 : ∀ t, cross_product_free [] (st.2.get_order t) = true) :
    cross_product_free [] (l.foldl (plan_subset stats sel) st).1.plan = true ∧
    ∀ t, cross_product_free [] ((l.foldl (plan_subset stats sel) st).2.get_order t) = true := by
  induction l generalizing st with
  | nil => exact ⟨h1, h2⟩
  | cons s ss ih =>
    rw [List.foldl_cons]
    obtain ⟨a, b⟩ := plan_subset_cpf stats sel st s h2
    exact ih _ a b

/-- The rounds of `order_joins` return, whatever the joins, and no plan of
their state has a cross product. -/
theorem order_joins_rounds_cpf (v : List LogicalJoinNode) (stats : List Nat → TableStats)
    (sel : List Nat → ℚ) (n : Nat) (hn : n ≤ v.length) :
    ∃ st, order_joins_rounds v stats sel n = some st ∧
      cross_product_free [] st.1.plan = true ∧
      ∀ t, cross_product_free [] (st.2.get_order t) = true := by
  induction n with
  | zero =>
    exact ⟨_, order_joins_rounds_zero v stats sel, rfl, fun t => by rw [get_order_new]; rfl⟩
  | succ n ih =>
    obtain ⟨st, h1, h2, h3⟩ := ih (by omega)
    rw [order_joins_rounds_succ, h1]
    simp only [Option.some_bind]
    unfold plan_size
    rw [enumerate_subsets_eq v (n + 1) hn]
    exact ⟨_, rfl, plan_subsets_cpf stats sel _ st h2 h3⟩

/-- An ordering is free of cross products exactly when every join but the
first has a table of one of the joins before it. -/
theorem cross_product_free_iff (e p : List LogicalJoinNode) :
    cross_product_free e p = true ↔
      ∀ i j, p[i]? = some j →
        (e ++ p.take i = [] ∨ does_join (e ++ p.take i) j.left_table = true ∨
          does_join (e ++ p.take i) j.right_table = true) := by
  induction p generalizing e with
  | nil => simp [cross_product_free]
  | cons x xs ih =>
    rw [cross_product_free, Bool.and_eq_true, ih]
    constructor
    · rintro ⟨h1, h2⟩ i j hij
      cases i with
      | zero =>
        simp only [List.getElem?_cons_zero, Option.some.injEq] at hij
        subst hij
        simp only [List.take_zero, List.append_nil]
        simp only [Bool.or_eq_true, List.isEmpty_iff] at h1
        tauto
      | succ k =>
        simp only [List.getElem?_cons_succ] at hij
        have := h2 k j hij
        simpa using this
    · intro h
      constructor
      · have := h 0 x (by simp)
        simp only [List.take_zero, List.append_nil] at this
        simp only [Bool.or_eq_true, List.isEmpty_iff]
        tauto
      · intro i j hij
        have := h (i + 1) j (by simpa using hij)
        simpa using this

/-- In a plan without cross product, every join at a position `i ≥ 1` has a
table of one of the joins at the positions before `i`. -/
theorem cross_product_free_positions (p : List LogicalJoinNode)
    (h : cross_product_free [] p = true) (i : Nat) (j : LogicalJoinNode) (hi : 1 ≤ i)
    (hij : p[i]? = some j) :
    does_join (p.take i) j.left_table = true ∨ does_join (p.take i) j.right_table = true := by
  have := (cross_product_free_iff [] p).mp h i j hij
  simp only [List.nil_append] at this
  rcases this with h0 | h1
  · exfalso
    have hlen : i < p.length := by
      by_contra hc
      rw [List.getElem?_eq_none (by omega)] at hij
      exact absurd hij (by simp)
    have : (p.take i).length = i := by rw [List.length_take]; omega
    rw [h0] at this
    simp at this
    omega
  · exact h1

end

/-- Discarding never frees capacity: in a pool run from the constructor no
returning call decreases `page_counter_`, the discards leave it as it is, a
`fix_page` for a page that no frame holds takes the frame at `page_counter_`
and advances the counter, and at most `capacity - 1` such calls return. -/
theorem capacity_never_freed_spec (page_size page_count : Nat) (hN : page_count < 2 ^ 64)
    (disk : Disk) (calls : List PoolCall) :
    (∀ bm disk', run_calls calls (BufferManager.new page_size page_count) disk = some (bm, disk') →
      (∀ (c : PoolCall) (d : Disk) bm2 d2, c.run bm d = some (bm2, d2) →
        bm.page_counter_ ≤ bm2.page_counter_) ∧
      (∀ page_id, (bm.discard_page page_id).page_counter_ = bm.page_counter_) ∧
      bm.discard_all_pages.page_counter_ = bm.page_counter_ ∧
      (∀ page_id exclusive (d : Disk) bm2 f, ¬ bm.resident page_id →
        bm.fix_page d page_id exclusive = some (bm2, f) →
        f = bm.page_counter_ ∧ bm2.page_counter_ = bm.page_counter_ + 1 ∧
          bm.page_counter_ + 1 < bm.capacity_)) ∧
    page_faults calls (BufferManager.new page_size page_count) disk ≤ page_count - 1 := by
  obtain ⟨n1, n2, n3⟩ := new_invariant page_size page_count hN
  constructor
  · intro bm disk' hrun
    obtain ⟨w1, _, _⟩ := run_calls_invariant calls _ disk bm disk' n1 n2 n3 hrun
    refine ⟨fun c d bm2 d2 h => page_counter_monotone c bm d bm2 d2 w1 h,
      fun page_id => (discard_page_pool bm page_id w1).2.2.1,
      (discard_all_pages_pool bm w1).2.2.1, ?_⟩
    intro page_id exclusive d bm2 f hres hfix
    obtain ⟨g1, g2, g3, _⟩ := fix_page_fault_pool bm d page_id exclusive bm2 f w1 hres hfix
    exact ⟨g1, g2, g3⟩
  · have := page_faults_le calls (BufferManager.new page_size page_count) disk n1
    have hc : (BufferManager.new page_size page_count).capacity_ = page_count := rfl
    rw [hc] at this
    omega

section
open SlottedPage

/-- The space accounting of `addSlot` is exact when the request leaves room
for the slot it appends: on a page whose header satisfies
`free_space + sizeof(header) + 8 * slot_count = data_start`, a request of
`size` bytes with `size + 8 ≤ free_space` (or `size ≤ free_space` when a slot
is reused) returns and the header satisfies the equation again. -/
theorem add_slot_space_spec (page : SlottedPage) (size : Nat)
    (hinv : free_space page + sizeof_header + sizeof_slot * slot_count page = data_start page)
    (hroom : size + (if first_free_slot page = slot_count page then sizeof_slot else 0)
      ≤ free_space page)
    (hin : sizeof_header + sizeof_slot * (first_free_slot page + 1) ≤ page.length)
    (hcount : slot_count page + 1 < 2 ^ 16) :
    ∃ page' tid, addSlot page size = some (page', tid) ∧
      data_start page' = data_start page - size ∧
      free_space page' + sizeof_header + sizeof_slot * slot_count page' = data_start page' := by
  have hds_lt : data_start page < 2 ^ 32 := by
    have := load_lt page 20 4
    unfold data_start
    norm_num at this ⊢
    exact this
  have hsize : size ≤ free_space page := by
    have : 0 ≤ (if first_free_slot page = slot_count page then sizeof_slot else 0) :=
      Nat.zero_le _
    omega
  simp only [sizeof_header, sizeof_slot] at hinv hin hroom
  have hoff : (data_start page + 2 ^ 32 - size) % 2 ^ 32 = data_start page - size := by
    norm_num at hds_lt ⊢; omega
  have hd := set_data_start_header page (data_start page - size)
  have hdv : data_start (set_data_start page (data_start page - size)) = data_start page - size := by
    simp only [data_start, set_data_start]
    rw [load_store_same _ _ _ _ (by omega)]
    apply Nat.mod_eq_of_lt
    have : load page 20 4 < 2 ^ 32 := hds_lt
    norm_num at this ⊢; omega
  obtain ⟨_, p2, _⟩ := place_slot_spec (set_data_start page (data_start page - size))
    (slotValue (data_start page - size) size) (slotValue_lt _ _)
    (by rw [hd.2.1, hd.2.2.2.2]; simp only [sizeof_header, sizeof_slot]; exact hin)
    (by rw [hd.2.2.1]; exact hcount)
  rw [hd.2.1, hd.2.2.1] at p2
  have hp := place_slot_header (set_data_start page (data_start page - size))
    (slotValue (data_start page - size) size)
  have hu := update_free_space_header (place_slot
    (set_data_start page (data_start page - size)) (slotValue (data_start page - size) size))
  have hf := update_first_free_slot_header (update_free_space (place_slot
    (set_data_start page (data_start page - size)) (slotValue (data_start page - size) size)))
  refine ⟨update_first_free_slot (update_free_space (place_slot
      (set_data_start page (data_start page - size)) (slotValue (data_start page - size) size))),
    TID.new (overall_page_id page) (first_free_slot page), ?_, ?_, ?_⟩
  · rw [addSlot_eq, if_neg (by omega), hoff]
  · rw [hf.2.1, hu.2.2.1, hp.2.2.1, hdv]
  · rw [hf.2.2.2.1, hf.2.2.1, hf.2.1, hu.2.2.2.1, hu.2.2.1, hp.2.2.1, hdv, p2]
    have hfs : free_space (update_free_space (place_slot
        (set_data_start page (data_start page - size))
        (slotValue (data_start page - size) size)))
        = data_start page - size - sizeof_header
          - sizeof_slot * (if first_free_slot page = slot_count page then slot_count page + 1
              else slot_count page) := by
      unfold update_free_space
      simp only [free_space, set_free_space]
      rw [load_store_same _ _ _ _ (by rw [hp.2.2.2.2, hd.2.2.2.2]; omega), hp.2.2.1, hdv, p2]
      simp only [sizeof_header, sizeof_slot]
      split_ifs at hroom ⊢ with hc
      all_goals
        norm_num at hds_lt hcount ⊢
        omega
    rw [hfs]
    simp only [sizeof_header, sizeof_slot]
    split_ifs at hroom ⊢ with hc
    all_goals omega

end

section
open JoinOptimizer Example

set_option maxRecDepth 100000

unseal Rat.add Rat.mul Rat.sub Rat.inv in
theorem swapped_orientation_eval :
    cached_operands test_stats test_selectivities PlanCache.new [hobbies_hobby] hobbies_hobby =
      some { prev_best := [], t1_cost := 39400, t1_card := 100000, left_Pkey := false,
             t2_cost := 800, t2_card := 1000, right_Pkey := true } ∧
    JoinOptimizer.estimate_join_cost hobbies_hobby.swap_inner_outer 1000 100000 800 39400
      = 139400800 ∧
    JoinOptimizer.estimate_join_cost hobbies_hobby 100000 1000 39400 800 = 180039400 ∧
    JoinOptimizer.compute_cost_and_card_of_subplan test_stats test_selectivities hobbies_hobby
        [hobbies_hobby] DBL_MAX PlanCache.new
      = some { cost := 139400800, card := 1000, plan := [hobbies_hobby.swap_inner_outer] } ∧
    JoinOptimizer.estimate_join_cardinality hobbies_hobby.swap_inner_outer 1000 100000 true false
      = 100000 := by
  decide

end

section
open JoinOptimizer

theorem does_join_of_tables (p q : List LogicalJoinNode) (t : List Nat)
    (hf : List.Forall₂ same_tables p q) : does_join p t = does_join q t := by
  rw [Bool.eq_iff_iff, does_join_iff, does_join_iff]
  induction hf with
  | nil => simp
  | cons hab _ ih =>
    simp only [List.mem_cons, exists_eq_or_imp, ih]
    rcases hab with ⟨h1, h2⟩ | ⟨h1, h2⟩
    · rw [h1, h2]
    · rw [h1, h2, or_comm (a := _ = t) (b := _ = t)]

theorem cross_product_free_of_tables (e e' p q : List LogicalJoinNode)
    (he : List.Forall₂ same_tables e e') (hf : List.Forall₂ same_tables p q) :
    cross_product_free e p = cross_product_free e' q := by
  induction hf generalizing e e' with
  | nil => rfl
  | @cons a b l1 l2 hab _ ih =>
    rw [cross_product_free, cross_product_free,
      ih (e ++ [a]) (e' ++ [b]) (List.rel_append he (List.Forall₂.cons hab List.Forall₂.nil))]
    have hemp : e.isEmpty = e'.isEmpty := by
      cases he <;> rfl
    have h1 : ∀ t, does_join e t = does_join e' t := fun t => does_join_of_tables e e' t he
    rw [hemp, h1, h1]
    rcases hab with ⟨g1, g2⟩ | ⟨g1, g2⟩
    · rw [g1, g2]
    · rw [g1, g2]
      congr 1
      rw [Bool.or_assoc, Bool.or_assoc, Bool.or_comm (does_join e' b.right_table)]

/-- Keys that the comparator of the plan cache cannot tell apart hold joins
with the same `(left_table, right_table, left_field, right_field)`, position
by position. -/
theorem equiv_tie (s t : JoinSet) (h : JoinSet.equiv s t = true) :
    s.map LogicalJoinNode.tie = t.map LogicalJoinNode.tie := by
  unfold JoinSet.equiv at h
  simp only [Bool.and_eq_true, Bool.not_eq_true'] at h
  rw [JoinSet_lt_eq, JoinSet_lt_eq] at h
  exact (lexicographical_compare_strict _ tie_lt_strict).total _ _ h.1 h.2

theorem same_tables_of_map_tie (s t : List LogicalJoinNode)
    (h : s.map LogicalJoinNode.tie = t.map LogicalJoinNode.tie) :
    List.Forall₂ same_tables s t := by
  induction s generalizing t with
  | nil =>
    cases t with
    | nil => exact List.Forall₂.nil
    | cons b bs => simp at h
  | cons a as ih =>
    cases t with
    | nil => simp at h
    | cons b bs =>
      simp only [List.map_cons, List.cons.injEq] at h
      refine List.Forall₂.cons ?_ (ih bs h.2)
      have := h.1
      simp only [LogicalJoinNode.tie, Prod.mk.injEq] at this
      exact Or.inl ⟨this.1, this.2.1⟩

theorem same_tables_trans (p q w : List LogicalJoinNode)
    (h1 : List.Forall₂ same_tables p q) (h2 : List.Forall₂ same_tables q w) :
    List.Forall₂ same_tables p w := by
  induction h1 generalizing w with
  | nil =>
    cases h2
    exact List.Forall₂.nil
  | cons hab _ ih =>
    cases h2 with
    | cons hbc htl =>
      refine List.Forall₂.cons ?_ (ih _ htl)
      unfold same_tables at hab hbc ⊢
      rcases hab with ⟨a1, a2⟩ | ⟨a1, a2⟩ <;> rcases hbc with ⟨b1, b2⟩ | ⟨b1, b2⟩
      · exact Or.inl ⟨a1.trans b1, a2.trans b2⟩
      · exact Or.inr ⟨a1.trans b1, a2.trans b2⟩
      · exact Or.inr ⟨a1.trans b2, a2.trans b1⟩
      · exact Or.inl ⟨a1.trans b2, a2.trans b1⟩

/-- A plan that orders the joins of a key orders those of every equivalent
key. -/
theorem table_ordering_congr (p s t : List LogicalJoinNode) (h : table_ordering p s)
    (hst : List.Forall₂ same_tables s t) : table_ordering p t := by
  obtain ⟨q, hq, hf⟩ := h
  obtain ⟨w, hw1, hw2⟩ := List.perm_comp_forall₂ hq hst
  exact ⟨w, hw2, same_tables_trans p q w hf hw1⟩

theorem table_ordering_snoc (p s t : List LogicalJoinNode) (j j' : LogicalJoinNode)
    (h : table_ordering p s) (hj : j' = j ∨ j' = j.swap_inner_outer)
    (ht : t.Perm (j :: s)) : table_ordering (p ++ [j']) t := by
  obtain ⟨q, hq, hf⟩ := h
  refine ⟨q ++ [j], ?_, ?_⟩
  · calc (q ++ [j]).Perm (j :: q) := List.perm_append_singleton j q
      _ |>.Perm (j :: s) := List.Perm.cons j hq
      _ |>.Perm t := ht.symm
  · refine List.rel_append hf (List.Forall₂.cons ?_ List.Forall₂.nil)
    rcases hj with rfl | rfl
    · exact Or.inl ⟨rfl, rfl⟩
    · exact Or.inr ⟨rfl, rfl⟩

/-- A candidate over a cache whose plans order the joins of their keys orders
the joins of its set. -/
theorem candidate_table_ordering (stats : List Nat → TableStats) (sel : List Nat → ℚ)
    (pc : PlanCache)
    (hW : ∀ t : JoinSet, pc.get_order t ≠ [] → table_ordering (pc.get_order t) t)
    (s : JoinSet) (hs : s.Pairwise fun a b => LogicalJoinNode.lt a b = true)
    (j : LogicalJoinNode) (hj : j ∈ s) (o : JoinOperands)
    (ho : cached_operands stats sel pc s j = some o) :
    table_ordering (cheaper_orientation j o).plan s := by
  obtain ⟨_, _, e3, _⟩ := set_erase_spec s j hs hj
  obtain ⟨j', hj', hplan⟩ := cheaper_orientation_plan j o
  rw [hplan]
  unfold cached_operands at ho
  rcases join_operands_cases stats sel j _ _ _ _ o ho with
    ⟨h1, h2, _⟩ | ⟨_, h2, h3, _⟩ | ⟨_, h2, h3, _⟩
  · have hnil : set_erase LogicalJoinNode.lt s j = [] := List.isEmpty_iff.mp h1
    rw [hnil] at e3
    rw [h2]
    exact table_ordering_snoc [] [] s j j' ⟨[], List.Perm.refl _, List.Forall₂.nil⟩ hj' e3
  · rw [h3]
    exact table_ordering_snoc _ _ s j j' (hW _ h2) hj' e3
  · rw [h3]
    exact table_ordering_snoc _ _ s j j' (hW _ h2) hj' e3

/-- One round of the loop over the subsets, on an ascending set: the plans of
the cache keep ordering the joins of their keys, and so does the plan of the
round. -/
theorem plan_subset_table_ordering (stats : List Nat → TableStats) (sel : List Nat → ℚ)
    (st : CostCard × PlanCache) (s : JoinSet)
    (hs : s.Pairwise fun a b => LogicalJoinNode.lt a b = true)
    (hW : ∀ t : JoinSet, st.2.get_order t ≠ [] → table_ordering (st.2.get_order t) t) :
    (∀ t : JoinSet, (plan_subset stats sel st s).2.get_order t ≠ [] →
      table_ordering ((plan_subset stats sel st s).2.get_order t) t) ∧
    ((plan_subset stats sel st s).1.plan ≠ [] →
      table_ordering (plan_subset stats sel st s).1.plan s) := by
  have hbest : (best_plan stats sel st.2 s).2.plan ≠ [] →
      table_ordering (best_plan stats sel st.2 s).2.plan s := by
    intro hne
    rcases (best_plan_spec stats sel st.2 s).2.1 with e | ⟨j, hj, o, ho, e, _⟩
    · rw [e] at hne; exact absurd rfl hne
    · rw [e]
      exact candidate_table_ordering stats sel st.2 hW s hs j hj o ho
  unfold plan_subset
  simp only
  refine ⟨fun t => ?_, hbest⟩
  split_ifs
  · rw [get_order_add_plan]
    split_ifs with he
    · intro hne
      exact table_ordering_congr _ s t (hbest hne) (same_tables_of_map_tie s t (equiv_tie s t he))
    · exact hW t
  · exact hW t

theorem plan_subsets_table_ordering (stats : List Nat → TableStats) (sel : List Nat → ℚ)
    (l : List JoinSet) (hl : ∀ s ∈ l, s.Pairwise fun a b => LogicalJoinNode.lt a b = true)
    (st : CostCard × PlanCache)
    (hW : ∀ t : JoinSet, st.2.get_order t ≠ [] → table_ordering (st.2.get_order t) t) :
    ∀ t : JoinSet, (l.foldl (plan_subset stats sel) st).2.get_order t ≠ [] →
      table_ordering ((l.foldl (plan_subset stats sel) st).2.get_order t) t := by
  induction l generalizing st with
  | nil => exact hW
  | cons s ss ih =>
    rw [List.foldl_cons]
    exact ih (fun s' hs' => hl s' (List.mem_cons_of_mem _ hs')) _
      (plan_subset_table_ordering stats sel st s (hl s (List.mem_cons_self _ _)) hW).1

end

section
variable {α κ : Type} (lt : α → α → Bool) (klt : κ → κ → Bool) (key : α → κ)

theorem foldl_set_insert_sorted (hk : StrictTotal klt)
    (hlt : ∀ a b, lt a b = klt (key a) (key b)) (xs acc : List α)
    (hacc : acc.Pairwise fun a b => lt a b = true) :
    (xs.foldl (set_insert lt) acc).Pairwise fun a b => lt a b = true := by
  induction xs generalizing acc with
  | nil => exact hacc
  | cons x xs ih =>
    rw [List.foldl_cons]
    exact ih _ (set_insert_sorted lt klt key hk hlt acc x hacc)

/-- Every element of a set built by insertions was inserted. -/
theorem foldl_set_insert_mem {β : Type} (f : β → α) (l : List β) (acc : List α) (y : α)
    (h : y ∈ l.foldl (fun r x => set_insert lt r (f x)) acc) : y ∈ acc ∨ ∃ x ∈ l, y = f x := by
  induction l generalizing acc with
  | nil => exact Or.inl h
  | cons b bs ih =>
    rw [List.foldl_cons] at h
    rcases ih _ h with h1 | ⟨x, hx, e⟩
    · rcases set_insert_subset lt acc (f b) y h1 with h2 | h2
      · exact Or.inl h2
      · exact Or.inr ⟨b, List.mem_cons_self _ _, h2⟩
    · exact Or.inr ⟨x, List.mem_cons_of_mem _ hx, e⟩

/-- Insertion adds the element or leaves the set. -/
theorem set_insert_perm_or (l : List α) (x : α) :
    (set_insert lt l x).Perm (x :: l) ∨ set_insert lt l x = l := by
  induction l with
  | nil => left; exact List.Perm.refl _
  | cons y ys ih =>
    simp only [set_insert]
    split_ifs
    · left; exact List.Perm.refl _
    · rcases ih with h | h
      · left
        exact (List.Perm.cons y h).trans (List.Perm.swap x y ys)
      · right; rw [h]
    · right; rfl

theorem foldl_set_insert_subperm (xs acc : List α) :
    (xs.foldl (set_insert lt) acc).Subperm (acc ++ xs) := by
  induction xs generalizing acc with
  | nil =>
    simp only [List.foldl_nil, List.append_nil]
    exact List.Subperm.refl _
  | cons x xs ih =>
    rw [List.foldl_cons]
    have h1 := ih (set_insert lt acc x)
    have h2 : (set_insert lt acc x).Subperm (x :: acc) := by
      rcases set_insert_perm_or lt acc x with h | h
      · exact h.subperm
      · rw [h]; exact (List.sublist_cons_self x acc).subperm
    have h3 : (set_insert lt acc x ++ xs).Subperm (x :: acc ++ xs) :=
      (List.subperm_append_right xs).mpr h2
    have h4 : (x :: acc ++ xs).Perm (acc ++ x :: xs) := by
      simpa using (@List.perm_middle _ x acc xs).symm
    exact (h1.trans h3).trans h4.subperm

/-- After an insertion the set holds an element with the key of the inserted
one. -/
theorem set_insert_covers (hk : StrictTotal klt) (hlt : ∀ a b, lt a b = klt (key a) (key b))
    (l : List α) (x : α) : ∃ y ∈ set_insert lt l x, key y = key x := by
  induction l with
  | nil => exact ⟨x, by simp [set_insert], rfl⟩
  | cons z zs ih =>
    simp only [set_insert]
    split_ifs with h1 h2
    · exact ⟨x, List.mem_cons_self _ _, rfl⟩
    · obtain ⟨y, hy, e⟩ := ih
      exact ⟨y, List.mem_cons_of_mem _ hy, e⟩
    · refine ⟨z, List.mem_cons_self _ _, ?_⟩
      rw [hlt] at h1 h2
      exact hk.total _ _ (by simpa using h2) (by simpa using h1)

theorem foldl_set_insert_covers (hk : StrictTotal klt)
    (hlt : ∀ a b, lt a b = klt (key a) (key b)) (xs acc : List α) (x : α)
    (hx : x ∈ acc ∨ x ∈ xs) : ∃ y ∈ xs.foldl (set_insert lt) acc, key y = key x := by
  induction xs generalizing acc x with
  | nil =>
    rcases hx with h | h
    · exact ⟨x, h, rfl⟩
    · exact absurd h (List.not_mem_nil _)
  | cons a as ih =>
    rw [List.foldl_cons]
    rcases hx with h | h
    · exact ih _ x (Or.inl (subset_set_insert lt acc a x h))
    · rcases List.mem_cons.mp h with h | h
      · subst h
        obtain ⟨y, hy, e⟩ := set_insert_covers lt klt key hk hlt acc x
        obtain ⟨y', hy', e'⟩ := ih _ y (Or.inl hy)
        exact ⟨y', hy', e'.trans e⟩
      · exact ih _ x (Or.inr h)

end

section
open JoinOptimizer

theorem select_subset_sorted (v : List LogicalJoinNode) (b : List Bool) :
    (select_subset v b).Pairwise fun a b => LogicalJoinNode.lt a b = true := by
  rw [select_subset_eq]
  exact foldl_set_insert_sorted LogicalJoinNode.lt _ LogicalJoinNode.tie tie_lt_strict
    (fun _ _ => rfl) _ [] List.Pairwise.nil

/-- Every set that `enumerate_subsets` returns is ascending. -/
theorem enumerate_subsets_sorted (v : List LogicalJoinNode) (size : Nat) (res : List JoinSet)
    (h : enumerate_subsets v size = some res) :
    ∀ s ∈ res, s.Pairwise fun a b => LogicalJoinNode.lt a b = true := by
  by_cases hs : size ≤ v.length
  · rw [enumerate_subsets_eq v size hs] at h
    simp only [Option.some.injEq] at h
    intro s hmem
    rw [← h] at hmem
    rcases foldl_set_insert_mem JoinSet.lt (select_subset v) _ [] s hmem with h1 | ⟨b, _, e⟩
    · exact absurd h1 (List.not_mem_nil _)
    · rw [e]; exact select_subset_sorted v b
  · unfold enumerate_subsets at h
    rw [if_pos (by omega)] at h
    exact absurd h (by simp)

/-- The rounds of `order_joins` return, whatever the joins, and every plan of
the cache orders the joins of its key as far as their tables go. -/
theorem order_joins_rounds_table_ordering (v : List LogicalJoinNode)
    (stats : List Nat → TableStats) (sel : List Nat → ℚ) (n : Nat) (hn : n ≤ v.length) :
    ∃ st, order_joins_rounds v stats sel n = some st ∧
      ∀ t : JoinSet, st.2.get_order t ≠ [] → table_ordering (st.2.get_order t) t := by
  induction n with
  | zero =>
    exact ⟨_, order_joins_rounds_zero v stats sel, fun t h => absurd (get_order_new t) h⟩
  | succ n ih =>
    obtain ⟨st, h1, h2⟩ := ih (by omega)
    rw [order_joins_rounds_succ, h1]
    simp only [Option.some_bind]
    unfold plan_size
    have he := enumerate_subsets_eq v (n + 1) hn
    rw [he]
    exact ⟨_, rfl, plan_subsets_table_ordering stats sel _
      (enumerate_subsets_sorted v (n + 1) _ he) st h2⟩

theorem bit_vectors_full (n : Nat) : bit_vectors n n = [List.replicate n true] := by
  induction n with
  | zero => rfl
  | succ n ih =>
    simp only [bit_vectors, bit_vectors_nil n (n + 1) (by omega), ih, List.map_nil, List.nil_append,
      List.map_cons, List.replicate_succ]

theorem zip_replicate_true (v : List LogicalJoinNode) :
    ((v.zip (List.replicate v.length true)).filter fun p => p.2).map (fun p => p.1) = v := by
  induction v with
  | nil => rfl
  | cons x xs ih =>
    simp only [List.length_cons, List.replicate_succ, List.zip_cons_cons, List.filter_cons,
      if_true, List.map_cons, ih]

/-- The last round of `order_joins` enumerates one set: the joins of `v`,
inserted one after the other. -/
theorem enumerate_subsets_full (v : List LogicalJoinNode) :
    enumerate_subsets v v.length = some [v.foldl (set_insert LogicalJoinNode.lt) []] := by
  rw [enumerate_subsets_eq v v.length (le_refl _), bit_vectors_full]
  simp only [List.foldl_cons, List.foldl_nil, set_insert]
  rw [select_subset_eq, zip_replicate_true]

theorem cross_product_free_append (e a b : List LogicalJoinNode) :
    cross_product_free e (a ++ b) = (cross_product_free e a && cross_product_free (e ++ a) b) := by
  induction a generalizing e with
  | nil => simp [cross_product_free]
  | cons x xs ih =>
    rw [List.cons_append, cross_product_free, cross_product_free, ih, Bool.and_assoc]
    simp

theorem cross_product_free_of_joined (e b : List LogicalJoinNode)
    (h : ∀ y ∈ b, does_join e y.left_table = true) : cross_product_free e b = true := by
  induction b generalizing e with
  | nil => rfl
  | cons y ys ih =>
    rw [cross_product_free, Bool.and_eq_true]
    constructor
    · rw [h y (List.mem_cons_self _ _)]
      simp
    · apply ih
      intro y' hy'
      have := h y' (List.mem_cons_of_mem _ hy')
      unfold does_join at this ⊢
      rw [List.any_append, this]
      rfl

/-- Joins can be linked when a plan without cross product orders, as far as
the tables go, a set that holds a join with the key of each of them. -/
theorem linkable_of_table_ordering (p s v : List LogicalJoinNode) (hcov : table_ordering p s)
    (hc : cross_product_free [] p = true) (hsub : s.Subperm v)
    (hkeys : ∀ x ∈ v, ∃ y ∈ s, y.tie = x.tie) : linkable v := by
  obtain ⟨q, hq, hf⟩ := hcov
  have hcq : cross_product_free [] q = true := by
    rw [← cross_product_free_of_tables [] [] p q List.Forall₂.nil hf]
    exact hc
  have hqv : q.Subperm v := hq.subperm.trans hsub
  have hperm : (q ++ v.diff q).Perm v :=
    List.subperm_append_diff_self_of_count_le fun x _ => hqv.count_le x
  refine ⟨q ++ v.diff q, hperm, ?_⟩
  rw [cross_product_free_append, hcq, Bool.true_and, List.nil_append]
  apply cross_product_free_of_joined
  intro y hy
  have hyv : y ∈ v := List.diff_subset v q hy
  obtain ⟨z, hz, e⟩ := hkeys y hyv
  rw [does_join_iff]
  refine ⟨z, hq.mem_iff.mpr hz, Or.inl ?_⟩
  simp only [LogicalJoinNode.tie, Prod.mk.injEq] at e
  exact e.1

/-- Function `order_joins` returns, whatever the joins; neither the plan it
returns nor any plan of the cache has a cross product; and the plan returned
for joins that cannot be linked is empty. -/
theorem order_joins_links_spec (v : List LogicalJoinNode) (stats : List Nat → TableStats)
    (sel : List Nat → ℚ) :
    ∃ st, order_joins_rounds v stats sel v.length = some st ∧
      order_joins v stats sel = some st.1.plan ∧
      (∀ i j, 1 ≤ i → st.1.plan[i]? = some j →
        does_join (st.1.plan.take i) j.left_table = true ∨
          does_join (st.1.plan.take i) j.right_table = true) ∧
      (∀ t i j, 1 ≤ i → (st.2.get_order t)[i]? = some j →
        does_join ((st.2.get_order t).take i) j.left_table = true ∨
          does_join ((st.2.get_order t).take i) j.right_table = true) ∧
      (¬ linkable v → st.1.plan = []) := by
  obtain ⟨st, h1, h2, h3⟩ := order_joins_rounds_cpf v stats sel v.length (le_refl _)
  refine ⟨st, h1, ?_, ?_, ?_, ?_⟩
  · unfold order_joins
    rw [h1]; rfl
  · intro i j hi hij
    exact cross_product_free_positions _ h2 i j hi hij
  · intro t i j hi hij
    exact cross_product_free_positions _ (h3 t) i j hi hij
  · intro hnl
    by_contra hne
    apply hnl
    cases hlen : v.length with
    | zero =>
      rw [hlen, order_joins_rounds_zero] at h1
      simp only [Option.some.injEq] at h1
      rw [← h1] at hne
      exact absurd rfl hne
    | succ n =>
      obtain ⟨st0, r1, r2⟩ := order_joins_rounds_table_ordering v stats sel n (by omega)
      have hround : order_joins_rounds v stats sel (n + 1)
          = some (plan_subset stats sel st0 (v.foldl (set_insert LogicalJoinNode.lt) [])) := by
        rw [order_joins_rounds_succ, r1]
        simp only [Option.some_bind]
        unfold plan_size
        rw [← hlen, enumerate_subsets_full]
        rfl
      rw [hlen, hround] at h1
      simp only [Option.some.injEq] at h1
      have hsorted := foldl_set_insert_sorted LogicalJoinNode.lt _ LogicalJoinNode.tie
        tie_lt_strict (fun _ _ => rfl) v [] List.Pairwise.nil
      have hord := (plan_subset_table_ordering stats sel st0 _ hsorted r2).2
      rw [h1] at hord
      have hsub : (v.foldl (set_insert LogicalJoinNode.lt) []).Subperm v := by
        simpa using foldl_set_insert_subperm LogicalJoinNode.lt v []
      have hkeys : ∀ x ∈ v, ∃ y ∈ v.foldl (set_insert LogicalJoinNode.lt) [], y.tie = x.tie :=
        fun x hx => foldl_set_insert_covers LogicalJoinNode.lt _ LogicalJoinNode.tie tie_lt_strict
          (fun _ _ => rfl) v [] x (Or.inr hx)
      exact linkable_of_table_ordering _ _ v (hord hne) h2 hsub hkeys

end

section
open JoinOptimizer

/-- The cardinality recorded for a swapped join, `estimate_join_cardinality` on
the swapped node with the key flags exchanged and the cardinalities not,
agrees with the one on the exchanged cardinalities when the predicate is not
an equality, when neither side is a key, or when the two cardinalities are
equal. -/
theorem swapped_card_agree (j : LogicalJoinNode) (t1_card t2_card : Nat)
    (left_Pkey right_Pkey : Bool)
    (h : j.op ≠ PredicateType.EQ ∨ (left_Pkey = false ∧ right_Pkey = false) ∨
      t1_card = t2_card) :
    estimate_join_cardinality j.swap_inner_outer t1_card t2_card right_Pkey left_Pkey
      = estimate_join_cardinality j.swap_inner_outer t2_card t1_card right_Pkey left_Pkey := by
  unfold estimate_join_cardinality
  have hop : j.swap_inner_outer.op = j.op := rfl
  rw [hop]
  rcases h with h | ⟨h1, h2⟩ | h
  · rw [if_neg h, if_neg h]
    congr 1
    ring
  · rw [h1, h2]
    by_cases a : j.op = PredicateType.EQ
    · rw [if_pos a, if_pos a]
      simp only [Bool.false_eq_true, if_false]
      by_cases c : t1_card ≥ t2_card
      · by_cases d : t2_card ≥ t1_card
        · have : t1_card = t2_card := by omega
          rw [this]
        · rw [if_pos c, if_neg d]
      · rw [if_neg c, if_pos (by omega)]
    · rw [if_neg a, if_neg a]
      congr 1
      ring
  · rw [h]

end

section
open SlottedPage

/-- Header of a page as the constructor leaves it. -/
theorem new_page_header (page : List Nat) (ptr ps : Nat) (hlen : page.length = ps)
    (hps : ps < 2 ^ 32) (h32 : 32 ≤ ps) :
    (SlottedPage.new page ptr ps).length = ps ∧
    data_start (SlottedPage.new page ptr ps) = ps ∧
    free_space (SlottedPage.new page ptr ps) = ps - 32 ∧
    first_free_slot (SlottedPage.new page ptr ps) = 0 ∧
    slot_count (SlottedPage.new page ptr ps) = 0 := by
  have hmod : ps % 2 ^ 32 = ps := Nat.mod_eq_of_lt hps
  simp only [SlottedPage.new, Header.new, set_overall_page_id, set_buffer_frame,
    set_first_free_slot, set_data_start, set_slot_count, set_free_space, data_start, free_space,
    first_free_slot, slot_count, sizeof_header, hmod]
  refine ⟨?_, ?_, ?_, ?_, ?_⟩
  · simp only [length_store, hlen]
  · simp (disch := first | omega | (simp only [length_store]; omega)) only
      [load_store_same, load_store_disjoint]
    norm_num at hps ⊢; omega
  · simp (disch := first | omega | (simp only [length_store]; omega)) only
      [load_store_same, load_store_disjoint]
    norm_num at hps ⊢; omega
  · simp (disch := first | omega | (simp only [length_store]; omega)) only
      [load_store_same, load_store_disjoint]
    norm_num
  · simp (disch := first | omega | (simp only [length_store]; omega)) only
      [load_store_same, load_store_disjoint]
    norm_num

/-- The fields that `HeapSegment::read` decodes from the slot word of an offset
and a length below `2 ^ 24`. -/
theorem slot_decode (offset length : Nat) (ho : offset < 2 ^ 24) (hl : length < 2 ^ 24) :
    slot_offset (slotValue offset length) = offset ∧
    slot_length (slotValue offset length) = length := by
  obtain ⟨_, _, b3, b4, _⟩ := slotValue_bits offset length ho hl
  unfold slot_offset slot_length
  rw [slot_offset_eq, slot_length_eq]
  exact ⟨b3, b4⟩

/-- A request that leaves room for its slot keeps the page well laid out. -/
theorem add_slot_well_laid_out (page : SlottedPage) (page_size n size : Nat)
    (hps : page_size < 2 ^ 19) (hI : well_laid_out page page_size n)
    (hroom : size + sizeof_slot ≤ free_space page) :
    ∃ page' tid, addSlot page size = some (page', tid) ∧
      well_laid_out page' page_size (n + 1) := by
  obtain ⟨i1, i2, i3, i4, i5, i6, i7⟩ := hI
  have hin : sizeof_header + sizeof_slot * (first_free_slot page + 1) ≤ page.length := by
    simp only [sizeof_header, sizeof_slot] at i2 hroom ⊢
    omega
  have hcount : slot_count page + 1 < 2 ^ 16 := by
    simp only [sizeof_header, sizeof_slot] at i2 hroom
    norm_num at hps ⊢
    omega
  obtain ⟨p1, t1, a1, a2, a3⟩ := add_slot_space_spec page size i2
    (by rw [if_pos i4]; exact hroom) hin hcount
  obtain ⟨p2, t2, b1, b2, b3, b4, b5, b6, b7, b8⟩ := add_slot_directory_spec page size
    (by omega) hin hcount
  rw [a1] at b1
  simp only [Option.some.injEq, Prod.mk.injEq] at b1
  obtain ⟨rfl, rfl⟩ := b1
  have hsize : size ≤ data_start page := by
    simp only [sizeof_header, sizeof_slot] at i2 hroom
    omega
  have hoff : (data_start page + 2 ^ 32 - size) % 2 ^ 32 = data_start page - size := by
    norm_num at hps ⊢; omega
  rw [hoff, i4] at b2
  rw [i4] at b3 b5
  rw [if_pos i4, i5] at b4
  rw [i5] at b2 b3 b5
  obtain ⟨d1, d2⟩ := slot_decode (data_start page - size) size
    (by norm_num at hps ⊢; omega) (by norm_num at hps ⊢; omega)
  refine ⟨p1, t1, a1, ?_, a3, ?_, ?_, b4, ?_, ?_⟩
  · rw [addSlot_length page p1 size t1 a1, i1]
  · rw [a2]; omega
  · -- no zero slot below the new slot count
    by_contra hne
    have hlt : first_free_slot p1 < slot_count p1 := by omega
    have hz := b8 hlt
    rw [b4] at hlt
    by_cases hk : first_free_slot p1 = n
    · rw [hk] at hz; exact b3 hz
    · rw [b5 _ hk] at hz
      exact (i6 _ (by omega)).1 hz
  · intro i hi
    by_cases hk : i = n
    · subst hk
      rw [b2, d1, d2, a2]
      exact ⟨slotValue_ne_zero _ _, le_refl _, by omega⟩
    · rw [b5 i hk, a2]
      obtain ⟨g1, g2, g3⟩ := i6 i (by omega)
      exact ⟨g1, by omega, g3⟩
  · intro i k hik hk
    by_cases hkn : k = n
    · subst hkn
      rw [b2, d1, d2, b5 i (by omega)]
      have := (i6 i hik).2.1
      omega
    · rw [b5 k hkn, b5 i (by omega)]
      exact i7 i k hik (by omega)

/-- Requests that all leave room for their slots keep the page well laid
out. -/
theorem add_slots_well_laid_out (sizes : List Nat) (page : SlottedPage) (page_size n : Nat)
    (hps : page_size < 2 ^ 19) (hI : well_laid_out page page_size n) (p : SlottedPage)
    (h : add_slots_with_room page sizes = some p) :
    well_laid_out p page_size (n + sizes.length) := by
  induction sizes generalizing page n with
  | nil =>
    simp only [add_slots_with_room, Option.some.injEq] at h
    rw [← h]
    exact hI
  | cons size rest ih =>
    simp only [add_slots_with_room] at h
    split_ifs at h with hroom
    obtain ⟨p1, t1, a1, a2⟩ := add_slot_well_laid_out page page_size n size hps hI hroom
    rw [a1] at h
    simp only at h
    have := ih p1 (n + 1) a2 h
    rw [List.length_cons]
    rw [show n + (rest.length + 1) = n + 1 + rest.length by omega]
    exact this

/-- Records on a page of less than `2 ^ 19` bytes that the constructor
initialised and on which every `addSlot` left room for its slot: every slot is
non-zero, its payload lies between `data_start` and the end of the page and
behind the slot array, and the payloads of two slots are disjoint, the later
slot lying lower. -/
theorem add_slots_with_room_spec (page : List Nat) (ptr page_size : Nat) (sizes : List Nat)
    (hlen : page.length = page_size) (h32 : 32 ≤ page_size) (hps : page_size < 2 ^ 19)
    (p : SlottedPage)
    (h : add_slots_with_room (SlottedPage.new page ptr page_size) sizes = some p) :
    slot_count p = sizes.length ∧
    free_space p + sizeof_header + sizeof_slot * slot_count p = data_start p ∧
    sizeof_header + sizeof_slot * slot_count p ≤ data_start p ∧ data_start p ≤ page_size ∧
    (∀ i, i < slot_count p → getSlot p i ≠ 0 ∧ data_start p ≤ slot_offset (getSlot p i) ∧
      slot_offset (getSlot p i) + slot_length (getSlot p i) ≤ page_size) ∧
    ∀ i k, i < k → k < slot_count p →
      slot_offset (getSlot p k) + slot_length (getSlot p k) ≤ slot_offset (getSlot p i) := by
  obtain ⟨n1, n2, n3, n4, n5⟩ := new_page_header page ptr page_size hlen
    (by norm_num at hps ⊢; omega) h32
  have hI0 : well_laid_out (SlottedPage.new page ptr page_size) page_size 0 := by
    refine ⟨n1, ?_, by rw [n2], by rw [n4, n5], n5, fun i hi => absurd hi (by omega),
      fun i k _ hk => absurd hk (by omega)⟩
    rw [n2, n3, n5]
    simp only [sizeof_header, sizeof_slot]
    omega
  obtain ⟨i1, i2, i3, i4, i5, i6, i7⟩ :=
    add_slots_well_laid_out sizes _ page_size 0 hps hI0 p h
  rw [Nat.zero_add] at i5 i6 i7
  refine ⟨i5, i2, ?_, i3, ?_, ?_⟩
  · omega
  · rw [i5]; exact i6
  · rw [i5]; exact i7

end

section
open LogManagerTest

/-- Resetting `header.buffer_frame` of a fixed page puts the page in place and
changes the bytes 8 to 15 of the frame only. -/
theorem repoint_spec (bm : BufferManager) (f pid : Nat) (hwf : bm.WF) (hf : f < bm.capacity_)
    (hfirst : bm.get_frame_id_of_page pid = f) (h16 : 16 ≤ bm.page_size_) :
    (bm.set_frame f
      { bm.frame f with data := SlottedPage.set_buffer_frame (bm.frame f).data f }).WF ∧
    (bm.set_frame f
      { bm.frame f with data := SlottedPage.set_buffer_frame (bm.frame f).data f }
      ).get_frame_id_of_page pid = f ∧
    ((bm.set_frame f
      { bm.frame f with data := SlottedPage.set_buffer_frame (bm.frame f).data f }).frame f).data
      = SlottedPage.set_buffer_frame (bm.frame f).data f ∧
    (bm.set_frame f
      { bm.frame f with data := SlottedPage.set_buffer_frame (bm.frame f).data f }).in_place pid ∧
    (bm.set_frame f
      { bm.frame f with data := SlottedPage.set_buffer_frame (bm.frame f).data f }).page_size_
      = bm.page_size_ := by
  have hfl : f < bm.pool_.length := by rw [hwf.1]; exact hf
  have hlen : (bm.frame f).data.length = bm.page_size_ := frame_data_length bm hwf f hf
  have w1 := WF_set_frame bm f
    { bm.frame f with data := SlottedPage.set_buffer_frame (bm.frame f).data f } hwf
    (by simp only [SlottedPage.set_buffer_frame, length_store]; exact hlen)
  have f1 := frame_set_frame_same bm f
    { bm.frame f with data := SlottedPage.set_buffer_frame (bm.frame f).data f } hfl
  have g1 : (bm.set_frame f
      { bm.frame f with data := SlottedPage.set_buffer_frame (bm.frame f).data f }
      ).get_frame_id_of_page pid = f := by
    rw [get_frame_id_of_page_set_frame bm f _ pid (by rfl) hfl, hfirst]
  refine ⟨w1, g1, by rw [f1], ?_, (set_frame_fields bm f _).2.1⟩
  refine ⟨?_, ?_⟩
  · unfold resident
    rw [g1]
    have := hwf.2.2.1
    unfold INVALID_FRAME_ID
    omega
  · rw [g1, f1]
    simp only [SlottedPage.buffer_frame, SlottedPage.set_buffer_frame]
    rw [load_store_same _ _ _ _ (by omega)]
    have := hwf.2.2.1
    apply Nat.mod_eq_of_lt
    norm_num at this ⊢
    omega

/-- Closed form of `fix_in_place` after a successful `fix_page`. -/
theorem fix_in_place_of_fix (bm : BufferManager) (disk : Disk) (pid : Nat)
    (bm1 : BufferManager) (f : Nat) (h : bm.fix_page disk pid true = some (bm1, f)) :
    fix_in_place bm disk pid = some (bm1.set_frame f
      { bm1.frame f with data := SlottedPage.set_buffer_frame (bm1.frame f).data f }, f) := by
  simp only [fix_in_place, h]

/-- Two pages that differ in the bytes 8 to 15 only, the field
`header.buffer_frame`, hold the same slot words and the same bytes behind the
header. -/
theorem read_bytes_congr (D D' : List Nat) (record : List Nat) (slot offset capacity : Nat)
    (hagree : ∀ i, 16 ≤ i → D'.getD i 0 = D.getD i 0) (hoff : 16 ≤ offset) :
    SlottedPage.getSlot D' slot = SlottedPage.getSlot D slot ∧
    memcpy record 0 D' offset capacity = memcpy record 0 D offset capacity := by
  constructor
  · unfold SlottedPage.getSlot
    apply load_congr
    intro i h1 _
    simp only [SlottedPage.sizeof_header] at h1
    exact hagree i (by omega)
  · unfold memcpy
    apply List.map_congr_left
    intro i _
    split_ifs with h
    · exact hagree _ (by omega)
    · rfl

/-- Durability of a committed page, with the read after the crash made on the
page put in place as `look` does. -/
theorem commit_durability_spec (tm : TransactionManager) (bm : BufferManager) (disk : Disk)
    (lm : LogManager) (t : Nat) (txn : Transaction)
    (tm' : TransactionManager) (bm' : BufferManager) (disk' : Disk) (lm' : LogManager)
    (hwf : bm.WF) (hps : bm.page_size_ < 2 ^ 16) (h16 : SlottedPage.sizeof_header ≤ bm.page_size_)
    (htxn : tm.transaction_table_ t = some txn) (hstarted : txn.started_ = true)
    (hpages : ∀ q ∈ txn.modified_pages_, q < 2 ^ 64)
    (h : tm.commit_txn bm disk lm t = some (tm', bm', disk', lm')) :
    ∀ pid ∈ txn.modified_pages_, pid ≠ INVALID_PAGE_ID → bm'.resident pid →
      (bm'.frame (bm'.get_frame_id_of_page pid)).dirty = true →
      page_on_disk disk' bm'.page_size_ pid = (bm'.frame (bm'.get_frame_id_of_page pid)).data ∧
      ∀ (hs : HeapSegment) (log_file : TestFile) (tid : TID) (record : List Nat)
        (capacity : Nat),
        get_overall_page_id hs.segment_id_ (tid.value >>> 16) = pid →
        bm'.page_counter_ + 1 < bm'.capacity_ →
        bm'.in_place pid →
        SlottedPage.sizeof_header ≤ SlottedPage.slot_offset
          (SlottedPage.getSlot (bm'.frame (bm'.get_frame_id_of_page pid)).data
            (tid.value % 2 ^ 16)) →
        ∃ bm2 f,
          fix_in_place (crash (Fixture.mk disk' bm' lm' hs tm') log_file).buffer_manager
            (crash (Fixture.mk disk' bm' lm' hs tm') log_file).disk pid = some (bm2, f) ∧
          bm2.in_place pid ∧
          (bm2.frame f).data = SlottedPage.set_buffer_frame
            (bm'.frame (bm'.get_frame_id_of_page pid)).data f ∧
          (hs.read bm2 (crash (Fixture.mk disk' bm' lm' hs tm') log_file).disk
            tid record capacity).map Prod.snd
          = (hs.read bm' disk' tid record capacity).map Prod.snd := by
  obtain ⟨hbm, hdur⟩ := commit_txn_spec tm bm disk lm t txn tm' bm' disk' lm' hwf hps htxn
    hstarted hpages h
  subst hbm
  intro pid hmem hne hres hdirty
  have hd := hdur pid hmem hres hdirty
  refine ⟨hd, ?_⟩
  intro hs log_file tid record capacity htid hroom hplace hrec
  have hcrash_bm : (crash (Fixture.mk disk' bm' lm' hs tm') log_file).buffer_manager
      = bm'.discard_all_pages.discard_all_pages := rfl
  have hcrash_disk : (crash (Fixture.mk disk' bm' lm' hs tm') log_file).disk = disk' := rfl
  rw [hcrash_bm, hcrash_disk]
  obtain ⟨hk, hpk⟩ := get_frame_id_of_page_spec bm' pid hres
  have hlen := frame_data_length bm' hwf _ hk
  obtain ⟨bm1, f, hfix, hdata⟩ := fix_page_after_discard_all bm' disk' pid true _ hwf hps hne
    hroom hd hlen
  obtain ⟨c1, s1, p1, w1, _⟩ := discard_all_pages_spec bm' hwf
  obtain ⟨c2, s2, p2, w2, _⟩ := discard_all_pages_spec _ w1
  obtain ⟨q1, q2, q3, q4, _, q6, q7⟩ := fix_page_post _ disk' pid true bm1 f w2 hfix
  have hsz : bm1.page_size_ = bm'.page_size_ := q6.trans (s2.trans s1)
  simp only [SlottedPage.sizeof_header] at h16
  obtain ⟨r1, r2, r3, r4, r5⟩ := repoint_spec bm1 f pid q1 q2 q3 (by omega)
  have hfip := fix_in_place_of_fix _ disk' pid bm1 f hfix
  generalize bm1.set_frame f
      { bm1.frame f with data := SlottedPage.set_buffer_frame (bm1.frame f).data f } = bm2 at *
  refine ⟨bm2, f, hfip, r4, by rw [r3, hdata], ?_⟩
  have hfixA : bm2.fix_page
      disk' (get_overall_page_id hs.segment_id_ (tid.value >>> 16)) false = some (bm2, f) := by
    rw [htid]
    have := fix_page_resident bm2 disk' pid false hne r4.1
    rw [r2] at this
    exact this
  have hfixB : bm'.fix_page disk' (get_overall_page_id hs.segment_id_ (tid.value >>> 16)) false
      = some (bm', bm'.get_frame_id_of_page pid) := by
    rw [htid]
    exact fix_page_resident _ disk' pid false hne hres
  rw [read_of_fix hs _ disk' tid record capacity _ f hfixA,
    read_of_fix hs _ disk' tid record capacity _ _ hfixB, r3, hdata, slot_id_eq]
  have hagree : ∀ i, 16 ≤ i →
      (SlottedPage.set_buffer_frame (bm'.frame (bm'.get_frame_id_of_page pid)).data f).getD i 0
        = (bm'.frame (bm'.get_frame_id_of_page pid)).data.getD i 0 := by
    intro i hi
    simp only [SlottedPage.set_buffer_frame]
    rw [getD_store, if_neg (by omega)]
  have hslot := fun o c h => (read_bytes_congr (bm'.frame (bm'.get_frame_id_of_page pid)).data
    (SlottedPage.set_buffer_frame (bm'.frame (bm'.get_frame_id_of_page pid)).data f)
    record (tid.value % 2 ^ 16) o c hagree h)
  rw [(hslot 16 0 (le_refl _)).1]
  simp only [SlottedPage.slot_offset, SlottedPage.sizeof_header] at hrec
  rw [(hslot _ capacity (by omega)).2]
  split_ifs <;> simp

end

section
open SlottedPage

end

namespace Binary64

theorem floor_facts (y : ℚ) : ((⌊y⌋ : Int) : ℚ) ≤ y ∧ y < (⌊y⌋ : ℚ) + 1 :=
  ⟨Int.floor_le y, Int.lt_floor_add_one y⟩

/-- The nearest integer is the floor or the next integer. -/
theorem round_even_cases (y : ℚ) : round_even y = ⌊y⌋ ∨ round_even y = ⌊y⌋ + 1 := by
  unfold round_even
  split_ifs <;> simp

/-- The nearest integer is within one half. -/
theorem round_even_near (y : ℚ) : |(round_even y : ℚ) - y| ≤ 1 / 2 := by
  obtain ⟨h1, h2⟩ := floor_facts y
  unfold round_even
  rw [abs_le]
  split_ifs with a b c
  · constructor <;> linarith
  · push_cast; constructor <;> linarith
  · have : y - ⌊y⌋ = 1 / 2 := le_antisymm (not_lt.mp b) (not_lt.mp a)
    constructor <;> linarith
  · have : y - ⌊y⌋ = 1 / 2 := le_antisymm (not_lt.mp b) (not_lt.mp a)
    push_cast; constructor <;> linarith

/-- An integer strictly within one half of `y` is the nearest integer. -/
theorem round_even_eq_of (y : ℚ) (m : Int) (h1 : (m : ℚ) - 1 / 2 < y) (h2 : y < (m : ℚ) + 1 / 2) :
    round_even y = m := by
  obtain ⟨f1, f2⟩ := floor_facts y
  have hn := round_even_near y
  rw [abs_le] at hn
  have hlt : ((round_even y : Int) : ℚ) < (m : ℚ) + 1 := by linarith [hn.1, hn.2]
  have hgt : (m : ℚ) - 1 < ((round_even y : Int) : ℚ) := by linarith [hn.1, hn.2]
  have a : round_even y < m + 1 := by exact_mod_cast hlt
  have b : m - 1 < round_even y := by exact_mod_cast hgt
  omega

theorem round_even_intCast (n : Int) : round_even (n : ℚ) = n :=
  round_even_eq_of _ n (by linarith) (by linarith)

theorem round_even_mono {y z : ℚ} (h : y ≤ z) : round_even y ≤ round_even z := by
  obtain ⟨y1, y2⟩ := floor_facts y
  obtain ⟨z1, z2⟩ := floor_facts z
  have hfl : ⌊y⌋ ≤ ⌊z⌋ := Int.floor_le_floor h
  rcases hfl.lt_or_eq with hlt | heq
  · rcases round_even_cases y with e | e <;> rcases round_even_cases z with e' | e' <;> omega
  · unfold round_even
    rw [heq] at y1 y2 ⊢
    split_ifs <;> first | omega | (exfalso; linarith)

theorem round_even_neg (y : ℚ) : round_even (-y) = - round_even y := by
  obtain ⟨y1, y2⟩ := floor_facts y
  by_cases hint : (⌊y⌋ : ℚ) = y
  · rw [← hint, ← Int.cast_neg, round_even_intCast, round_even_intCast]
  · have hlt : (⌊y⌋ : ℚ) < y := lt_of_le_of_ne y1 hint
    have hfl : ⌊-y⌋ = -⌊y⌋ - 1 := by
      rw [Int.floor_eq_iff]
      push_cast
      constructor <;> linarith
    unfold round_even
    rw [hfl]
    push_cast
    split_ifs <;> first | omega | (exfalso; linarith)


theorem ulp_pos (x : ℚ) : 0 < ulp x := zpow_pos (by norm_num) _

theorem exponent_neg (x : ℚ) : exponent (-x) = exponent x := by
  unfold exponent
  rw [abs_neg]

theorem ulp_neg (x : ℚ) : ulp (-x) = ulp x := by
  unfold ulp
  rw [exponent_neg]

/-- Rounding commutes with negation. -/
theorem round_neg (x : ℚ) : round (-x) = - round x := by
  unfold round
  rw [ulp_neg, neg_div, round_even_neg]
  push_cast
  ring

theorem round_zero : round 0 = 0 := by
  unfold round
  rw [zero_div]
  have := round_even_intCast 0
  rw [Int.cast_zero] at this
  rw [this]
  simp

theorem round_nonneg {x : ℚ} (h : 0 ≤ x) : 0 ≤ round x := by
  unfold round
  have h0 : round_even 0 ≤ round_even (x / ulp x) :=
    round_even_mono (div_nonneg h (le_of_lt (ulp_pos x)))
  have e := round_even_intCast 0
  rw [Int.cast_zero] at e
  rw [e] at h0
  exact mul_nonneg (by exact_mod_cast h0) (le_of_lt (ulp_pos x))

theorem round_nonpos {x : ℚ} (h : x ≤ 0) : round x ≤ 0 := by
  have := round_nonneg (show 0 ≤ -x by linarith)
  rw [round_neg] at this
  linarith

theorem exponent_ge (x : ℚ) : -1022 ≤ exponent x := le_max_right _ _

theorem log_le_exponent (x : ℚ) : Int.log 2 |x| ≤ exponent x := le_max_left _ _

theorem exponent_cases (x : ℚ) : exponent x = Int.log 2 |x| ∨
    (exponent x = -1022 ∧ Int.log 2 |x| < -1022) := by
  unfold exponent
  rcases le_total (Int.log 2 |x|) (-1022) with h | h
  · rcases h.lt_or_eq with h | h
    · right; exact ⟨max_eq_right (le_of_lt h), h⟩
    · left; rw [h]; simp
  · left; exact max_eq_left h

/-- Every positive number lies below the upper end of its binade. -/
theorem lt_two_zpow_exponent {x : ℚ} (_hx : 0 < x) : x < (2 : ℚ) ^ (exponent x + 1) := by
  have h1 : |x| < ((2 : ℕ) : ℚ) ^ (Int.log 2 |x| + 1) := Int.lt_zpow_succ_log_self (by norm_num) _
  rw [Nat.cast_ofNat] at h1
  have h2 : (2 : ℚ) ^ (Int.log 2 |x| + 1) ≤ (2 : ℚ) ^ (exponent x + 1) :=
    zpow_le_zpow_right₀ (by norm_num) (by linarith [log_le_exponent x])
  exact lt_of_le_of_lt (le_abs_self x) (lt_of_lt_of_le h1 h2)

/-- A positive number of the normal range lies above the lower end of its
binade. -/
theorem two_zpow_exponent_le {x : ℚ} (hx : 0 < x) (h : exponent x = Int.log 2 |x|) :
    (2 : ℚ) ^ exponent x ≤ x := by
  have h1 : ((2 : ℕ) : ℚ) ^ Int.log 2 |x| ≤ |x| :=
    Int.zpow_log_le_self (by norm_num) (abs_pos.mpr (ne_of_gt hx))
  rw [Nat.cast_ofNat, abs_of_pos hx] at h1
  rw [h]
  rwa [abs_of_pos hx]

theorem exponent_mono {x y : ℚ} (hx : 0 < x) (h : x ≤ y) : exponent x ≤ exponent y := by
  unfold exponent
  apply max_le_max _ (le_refl _)
  apply Int.log_mono_right (abs_pos.mpr (ne_of_gt hx))
  rw [abs_of_pos hx, abs_of_pos (lt_of_lt_of_le hx h)]
  exact h

theorem ulp_mul (x : ℚ) : (2 : ℚ) ^ (52 : ℤ) * ulp x = (2 : ℚ) ^ exponent x := by
  unfold ulp
  rw [← zpow_add₀ (by norm_num : (2 : ℚ) ≠ 0)]
  congr 1
  ring

theorem ulp_mul_succ (x : ℚ) : (2 : ℚ) ^ (53 : ℤ) * ulp x = (2 : ℚ) ^ (exponent x + 1) := by
  unfold ulp
  rw [← zpow_add₀ (by norm_num : (2 : ℚ) ≠ 0)]
  congr 1
  ring

/-- The rounded value of a positive number stays in the closure of its binade. -/
theorem round_le_binade {x : ℚ} (hx : 0 < x) : round x ≤ (2 : ℚ) ^ (exponent x + 1) := by
  have hu := ulp_pos x
  have h1 : x / ulp x ≤ (((2 : Int) ^ 53 : Int) : ℚ) := by
    rw [div_le_iff₀ hu]
    have := lt_two_zpow_exponent hx
    rw [← ulp_mul_succ] at this
    have e : (2 : ℚ) ^ (53 : ℤ) = 9007199254740992 := by norm_num
    rw [e] at this
    push_cast
    norm_num
    exact le_of_lt this
  have h2 := round_even_mono h1
  rw [round_even_intCast] at h2
  unfold round
  rw [← ulp_mul_succ]
  apply mul_le_mul_of_nonneg_right _ (le_of_lt hu)
  have : ((round_even (x / ulp x) : Int) : ℚ) ≤ (((2 : Int) ^ 53 : Int) : ℚ) := by
    exact_mod_cast h2
  refine le_trans this ?_
  push_cast
  norm_num

theorem binade_le_round {x : ℚ} (hx : 0 < x) (h : exponent x = Int.log 2 |x|) :
    (2 : ℚ) ^ exponent x ≤ round x := by
  have hu := ulp_pos x
  have h1 : (((2 : Int) ^ 52 : Int) : ℚ) ≤ x / ulp x := by
    rw [le_div_iff₀ hu]
    have := two_zpow_exponent_le hx h
    rw [← ulp_mul] at this
    have e : (2 : ℚ) ^ (52 : ℤ) = 4503599627370496 := by norm_num
    rw [e] at this
    push_cast
    norm_num
    exact this
  have h2 := round_even_mono h1
  rw [round_even_intCast] at h2
  unfold round
  rw [← ulp_mul]
  apply mul_le_mul_of_nonneg_right _ (le_of_lt hu)
  have : (((2 : Int) ^ 52 : Int) : ℚ) ≤ ((round_even (x / ulp x) : Int) : ℚ) := by
    exact_mod_cast h2
  refine le_trans ?_ this
  push_cast
  norm_num

theorem round_mono_pos {x y : ℚ} (hx : 0 < x) (h : x ≤ y) : round x ≤ round y := by
  have hy : 0 < y := lt_of_lt_of_le hx h
  rcases (exponent_mono hx h).lt_or_eq with hlt | heq
  · -- different binades
    have hey : exponent y = Int.log 2 |y| := by
      rcases exponent_cases y with e | ⟨e, _⟩
      · exact e
      · have := exponent_ge x
        omega
    have h1 := round_le_binade hx
    have h2 := binade_le_round hy hey
    have h3 : (2 : ℚ) ^ (exponent x + 1) ≤ (2 : ℚ) ^ exponent y :=
      zpow_le_zpow_right₀ (by norm_num) (by omega)
    linarith
  · have hu : ulp x = ulp y := by unfold ulp; rw [heq]
    unfold round
    rw [hu]
    apply mul_le_mul_of_nonneg_right _ (le_of_lt (ulp_pos y))
    have := round_even_mono (div_le_div_of_nonneg_right h (le_of_lt (ulp_pos y)))
    exact_mod_cast this

/-- Rounding to nearest is monotone. -/
theorem round_mono {x y : ℚ} (h : x ≤ y) : round x ≤ round y := by
  rcases lt_trichotomy 0 x with hx | hx | hx
  · exact round_mono_pos hx h
  · subst hx
    rw [round_zero]
    exact round_nonneg h
  · rcases lt_or_le y 0 with hy | hy
    · have := round_mono_pos (show 0 < -y by linarith) (show -y ≤ -x by linarith)
      rw [round_neg, round_neg] at this
      linarith
    · exact le_trans (round_nonpos (le_of_lt hx)) (round_nonneg hy)

/-- A number on the grid of its binade is a binary64 number. -/
theorem round_of_grid (x : ℚ) (m : Int) (h : x / ulp x = (m : ℚ)) : round x = x := by
  unfold round
  rw [h, round_even_intCast, ← h, div_mul_cancel₀ _ (ne_of_gt (ulp_pos x))]

/-- The rounding error is at most half a unit in the last place. -/
theorem round_half_ulp (x : ℚ) : |round x - x| ≤ ulp x / 2 := by
  have hu := ulp_pos x
  have h := round_even_near (x / ulp x)
  unfold round
  have e : (round_even (x / ulp x) : ℚ) * ulp x - x
      = ((round_even (x / ulp x) : ℚ) - x / ulp x) * ulp x := by
    field_simp
  rw [e, abs_mul, abs_of_pos hu]
  calc |(round_even (x / ulp x) : ℚ) - x / ulp x| * ulp x ≤ 1 / 2 * ulp x :=
        mul_le_mul_of_nonneg_right h (le_of_lt hu)
    _ = ulp x / 2 := by ring

/-- The relative rounding error in the normal range is at most `2 ^ (-53)`. -/
theorem round_error (x : ℚ) (h : (2 : ℚ) ^ (-1022 : ℤ) ≤ |x|) :
    |round x - x| ≤ |x| / 2 ^ 53 := by
  have hpos : 0 < |x| := lt_of_lt_of_le (zpow_pos (by norm_num) _) h
  have hlog : exponent x = Int.log 2 |x| := by
    rcases exponent_cases x with e | ⟨_, e⟩
    · exact e
    · exfalso
      have := (Int.zpow_le_iff_le_log (b := 2) (by norm_num) hpos (x := -1022)).mp
        (by rw [Nat.cast_ofNat]; exact h)
      omega
  have h1 : ((2 : ℕ) : ℚ) ^ Int.log 2 |x| ≤ |x| := Int.zpow_log_le_self (by norm_num) hpos
  rw [Nat.cast_ofNat, ← hlog] at h1
  refine le_trans (round_half_ulp x) ?_
  have e : ulp x / 2 = (2 : ℚ) ^ exponent x / 2 ^ 53 := by
    rw [← ulp_mul]
    norm_num
    ring
  rw [e]
  exact div_le_div_of_nonneg_right h1 (by norm_num)

/-- Evaluation of the rounding at a positive number of the normal range: `e` is
the exponent of the binade and `m` the integer nearest to the significand. -/
theorem round_eval (x : ℚ) (e m : Int) (hmin : -1022 ≤ e) (h1 : (2 : ℚ) ^ e ≤ x)
    (h2 : x < (2 : ℚ) ^ (e + 1)) (h3 : ((m : ℚ) - 1 / 2) * (2 : ℚ) ^ (e - 52) < x)
    (h4 : x < ((m : ℚ) + 1 / 2) * (2 : ℚ) ^ (e - 52)) :
    round x = (m : ℚ) * (2 : ℚ) ^ (e - 52) := by
  have hx : 0 < x := lt_of_lt_of_le (zpow_pos (by norm_num) _) h1
  have habs : |x| = x := abs_of_pos hx
  have hlog : Int.log 2 |x| = e := by
    rw [habs]
    have a := (Int.zpow_le_iff_le_log (b := 2) (by norm_num) hx (x := e)).mp
      (by rw [Nat.cast_ofNat]; exact h1)
    have b := (Int.lt_zpow_iff_log_lt (b := 2) (by norm_num) hx (x := e + 1)).mp
      (by rw [Nat.cast_ofNat]; exact h2)
    omega
  have hexp : exponent x = e := by
    unfold exponent
    rw [hlog]
    exact max_eq_left hmin
  have hu : ulp x = (2 : ℚ) ^ (e - 52) := by unfold ulp; rw [hexp]
  have hup : 0 < (2 : ℚ) ^ (e - 52) := zpow_pos (by norm_num) _
  unfold round
  rw [hu, round_even_eq_of _ m]
  · rw [lt_div_iff₀ hup]; exact h3
  · rw [div_lt_iff₀ hup]; exact h4


theorem round_natCast_pos (n : Int) (h0 : 0 < n) (h1 : n ≤ 2 ^ 53) : round (n : ℚ) = n := by
  have hx : (0 : ℚ) < (n : ℚ) := by exact_mod_cast h0
  have hone : (1 : ℚ) ≤ (n : ℚ) := by exact_mod_cast h0
  have hlog0 : 0 ≤ Int.log 2 |(n : ℚ)| := by
    have := (Int.zpow_le_iff_le_log (b := 2) (by norm_num) (abs_pos.mpr (ne_of_gt hx))
      (x := 0)).mp (by rw [zpow_zero, abs_of_pos hx]; exact hone)
    exact this
  have hexp : exponent (n : ℚ) = Int.log 2 |(n : ℚ)| := by
    rcases exponent_cases (n : ℚ) with e | ⟨_, e⟩
    · exact e
    · omega
  have hlow := two_zpow_exponent_le hx hexp
  have hn53 : (n : ℚ) ≤ (2 : ℚ) ^ (53 : ℤ) := by
    have : (n : ℚ) ≤ ((2 ^ 53 : Int) : ℚ) := by exact_mod_cast h1
    refine le_trans this ?_
    push_cast
    norm_num
  have he53 : exponent (n : ℚ) ≤ 53 := by
    by_contra hc
    have : (2 : ℚ) ^ (54 : ℤ) ≤ (2 : ℚ) ^ exponent (n : ℚ) :=
      zpow_le_zpow_right₀ (by norm_num) (by omega)
    have h54 : (2 : ℚ) ^ (53 : ℤ) < (2 : ℚ) ^ (54 : ℤ) := by norm_num
    linarith
  have he0 : 0 ≤ exponent (n : ℚ) := by rw [hexp]; exact hlog0
  rcases he53.lt_or_eq with hlt | heq
  · -- the grid of the binade is at least as fine as the integers
    apply round_of_grid _ (n * 2 ^ (52 - exponent (n : ℚ)).toNat)
    unfold ulp
    have hk : ((52 - exponent (n : ℚ)).toNat : Int) = 52 - exponent (n : ℚ) :=
      Int.toNat_of_nonneg (by omega)
    have e1 : (2 : ℚ) ^ (exponent (n : ℚ) - 52) = ((2 : ℚ) ^ ((52 - exponent (n : ℚ)).toNat))⁻¹ := by
      rw [← zpow_natCast, hk, ← zpow_neg]
      congr 1
      ring
    rw [e1, div_inv_eq_mul]
    push_cast
    ring
  · have hn : (n : ℚ) = (2 : ℚ) ^ (53 : ℤ) := by
      rw [heq] at hlow
      exact le_antisymm hn53 hlow
    apply round_of_grid _ (2 ^ 52)
    unfold ulp
    rw [heq, hn]
    norm_num

/-- Every integer of absolute value at most `2 ^ 53` is a binary64 number. -/
theorem round_intCast (n : Int) (h : |n| ≤ 2 ^ 53) : round (n : ℚ) = n := by
  rcases lt_trichotomy 0 n with h0 | h0 | h0
  · exact round_natCast_pos n h0 (le_trans (le_abs_self n) h)
  · subst h0
    simp [round_zero]
  · have := round_natCast_pos (-n) (by omega) (le_trans (neg_le_abs n) h)
    push_cast at this
    rw [round_neg] at this
    linarith

/-- Truncation of a rounded number lies between floor and ceiling of the
number, for numbers of absolute value at most `2 ^ 53`. -/
theorem floor_le_round {x : ℚ} (h : |x| ≤ 2 ^ 53) :
    ((⌊x⌋ : Int) : ℚ) ≤ round x ∧ round x ≤ ((⌈x⌉ : Int) : ℚ) := by
  rw [abs_le] at h
  have hf1 : -(2 ^ 53 : Int) ≤ ⌊x⌋ := by
    apply Int.le_floor.mpr
    push_cast
    exact h.1
  have hf2 : ⌊x⌋ ≤ (2 ^ 53 : Int) := by
    have : ((⌊x⌋ : Int) : ℚ) ≤ ((2 ^ 53 : Int) : ℚ) := by
      push_cast
      exact le_trans (Int.floor_le x) h.2
    exact_mod_cast this
  have hc1 : -(2 ^ 53 : Int) ≤ ⌈x⌉ := by
    have : ((-(2 ^ 53) : Int) : ℚ) ≤ ((⌈x⌉ : Int) : ℚ) := by
      push_cast
      exact le_trans h.1 (Int.le_ceil x)
    exact_mod_cast this
  have hc2 : ⌈x⌉ ≤ (2 ^ 53 : Int) := by
    apply Int.ceil_le.mpr
    push_cast
    exact h.2
  constructor
  · rw [← round_intCast ⌊x⌋ (abs_le.mpr ⟨by omega, hf2⟩)]
    exact round_mono (Int.floor_le x)
  · rw [← round_intCast ⌈x⌉ (abs_le.mpr ⟨by omega, hc2⟩)]
    exact round_mono (Int.le_ceil x)

/-- A multiple of a power of two that is at least as coarse as the grid of its
binade is a binary64 number. -/
theorem round_of_dyadic (y : ℚ) (m k : Int) (hy : y = (m : ℚ) * (2 : ℚ) ^ k)
    (hk : exponent y - 52 ≤ k) : round y = y := by
  apply round_of_grid y (m * 2 ^ (k - (exponent y - 52)).toNat)
  have hd : (((k - (exponent y - 52)).toNat : Nat) : Int) = k - (exponent y - 52) :=
    Int.toNat_of_nonneg (by omega)
  unfold ulp
  push_cast
  rw [← zpow_natCast, hd, div_eq_iff (ne_of_gt (zpow_pos (by norm_num) _)), mul_assoc,
    ← zpow_add₀ (by norm_num : (2 : ℚ) ≠ 0)]
  rw [show k - (exponent y - 52) + (exponent y - 52) = k by ring]
  exact hy

theorem round_round_pos {x : ℚ} (hx : 0 < x) : round (round x) = round x := by
  have hle := round_le_binade hx
  have hnn := round_nonneg (le_of_lt hx)
  rcases hle.lt_or_eq with hlt | heq
  · rcases hnn.lt_or_eq with hpos | hzero
    · -- the rounded value stays in the binade or below
      apply round_of_dyadic (round x) (round_even (x / ulp x)) (exponent x - 52) rfl
      have hlog : Int.log 2 |round x| < exponent x + 1 := by
        apply (Int.lt_zpow_iff_log_lt (b := 2) (by norm_num) (abs_pos.mpr (ne_of_gt hpos))).mp
        rw [Nat.cast_ofNat, abs_of_pos hpos]
        exact hlt
      have : exponent (round x) ≤ exponent x := by
        unfold exponent at hlog ⊢
        apply max_le
        · exact Int.lt_add_one_iff.mp hlog
        · exact le_max_right _ _
      omega
    · rw [← hzero, round_zero]
  · -- rounded up to the next power of two
    rw [heq]
    apply round_of_dyadic _ 1 (exponent x + 1) (by simp)
    have : Int.log 2 |(2 : ℚ) ^ (exponent x + 1)| = exponent x + 1 := by
      rw [abs_of_pos (zpow_pos (by norm_num) _)]
      have := Int.log_zpow (R := ℚ) (b := 2) (by norm_num) (exponent x + 1)
      rwa [Nat.cast_ofNat] at this
    have hge := exponent_ge x
    have he : exponent ((2 : ℚ) ^ (exponent x + 1)) = exponent x + 1 := by
      generalize exponent x = e at *
      unfold exponent
      rw [this]
      exact max_eq_left (by omega)
    rw [he]
    omega

/-- Rounding is idempotent: a rounded number is a binary64 number. -/
theorem round_round (x : ℚ) : round (round x) = round x := by
  rcases lt_trichotomy 0 x with hx | hx | hx
  · exact round_round_pos hx
  · subst hx; rw [round_zero, round_zero]
  · have := round_round_pos (show 0 < -x by linarith)
    rw [round_neg, round_neg] at this
    linarith

theorem round_one : round 1 = 1 := by
  have := round_intCast 1 (by norm_num)
  simpa using this

/-- Rounding keeps a number of `[0, 1]` in `[0, 1]`. -/
theorem round_unit {x : ℚ} (h0 : 0 ≤ x) (h1 : x ≤ 1) : 0 ≤ round x ∧ round x ≤ 1 :=
  ⟨round_nonneg h0, by rw [← round_one]; exact round_mono h1⟩

end Binary64

/-! ### `TableStats` and `estimate_join_cardinality` in binary64 -/

section
open Binary64

theorem of_int_exact (z : Int) (h : |z| ≤ 2 ^ 53) : Binary64.of_int z = (z : ℚ) :=
  round_intCast z h

theorem to_int64_of_fits (z : Int) (h1 : -(2 ^ 63) ≤ z) (h2 : z < 2 ^ 63) : to_int64 z = z := by
  unfold to_int64
  omega

/-- The double of an integer below `2 ^ 53` in absolute value is a binary64
number. -/
theorem round_two_mul_int (n : Int) (h : |n| < 2 ^ 53) :
    Binary64.round (2 * (n : ℚ)) = 2 * (n : ℚ) := by
  by_cases hn : n = 0
  · subst hn; simp [round_zero]
  apply round_of_dyadic (2 * (n : ℚ)) n 1 (by rw [zpow_one]; ring)
  have hpos : 0 < |2 * (n : ℚ)| := abs_pos.mpr (by
    have : (n : ℚ) ≠ 0 := by exact_mod_cast hn
    simpa using this)
  have hlt : |2 * (n : ℚ)| < ((2 : ℕ) : ℚ) ^ (54 : ℤ) := by
    rw [abs_mul, Nat.cast_ofNat]
    have : |(n : ℚ)| < (2 : ℚ) ^ 53 := by
      have : ((|n| : Int) : ℚ) < ((2 ^ 53 : Int) : ℚ) := by exact_mod_cast h
      push_cast at this
      exact this
    have e : (2 : ℚ) ^ (54 : ℤ) = 2 * (2 : ℚ) ^ 53 := by norm_num
    rw [e, abs_of_pos (by norm_num : (0 : ℚ) < 2)]
    linarith
  have hlog := (Int.lt_zpow_iff_log_lt (b := 2) (by norm_num) hpos).mp hlt
  have : exponent (2 * (n : ℚ)) ≤ 53 := by
    unfold exponent
    exact max_le (by omega) (by norm_num)
  omega

/-- Evaluation of the cast `(int) x` at a non-negative number. -/
theorem to_int_eval (x : ℚ) (k : Int) (h1 : (k : ℚ) ≤ x) (h2 : x < (k : ℚ) + 1) (h0 : 0 ≤ x) :
    to_int x = k := by
  rw [to_int_of_nonneg x h0, Int.floor_eq_iff]
  exact ⟨h1, h2⟩

/-- The `double` literal `0.3`. -/
theorem round_three_tenths :
    Binary64.round (3 / 10) = 5404319552844595 / 18014398509481984 := by
  rw [round_eval (3 / 10) (-2) 5404319552844595 (by norm_num) (by norm_num) (by norm_num)
    (by norm_num) (by norm_num)]
  norm_num

/-- The `double` literal `0.29`. -/
theorem round_29_hundredths :
    Binary64.round (29 / 100) = 5224175567749775 / 18014398509481984 := by
  rw [round_eval (29 / 100) (-2) 5224175567749775 (by norm_num) (by norm_num) (by norm_num)
    (by norm_num) (by norm_num)]
  norm_num

/-- Function `estimate_scan_cost` in binary64 is `2 * io_cost * nump` when the product
is below `2 ^ 53` in absolute value. -/
theorem b64_scan_cost_eq (ts : TableStats) (hfit : |ts.io_cost * ts.nump| < 2 ^ 53) :
    Binary64.TableStats.estimate_scan_cost ts = 2 * (ts.io_cost : ℚ) * (ts.nump : ℚ) := by
  have h := abs_lt.mp hfit
  unfold Binary64.TableStats.estimate_scan_cost
  simp only
  rw [to_int64_of_fits _ (by omega) (by omega), of_int_exact _ (le_of_lt hfit),
    of_int_exact 2 (by norm_num)]
  unfold Binary64.mul
  rw [show ((ts.io_cost * ts.nump : Int) : ℚ) * ((2 : Int) : ℚ)
    = 2 * ((ts.io_cost * ts.nump : Int) : ℚ) by push_cast; ring, round_two_mul_int _ hfit]
  push_cast
  ring

theorem b64_scan_cost_spec (scan : List (List Int)) (io_cost_per_page : Int)
    (num_pages num_fields : Nat) (hfit : |io_cost_per_page * (num_pages : Int)| < 2 ^ 53) :
    Binary64.TableStats.estimate_scan_cost
        (TableStats.new scan io_cost_per_page num_pages num_fields)
      = 2 * (io_cost_per_page : ℚ) * (num_pages : ℚ) := by
  obtain ⟨h1, h2, _, _⟩ := TableStats_new_fields scan io_cost_per_page num_pages num_fields
  rw [b64_scan_cost_eq _ (by rw [h1, h2]; exact hfit), h1, h2]
  push_cast
  ring

/-- Function `estimate_scan_cost` in binary64 on the statistics the constructor builds:
the product formula and its linearity, wherever the product of the IO cost and
the number of pages stays below `2 ^ 53` in absolute value. -/
theorem b64_scan_cost_linear (scan : List (List Int)) (num_fields : Nat) :
    (∀ (io_cost_per_page : Int) (num_pages : Nat),
      |io_cost_per_page * (num_pages : Int)| < 2 ^ 53 →
      Binary64.TableStats.estimate_scan_cost
          (TableStats.new scan io_cost_per_page num_pages num_fields)
        = 2 * (io_cost_per_page : ℚ) * (num_pages : ℚ)) ∧
    (∀ (scan1 scan2 : List (List Int)) (io_cost_per_page : Int) (p q : Nat),
      |io_cost_per_page * ((p + q : Nat) : Int)| < 2 ^ 53 →
      Binary64.TableStats.estimate_scan_cost
          (TableStats.new scan io_cost_per_page (p + q) num_fields)
        = Binary64.TableStats.estimate_scan_cost
            (TableStats.new scan1 io_cost_per_page p num_fields)
          + Binary64.TableStats.estimate_scan_cost
            (TableStats.new scan2 io_cost_per_page q num_fields)) ∧
    (∀ (scan1 : List (List Int)) (io_cost_per_page : Int) (k num_pages : Nat),
      |io_cost_per_page * ((k * num_pages : Nat) : Int)| < 2 ^ 53 →
      Binary64.TableStats.estimate_scan_cost
          (TableStats.new scan io_cost_per_page (k * num_pages) num_fields)
        = (k : ℚ) * Binary64.TableStats.estimate_scan_cost
            (TableStats.new scan1 io_cost_per_page num_pages num_fields)) ∧
    (∀ (scan1 scan2 : List (List Int)) (c d : Int) (num_pages : Nat),
      |c * (num_pages : Int)| < 2 ^ 53 → |d * (num_pages : Int)| < 2 ^ 53 →
      |(c + d) * (num_pages : Int)| < 2 ^ 53 →
      Binary64.TableStats.estimate_scan_cost (TableStats.new scan (c + d) num_pages num_fields)
        = Binary64.TableStats.estimate_scan_cost (TableStats.new scan1 c num_pages num_fields)
          + Binary64.TableStats.estimate_scan_cost
            (TableStats.new scan2 d num_pages num_fields)) ∧
    (∀ (scan1 : List (List Int)) (k io_cost_per_page : Int) (num_pages : Nat),
      |k * io_cost_per_page * (num_pages : Int)| < 2 ^ 53 →
      Binary64.TableStats.estimate_scan_cost
          (TableStats.new scan (k * io_cost_per_page) num_pages num_fields)
        = (k : ℚ) * Binary64.TableStats.estimate_scan_cost
            (TableStats.new scan1 io_cost_per_page num_pages num_fields)) ∧
    (∀ (a : Int) (b i : Nat), |a * (i : Int) * ((b * i : Nat) : Int)| < 2 ^ 53 →
      Binary64.TableStats.estimate_scan_cost (TableStats.new scan (a * i) (b * i) num_fields)
        = 2 * (a : ℚ) * (b : ℚ) * (i : ℚ) ^ 2) := by
  refine ⟨fun io np h => b64_scan_cost_spec _ _ _ _ h, ?_, ?_, ?_, ?_, ?_⟩
  · intro scan1 scan2 io p q hfit
    have hp : |io * (p : Int)| < 2 ^ 53 := by
      rw [abs_mul, Nat.abs_cast] at hfit ⊢
      calc |io| * (p : Int) ≤ |io| * ((p + q : Nat) : Int) :=
            Int.mul_le_mul_of_nonneg_left (by omega) (abs_nonneg _)
        _ < 2 ^ 53 := hfit
    have hq : |io * (q : Int)| < 2 ^ 53 := by
      rw [abs_mul, Nat.abs_cast] at hfit ⊢
      calc |io| * (q : Int) ≤ |io| * ((p + q : Nat) : Int) :=
            Int.mul_le_mul_of_nonneg_left (by omega) (abs_nonneg _)
        _ < 2 ^ 53 := hfit
    rw [b64_scan_cost_spec _ _ _ _ hfit, b64_scan_cost_spec _ _ _ _ hp,
      b64_scan_cost_spec _ _ _ _ hq]
    push_cast
    ring
  · intro scan1 io k p hfit
    rw [b64_scan_cost_spec _ _ _ _ hfit]
    by_cases hk : k = 0
    · subst hk; simp
    · have hp : |io * (p : Int)| < 2 ^ 53 := by
        rw [abs_mul, Nat.abs_cast] at hfit ⊢
        have hle : (p : Int) ≤ ((k * p : Nat) : Int) := by
          push_cast
          have : (1 : Int) ≤ (k : Int) := by omega
          nlinarith [Int.natCast_nonneg p]
        calc |io| * (p : Int) ≤ |io| * ((k * p : Nat) : Int) :=
              Int.mul_le_mul_of_nonneg_left hle (abs_nonneg _)
          _ < 2 ^ 53 := hfit
      rw [b64_scan_cost_spec _ _ _ _ hp]
      push_cast
      ring
  · intro scan1 scan2 c d np hc hd hcd
    rw [b64_scan_cost_spec _ _ _ _ hcd, b64_scan_cost_spec _ _ _ _ hc,
      b64_scan_cost_spec _ _ _ _ hd]
    push_cast
    ring
  · intro scan1 k c np hfit
    rw [b64_scan_cost_spec _ _ _ _ hfit]
    by_cases hk : k = 0
    · subst hk; simp
    · have hc : |c * (np : Int)| < 2 ^ 53 := by
        rw [abs_mul, abs_mul, Nat.abs_cast] at hfit
        rw [abs_mul, Nat.abs_cast]
        have h1 : 1 ≤ |k| := Int.one_le_abs hk
        have h2 : |c| * (np : Int) ≤ |k| * |c| * (np : Int) := by
          have : 0 ≤ |c| * (np : Int) := mul_nonneg (abs_nonneg _) (Int.natCast_nonneg _)
          nlinarith
        omega
      rw [b64_scan_cost_spec _ _ _ _ hc]
      push_cast
      ring
  · intro a b i hfit
    rw [b64_scan_cost_spec _ _ _ _ hfit]
    push_cast
    ring

end

/-! ### `estimate_table_cardinality` and `estimate_join_cardinality` in binary64 -/

section
open Binary64

/-- Function `estimate_table_cardinality` in binary64 on a selectivity of `[0, 1]` and a
tuple count that fits an `int`: the result lies between the floor and the
ceiling of the exact product, and is the floor when the product is a
binary64 number. -/
theorem b64_table_cardinality_spec (ts : TableStats) (sel : ℚ) (h0 : 0 ≤ ts.num_tups)
    (h1 : ts.num_tups < 2 ^ 31) (hs0 : 0 ≤ sel) (hs1 : sel ≤ 1) :
    estimate_table_cardinality_spec ts.num_tups sel
        ≤ (Binary64.TableStats.estimate_table_cardinality ts sel : Int) ∧
    (Binary64.TableStats.estimate_table_cardinality ts sel : Int) ≤ ⌈sel * (ts.num_tups : ℚ)⌉ ∧
    (Binary64.TableStats.estimate_table_cardinality ts sel : Int) ≤ ts.num_tups ∧
    (Binary64.round (sel * (ts.num_tups : ℚ)) = sel * (ts.num_tups : ℚ) →
      (Binary64.TableStats.estimate_table_cardinality ts sel : Int)
        = estimate_table_cardinality_spec ts.num_tups sel) := by
  have hn : (0 : ℚ) ≤ (ts.num_tups : ℚ) := by exact_mod_cast h0
  have hn1 : (ts.num_tups : ℚ) ≤ 2 ^ 31 := by exact_mod_cast h1.le
  have hp : 0 ≤ sel * (ts.num_tups : ℚ) := mul_nonneg hs0 hn
  have hle : sel * (ts.num_tups : ℚ) ≤ (ts.num_tups : ℚ) := by nlinarith
  have habs : |sel * (ts.num_tups : ℚ)| ≤ 2 ^ 53 := by
    rw [abs_of_nonneg hp]
    linarith [show (2 : ℚ) ^ 31 ≤ 2 ^ 53 by norm_num]
  have hofi : Binary64.of_int ts.num_tups = (ts.num_tups : ℚ) :=
    of_int_exact _ (by rw [abs_of_nonneg h0]; omega)
  obtain ⟨hlo, hhi⟩ := floor_le_round habs
  have hr0 : 0 ≤ Binary64.round (sel * (ts.num_tups : ℚ)) := round_nonneg hp
  have hf0 : 0 ≤ ⌊sel * (ts.num_tups : ℚ)⌋ := Int.floor_nonneg.mpr hp
  have hfl : ⌊sel * (ts.num_tups : ℚ)⌋ ≤ ⌊Binary64.round (sel * (ts.num_tups : ℚ))⌋ :=
    Int.le_floor.mpr hlo
  have hfu : ⌊Binary64.round (sel * (ts.num_tups : ℚ))⌋ ≤ ⌈sel * (ts.num_tups : ℚ)⌉ :=
    Int.floor_le_floor hhi |>.trans (by rw [Int.floor_intCast])
  have hcn : ⌈sel * (ts.num_tups : ℚ)⌉ ≤ ts.num_tups := by
    exact Int.ceil_le.mpr hle
  have heq : (Binary64.TableStats.estimate_table_cardinality ts sel : Int)
      = ⌊Binary64.round (sel * (ts.num_tups : ℚ))⌋ := by
    unfold Binary64.TableStats.estimate_table_cardinality Binary64.mul
    simp only
    rw [hofi, to_int_of_nonneg _ hr0, int_to_uint64_of_lt _ (by omega) (by omega)]
  rw [heq]
  unfold estimate_table_cardinality_spec
  refine ⟨hfl, hfu, by omega, ?_⟩
  intro hex
  rw [hex]

theorem b64_table_cardinality_one (ts : TableStats) (h0 : 0 ≤ ts.num_tups)
    (h1 : ts.num_tups < 2 ^ 31) :
    (Binary64.TableStats.estimate_table_cardinality ts 1 : Int) = ts.num_tups := by
  have h := (b64_table_cardinality_spec ts 1 h0 h1 zero_le_one (le_refl 1)).2.2.2
  rw [one_mul] at h
  rw [h (round_intCast _ (by rw [abs_of_nonneg h0]; omega))]
  unfold estimate_table_cardinality_spec
  rw [one_mul, Int.floor_intCast]

theorem b64_table_cardinality_zero (ts : TableStats) :
    Binary64.TableStats.estimate_table_cardinality ts 0 = 0 := by
  unfold Binary64.TableStats.estimate_table_cardinality Binary64.mul
  simp only [zero_mul, round_zero, to_int_zero]
  rfl

/-- The `double` `0.3` on 10200 tuples: the rounded product is 3060, the floor of
the exact product is 3059. -/
theorem b64_table_cardinality_example (ts : TableStats) (h : ts.num_tups = 10200) :
    Binary64.TableStats.estimate_table_cardinality ts (Binary64.round (3 / 10)) = 3060 ∧
    estimate_table_cardinality_spec ts.num_tups (Binary64.round (3 / 10)) = 3059 := by
  constructor
  · unfold Binary64.TableStats.estimate_table_cardinality Binary64.mul
    simp only
    rw [h, of_int_exact 10200 (by norm_num), round_three_tenths,
      round_eval _ 11 6729011161989120 (by norm_num) (by norm_num) (by norm_num)
        (by norm_num) (by norm_num),
      to_int_eval _ 3060 (by norm_num) (by norm_num) (by norm_num)]
    rfl
  · unfold estimate_table_cardinality_spec
    rw [h, round_three_tenths, Int.floor_eq_iff]
    constructor <;> norm_num

/-- The `double` `0.29` on 100 tuples: the rounded product is below 29, the exact
product of `29 / 100` and 100 is 29. -/
theorem b64_table_cardinality_truncates (ts : TableStats) (h : ts.num_tups = 100) :
    Binary64.TableStats.estimate_table_cardinality ts (Binary64.round (29 / 100)) = 28 ∧
    estimate_table_cardinality_spec ts.num_tups (29 / 100) = 29 ∧
    estimate_table_cardinality_spec ts.num_tups (Binary64.round (29 / 100)) = 28 := by
  refine ⟨?_, ?_, ?_⟩
  · unfold Binary64.TableStats.estimate_table_cardinality Binary64.mul
    simp only
    rw [h, of_int_exact 100 (by norm_num), round_29_hundredths,
      round_eval _ 4 8162774324609023 (by norm_num) (by norm_num) (by norm_num)
        (by norm_num) (by norm_num),
      to_int_eval _ 28 (by norm_num) (by norm_num) (by norm_num)]
    rfl
  · unfold estimate_table_cardinality_spec
    rw [h]
    norm_num
  · unfold estimate_table_cardinality_spec
    rw [h, round_29_hundredths, Int.floor_eq_iff]
    constructor <;> norm_num

end

namespace Binary64

/-- The smallest normal binary64 number is below one eighth. -/
theorem min_normal_le : (2 : ℚ) ^ (-1022 : ℤ) ≤ 1 / 8 := by
  have : (2 : ℚ) ^ (-1022 : ℤ) ≤ (2 : ℚ) ^ (-3 : ℤ) :=
    zpow_le_zpow_right₀ (by norm_num) (by norm_num)
  calc (2 : ℚ) ^ (-1022 : ℤ) ≤ (2 : ℚ) ^ (-3 : ℤ) := this
    _ = 1 / 8 := by norm_num

/-- Halfway between an even integer and the next, the nearest integer is the
even one. -/
theorem round_even_tie (m : Int) (heven : m % 2 = 0) : round_even ((m : ℚ) + 1 / 2) = m := by
  have hf : ⌊(m : ℚ) + 1 / 2⌋ = m := by
    rw [Int.floor_eq_iff]
    constructor <;> linarith
  unfold round_even
  rw [hf]
  have e : (m : ℚ) + 1 / 2 - (m : ℚ) = 1 / 2 := by ring
  rw [e, if_neg (lt_irrefl _), if_neg (lt_irrefl _), if_pos heven]

/-- Evaluation of the rounding at a positive number of the normal range that
lies halfway between two binary64 numbers: the one with the even significand
`m` is taken. -/
theorem round_eval_tie (x : ℚ) (e m : Int) (hmin : -1022 ≤ e) (h1 : (2 : ℚ) ^ e ≤ x)
    (h2 : x < (2 : ℚ) ^ (e + 1)) (h3 : x = ((m : ℚ) + 1 / 2) * (2 : ℚ) ^ (e - 52))
    (heven : m % 2 = 0) :
    round x = (m : ℚ) * (2 : ℚ) ^ (e - 52) := by
  have hx : 0 < x := lt_of_lt_of_le (zpow_pos (by norm_num) _) h1
  have habs : |x| = x := abs_of_pos hx
  have hlog : Int.log 2 |x| = e := by
    rw [habs]
    have a := (Int.zpow_le_iff_le_log (b := 2) (by norm_num) hx (x := e)).mp
      (by rw [Nat.cast_ofNat]; exact h1)
    have b := (Int.lt_zpow_iff_log_lt (b := 2) (by norm_num) hx (x := e + 1)).mp
      (by rw [Nat.cast_ofNat]; exact h2)
    omega
  have hexp : exponent x = e := by
    unfold exponent
    rw [hlog]
    exact max_eq_left hmin
  have hu : ulp x = (2 : ℚ) ^ (e - 52) := by unfold ulp; rw [hexp]
  have hup : 0 < (2 : ℚ) ^ (e - 52) := zpow_pos (by norm_num) _
  unfold round
  rw [hu]
  have hq : x / (2 : ℚ) ^ (e - 52) = (m : ℚ) + 1 / 2 := by
    rw [h3, mul_div_assoc, div_self (ne_of_gt hup), mul_one]
  rw [hq, round_even_tie m heven]

end Binary64

section
open JoinOptimizer

/-- The rounded product `0.3 * c1 * c2` is within a tenth of the exact product
`3 / 10 * c1 * c2` for cardinalities whose product is at most `2 ^ 33`. -/
theorem b64_three_tenths_product (c1 c2 : Nat) (h1 : 1 ≤ c1) (h2 : 1 ≤ c2)
    (hP : c1 * c2 ≤ 2 ^ 33) :
    |Binary64.mul (Binary64.mul (Binary64.round (3 / 10)) (Binary64.of_int c1))
        (Binary64.of_int c2) - (3 / 10 : ℚ) * (c1 : ℚ) * (c2 : ℚ)| < 1 / 10 ∧
    0 ≤ Binary64.mul (Binary64.mul (Binary64.round (3 / 10)) (Binary64.of_int c1))
        (Binary64.of_int c2) := by
  have hc1 : c1 ≤ 2 ^ 33 := le_trans (Nat.le_mul_of_pos_right c1 (by omega)) hP
  have hc2 : c2 ≤ 2 ^ 33 := le_trans (Nat.le_mul_of_pos_left c2 (by omega)) hP
  have q1 : (1 : ℚ) ≤ (c1 : ℚ) := by exact_mod_cast h1
  have q2 : (1 : ℚ) ≤ (c2 : ℚ) := by exact_mod_cast h2
  have qP : (c1 : ℚ) * (c2 : ℚ) ≤ 2 ^ 33 := by exact_mod_cast hP
  have o1 : Binary64.of_int (c1 : Int) = (c1 : ℚ) := by
    rw [of_int_exact _ (by rw [Nat.abs_cast]; omega)]; simp
  have o2 : Binary64.of_int (c2 : Int) = (c2 : ℚ) := by
    rw [of_int_exact _ (by rw [Nat.abs_cast]; omega)]; simp
  rw [o1, o2, round_three_tenths]
  unfold Binary64.mul
  obtain ⟨D, hD⟩ : ∃ D : ℚ, D = 5404319552844595 / 18014398509481984 := ⟨_, rfl⟩
  rw [← hD]
  obtain ⟨a, ha⟩ : ∃ a : ℚ, a = D * (c1 : ℚ) := ⟨_, rfl⟩
  rw [← ha]
  obtain ⟨y1, hy1⟩ : ∃ y1 : ℚ, y1 = Binary64.round a := ⟨_, rfl⟩
  rw [← hy1]
  obtain ⟨b, hb⟩ : ∃ b : ℚ, b = y1 * (c2 : ℚ) := ⟨_, rfl⟩
  rw [← hb]
  obtain ⟨y2, hy2⟩ : ∃ y2 : ℚ, y2 = Binary64.round b := ⟨_, rfl⟩
  rw [← hy2]
  have hDpos : (0 : ℚ) < D := by rw [hD]; norm_num
  have hDge : (1 / 4 : ℚ) ≤ D := by rw [hD]; norm_num
  have hDle : D ≤ 3 / 10 := by rw [hD]; norm_num
  have hDeta : (3 / 10 : ℚ) - D = 1 / 90071992547409920 := by rw [hD]; norm_num
  have ha0 : (1 / 4 : ℚ) ≤ a := by
    rw [ha]
    calc (1 / 4 : ℚ) ≤ D * 1 := by rw [mul_one]; exact hDge
      _ ≤ D * (c1 : ℚ) := mul_le_mul_of_nonneg_left q1 hDpos.le
  have e1 := Binary64.round_error a (by
    rw [abs_of_nonneg (by linarith)]; exact le_trans Binary64.min_normal_le (by linarith))
  rw [abs_of_nonneg (by linarith : (0 : ℚ) ≤ a)] at e1
  rw [← hy1] at e1
  have e1' := abs_le.mp e1
  have hy1ge : (1 / 8 : ℚ) ≤ y1 := by
    have : a / 2 ^ 53 ≤ a / 2 := by
      apply div_le_div_of_nonneg_left (by linarith) (by norm_num) (by norm_num)
    linarith [e1'.1]
  have hb0 : (1 / 8 : ℚ) ≤ b := by
    rw [hb]
    calc (1 / 8 : ℚ) ≤ y1 * 1 := by rw [mul_one]; exact hy1ge
      _ ≤ y1 * (c2 : ℚ) := mul_le_mul_of_nonneg_left q2 (by linarith)
  have e2 := Binary64.round_error b (by
    rw [abs_of_nonneg (by linarith)]; exact le_trans Binary64.min_normal_le (by linarith))
  rw [abs_of_nonneg (by linarith : (0 : ℚ) ≤ b)] at e2
  rw [← hy2] at e2
  have e2' := abs_le.mp e2
  -- the exact product with the rounded constant
  obtain ⟨A, hA⟩ : ∃ A : ℚ, A = a * (c2 : ℚ) := ⟨_, rfl⟩
  have hc0 : (0 : ℚ) ≤ (c1 : ℚ) * (c2 : ℚ) := mul_nonneg (by linarith) (by linarith)
  have hA0 : 0 ≤ A := by rw [hA]; exact mul_nonneg (by linarith) (by linarith)
  have hAle : A ≤ 3 / 10 * 2 ^ 33 := by
    have : A = D * ((c1 : ℚ) * (c2 : ℚ)) := by rw [hA, ha]; ring
    rw [this]
    calc D * ((c1 : ℚ) * (c2 : ℚ)) ≤ 3 / 10 * ((c1 : ℚ) * (c2 : ℚ)) :=
          mul_le_mul_of_nonneg_right hDle hc0
      _ ≤ 3 / 10 * 2 ^ 33 := by linarith
  have hEA : (3 / 10 : ℚ) * (c1 : ℚ) * (c2 : ℚ) - A
      = 1 / 90071992547409920 * ((c1 : ℚ) * (c2 : ℚ)) := by
    rw [hA, ha, ← hDeta]; ring
  have hEA0 : 0 ≤ (3 / 10 : ℚ) * (c1 : ℚ) * (c2 : ℚ) - A := by
    rw [hEA]; exact mul_nonneg (by norm_num) hc0
  have hEA1 : (3 / 10 : ℚ) * (c1 : ℚ) * (c2 : ℚ) - A ≤ 1 / 90071992547409920 * 2 ^ 33 := by
    rw [hEA]; linarith
  have hbA1 : b - A ≤ A / 2 ^ 53 := by
    have : b - A = (y1 - a) * (c2 : ℚ) := by rw [hb, hA]; ring
    rw [this]
    calc (y1 - a) * (c2 : ℚ) ≤ a / 2 ^ 53 * (c2 : ℚ) :=
          mul_le_mul_of_nonneg_right e1'.2 (by linarith)
      _ = A / 2 ^ 53 := by rw [hA]; ring
  have hbA0 : -(A / 2 ^ 53) ≤ b - A := by
    have : b - A = (y1 - a) * (c2 : ℚ) := by rw [hb, hA]; ring
    rw [this]
    calc -(A / 2 ^ 53) = -(a / 2 ^ 53) * (c2 : ℚ) := by rw [hA]; ring
      _ ≤ (y1 - a) * (c2 : ℚ) := mul_le_mul_of_nonneg_right e1'.1 (by linarith)
  have k1 : A / 2 ^ 53 ≤ 3 / 10 * 2 ^ 33 / 2 ^ 53 :=
    div_le_div_of_nonneg_right hAle (by norm_num)
  have k2 : b / 2 ^ 53 ≤ (3 / 10 * 2 ^ 33 + 3 / 10 * 2 ^ 33 / 2 ^ 53) / 2 ^ 53 :=
    div_le_div_of_nonneg_right (by linarith) (by norm_num)
  have n1 : (3 / 10 * 2 ^ 33 / 2 ^ 53 : ℚ) < 1 / 1000 := by norm_num
  have n2 : ((3 / 10 * 2 ^ 33 + 3 / 10 * 2 ^ 33 / 2 ^ 53) / 2 ^ 53 : ℚ) < 1 / 1000 := by norm_num
  have n3 : (1 / 90071992547409920 * 2 ^ 33 : ℚ) < 1 / 1000 := by norm_num
  constructor
  · rw [abs_lt]
    constructor <;> linarith [e2'.1, e2'.2]
  · linarith [e2'.1, e2'.2]

/-- Function `estimate_join_cardinality` in binary64: an `EQ` join returns the value the
specification names; any other join returns it or one less, and returns it
when the product of the cardinalities is not a multiple of 10. -/
theorem b64_join_cardinality_spec (j : LogicalJoinNode) (c1 c2 : Nat) (t1pkey t2pkey : Bool)
    (hfit : estimate_join_cardinality_spec j.op c1 c2 t1pkey t2pkey < 2 ^ 31) :
    (j.op = PredicateType.EQ →
      Binary64.JoinOptimizer.estimate_join_cardinality j c1 c2 t1pkey t2pkey
        = estimate_join_cardinality_spec j.op c1 c2 t1pkey t2pkey ∧
      (Binary64.JoinOptimizer.estimate_join_cardinality j c1 c2 t1pkey t2pkey = (c1 : Int) ∨
        Binary64.JoinOptimizer.estimate_join_cardinality j c1 c2 t1pkey t2pkey = (c2 : Int))) ∧
    (j.op ≠ PredicateType.EQ →
      (Binary64.JoinOptimizer.estimate_join_cardinality j c1 c2 t1pkey t2pkey
          = estimate_join_cardinality_spec j.op c1 c2 t1pkey t2pkey ∨
        Binary64.JoinOptimizer.estimate_join_cardinality j c1 c2 t1pkey t2pkey
          = estimate_join_cardinality_spec j.op c1 c2 t1pkey t2pkey - 1) ∧
      (¬ 10 ∣ c1 * c2 →
        Binary64.JoinOptimizer.estimate_join_cardinality j c1 c2 t1pkey t2pkey
          = estimate_join_cardinality_spec j.op c1 c2 t1pkey t2pkey)) := by
  constructor
  · intro hop
    have e : Binary64.JoinOptimizer.estimate_join_cardinality j c1 c2 t1pkey t2pkey
        = buzzdb.JoinOptimizer.estimate_join_cardinality j c1 c2 t1pkey t2pkey := by
      unfold Binary64.JoinOptimizer.estimate_join_cardinality
        buzzdb.JoinOptimizer.estimate_join_cardinality
      rw [if_pos hop, if_pos hop]
    rw [e]
    exact ⟨(join_cardinality_spec j c1 c2 t1pkey t2pkey hfit).1,
      (join_cardinality_spec j c1 c2 t1pkey t2pkey hfit).2 hop⟩
  · intro hop
    unfold Binary64.JoinOptimizer.estimate_join_cardinality estimate_join_cardinality_spec at *
    rw [if_neg hop] at hfit ⊢
    rw [if_neg hop]
    by_cases hz : c1 = 0 ∨ c2 = 0
    · have e0 : Binary64.mul (Binary64.mul (Binary64.round (3 / 10)) (Binary64.of_int c1))
          (Binary64.of_int c2) = 0 := by
        unfold Binary64.mul Binary64.of_int
        rcases hz with hz | hz <;> subst hz <;> simp [Binary64.round_zero]
      have e1 : (3 / 10 : ℚ) * (c1 : ℚ) * (c2 : ℚ) = 0 := by
        rcases hz with hz | hz <;> subst hz <;> simp
      have hd : (10 : Nat) ∣ c1 * c2 := by
        rcases hz with hz | hz <;> subst hz <;> simp
      rw [e0, e1, to_int_zero, Int.floor_zero]
      exact ⟨Or.inl rfl, fun _ => rfl⟩
    · have h1 : 1 ≤ c1 := by omega
      have h2 : 1 ≤ c2 := by omega
      obtain ⟨E, hE⟩ : ∃ E : ℚ, E = (3 / 10 : ℚ) * (c1 : ℚ) * (c2 : ℚ) := ⟨_, rfl⟩
      rw [← hE] at hfit ⊢
      obtain ⟨k, hk⟩ : ∃ k : Int, k = ⌊E⌋ := ⟨_, rfl⟩
      rw [← hk] at hfit ⊢
      have hk1 : (k : ℚ) ≤ E := by rw [hk]; exact Int.floor_le E
      have hk2 : E < (k : ℚ) + 1 := by rw [hk]; exact Int.lt_floor_add_one E
      have hEP : 10 * E = ((3 * (c1 * c2 : Nat) : Int) : ℚ) := by
        rw [hE]; push_cast; ring
      have i1 : 10 * k ≤ 3 * ((c1 * c2 : Nat) : Int) := by
        have : ((10 * k : Int) : ℚ) ≤ ((3 * (c1 * c2 : Nat) : Int) : ℚ) := by
          rw [← hEP]; push_cast; linarith
        exact_mod_cast this
      have i2 : 3 * ((c1 * c2 : Nat) : Int) < 10 * k + 10 := by
        have : ((3 * (c1 * c2 : Nat) : Int) : ℚ) < ((10 * k + 10 : Int) : ℚ) := by
          rw [← hEP]; push_cast; linarith
        exact_mod_cast this
      have hP : c1 * c2 ≤ 2 ^ 33 := by
        have : ((c1 * c2 : Nat) : Int) ≤ 2 ^ 33 := by omega
        exact_mod_cast this
      obtain ⟨hnear, hy0⟩ := b64_three_tenths_product c1 c2 h1 h2 hP
      obtain ⟨y, hy⟩ : ∃ y : ℚ, y = Binary64.mul (Binary64.mul (Binary64.round (3 / 10))
          (Binary64.of_int c1)) (Binary64.of_int c2) := ⟨_, rfl⟩
      rw [← hy] at hnear hy0 ⊢
      rw [← hE] at hnear
      have hn := abs_lt.mp hnear
      rw [to_int_of_nonneg _ hy0]
      by_cases hex : 3 * ((c1 * c2 : Nat) : Int) = 10 * k
      · have hEk : E = (k : ℚ) := by
          have : 10 * E = 10 * (k : ℚ) := by rw [hEP, hex]; push_cast; ring
          linarith
        have hfl : ⌊y⌋ = k ∨ ⌊y⌋ = k - 1 := by
          by_cases hyk : (k : ℚ) ≤ y
          · left
            rw [Int.floor_eq_iff]
            exact ⟨hyk, by linarith [hn.2]⟩
          · right
            rw [Int.floor_eq_iff]
            push_cast
            exact ⟨by linarith [hn.1], by linarith⟩
        refine ⟨hfl, ?_⟩
        intro hnd
        exfalso
        apply hnd
        have : (10 : Int) ∣ ((c1 * c2 : Nat) : Int) := by omega
        exact_mod_cast this
      · have hlo : 10 * k + 1 ≤ 3 * ((c1 * c2 : Nat) : Int) := by omega
        have hhi : 3 * ((c1 * c2 : Nat) : Int) ≤ 10 * k + 9 := by omega
        have qlo : (k : ℚ) + 1 / 10 ≤ E := by
          have : ((10 * k + 1 : Int) : ℚ) ≤ ((3 * (c1 * c2 : Nat) : Int) : ℚ) := by
            exact_mod_cast hlo
          rw [← hEP] at this; push_cast at this; linarith
        have qhi : E ≤ (k : ℚ) + 9 / 10 := by
          have : ((3 * (c1 * c2 : Nat) : Int) : ℚ) ≤ ((10 * k + 9 : Int) : ℚ) := by
            exact_mod_cast hhi
          rw [← hEP] at this; push_cast at this; linarith
        have hfl : ⌊y⌋ = k := by
          rw [Int.floor_eq_iff]
          exact ⟨by linarith [hn.1], by linarith [hn.2]⟩
        exact ⟨Or.inl hfl, fun _ => hfl⟩

/-- On cardinalities 3 and 30 a join other than `EQ` is estimated at 26, while
`floor(3 / 10 * 3 * 30)` is 27. -/
theorem b64_join_cardinality_truncates (j : LogicalJoinNode) (hop : j.op ≠ PredicateType.EQ)
    (t1pkey t2pkey : Bool) :
    Binary64.JoinOptimizer.estimate_join_cardinality j 3 30 t1pkey t2pkey = 26 ∧
    estimate_join_cardinality_spec j.op 3 30 t1pkey t2pkey = 27 := by
  constructor
  · unfold Binary64.JoinOptimizer.estimate_join_cardinality Binary64.mul
    rw [if_neg hop]
    have o1 : Binary64.of_int ((3 : Nat) : Int) = 3 := by
      rw [of_int_exact _ (by norm_num)]; norm_num
    have o2 : Binary64.of_int ((30 : Nat) : Int) = 30 := by
      rw [of_int_exact _ (by norm_num)]; norm_num
    rw [o1, o2, round_three_tenths,
      Binary64.round_eval_tie (5404319552844595 / 18014398509481984 * 3) (-1) 8106479329266892
        (by norm_num) (by norm_num) (by norm_num) (by norm_num) (by norm_num),
      Binary64.round_eval _ 4 7599824371187711 (by norm_num) (by norm_num) (by norm_num)
        (by norm_num) (by norm_num),
      to_int_eval _ 26 (by norm_num) (by norm_num) (by norm_num)]
  · unfold estimate_join_cardinality_spec
    rw [if_neg hop, Int.floor_eq_iff]
    constructor <;> norm_num

end

/-! ### `IntHistogram` in binary64 -/

section
open IntHistogram

/-- The histogram the constructor builds in binary64 is empty and its buckets are
at least 1 wide. -/
theorem b64_new_fields (buckets min_val max_val : Int) :
    (Binary64.IntHistogram.new buckets min_val max_val).min_v = min_val ∧
    (Binary64.IntHistogram.new buckets min_val max_val).max_v = max_val ∧
    (Binary64.IntHistogram.new buckets min_val max_val).NumB = buckets ∧
    (Binary64.IntHistogram.new buckets min_val max_val).ntups = 0 ∧
    (Binary64.IntHistogram.new buckets min_val max_val).umap.length = buckets.toNat ∧
    (Binary64.IntHistogram.new buckets min_val max_val).umap.sum = 0 ∧
    1 ≤ (Binary64.IntHistogram.new buckets min_val max_val).span ∧
    (∀ x ∈ (Binary64.IntHistogram.new buckets min_val max_val).umap, 0 ≤ x) := by
  refine ⟨rfl, rfl, rfl, rfl, ?_, ?_, le_max_left _ _, ?_⟩
  · simp [Binary64.IntHistogram.new]
  · simp [Binary64.IntHistogram.new]
  · intro x hx
    simp only [Binary64.IntHistogram.new] at hx
    rw [List.eq_of_mem_replicate hx]

/-- The bucket index computed in binary64 for a value at or above `min_v` lies in
`[0, NumB)`. -/
theorem b64_b_idx_range (h : IntHistogram) (v : Int) (hspan : 0 < h.span) (hB : 1 ≤ h.NumB)
    (hv : h.min_v ≤ v) :
    0 ≤ Binary64.IntHistogram.b_idx h v ∧ Binary64.IntHistogram.b_idx h v < h.NumB := by
  have hk : (0 : ℚ) ≤ ((v - h.min_v : Int) : ℚ) := by exact_mod_cast (sub_nonneg.mpr hv)
  have h1 : 0 ≤ Binary64.of_int (v - h.min_v) := Binary64.round_nonneg hk
  have h2 : 0 ≤ Binary64.div (Binary64.of_int (v - h.min_v)) h.span :=
    Binary64.round_nonneg (div_nonneg h1 hspan.le)
  have h3 : 0 ≤ to_int (Binary64.div (Binary64.of_int (v - h.min_v)) h.span) := by
    rw [to_int_of_nonneg _ h2]
    exact Int.floor_nonneg.mpr h2
  unfold Binary64.IntHistogram.b_idx
  refine ⟨le_min h3 (by omega), ?_⟩
  have := min_le_right (to_int (Binary64.div (Binary64.of_int (v - h.min_v)) h.span))
    (h.NumB - 1)
  omega

/-- Function `add_value` in binary64 on a value outside `[min_v, max_v]`. -/
theorem b64_add_value_out (h : IntHistogram) (v : Int) (hv : v < h.min_v ∨ v > h.max_v) :
    Binary64.IntHistogram.add_value h v = h := by
  unfold Binary64.IntHistogram.add_value
  rw [if_pos hv]

/-- Function `add_value` in binary64 on a value inside `[min_v, max_v]`. -/
theorem b64_add_value_in (h : IntHistogram) (v : Int) (h1 : h.min_v ≤ v) (h2 : v ≤ h.max_v) :
    Binary64.IntHistogram.add_value h v =
      { h with
        umap := h.umap.set (Binary64.IntHistogram.b_idx h v).toNat
          (h.umap.getD (Binary64.IntHistogram.b_idx h v).toNat 0 + 1)
        ntups := h.ntups + 1 } := by
  unfold Binary64.IntHistogram.add_value
  rw [if_neg (by omega)]

/-- The fields `add_value` never changes. -/
theorem b64_add_value_fields (h : IntHistogram) (v : Int) :
    (Binary64.IntHistogram.add_value h v).span = h.span ∧
    (Binary64.IntHistogram.add_value h v).min_v = h.min_v ∧
    (Binary64.IntHistogram.add_value h v).max_v = h.max_v ∧
    (Binary64.IntHistogram.add_value h v).NumB = h.NumB ∧
    (Binary64.IntHistogram.add_value h v).umap.length = h.umap.length := by
  unfold Binary64.IntHistogram.add_value
  split_ifs
  · exact ⟨rfl, rfl, rfl, rfl, rfl⟩
  · exact ⟨rfl, rfl, rfl, rfl, by simp⟩

theorem b64_foldl_add_value_fields (vals : List Int) (h : IntHistogram) :
    (vals.foldl Binary64.IntHistogram.add_value h).span = h.span ∧
    (vals.foldl Binary64.IntHistogram.add_value h).min_v = h.min_v ∧
    (vals.foldl Binary64.IntHistogram.add_value h).max_v = h.max_v ∧
    (vals.foldl Binary64.IntHistogram.add_value h).NumB = h.NumB ∧
    (vals.foldl Binary64.IntHistogram.add_value h).umap.length = h.umap.length := by
  induction vals generalizing h with
  | nil => exact ⟨rfl, rfl, rfl, rfl, rfl⟩
  | cons v vs ih =>
    obtain ⟨a1, a2, a3, a4, a5⟩ := b64_add_value_fields h v
    obtain ⟨b1, b2, b3, b4, b5⟩ := ih (Binary64.IntHistogram.add_value h v)
    simp only [List.foldl_cons]
    exact ⟨b1.trans a1, b2.trans a2, b3.trans a3, b4.trans a4, b5.trans a5⟩

/-- After `add_value` in binary64 the total and the sum of the bucket counts both
grew by one for a value of the range and stayed for any other value. -/
theorem b64_add_value_counts (h : IntHistogram) (v : Int) (hspan : 0 < h.span)
    (hB : 1 ≤ h.NumB) (hlen : h.umap.length = h.NumB.toNat) :
    (Binary64.IntHistogram.add_value h v).ntups
      = h.ntups + (if h.min_v ≤ v ∧ v ≤ h.max_v then 1 else 0) ∧
    (Binary64.IntHistogram.add_value h v).umap.sum
      = h.umap.sum + (if h.min_v ≤ v ∧ v ≤ h.max_v then 1 else 0) := by
  by_cases hv : h.min_v ≤ v ∧ v ≤ h.max_v
  · obtain ⟨b1, b2⟩ := b64_b_idx_range h v hspan hB hv.1
    rw [b64_add_value_in h v hv.1 hv.2, if_pos hv]
    refine ⟨rfl, ?_⟩
    simp only
    rw [sum_set_succ _ _ (by rw [hlen]; omega)]
  · rw [b64_add_value_out h v (by omega), if_neg hv]
    simp

theorem b64_foldl_add_value_counts (vals : List Int) (h : IntHistogram) (hspan : 0 < h.span)
    (hB : 1 ≤ h.NumB) (hlen : h.umap.length = h.NumB.toNat) :
    (vals.foldl Binary64.IntHistogram.add_value h).ntups
      = h.ntups + (vals.filter fun v => decide (h.min_v ≤ v ∧ v ≤ h.max_v)).length ∧
    (vals.foldl Binary64.IntHistogram.add_value h).umap.sum
      = h.umap.sum + (vals.filter fun v => decide (h.min_v ≤ v ∧ v ≤ h.max_v)).length := by
  induction vals generalizing h with
  | nil => simp
  | cons v vs ih =>
    obtain ⟨a1, a2, a3, a4, a5⟩ := b64_add_value_fields h v
    obtain ⟨c1, c2⟩ := b64_add_value_counts h v hspan hB hlen
    obtain ⟨i1, i2⟩ := ih (Binary64.IntHistogram.add_value h v) (by rw [a1]; exact hspan)
      (by rw [a4]; exact hB) (by rw [a5, a4]; exact hlen)
    simp only [List.foldl_cons, i1, i2, c1, c2, a2, a3, List.filter_cons]
    by_cases hv : h.min_v ≤ v ∧ v ≤ h.max_v
    · simp only [hv, and_self, decide_True, if_true, List.length_cons]
      push_cast
      constructor <;> ring
    · simp only [hv, decide_False, if_false]
      simp

theorem b64_add_value_nonneg (h : IntHistogram) (v : Int) (hnn : ∀ x ∈ h.umap, 0 ≤ x) :
    ∀ x ∈ (Binary64.IntHistogram.add_value h v).umap, 0 ≤ x := by
  unfold Binary64.IntHistogram.add_value
  split_ifs
  · exact hnn
  · intro x hx
    simp only at hx
    rcases List.mem_or_eq_of_mem_set hx with h1 | h1
    · exact hnn x h1
    · rw [h1]
      have := getD_nonneg_of_mem h.umap hnn (Binary64.IntHistogram.b_idx h v).toNat
      omega

theorem b64_foldl_add_value_nonneg (vals : List Int) (h : IntHistogram)
    (hnn : ∀ x ∈ h.umap, 0 ≤ x) :
    ∀ x ∈ (vals.foldl Binary64.IntHistogram.add_value h).umap, 0 ≤ x := by
  induction vals generalizing h with
  | nil => exact hnn
  | cons v vs ih =>
    simp only [List.foldl_cons]
    exact ih _ (b64_add_value_nonneg h v hnn)

end

section
open IntHistogram

/-- The quotient of `k = w * q + r`, `r < w`, by `w`, rounded to binary64 and then
truncated, is `q`, for natural numbers below `2 ^ 53`. -/
theorem round_div_floor_aux (k w q r : Nat) (hw : 1 ≤ w) (hk : k < 2 ^ 53) (hwu : w < 2 ^ 53)
    (hdm : w * q + r = k) (hr : r < w) :
    ⌊Binary64.round ((k : ℚ) / (w : ℚ))⌋ = (q : Int) ∧
    ⌊(k : ℚ) / (w : ℚ)⌋ = (q : Int) ∧
    0 ≤ Binary64.round ((k : ℚ) / (w : ℚ)) := by
  have hw0 : (0 : ℚ) < (w : ℚ) := by exact_mod_cast hw
  have hq : (k : ℚ) = (w : ℚ) * (q : ℚ) + (r : ℚ) := by exact_mod_cast hdm.symm
  have hx0 : (0 : ℚ) ≤ (k : ℚ) / (w : ℚ) := div_nonneg (Nat.cast_nonneg k) hw0.le
  have hr0 : (0 : ℚ) ≤ (r : ℚ) := Nat.cast_nonneg _
  have hrw : (r : ℚ) + 1 ≤ (w : ℚ) := by exact_mod_cast hr
  have hlow : (q : ℚ) ≤ (k : ℚ) / (w : ℚ) := by
    rw [le_div_iff₀ hw0]
    linarith
  have hqk : q ≤ k := by
    have : q ≤ w * q := Nat.le_mul_of_pos_left q (by omega)
    omega
  have hrq : Binary64.round (((q : Int)) : ℚ) = ((q : Int) : ℚ) :=
    Binary64.round_intCast _ (by rw [Nat.abs_cast]; omega)
  have hcast : ((q : Int) : ℚ) = (q : ℚ) := by simp
  rw [hcast] at hrq
  have h1 : (q : ℚ) ≤ Binary64.round ((k : ℚ) / (w : ℚ)) := by
    have := Binary64.round_mono hlow
    rwa [hrq] at this
  have h2 : Binary64.round ((k : ℚ) / (w : ℚ)) < (q : ℚ) + 1 := by
    by_cases hz : r = 0
    · have : (k : ℚ) / (w : ℚ) = (q : ℚ) := by
        rw [div_eq_iff (ne_of_gt hw0), hq, hz]
        push_cast
        ring
      rw [this, hrq]
      linarith
    · have hr1 : (1 : ℚ) ≤ (r : ℚ) := by exact_mod_cast (Nat.one_le_iff_ne_zero.mpr hz)
      have hk1 : (1 : ℚ) ≤ (k : ℚ) := by
        have : 1 ≤ k := by omega
        exact_mod_cast this
      have hxw : (1 : ℚ) / (w : ℚ) ≤ (k : ℚ) / (w : ℚ) :=
        div_le_div_of_nonneg_right hk1 hw0.le
      have hwu' : (w : ℚ) ≤ 2 ^ 53 := by exact_mod_cast hwu.le
      have hmin : (2 : ℚ) ^ (-1022 : ℤ) ≤ (k : ℚ) / (w : ℚ) := by
        refine le_trans ?_ hxw
        have a : (2 : ℚ) ^ (-1022 : ℤ) ≤ (2 : ℚ) ^ (-53 : ℤ) :=
          zpow_le_zpow_right₀ (by norm_num) (by norm_num)
        have b : (2 : ℚ) ^ (-53 : ℤ) = 1 / 2 ^ 53 := by norm_num
        rw [b] at a
        refine le_trans a ?_
        exact div_le_div_of_nonneg_left (by norm_num) hw0 hwu'
      have herr := Binary64.round_error ((k : ℚ) / (w : ℚ)) (by rw [abs_of_nonneg hx0]; exact hmin)
      rw [abs_of_nonneg hx0] at herr
      have herr' := (abs_le.mp herr).2
      have hkq : (k : ℚ) < 2 ^ 53 := by exact_mod_cast hk
      have hsmall : (k : ℚ) / (w : ℚ) / 2 ^ 53 < 1 / (w : ℚ) := by
        rw [div_div, div_lt_div_iff₀ (by positivity) hw0]
        nlinarith
      have hup : (k : ℚ) / (w : ℚ) + 1 / (w : ℚ) ≤ (q : ℚ) + 1 := by
        rw [← add_div, div_le_iff₀ hw0]
        nlinarith
      linarith
  have h0 : 0 ≤ Binary64.round ((k : ℚ) / (w : ℚ)) := Binary64.round_nonneg hx0
  refine ⟨?_, ?_, h0⟩
  · rw [Int.floor_eq_iff, hcast]
    exact ⟨h1, h2⟩
  · rw [Int.floor_eq_iff, hcast]
    refine ⟨hlow, ?_⟩
    rw [div_lt_iff₀ hw0]
    nlinarith

/-- The quotient of two natural numbers below `2 ^ 53`, rounded to binary64 and then
truncated, is their integer quotient. -/
theorem round_div_floor (k w : Nat) (hw : 1 ≤ w) (hk : k < 2 ^ 53) (hwu : w < 2 ^ 53) :
    ⌊Binary64.round ((k : ℚ) / (w : ℚ))⌋ = ((k / w : Nat) : Int) ∧
    ⌊(k : ℚ) / (w : ℚ)⌋ = ((k / w : Nat) : Int) ∧
    0 ≤ Binary64.round ((k : ℚ) / (w : ℚ)) :=
  round_div_floor_aux k w (k / w) (k % w) hw hk hwu (Nat.div_add_mod k w)
    (Nat.mod_lt k (by omega))

/-- On a histogram whose buckets are a whole number wide the bucket index computed
in binary64 is the exact one. -/
theorem b64_b_idx_eq (h : IntHistogram) (v : Int) (w : Nat) (hw : 1 ≤ w) (hwu : w < 2 ^ 53)
    (hspan : h.span = (w : ℚ)) (hv : h.min_v ≤ v) (hk : v - h.min_v < 2 ^ 53) :
    Binary64.IntHistogram.b_idx h v = h.b_idx v := by
  obtain ⟨k, hkk⟩ := Int.eq_ofNat_of_zero_le (sub_nonneg.mpr hv)
  have hk' : k < 2 ^ 53 := by omega
  obtain ⟨r1, r2, r3⟩ := round_div_floor k w hw hk' hwu
  have e1 : Binary64.of_int (v - h.min_v) = (k : ℚ) := by
    rw [of_int_exact _ (by rw [hkk, Nat.abs_cast]; omega), hkk]
    simp
  have hx0 : (0 : ℚ) ≤ (k : ℚ) / (w : ℚ) :=
    div_nonneg (Nat.cast_nonneg k) (Nat.cast_nonneg w)
  unfold Binary64.IntHistogram.b_idx IntHistogram.b_idx Binary64.div
  rw [e1, hspan, hkk, to_int_of_nonneg _ r3, r1]
  rw [show (((k : Nat) : Int) : ℚ) = (k : ℚ) by simp, to_int_of_nonneg _ hx0, r2]

/-- On a histogram whose buckets are a whole number wide `add_value` in binary64 is the
exact `add_value`. -/
theorem b64_add_value_eq (h : IntHistogram) (v : Int) (w : Nat) (hw : 1 ≤ w) (hwu : w < 2 ^ 53)
    (hspan : h.span = (w : ℚ)) (hrange : h.max_v - h.min_v < 2 ^ 53) :
    Binary64.IntHistogram.add_value h v = h.add_value v := by
  unfold Binary64.IntHistogram.add_value IntHistogram.add_value
  by_cases hv : v < h.min_v ∨ v > h.max_v
  · rw [if_pos hv, if_pos hv]
  · rw [if_neg hv, if_neg hv]
    simp only
    rw [b64_b_idx_eq h v w hw hwu hspan (by omega) (by omega)]

theorem b64_foldl_add_value_eq (vals : List Int) (h : IntHistogram) (w : Nat) (hw : 1 ≤ w)
    (hwu : w < 2 ^ 53) (hspan : h.span = (w : ℚ)) (hrange : h.max_v - h.min_v < 2 ^ 53) :
    vals.foldl Binary64.IntHistogram.add_value h = vals.foldl add_value h := by
  induction vals generalizing h with
  | nil => rfl
  | cons v vs ih =>
    obtain ⟨a1, a2, a3, _, _⟩ := add_value_fields h v
    simp only [List.foldl_cons]
    rw [b64_add_value_eq h v w hw hwu hspan hrange]
    exact ih (h.add_value v) (by rw [a1]; exact hspan) (by rw [a2, a3]; exact hrange)

/-- When the range has at most `NumB` integers, or a multiple of `NumB`, the
constructor builds in binary64 the histogram of the exact arithmetic, and its
buckets are a whole number `w` wide. -/
theorem b64_new_eq (NumB lo hi : Int) (hB : 1 ≤ NumB) (hBu : NumB < 2 ^ 31)
    (hlo : -(2 ^ 31) ≤ lo) (hhi : hi < 2 ^ 31) (hmm : lo ≤ hi)
    (hwhole : hi - lo + 1 ≤ NumB ∨ NumB ∣ hi - lo + 1) :
    Binary64.IntHistogram.new NumB lo hi = IntHistogram.new NumB lo hi ∧
    ∃ w : Nat, 1 ≤ w ∧ (IntHistogram.new NumB lo hi).span = (w : ℚ) ∧
      NumB * (w : Int) ≤ 2 ^ 33 := by
  -- the exact width is a whole number
  have hw : ∃ w : Nat, 1 ≤ w ∧ (IntHistogram.new NumB lo hi).span = (w : ℚ) ∧
      NumB * (w : Int) ≤ 2 ^ 33 := by
    by_cases hcap : hi - lo + 1 ≤ NumB
    · refine ⟨1, le_refl _, ?_, ?_⟩
      · rw [new_span_one NumB lo hi hB hcap]; simp
      · simp only [Nat.cast_one, mul_one]; omega
    · rcases hwhole with c | ⟨d, hd⟩
      · exact absurd c hcap
      · have hd1 : 1 ≤ d := by
          by_contra hc
          have : d ≤ 0 := by omega
          have : NumB * d ≤ 0 := Int.mul_nonpos_of_nonneg_of_nonpos (by omega) this
          omega
        obtain ⟨w, hwd⟩ := Int.eq_ofNat_of_zero_le (show 0 ≤ d by omega)
        subst hwd
        refine ⟨w, by omega, new_span_nat NumB lo hi w hB (by omega) hd, ?_⟩
        rw [← hd]; omega
  refine ⟨?_, hw⟩
  -- the conversions and the two sums are exact
  have e1 : Binary64.of_int hi = (hi : ℚ) := of_int_exact _ (by rw [abs_le]; constructor <;> omega)
  have e2 : Binary64.of_int lo = (lo : ℚ) := of_int_exact _ (by rw [abs_le]; constructor <;> omega)
  have e3 : Binary64.of_int NumB = (NumB : ℚ) :=
    of_int_exact _ (by rw [abs_of_nonneg (by omega)]; omega)
  have e4 : Binary64.add 1 (hi : ℚ) = ((1 + hi : Int) : ℚ) := by
    unfold Binary64.add
    rw [show (1 : ℚ) + (hi : ℚ) = ((1 + hi : Int) : ℚ) by push_cast; ring,
      Binary64.round_intCast _ (by rw [abs_le]; constructor <;> omega)]
  have e5 : Binary64.sub ((1 + hi : Int) : ℚ) (lo : ℚ) = ((hi - lo + 1 : Int) : ℚ) := by
    unfold Binary64.sub
    rw [show ((1 + hi : Int) : ℚ) - (lo : ℚ) = ((hi - lo + 1 : Int) : ℚ) by push_cast; ring,
      Binary64.round_intCast _ (by rw [abs_le]; constructor <;> omega)]
  have hN0 : (0 : ℚ) < (NumB : ℚ) := by exact_mod_cast (show (0 : Int) < NumB by omega)
  have hexact : (1 + (hi : ℚ) - (lo : ℚ)) = ((hi - lo + 1 : Int) : ℚ) := by push_cast; ring
  have hspan : max (1 : ℚ) (Binary64.div (Binary64.sub (Binary64.add 1 (Binary64.of_int hi))
      (Binary64.of_int lo)) (Binary64.of_int NumB))
      = max 1 ((1 + (hi : ℚ) - (lo : ℚ)) / (NumB : ℚ)) := by
    rw [e1, e2, e3, e4, e5, hexact]
    unfold Binary64.div
    by_cases hcap : hi - lo + 1 ≤ NumB
    · have hle : ((hi - lo + 1 : Int) : ℚ) / (NumB : ℚ) ≤ 1 := by
        rw [div_le_one hN0]
        exact_mod_cast hcap
      have hle' := Binary64.round_mono hle
      rw [Binary64.round_one] at hle'
      rw [max_eq_left hle, max_eq_left hle']
    · rcases hwhole with c | ⟨d, hd⟩
      · exact absurd c hcap
      · have hd1 : 1 ≤ d := by
          by_contra hc
          have : d ≤ 0 := by omega
          have : NumB * d ≤ 0 := Int.mul_nonpos_of_nonneg_of_nonpos (by omega) this
          omega
        have hdu : d ≤ 2 ^ 33 := by
          have : d ≤ NumB * d := by nlinarith
          omega
        have hq : ((hi - lo + 1 : Int) : ℚ) / (NumB : ℚ) = (d : ℚ) := by
          rw [div_eq_iff (ne_of_gt hN0), hd]
          push_cast
          ring
        rw [hq, Binary64.round_intCast _ (by rw [abs_of_nonneg (by omega)]; omega)]
  unfold Binary64.IntHistogram.new IntHistogram.new
  rw [hspan]

end

section
open IntHistogram

/-- On a histogram whose buckets are a whole number wide, whose bounds fit an
`int` and whose counts add up to `ntups`, the greater-than estimate in binary64
is the exact estimate rounded once. -/
theorem b64_estimate_GT_eq (h : IntHistogram) (v : Int) (w : Nat) (hw : 1 ≤ w)
    (hspan : h.span = (w : ℚ)) (hB : 1 ≤ h.NumB)
    (hlo : -(2 ^ 31) ≤ h.min_v) (hhi : h.max_v < 2 ^ 31) (hNw : h.NumB * (w : Int) ≤ 2 ^ 33)
    (hnn : ∀ x ∈ h.umap, 0 ≤ x) (hsum : h.umap.sum = h.ntups) (hn : 1 ≤ h.ntups)
    (hnu : h.ntups ≤ 2 ^ 53) :
    Binary64.IntHistogram.estimate_GT h v = Binary64.round (h.estimate_GT v) := by
  unfold Binary64.IntHistogram.estimate_GT IntHistogram.estimate_GT
  by_cases c1 : v ≤ h.min_v
  · rw [if_pos c1, if_pos c1, Binary64.round_one]
  rw [if_neg c1, if_neg c1]
  by_cases c2 : v ≥ h.max_v
  · rw [if_pos c2, if_pos c2, Binary64.round_zero]
  rw [if_neg c2, if_neg c2]
  simp only
  have hw1 : (1 : Int) ≤ (w : Int) := by exact_mod_cast hw
  have hwN : (w : Int) ≤ 2 ^ 33 := by nlinarith
  have hwu : w < 2 ^ 53 := by omega
  have hs0 : (0 : ℚ) < h.span := by rw [hspan]; exact_mod_cast hw
  rw [b64_b_idx_eq h v w hw hwu hspan (by omega) (by omega)]
  obtain ⟨_, hb0, hbN⟩ := b_idx_spec h v hs0 hB (by omega)
  have h0 := getD_nonneg_of_mem h.umap hnn (h.b_idx v).toNat
  have h1 := getD_add_range_sum_le h.umap hnn (h.b_idx v).toNat (h.NumB - (h.b_idx v + 1)).toNat
  have h2 := range_sum_nonneg h.umap hnn (h.NumB - (h.b_idx v + 1)).toNat ((h.b_idx v).toNat + 1)
  have et : (h.b_idx v + 1).toNat = (h.b_idx v).toNat + 1 := by omega
  unfold count_above
  rw [et]
  rw [hsum] at h1
  generalize ((List.range' ((h.b_idx v).toNat + 1) (h.NumB - (h.b_idx v + 1)).toNat).map
    fun i => h.umap.getD i 0).sum = cnt at h1 h2 ⊢
  generalize h.umap.getD (h.b_idx v).toNat 0 = ht at h0 h1 ⊢
  generalize h.b_idx v = b at hb0 hbN ⊢
  -- the fraction of the bucket above `v`
  have hbw : (b + 1) * (w : Int) ≤ h.NumB * (w : Int) :=
    Int.mul_le_mul_of_nonneg_right (by omega) (by omega)
  have hbw0 : 0 ≤ (b + 1) * (w : Int) := Int.mul_nonneg (by omega) (by omega)
  have e1 : Binary64.of_int (b + 1) = ((b + 1 : Int) : ℚ) :=
    of_int_exact _ (by rw [abs_of_nonneg (by omega)]; nlinarith)
  have e2 : Binary64.mul ((b + 1 : Int) : ℚ) h.span = (((b + 1) * (w : Int) : Int) : ℚ) := by
    unfold Binary64.mul
    rw [hspan, show ((b + 1 : Int) : ℚ) * (w : ℚ) = (((b + 1) * (w : Int) : Int) : ℚ) by
      push_cast; ring, Binary64.round_intCast _ (by rw [abs_of_nonneg hbw0]; omega)]
  have e3 : Binary64.of_int h.min_v = (h.min_v : ℚ) :=
    of_int_exact _ (by rw [abs_le]; constructor <;> omega)
  have e4 : Binary64.add (h.min_v : ℚ) (((b + 1) * (w : Int) : Int) : ℚ)
      = ((h.min_v + (b + 1) * (w : Int) : Int) : ℚ) := by
    unfold Binary64.add
    rw [show (h.min_v : ℚ) + (((b + 1) * (w : Int) : Int) : ℚ)
      = ((h.min_v + (b + 1) * (w : Int) : Int) : ℚ) by push_cast; ring,
      Binary64.round_intCast _ (by rw [abs_le]; constructor <;> omega)]
  have e5 : Binary64.of_int v = (v : ℚ) :=
    of_int_exact _ (by rw [abs_le]; constructor <;> omega)
  have e6 : Binary64.sub ((h.min_v + (b + 1) * (w : Int) : Int) : ℚ) (v : ℚ)
      = ((h.min_v + (b + 1) * (w : Int) - v : Int) : ℚ) := by
    unfold Binary64.sub
    rw [show ((h.min_v + (b + 1) * (w : Int) : Int) : ℚ) - (v : ℚ)
      = ((h.min_v + (b + 1) * (w : Int) - v : Int) : ℚ) by push_cast; ring,
      Binary64.round_intCast _ (by rw [abs_le]; constructor <;> omega)]
  have e7 : ((h.min_v : ℚ) + ((b + 1 : Int) : ℚ) * h.span - (v : ℚ)) / h.span
      = ((h.min_v + (b + 1) * (w : Int) - v : Int) : ℚ) / h.span := by
    rw [hspan]; push_cast; ring
  rw [e1, e2, e3, e4, e5, e6, e7]
  unfold Binary64.div
  generalize ((h.min_v + (b + 1) * (w : Int) - v : Int) : ℚ) / h.span = fr
  -- the counts
  have e8 : Binary64.of_int cnt = (cnt : ℚ) :=
    of_int_exact _ (by rw [abs_of_nonneg h2]; omega)
  have e9 : Binary64.mul 1 (cnt : ℚ) = (cnt : ℚ) := by
    unfold Binary64.mul
    rw [one_mul, Binary64.round_intCast _ (by rw [abs_of_nonneg h2]; omega)]
  have e10 : Binary64.of_int h.ntups = (h.ntups : ℚ) :=
    of_int_exact _ (by rw [abs_of_nonneg (by omega)]; omega)
  rw [e8, e9, e10]
  by_cases hfull : ht = h.ntups
  · have hc : cnt = 0 := by omega
    rw [hfull, Int.tdiv_self (by omega), hc, of_int_exact 1 (by norm_num)]
    unfold Binary64.mul Binary64.add
    simp only [Int.cast_one, one_mul, Int.cast_zero, mul_zero, zero_div, add_zero,
      Binary64.round_zero, Binary64.round_round]
  · have ht0 : Int.tdiv ht h.ntups = 0 := by
      rw [Int.tdiv_eq_ediv h0 (by omega)]
      exact Int.ediv_eq_zero_of_lt h0 (by omega)
    rw [ht0, of_int_exact 0 (by norm_num)]
    unfold Binary64.mul Binary64.add
    simp only [Int.cast_zero, zero_mul, one_mul, zero_add, Binary64.round_zero,
      Binary64.round_round]

/-- The branch `EQ` in binary64 lies in `[0, 1]`. -/
theorem b64_estimate_EQ_bounds (h : IntHistogram) (v : Int) (hspan : 1 ≤ h.span)
    (hnn : ∀ x ∈ h.umap, 0 ≤ x) (hsum : h.umap.sum = h.ntups) (hn : 1 ≤ h.ntups) :
    0 ≤ Binary64.IntHistogram.estimate_EQ h v ∧ Binary64.IntHistogram.estimate_EQ h v ≤ 1 := by
  unfold Binary64.IntHistogram.estimate_EQ
  split_ifs
  · exact ⟨le_refl _, zero_le_one⟩
  · simp only
    have h0 := getD_nonneg_of_mem h.umap hnn (Binary64.IntHistogram.b_idx h v).toNat
    have h1 := getD_add_range_sum_le h.umap hnn (Binary64.IntHistogram.b_idx h v).toNat 0
    simp only [List.range'_zero, List.map_nil, List.sum_nil, add_zero] at h1
    rw [hsum] at h1
    generalize h.umap.getD (Binary64.IntHistogram.b_idx h v).toNat 0 = ht at h0 h1 ⊢
    have q0 : (0 : ℚ) ≤ (ht : ℚ) := by exact_mod_cast h0
    have q1 : (ht : ℚ) ≤ (h.ntups : ℚ) := by exact_mod_cast h1
    have qn : (1 : ℚ) ≤ (h.ntups : ℚ) := by exact_mod_cast hn
    have hs0 : (0 : ℚ) < h.span := by linarith
    unfold Binary64.div Binary64.of_int
    have a0 : 0 ≤ Binary64.round (ht : ℚ) := Binary64.round_nonneg q0
    have a1 : Binary64.round (ht : ℚ) ≤ Binary64.round (h.ntups : ℚ) := Binary64.round_mono q1
    have n1 : 1 ≤ Binary64.round (h.ntups : ℚ) := by
      have := Binary64.round_mono qn
      rwa [Binary64.round_one] at this
    have i0 : 0 ≤ Binary64.round (Binary64.round (ht : ℚ) / h.span) :=
      Binary64.round_nonneg (div_nonneg a0 hs0.le)
    have i1 : Binary64.round (Binary64.round (ht : ℚ) / h.span) ≤ Binary64.round (ht : ℚ) := by
      have : Binary64.round (ht : ℚ) / h.span ≤ Binary64.round (ht : ℚ) :=
        div_le_self a0 hspan
      have := Binary64.round_mono this
      rwa [Binary64.round_round] at this
    have hq0 : 0 ≤ Binary64.round (Binary64.round (ht : ℚ) / h.span)
        / Binary64.round (h.ntups : ℚ) := div_nonneg i0 (by linarith)
    have hq1 : Binary64.round (Binary64.round (ht : ℚ) / h.span)
        / Binary64.round (h.ntups : ℚ) ≤ 1 := by
      rw [div_le_one (by linarith)]
      linarith
    exact Binary64.round_unit hq0 hq1

/-- The estimates of `EQ` and `NE` in binary64 lie in `[0, 1]` on the histogram built
by the constructor and any sequence of `add_value` calls, at least one of them
on a value of the range. -/
theorem b64_eq_selectivity_bounds_spec (NumB lo hi : Int) (vals : List Int) (hB : 1 ≤ NumB)
    (hne : ∃ x ∈ vals, lo ≤ x ∧ x ≤ hi) (v : Int) :
    (0 ≤ Binary64.IntHistogram.estimate_selectivity
        (vals.foldl Binary64.IntHistogram.add_value (Binary64.IntHistogram.new NumB lo hi))
        PredicateType.EQ v ∧
      Binary64.IntHistogram.estimate_selectivity
        (vals.foldl Binary64.IntHistogram.add_value (Binary64.IntHistogram.new NumB lo hi))
        PredicateType.EQ v ≤ 1) ∧
    (0 ≤ Binary64.IntHistogram.estimate_selectivity
        (vals.foldl Binary64.IntHistogram.add_value (Binary64.IntHistogram.new NumB lo hi))
        PredicateType.NE v ∧
      Binary64.IntHistogram.estimate_selectivity
        (vals.foldl Binary64.IntHistogram.add_value (Binary64.IntHistogram.new NumB lo hi))
        PredicateType.NE v ≤ 1) := by
  obtain ⟨x0, hx0, hx1, hx2⟩ := hne
  obtain ⟨n1, n2, n3, n4, n5, n6, n7, n8⟩ := b64_new_fields NumB lo hi
  obtain ⟨f1, f2, f3, f4, f5⟩ :=
    b64_foldl_add_value_fields vals (Binary64.IntHistogram.new NumB lo hi)
  obtain ⟨c1, c2⟩ := b64_foldl_add_value_counts vals (Binary64.IntHistogram.new NumB lo hi)
    (by linarith) (by rw [n3]; exact hB) (by rw [n5, n3])
  have hpos : 0 < (vals.filter fun v => decide ((Binary64.IntHistogram.new NumB lo hi).min_v ≤ v ∧
      v ≤ (Binary64.IntHistogram.new NumB lo hi).max_v)).length := by
    apply List.length_pos_of_mem (a := x0)
    rw [List.mem_filter]
    exact ⟨hx0, by rw [n1, n2]; simpa using ⟨hx1, hx2⟩⟩
  have eq := b64_estimate_EQ_bounds
    (vals.foldl Binary64.IntHistogram.add_value (Binary64.IntHistogram.new NumB lo hi)) v
    (by rw [f1]; exact n7) (b64_foldl_add_value_nonneg vals _ n8) (by rw [c1, c2, n4, n6])
    (by rw [c1, n4]; omega)
  refine ⟨eq, ?_⟩
  show 0 ≤ Binary64.sub 1 _ ∧ Binary64.sub 1 _ ≤ 1
  unfold Binary64.sub
  exact Binary64.round_unit (by linarith [eq.2]) (by linarith [eq.1])

/-- The state of a histogram with buckets a whole number wide: the binary64
histogram is the exact one, with the invariants of the exact one. -/
theorem b64_whole_hist (NumB lo hi : Int) (vals : List Int) (hB : 1 ≤ NumB) (hBu : NumB < 2 ^ 31)
    (hlo : -(2 ^ 31) ≤ lo) (hhi : hi < 2 ^ 31) (hmm : lo ≤ hi)
    (hwhole : hi - lo + 1 ≤ NumB ∨ NumB ∣ hi - lo + 1) :
    vals.foldl Binary64.IntHistogram.add_value (Binary64.IntHistogram.new NumB lo hi)
      = vals.foldl add_value (IntHistogram.new NumB lo hi) ∧
    ∃ w : Nat, 1 ≤ w ∧ (vals.foldl add_value (IntHistogram.new NumB lo hi)).span = (w : ℚ) ∧
      NumB * (w : Int) ≤ 2 ^ 33 := by
  obtain ⟨e, w, hw, hs, hNw⟩ := b64_new_eq NumB lo hi hB hBu hlo hhi hmm hwhole
  obtain ⟨n1, n2, n3, n4, n5, n6⟩ := new_fields NumB lo hi
  obtain ⟨f1, f2, f3, f4, f5⟩ := foldl_add_value_fields vals (IntHistogram.new NumB lo hi)
  have hw1 : (1 : Int) ≤ (w : Int) := by exact_mod_cast hw
  have hwN : (w : Int) ≤ 2 ^ 33 := by nlinarith
  refine ⟨?_, w, hw, by rw [f1]; exact hs, hNw⟩
  rw [e]
  exact b64_foldl_add_value_eq vals _ w hw (by omega) hs (by rw [n1, n2]; omega)

/-- Selectivity bounds in binary64 on a histogram whose buckets are a whole number
wide. -/
theorem b64_selectivity_bounds_spec (NumB lo hi : Int) (vals : List Int) (hB : 1 ≤ NumB)
    (hBu : NumB < 2 ^ 31) (hlo : -(2 ^ 31) ≤ lo) (hhi : hi < 2 ^ 31)
    (hlen : vals.length < 2 ^ 31) (hwhole : hi - lo + 1 ≤ NumB ∨ NumB ∣ hi - lo + 1)
    (hne : ∃ x ∈ vals, lo ≤ x ∧ x ≤ hi) :
    (∀ v, Binary64.IntHistogram.estimate_selectivity
        (vals.foldl Binary64.IntHistogram.add_value (Binary64.IntHistogram.new NumB lo hi))
        PredicateType.GT v
      = Binary64.round ((vals.foldl add_value (IntHistogram.new NumB lo hi)).estimate_selectivity
        PredicateType.GT v)) ∧
    ∀ op v,
      0 ≤ Binary64.IntHistogram.estimate_selectivity
        (vals.foldl Binary64.IntHistogram.add_value (Binary64.IntHistogram.new NumB lo hi))
        op v ∧
      Binary64.IntHistogram.estimate_selectivity
        (vals.foldl Binary64.IntHistogram.add_value (Binary64.IntHistogram.new NumB lo hi))
        op v ≤ 1 := by
  have hmm : lo ≤ hi := by
    obtain ⟨x0, _, hx1, hx2⟩ := hne
    omega
  obtain ⟨e, w, hw, hs, hNw⟩ := b64_whole_hist NumB lo hi vals hB hBu hlo hhi hmm hwhole
  obtain ⟨n1, n2, n3, n4, n5, n6⟩ := new_fields NumB lo hi
  obtain ⟨f1, f2, f3, f4, f5⟩ := foldl_add_value_fields vals (IntHistogram.new NumB lo hi)
  have hs1 := new_span_ge_one NumB lo hi
  obtain ⟨c1, c2⟩ := foldl_add_value_counts vals (IntHistogram.new NumB lo hi)
    (by linarith) (by rw [n3]; exact hB) (by rw [n5, n3])
  have hfl : (vals.filter fun v => decide ((IntHistogram.new NumB lo hi).min_v ≤ v ∧
      v ≤ (IntHistogram.new NumB lo hi).max_v)).length ≤ vals.length := List.length_filter_le _ _
  have hpos : 0 < (vals.filter fun v => decide ((IntHistogram.new NumB lo hi).min_v ≤ v ∧
      v ≤ (IntHistogram.new NumB lo hi).max_v)).length := by
    obtain ⟨x0, hx0, hx1, hx2⟩ := hne
    apply List.length_pos_of_mem (a := x0)
    rw [List.mem_filter]
    exact ⟨hx0, by rw [n1, n2]; simpa using ⟨hx1, hx2⟩⟩
  have hnn : ∀ x ∈ (vals.foldl add_value (IntHistogram.new NumB lo hi)).umap, 0 ≤ x := by
    apply foldl_add_value_nonneg
    intro x hx
    simp only [IntHistogram.new] at hx
    rw [List.eq_of_mem_replicate hx]
  have hgt : ∀ v, Binary64.IntHistogram.estimate_GT
      (vals.foldl add_value (IntHistogram.new NumB lo hi)) v
      = Binary64.round ((vals.foldl add_value (IntHistogram.new NumB lo hi)).estimate_GT v) := by
    intro v
    apply b64_estimate_GT_eq _ v w hw hs
    · rw [f4, n3]; exact hB
    · rw [f2, n1]; exact hlo
    · rw [f3, n2]; exact hhi
    · rw [f4, n3]; exact hNw
    · exact hnn
    · rw [c1, c2, n4, n6]
    · rw [c1, n4]; omega
    · rw [c1, n4]; omega
  rw [e]
  generalize vals.foldl add_value (IntHistogram.new NumB lo hi) = H at *
  have hx : ∀ v, 0 ≤ H.estimate_GT v ∧ H.estimate_GT v ≤ 1 := fun v =>
    estimate_GT_bounds H v (by rw [f1]; exact hs1) (by rw [f4, n3]; exact hB)
      (by rw [f1, f2, f3, f4, n1, n2, n3]; exact new_cover NumB lo hi hB) hnn
      (by rw [c1, c2, n4, n6]) (by rw [c1, n4]; omega)
  have gt : ∀ v, 0 ≤ Binary64.IntHistogram.estimate_GT H v ∧
      Binary64.IntHistogram.estimate_GT H v ≤ 1 := by
    intro v
    rw [hgt v]
    exact Binary64.round_unit (hx v).1 (hx v).2
  have ge : ∀ v, 0 ≤ Binary64.IntHistogram.estimate_GE H v ∧
      Binary64.IntHistogram.estimate_GE H v ≤ 1 := by
    intro v
    unfold Binary64.IntHistogram.estimate_GE
    split_ifs
    · exact ⟨zero_le_one, le_refl _⟩
    · exact ⟨le_refl _, zero_le_one⟩
    · exact gt (v - 1)
  have eq : ∀ v, 0 ≤ Binary64.IntHistogram.estimate_EQ H v ∧
      Binary64.IntHistogram.estimate_EQ H v ≤ 1 := fun v =>
    b64_estimate_EQ_bounds H v (by rw [f1]; exact hs1) hnn (by rw [c1, c2, n4, n6])
      (by rw [c1, n4]; omega)
  refine ⟨fun v => hgt v, ?_⟩
  intro op v
  cases op with
  | EQ => exact eq v
  | NE =>
    simp only [Binary64.IntHistogram.estimate_selectivity]
    unfold Binary64.sub
    exact Binary64.round_unit (by linarith [(eq v).2]) (by linarith [(eq v).1])
  | GT => exact gt v
  | GE => exact ge v
  | LT =>
    simp only [Binary64.IntHistogram.estimate_selectivity]
    split_ifs
    · exact ⟨le_refl _, zero_le_one⟩
    · exact ⟨zero_le_one, le_refl _⟩
    · unfold Binary64.sub
      exact Binary64.round_unit (by linarith [(ge v).2]) (by linarith [(ge v).1])
  | LE =>
    simp only [Binary64.IntHistogram.estimate_selectivity]
    split_ifs
    · exact ⟨le_refl _, zero_le_one⟩
    · exact ⟨zero_le_one, le_refl _⟩
    · unfold Binary64.sub
      exact Binary64.round_unit (by linarith [(gt v).2]) (by linarith [(gt v).1])

/-- Monotonicity of the greater-than estimate in binary64 on a histogram whose
buckets are a whole number wide. -/
theorem b64_gt_antitone_spec (NumB lo hi : Int) (vals : List Int) (hB : 1 ≤ NumB)
    (hBu : NumB < 2 ^ 31) (hlo : -(2 ^ 31) ≤ lo) (hhi : hi < 2 ^ 31)
    (hlen : vals.length < 2 ^ 31) (hwhole : hi - lo + 1 ≤ NumB ∨ NumB ∣ hi - lo + 1)
    (hne : ∃ x ∈ vals, lo ≤ x ∧ x ≤ hi) (v w : Int) (hvw : v ≤ w) :
    Binary64.IntHistogram.estimate_selectivity
        (vals.foldl Binary64.IntHistogram.add_value (Binary64.IntHistogram.new NumB lo hi))
        PredicateType.GT w ≤
    Binary64.IntHistogram.estimate_selectivity
        (vals.foldl Binary64.IntHistogram.add_value (Binary64.IntHistogram.new NumB lo hi))
        PredicateType.GT v := by
  obtain ⟨hgt, _⟩ := b64_selectivity_bounds_spec NumB lo hi vals hB hBu hlo hhi hlen hwhole hne
  rw [hgt v, hgt w]
  exact Binary64.round_mono (gt_antitone_spec NumB lo hi vals hB hne v w hvw)

end

section
open IntHistogram Example

/-- The rounding of a number that is an integer of at most 53 bits. -/
theorem round_int_eval (n : Int) (h : |n| ≤ 2 ^ 53) (x : ℚ) (hx : x = (n : ℚ)) :
    Binary64.round x = x := by
  rw [hx]
  exact Binary64.round_intCast n h

/-- The width of six buckets over `[0, 9]`: the `double` nearest to `10 / 6`. -/
theorem b64_span_6_0_9 :
    (Binary64.IntHistogram.new 6 0 9).span = 7505999378950827 / 4503599627370496 := by
  have e1 : Binary64.of_int 9 = 9 := by rw [of_int_exact 9 (by norm_num)]; norm_num
  have e2 : Binary64.of_int 0 = 0 := by rw [of_int_exact 0 (by norm_num)]; norm_num
  have e3 : Binary64.of_int 6 = 6 := by rw [of_int_exact 6 (by norm_num)]; norm_num
  have e4 : Binary64.add 1 9 = 10 := by
    unfold Binary64.add
    rw [round_int_eval 10 (by norm_num) _ (by norm_num)]
    norm_num
  have e5 : Binary64.sub 10 0 = 10 := by
    unfold Binary64.sub
    rw [round_int_eval 10 (by norm_num) _ (by norm_num)]
    norm_num
  have e6 : Binary64.div 10 6 = 7505999378950827 / 4503599627370496 := by
    unfold Binary64.div
    rw [Binary64.round_eval _ 0 7505999378950827 (by norm_num) (by norm_num) (by norm_num)
      (by norm_num) (by norm_num)]
    norm_num
  unfold Binary64.IntHistogram.new
  simp only
  rw [e1, e2, e3, e4, e5, e6]
  norm_num

/-- The bucket index in binary64 on a histogram with `min_v = 0`, from the rounded
quotient and its truncation. -/
theorem b64_b_idx_eval (h : IntHistogram) (v b : Int) (q : ℚ) (hmin : h.min_v = 0)
    (hv : |v| ≤ 2 ^ 53) (hq : Binary64.round ((v : ℚ) / h.span) = q) (hb : to_int q = b)
    (hN : b ≤ h.NumB - 1) :
    Binary64.IntHistogram.b_idx h v = b := by
  unfold Binary64.IntHistogram.b_idx Binary64.div
  rw [hmin, sub_zero, of_int_exact v hv, hq, hb]
  exact min_eq_left hN

/-- Six buckets over `[0, 9]`: the value 5 falls into bucket 3 and the value 4 into
bucket 2, while the floor of `5 / span` is 2. -/
theorem b64_b_idx_6_0_9 (h : IntHistogram) (hmin : h.min_v = 0) (hN : h.NumB = 6)
    (hs : h.span = 7505999378950827 / 4503599627370496) :
    Binary64.IntHistogram.b_idx h 5 = 3 ∧ Binary64.IntHistogram.b_idx h 4 = 2 ∧
    ⌊((5 - 0 : Int) : ℚ) / h.span⌋ = 2 := by
  refine ⟨?_, ?_, ?_⟩
  · apply b64_b_idx_eval h 5 3 3 hmin (by norm_num)
    · rw [hs, Binary64.round_eval _ 1 6755399441055744 (by norm_num) (by norm_num) (by norm_num)
        (by norm_num) (by norm_num)]
      norm_num
    · exact to_int_eval 3 3 (by norm_num) (by norm_num) (by norm_num)
    · rw [hN]; norm_num
  · apply b64_b_idx_eval h 4 2 (5404319552844595 / 2251799813685248) hmin (by norm_num)
    · rw [hs, Binary64.round_eval _ 1 5404319552844595 (by norm_num) (by norm_num) (by norm_num)
        (by norm_num) (by norm_num)]
      norm_num
    · exact to_int_eval _ 2 (by norm_num) (by norm_num) (by norm_num)
    · rw [hN]; norm_num
  · rw [hs, Int.floor_eq_iff]
    constructor <;> norm_num

/-- The histogram `rounded_hist`: the value 5 went into bucket 3. -/
theorem rounded_hist_eq : rounded_hist =
    { span := 7505999378950827 / 4503599627370496, min_v := 0, max_v := 9, ntups := 1,
      NumB := 6, umap := [0, 0, 0, 1, 0, 0] } := by
  have hb := (b64_b_idx_6_0_9 (Binary64.IntHistogram.new 6 0 9) rfl rfl b64_span_6_0_9).1
  have hs := b64_span_6_0_9
  unfold rounded_hist
  simp only [List.foldl_cons, List.foldl_nil]
  rw [b64_add_value_in _ 5 (by decide) (by decide), hb]
  unfold Binary64.IntHistogram.new at hs ⊢
  simp only at hs ⊢
  rw [hs]
  rfl

/-- On `rounded_hist` the greater-than estimate in binary64 is `1 + 2 ^ (-52)` at 5 and
1 at 4, and the less-or-equal estimate at 5 is `-2 ^ (-52)`. -/
theorem rounded_hist_estimates :
    Binary64.IntHistogram.estimate_selectivity rounded_hist PredicateType.GT 5
      = 4503599627370497 / 4503599627370496 ∧
    Binary64.IntHistogram.estimate_selectivity rounded_hist PredicateType.GT 4 = 1 ∧
    Binary64.IntHistogram.estimate_selectivity rounded_hist PredicateType.LE 5
      = -1 / 4503599627370496 := by
  have hmin : rounded_hist.min_v = 0 := by rw [rounded_hist_eq]
  have hmax : rounded_hist.max_v = 9 := by rw [rounded_hist_eq]
  have hN : rounded_hist.NumB = 6 := by rw [rounded_hist_eq]
  have hn : rounded_hist.ntups = 1 := by rw [rounded_hist_eq]
  have hs : rounded_hist.span = 7505999378950827 / 4503599627370496 := by rw [rounded_hist_eq]
  have hu : rounded_hist.umap = [0, 0, 0, 1, 0, 0] := by rw [rounded_hist_eq]
  obtain ⟨b5, b4, _⟩ := b64_b_idx_6_0_9 rounded_hist hmin hN hs
  have o0 : Binary64.of_int 0 = 0 := by rw [of_int_exact 0 (by norm_num)]; norm_num
  have o1 : Binary64.of_int 1 = 1 := by rw [of_int_exact 1 (by norm_num)]; norm_num
  have o4 : Binary64.of_int 4 = 4 := by rw [of_int_exact 4 (by norm_num)]; norm_num
  have o5 : Binary64.of_int 5 = 5 := by rw [of_int_exact 5 (by norm_num)]; norm_num
  have c3 : rounded_hist.count_above 3 = 0 := by
    unfold count_above
    rw [hN, hu]
    decide
  have c2 : rounded_hist.count_above 2 = 1 := by
    unfold count_above
    rw [hN, hu]
    decide
  have g5 : Binary64.IntHistogram.estimate_GT rounded_hist 5
      = 4503599627370497 / 4503599627370496 := by
    have r1 : Binary64.mul 4 (7505999378950827 / 4503599627370496)
        = 7505999378950827 / 1125899906842624 := by
      unfold Binary64.mul
      rw [Binary64.round_eval _ 2 7505999378950827 (by norm_num) (by norm_num) (by norm_num)
        (by norm_num) (by norm_num)]
      norm_num
    have r2 : Binary64.add 0 (7505999378950827 / 1125899906842624)
        = 7505999378950827 / 1125899906842624 := by
      unfold Binary64.add
      rw [Binary64.round_eval _ 2 7505999378950827 (by norm_num) (by norm_num) (by norm_num)
        (by norm_num) (by norm_num)]
      norm_num
    have r3 : Binary64.sub (7505999378950827 / 1125899906842624) 5
        = 1876499844737707 / 1125899906842624 := by
      unfold Binary64.sub
      rw [Binary64.round_eval _ 0 7505999378950828 (by norm_num) (by norm_num) (by norm_num)
        (by norm_num) (by norm_num)]
      norm_num
    have r4 : Binary64.div (1876499844737707 / 1125899906842624)
        (7505999378950827 / 4503599627370496) = 4503599627370497 / 4503599627370496 := by
      unfold Binary64.div
      rw [Binary64.round_eval _ 0 4503599627370497 (by norm_num) (by norm_num) (by norm_num)
        (by norm_num) (by norm_num)]
      norm_num
    have r5 : Binary64.mul 1 (4503599627370497 / 4503599627370496)
        = 4503599627370497 / 4503599627370496 := by
      unfold Binary64.mul
      rw [Binary64.round_eval _ 0 4503599627370497 (by norm_num) (by norm_num) (by norm_num)
        (by norm_num) (by norm_num)]
      norm_num
    have r6 : Binary64.div (Binary64.mul 1 0) 1 = 0 := by
      unfold Binary64.div Binary64.mul
      simp [Binary64.round_zero]
    have r7 : Binary64.add (4503599627370497 / 4503599627370496) 0
        = 4503599627370497 / 4503599627370496 := by
      unfold Binary64.add
      rw [Binary64.round_eval _ 0 4503599627370497 (by norm_num) (by norm_num) (by norm_num)
        (by norm_num) (by norm_num)]
      norm_num
    unfold Binary64.IntHistogram.estimate_GT
    rw [hmin, hmax, if_neg (by decide), if_neg (by decide)]
    simp only
    rw [b5, c3, hu, hn, hs]
    have t1 : Int.tdiv (([0, 0, 0, 1, 0, 0] : List Int).getD (3 : Int).toNat 0) 1 = 1 := by decide
    rw [t1, show ((3 : Int) + 1) = 4 by norm_num, o0, o1, o4, o5, r1, r2, r3, r4, r5, r6, r7]
  have g4 : Binary64.IntHistogram.estimate_GT rounded_hist 4 = 1 := by
    have r1 : ∀ x : ℚ, Binary64.mul 0 x = 0 := by
      intro x
      unfold Binary64.mul
      rw [zero_mul, Binary64.round_zero]
    have r2 : Binary64.div (Binary64.mul 1 1) 1 = 1 := by
      unfold Binary64.div Binary64.mul
      simp [Binary64.round_one]
    have r3 : Binary64.add 0 1 = 1 := by
      unfold Binary64.add
      rw [zero_add, Binary64.round_one]
    unfold Binary64.IntHistogram.estimate_GT
    rw [hmin, hmax, if_neg (by decide), if_neg (by decide)]
    simp only
    rw [b4, c2, hu, hn]
    have t1 : Int.tdiv (([0, 0, 0, 1, 0, 0] : List Int).getD (2 : Int).toNat 0) 1 = 0 := by decide
    rw [t1, o0, o1, r1, r2, r3]
  refine ⟨g5, g4, ?_⟩
  show (if (5 : Int) < rounded_hist.min_v then (0 : ℚ)
    else if (5 : Int) > rounded_hist.max_v then 1
    else Binary64.sub 1 (Binary64.IntHistogram.estimate_GT rounded_hist 5)) = _
  rw [hmin, hmax, if_neg (by decide), if_neg (by decide), g5]
  unfold Binary64.sub
  rw [show (1 : ℚ) - 4503599627370497 / 4503599627370496 = -(1 / 4503599627370496) by norm_num,
    Binary64.round_neg,
    Binary64.round_eval _ (-52) 4503599627370496 (by norm_num) (by norm_num) (by norm_num)
      (by norm_num) (by norm_num)]
  norm_num

end

/-! ## The claims -/

open LogManagerTest Example

set_option maxRecDepth 100000

/-- C1 (the code at failing inputs): on the test fixture (128-byte pages) whose
page holds one 16-byte record, the page has 72 free bytes; allocating a 72-byte
record (it gets slot 1 of that page) and writing 72 zero bytes succeed, and the
following `read` with a 72-byte buffer exits instead of returning the record.
Likewise on the fresh fixture for a 96-byte record, 96 being the free space of
a fresh page. -/
theorem heap_round_trip_fails_when_record_takes_all_free_space :
    (SlottedPage.free_space (one_row.buffer_manager.frame 0).data = 72 ∧
      (allocate_then_write one_row (List.replicate 72 0)).map (fun r => r.2.2)
        = some (TID.mk 1) ∧
      write_then_read one_row (List.replicate 72 0) 72 = none) ∧
    (SlottedPage.free_space (SlottedPage.new (List.replicate 128 0) 0 128) = 96 ∧
      (allocate_then_write fresh (List.replicate 96 0)).isSome = true ∧
      write_then_read fresh (List.replicate 96 0) 96 = none) := by
  decide

/-- C3: after `commit_txn(t)` on a started transaction `t`, every page id
registered for `t` that is resident and dirty has, in its segment file, the
bytes of its frame.  After the simulated crash (`crash`: discard all pages,
reset, recovery) the page is read back from the file into a frame that holds
these bytes; once `header.buffer_frame` is set to that frame, as `look` does
before it reads, every read of a record that lies behind the header of such a
page returns what it returned before the crash, when the page was in place in
its frame. -/
theorem commit_durability (tm : TransactionManager) (bm : BufferManager) (disk : Disk)
    (lm : LogManager) (t : Nat) (txn : Transaction)
    (tm' : TransactionManager) (bm' : BufferManager) (disk' : Disk) (lm' : LogManager)
    (hwf : bm.WF) (hps : bm.page_size_ < 2 ^ 16) (h32 : SlottedPage.sizeof_header ≤ bm.page_size_)
    (htxn : tm.transaction_table_ t = some txn) (hstarted : txn.started_ = true)
    (hpages : ∀ q ∈ txn.modified_pages_, q < 2 ^ 64)
    (h : tm.commit_txn bm disk lm t = some (tm', bm', disk', lm')) :
    ∀ pid ∈ txn.modified_pages_, pid ≠ INVALID_PAGE_ID → bm'.resident pid →
      (bm'.frame (bm'.get_frame_id_of_page pid)).dirty = true →
      page_on_disk disk' bm'.page_size_ pid = (bm'.frame (bm'.get_frame_id_of_page pid)).data ∧
      ∀ (hs : HeapSegment) (log_file : TestFile) (tid : TID) (record : List Nat)
        (capacity : Nat),
        get_overall_page_id hs.segment_id_ (tid.value >>> 16) = pid →
        bm'.page_counter_ + 1 < bm'.capacity_ →
        bm'.in_place pid →
        SlottedPage.sizeof_header ≤ SlottedPage.slot_offset
          (SlottedPage.getSlot (bm'.frame (bm'.get_frame_id_of_page pid)).data
            (tid.value % 2 ^ 16)) →
        ∃ bm2 f,
          fix_in_place (crash (Fixture.mk disk' bm' lm' hs tm') log_file).buffer_manager
            (crash (Fixture.mk disk' bm' lm' hs tm') log_file).disk pid = some (bm2, f) ∧
          bm2.in_place pid ∧
          (bm2.frame f).data = SlottedPage.set_buffer_frame
            (bm'.frame (bm'.get_frame_id_of_page pid)).data f ∧
          (hs.read bm2 (crash (Fixture.mk disk' bm' lm' hs tm') log_file).disk
            tid record capacity).map Prod.snd
          = (hs.read bm' disk' tid record capacity).map Prod.snd :=
  commit_durability_spec tm bm disk lm t txn tm' bm' disk' lm' hwf hps h32 htxn hstarted hpages h

/-- Witness of C3: transaction 1 of `open_txn` wrote the row `(101, 5)` on
page 0 of segment 123, which is in place in frame 0; after its commit the page
on disk equals the frame, and after the crash the record, read from the page
put in place again, is the row. -/
theorem commit_durability_witness :
    open_txn.buffer_manager.WF ∧
    open_txn.transaction_manager.transaction_table_ 1 =
      some { txn_id_ := 1, started_ := true,
             modified_pages_ := [get_overall_page_id HEAP_SEGMENT 0] } ∧
    committed.buffer_manager.in_place (get_overall_page_id HEAP_SEGMENT 0) ∧
    page_on_disk committed.disk 128 (get_overall_page_id HEAP_SEGMENT 0) =
      (committed.buffer_manager.frame 0).data ∧
    ∃ bm2 f,
      fix_in_place (crash committed { mode := Mode.WRITE, file_content := [] }).buffer_manager
        (crash committed { mode := Mode.WRITE, file_content := [] }).disk
        (get_overall_page_id HEAP_SEGMENT 0) = some (bm2, f) ∧
      bm2.in_place (get_overall_page_id HEAP_SEGMENT 0) ∧
      (open_txn.heap_segment.read bm2
          (crash committed { mode := Mode.WRITE, file_content := [] }).disk
          (TID.mk 0) (vector_resize [] 16) 16).map Prod.snd = some (tuple 101 5, 16) := by
  have hplace : committed.buffer_manager.in_place (get_overall_page_id HEAP_SEGMENT 0) := by
    unfold BufferManager.in_place BufferManager.resident; decide
  have hc := commit_durability open_txn.transaction_manager open_txn.buffer_manager
    open_txn.disk open_txn.log_manager 1
    { txn_id_ := 1, started_ := true, modified_pages_ := [get_overall_page_id HEAP_SEGMENT 0] }
    committed.transaction_manager committed.buffer_manager committed.disk committed.log_manager
    (by unfold BufferManager.WF; decide) (by decide) (by decide) (by decide) (by decide)
    (by decide) (by rfl)
    (get_overall_page_id HEAP_SEGMENT 0) (by decide) (by decide)
    (by unfold BufferManager.resident; decide) (by decide)
  obtain ⟨bm2, f, h1, h2, _, h4⟩ := hc.2 open_txn.heap_segment
    { mode := Mode.WRITE, file_content := [] } (TID.mk 0) (vector_resize [] 16) 16 (by decide)
    (by decide) hplace (by decide)
  exact ⟨by unfold BufferManager.WF; decide, by decide, hplace, hc.1, bm2, f, h1, h2,
    h4.trans (by decide)⟩

/-- C4 (the code at a failing input): in `TestAbort` (rows 5 and 10 committed,
rows 3 and 4 inserted, flushed and aborted) the aborted row 3 is still found
by `look`, whereas the committed row 5 is found as expected. -/
theorem abort_leaves_flushed_record_visible :
    (TestAbort.bind fun fx => (look fx 101 3 false).map Prod.snd) = some false ∧
    (TestAbort.bind fun fx => (look fx 101 5 true).map Prod.snd) = some true := by
  decide

/-- C5 (the code at a failing input): in `TestOpenCrash` (row 5 inserted and
flushed by a transaction that never commits, then crash and recovery) the row
5 is still found by `look` after recovery. -/
theorem recovery_leaves_uncommitted_record_visible :
    (TestOpenCrash.bind fun fx => (look fx 101 5 false).map Prod.snd) = some false := by
  decide

/-- C6 (the code at a failing input): after `LogRecordTest` (one transaction
that begins, writes two records and commits) both counters return 0, where the
test expects 4 and 2. -/
theorem log_record_counters_return_zero :
    (LogRecordTest.map fun fx =>
      (fx.log_manager.get_total_log_records,
        fx.log_manager.get_total_log_records_of_type LogRecordType.UPDATE_RECORD))
      = some (0, 0) := by
  decide

/-- C7: every successful `fix_page(id)` returns a frame whose page id is `id`;
when the page was not resident the frame is clean and its data are the
`page_size` bytes of the segment file of `id` at offset (page-within-segment of
`id`) * `page_size`. -/
theorem fix_page_returns_requested_page (bm : BufferManager) (disk : Disk)
    (page_id : Nat) (exclusive : Bool) (bm' : BufferManager) (f : Nat)
    (hwf : bm.WF) (hps : bm.page_size_ < 2 ^ 16)
    (h : bm.fix_page disk page_id exclusive = some (bm', f)) :
    (bm'.frame f).page_id = page_id ∧
    (¬ bm.resident page_id →
      (bm'.frame f).dirty = false ∧
      (bm'.frame f).data = page_on_disk disk bm.page_size_ page_id) :=
  fix_page_spec bm disk page_id exclusive bm' f hwf hps h

/-- Witness of C7: fixing page 1 of segment 123 in the empty pool `small_pool`
loads the second 8 bytes of the segment file into frame 0. -/
theorem fix_page_returns_requested_page_witness :
    small_pool.WF ∧ small_pool.page_size_ < 2 ^ 16 ∧
    small_pool.fix_page small_disk (get_overall_page_id HEAP_SEGMENT 1) true =
      some (loaded_pool, 0) ∧
    ¬ small_pool.resident (get_overall_page_id HEAP_SEGMENT 1) ∧
    page_on_disk small_disk 8 (get_overall_page_id HEAP_SEGMENT 1) =
      [9, 10, 11, 12, 13, 14, 15, 16] :=
  ⟨by unfold BufferManager.WF; decide, by decide, by decide,
    by unfold BufferManager.resident; decide,
    (((fix_page_returns_requested_page small_pool small_disk
      (get_overall_page_id HEAP_SEGMENT 1) true loaded_pool 0
      (by unfold BufferManager.WF; decide) (by decide) (by decide)).2
      (by unfold BufferManager.resident; decide)).2).symm.trans (by decide)⟩

/-- C8 (the code at a failing input): in a fresh pool of capacity 1 the first
`fix_page` of a valid page already fails, and in a fresh pool of capacity 2 the
first page is fixed but the second distinct page is refused. -/
theorem fix_page_refuses_last_frame :
    (BufferManager.new 8 1).fix_page small_disk (get_overall_page_id HEAP_SEGMENT 0) true = none ∧
    (((BufferManager.new 8 2).fix_page small_disk (get_overall_page_id HEAP_SEGMENT 0) true).bind
      fun r => r.1.fix_page small_disk (get_overall_page_id HEAP_SEGMENT 1) true) = none ∧
    ((BufferManager.new 8 2).fix_page small_disk (get_overall_page_id HEAP_SEGMENT 0) true).isSome
      = true := by
  decide

/-- C9: `flush_page(id)` writes the frame's `page_size` bytes to the segment
file of `id` at offset (page-within-segment of `id`) * `page_size` if and only
if the page is resident and its frame is dirty, changes no other file byte,
and changes no frame. -/
theorem flush_page_effect (bm : BufferManager) (disk : Disk) (page_id : Nat)
    (bm' : BufferManager) (disk' : Disk) (hwf : bm.WF) (hps : bm.page_size_ < 2 ^ 16)
    (h : bm.flush_page disk page_id = some (bm', disk')) :
    bm' = bm ∧
    ((bm.resident page_id ∧ (bm.frame (bm.get_frame_id_of_page page_id)).dirty = true) →
      page_on_disk disk' bm.page_size_ page_id =
          (bm.frame (bm.get_frame_id_of_page page_id)).data ∧
      (∀ s, (disk' s).length = (disk s).length) ∧
      (∀ s j, ¬ (s = get_segment_id page_id ∧
            get_segment_page_id page_id * bm.page_size_ ≤ j ∧
            j < get_segment_page_id page_id * bm.page_size_ + bm.page_size_) →
          (disk' s).getD j 0 = (disk s).getD j 0)) ∧
    (¬ (bm.resident page_id ∧ (bm.frame (bm.get_frame_id_of_page page_id)).dirty = true) →
      disk' = disk) :=
  flush_page_spec bm disk page_id bm' disk' hwf hps h

/-- Witness of C9: flushing the dirty page 1 of segment 123 from `dirty_pool`
overwrites bytes 8 to 15 of the segment file with the frame's bytes and leaves
the pool as it was. -/
theorem flush_page_effect_witness :
    dirty_pool.WF ∧
    dirty_pool.flush_page small_disk (get_overall_page_id HEAP_SEGMENT 1) =
      some (dirty_pool, Function.update small_disk HEAP_SEGMENT
        [1, 2, 3, 4, 5, 6, 7, 8, 21, 22, 23, 24, 25, 26, 27, 28]) ∧
    page_on_disk (Function.update small_disk HEAP_SEGMENT
        [1, 2, 3, 4, 5, 6, 7, 8, 21, 22, 23, 24, 25, 26, 27, 28]) 8
        (get_overall_page_id HEAP_SEGMENT 1) = [21, 22, 23, 24, 25, 26, 27, 28] :=
  ⟨by unfold BufferManager.WF; decide, by rfl,
    (((flush_page_effect dirty_pool small_disk (get_overall_page_id HEAP_SEGMENT 1) dirty_pool
      (Function.update small_disk HEAP_SEGMENT
        [1, 2, 3, 4, 5, 6, 7, 8, 21, 22, 23, 24, 25, 26, 27, 28])
      (by unfold BufferManager.WF; decide) (by decide) (by rfl)).2.1
      ⟨by unfold BufferManager.resident; decide, by decide⟩).1).trans (by decide)⟩

/-- C10: for every 16-bit segment id `s` and page-within-segment id
`p < 2^48`, splitting `get_overall_page_id s p` gives back `s` and `p`; and for
every 64-bit `x`, packing the two parts of `x` gives back `x`. -/
theorem page_id_round_trip (s p x : Nat) (hs : s < 2 ^ 16) (hp : p < 2 ^ 48)
    (hx : x < 2 ^ 64) :
    get_segment_id (get_overall_page_id s p) = s ∧
    get_segment_page_id (get_overall_page_id s p) = p ∧
    get_overall_page_id (get_segment_id x) (get_segment_page_id x) = x :=
  page_id_packing s p x hs hp hx

/-- Witness of C10: segment 123, page 5, and the all-ones page id. -/
theorem page_id_round_trip_witness :
    (123 < 2 ^ 16 ∧ 5 < 2 ^ 48 ∧ INVALID_PAGE_ID < 2 ^ 64) ∧
    get_segment_id (get_overall_page_id 123 5) = 123 ∧
    get_segment_page_id (get_overall_page_id 123 5) = 5 ∧
    get_overall_page_id (get_segment_id INVALID_PAGE_ID) (get_segment_page_id INVALID_PAGE_ID)
      = INVALID_PAGE_ID :=
  ⟨by decide, page_id_round_trip 123 5 INVALID_PAGE_ID (by decide) (by decide) (by decide)⟩

/-- C11 (the code at a failing input): on the 128-byte page that the
constructor initialised, `addSlot(96)` returns and leaves `free_space = 2 ^ 32 - 8`
and `data_start = 32`.  The request `addSlot(40)` is within that `free_space`
and returns with `data_start = 2 ^ 32 - 8`; the slot word it stores in slot 1 has
bits 56-63 equal to `0xFF`, bits 48-55 equal to 0 and bits 0-23 equal to 40, but
its bits 24-47 are `2 ^ 24 - 8`, and the decoding `value << 16 >> 40` of
`HeapSegment::read/write` gives `2 ^ 24 - 8`: neither is the new `data_start`. -/
theorem slot_word_truncates_offset :
    constructed_page.length = 128 ∧
    (SlottedPage.add_slots constructed_page [96]).map (fun p =>
        (SlottedPage.free_space p, SlottedPage.data_start p,
          decide (40 ≤ SlottedPage.free_space p)))
      = some (4294967288, 32, true) ∧
    ((SlottedPage.add_slots constructed_page [96]).bind fun p =>
      (SlottedPage.addSlot p 40).map fun r =>
        (SlottedPage.data_start r.1,
          SlottedPage.getSlot r.1 1 / 2 ^ 56,
          SlottedPage.getSlot r.1 1 / 2 ^ 48 % 2 ^ 8,
          SlottedPage.getSlot r.1 1 / 2 ^ 24 % 2 ^ 24,
          SlottedPage.getSlot r.1 1 % 2 ^ 24))
      = some (4294967288, 255, 0, 16777208, 40) ∧
    ((SlottedPage.add_slots constructed_page [96]).bind fun p =>
      (SlottedPage.addSlot p 40).map fun r =>
        (SlottedPage.slot_offset (SlottedPage.getSlot r.1 1),
          SlottedPage.slot_length (SlottedPage.getSlot r.1 1)))
      = some (16777208, 40) ∧
    (16777208 : Nat) ≠ 4294967288 := by
  decide

/-- C12: whenever `addSlot(size)` is given `size ≤ free_space` it returns a TID
whose low 16 bits are the slot index it allocated (the `first_free_slot` found
at entry, where the slot word is stored) and whose upper 48 bits are the
page-within-segment part of the header's `overall_page_id`, the 16 segment
bits being shifted out; `tid >> 16` and `tid & 0xFFFF` recover the two. -/
theorem add_slot_tid (page : SlottedPage) (size : Nat)
    (hsize : size ≤ SlottedPage.free_space page) :
    ∃ page' tid, SlottedPage.addSlot page size = some (page', tid) ∧
      tid.value % 2 ^ 16 = SlottedPage.first_free_slot page ∧
      tid.value / 2 ^ 16 = get_segment_page_id (SlottedPage.overall_page_id page) ∧
      tid.value >>> 16 = get_segment_page_id (SlottedPage.overall_page_id page) ∧
      tid.value &&& ((1 <<< 16) - 1) = SlottedPage.first_free_slot page ∧
      tid.value < 2 ^ 64 ∧
      (SlottedPage.sizeof_header + SlottedPage.sizeof_slot * (SlottedPage.first_free_slot page + 1)
          ≤ page.length →
        SlottedPage.getSlot page' (tid.value &&& ((1 <<< 16) - 1)) =
          SlottedPage.slotValue ((SlottedPage.data_start page + 2 ^ 32 - size) % 2 ^ 32) size) :=
  add_slot_tid_spec page size hsize

/-- Witness of C12: on the page of `one_row` (page 0 of segment 123, one slot
in use) a second request gets slot 1 of page 0. -/
theorem add_slot_tid_witness :
    16 ≤ SlottedPage.free_space (one_row.buffer_manager.frame 0).data ∧
    SlottedPage.overall_page_id (one_row.buffer_manager.frame 0).data
      = get_overall_page_id 123 0 ∧
    ∃ page' tid, SlottedPage.addSlot (one_row.buffer_manager.frame 0).data 16 = some (page', tid) ∧
      tid.value >>> 16 = 0 ∧ tid.value &&& ((1 <<< 16) - 1) = 1 := by
  refine ⟨by decide, by decide, ?_⟩
  obtain ⟨page', tid, h1, _, _, h4, h5, _, _⟩ :=
    add_slot_tid (one_row.buffer_manager.frame 0).data 16 (by decide)
  exact ⟨page', tid, h1, h4.trans (by decide), h5.trans (by decide)⟩

/-- C15 (the code at a failing input): transaction 7 is not in the table of
`one_txn`; `commit_txn(7)` and `abort_txn(7)` exit, but `add_modified_page(7, 42)`
returns normally and leaves a new entry under id 7, a default-constructed
transaction whose modified pages are `[42]`. -/
theorem add_modified_page_accepts_unknown_id :
    one_txn.count 7 = 0 ∧
    one_txn.commit_txn fresh.buffer_manager fresh.disk fresh.log_manager 7 = none ∧
    one_txn.abort_txn fresh.buffer_manager fresh.disk fresh.log_manager 7 = none ∧
    (one_txn.add_modified_page 7 42).transaction_table_ 7 =
      some { txn_id_ := INVALID_TXN_ID, started_ := false, modified_pages_ := [42] } ∧
    (one_txn.add_modified_page 7 42).count 7 = 1 :=
  ⟨by decide, commit_txn_unknown _ _ _ _ 7 (by decide), abort_txn_unknown _ _ _ _ 7 (by decide),
    (add_modified_page_unknown one_txn 7 42 (by decide)).1,
    (add_modified_page_unknown one_txn 7 42 (by decide)).2⟩

/-- C20 (the code at failing inputs): with two buckets of width 5 over `[0, 9]`
holding `1, 3, 4, 6, 8` the code estimates `GT 2` as `2 / 5`, because
`h / ntups = 3 / 5` is a division of two `int`s and yields 0, whereas the
formula of the claim in exact arithmetic gives `3 / 5 * 3 / 5 + 2 / 5 = 19 / 25`;
likewise on the histogram of `LtTest` and `GETest` (ten buckets over `[1, 10]`
holding `3, 3, 3, 1, 10`) the code estimates `GT 3` as `1 / 5` and the formula
gives `4 / 5`. -/
theorem gt_selectivity_truncates :
    wide_hist.estimate_selectivity PredicateType.GT 2 = 2 / 5 ∧
    estimate_GT_spec wide_hist 2 = 19 / 25 ∧
    test_hist.estimate_selectivity PredicateType.GT 3 = 1 / 5 ∧
    estimate_GT_spec test_hist 3 = 4 / 5 := by
  have t2 : to_int ((2 : ℚ) / 5) = 0 := by
    rw [to_int_of_nonneg _ (by norm_num), Int.floor_eq_iff]; norm_num
  have hf2 : ⌊(2 : ℚ) / 5⌋ = 0 := by
    rw [Int.floor_eq_iff]; norm_num
  have hf3 : ⌊((3 : ℚ) - 1) / 1⌋ = 2 := by
    rw [Int.floor_eq_iff]; norm_num
  rw [wide_hist_eq, test_hist_eq]
  refine ⟨?_, ?_, ?_, ?_⟩
  · simp [IntHistogram.estimate_selectivity, IntHistogram.estimate_GT, IntHistogram.b_idx,
      t2, IntHistogram.count_above, List.range']
    norm_num [Int.tdiv]
  · simp [estimate_GT_spec, hf2]
    norm_num
  · simp [IntHistogram.estimate_selectivity, IntHistogram.estimate_GT, IntHistogram.b_idx,
      to_int_ofNat, IntHistogram.count_above, List.range']
    norm_num [Int.tdiv]
  · simp [estimate_GT_spec, hf3]
    norm_num

/-- C22 (as stated, refuted): on the histogram `rounded_hist`, six buckets over
`[0, 9]` holding the single value 5, the greater-than estimate at 5 is
`1 + 2 ^ (-52)`, above 1, and the less-or-equal estimate at 5 is `-2 ^ (-52)`,
below 0. -/
theorem selectivity_unit_interval_counterexample :
    rounded_hist = [5].foldl Binary64.IntHistogram.add_value (Binary64.IntHistogram.new 6 0 9) ∧
    (1 : Int) ≤ 6 ∧ (0 : Int) ≤ 9 ∧ (∃ x ∈ [(5 : Int)], 0 ≤ x ∧ x ≤ 9) ∧
    1 < Binary64.IntHistogram.estimate_selectivity rounded_hist PredicateType.GT 5 ∧
    Binary64.IntHistogram.estimate_selectivity rounded_hist PredicateType.LE 5 < 0 := by
  refine ⟨rfl, by decide, by decide, ⟨5, by decide, by decide, by decide⟩, ?_, ?_⟩
  · rw [rounded_hist_estimates.1]
    norm_num
  · rw [rounded_hist_estimates.2.2]
    norm_num

/-- C22 (amended): on the histogram built by the constructor with `NumB ≥ 1` and
any sequence of `add_value` calls of which at least one value lies in
`[min_v, max_v]`, the estimates of `EQ` and `NE` at every integer `v` lie between
0 and 1; so does the estimate of every operator when the range has at most
`NumB` integers or a multiple of `NumB` (the bucket width is then a whole
number), the bounds and `NumB` fit an `int` and fewer than `2 ^ 31` values were
added. -/
theorem selectivity_in_unit_interval_whole (NumB lo hi : Int) (vals : List Int) (hB : 1 ≤ NumB)
    (hne : ∃ x ∈ vals, lo ≤ x ∧ x ≤ hi) :
    (∀ v,
      (0 ≤ Binary64.IntHistogram.estimate_selectivity
          (vals.foldl Binary64.IntHistogram.add_value (Binary64.IntHistogram.new NumB lo hi))
          PredicateType.EQ v ∧
        Binary64.IntHistogram.estimate_selectivity
          (vals.foldl Binary64.IntHistogram.add_value (Binary64.IntHistogram.new NumB lo hi))
          PredicateType.EQ v ≤ 1) ∧
      (0 ≤ Binary64.IntHistogram.estimate_selectivity
          (vals.foldl Binary64.IntHistogram.add_value (Binary64.IntHistogram.new NumB lo hi))
          PredicateType.NE v ∧
        Binary64.IntHistogram.estimate_selectivity
          (vals.foldl Binary64.IntHistogram.add_value (Binary64.IntHistogram.new NumB lo hi))
          PredicateType.NE v ≤ 1)) ∧
    (NumB < 2 ^ 31 → -(2 ^ 31) ≤ lo → hi < 2 ^ 31 → vals.length < 2 ^ 31 →
      (hi - lo + 1 ≤ NumB ∨ NumB ∣ hi - lo + 1) →
      ∀ op v,
        0 ≤ Binary64.IntHistogram.estimate_selectivity
          (vals.foldl Binary64.IntHistogram.add_value (Binary64.IntHistogram.new NumB lo hi))
          op v ∧
        Binary64.IntHistogram.estimate_selectivity
          (vals.foldl Binary64.IntHistogram.add_value (Binary64.IntHistogram.new NumB lo hi))
          op v ≤ 1) :=
  ⟨fun v => b64_eq_selectivity_bounds_spec NumB lo hi vals hB hne v,
    fun hBu hlo hhi hlen hwhole =>
      (b64_selectivity_bounds_spec NumB lo hi vals hB hBu hlo hhi hlen hwhole hne).2⟩

/-- Witness of C22: the estimate of `GT 2` on the histogram of `LtTest`. -/
theorem selectivity_in_unit_interval_whole_witness :
    (1 : Int) ≤ 10 ∧ (∃ x ∈ [(3 : Int), 3, 3, 1, 10], 1 ≤ x ∧ x ≤ 10) ∧
    0 ≤ Binary64.IntHistogram.estimate_selectivity
      ([3, 3, 3, 1, 10].foldl Binary64.IntHistogram.add_value
        (Binary64.IntHistogram.new 10 1 10)) PredicateType.GT 2 ∧
    Binary64.IntHistogram.estimate_selectivity
      ([3, 3, 3, 1, 10].foldl Binary64.IntHistogram.add_value
        (Binary64.IntHistogram.new 10 1 10)) PredicateType.GT 2 ≤ 1 :=
  ⟨by decide, ⟨3, by decide, by decide, by decide⟩,
    (selectivity_in_unit_interval_whole 10 1 10 [3, 3, 3, 1, 10] (by decide)
      ⟨3, by decide, by decide, by decide⟩).2 (by decide) (by decide) (by decide) (by decide)
      (Or.inl (by decide)) PredicateType.GT 2⟩

/-- C23 (as stated, refuted): with an IO cost of `2 ^ 54 + 1` on one page the
product `io_cost * nump` is not a `double`: its conversion is `2 ^ 54` and
`estimate_scan_cost()` is `2 ^ 55`, not `2 * (2 ^ 54 + 1) * 1`.  With an IO cost of
`2 ^ 62` on 4 pages the `int64_t` product wraps to 0 and the cost is 0, not
`2 ^ 65`. -/
theorem scan_cost_counterexample :
    Binary64.TableStats.estimate_scan_cost (TableStats.new [] (2 ^ 54 + 1) 1 1) = 2 ^ 55 ∧
    (2 : ℚ) ^ 55 ≠ 2 * ((2 ^ 54 + 1 : Int) : ℚ) * ((1 : Nat) : ℚ) ∧
    Binary64.TableStats.estimate_scan_cost (TableStats.new [] (2 ^ 62) 4 1) = 0 ∧
    (0 : ℚ) ≠ 2 * ((2 ^ 62 : Int) : ℚ) * ((4 : Nat) : ℚ) := by
  refine ⟨?_, by norm_num, ?_, by norm_num⟩
  · have e : to_int64 ((TableStats.new [] (2 ^ 54 + 1) 1 1).io_cost
        * (TableStats.new [] (2 ^ 54 + 1) 1 1).nump) = 18014398509481985 := by decide
    have r1 : Binary64.round ((18014398509481985 : Int) : ℚ) = 18014398509481984 := by
      rw [Binary64.round_eval _ 54 4503599627370496 (by norm_num) (by norm_num) (by norm_num)
        (by norm_num) (by norm_num)]
      norm_num
    have r2 : Binary64.round (18014398509481984 * ((2 : Int) : ℚ)) = 36028797018963968 := by
      rw [Binary64.round_eval _ 55 4503599627370496 (by norm_num) (by norm_num) (by norm_num)
        (by norm_num) (by norm_num)]
      norm_num
    unfold Binary64.TableStats.estimate_scan_cost Binary64.mul Binary64.of_int
    simp only
    rw [e, Binary64.round_intCast 2 (by norm_num), r1, r2]
    norm_num
  · have e : to_int64 ((TableStats.new [] (2 ^ 62) 4 1).io_cost
        * (TableStats.new [] (2 ^ 62) 4 1).nump) = 0 := by decide
    unfold Binary64.TableStats.estimate_scan_cost Binary64.mul Binary64.of_int
    simp only
    rw [e]
    simp [Binary64.round_zero]

/-- C23 (amended): on the statistics built by the constructor from
`io_cost_per_page` and `num_pages`, whatever the table holds,
`estimate_scan_cost()` is `2 * io_cost_per_page * num_pages` whenever the product
`io_cost_per_page * num_pages` is below `2 ^ 53` in absolute value; for such
products it is additive and homogeneous in `num_pages` for a fixed IO cost,
additive and homogeneous in the IO cost for a fixed `num_pages`, and
`2 * a * b * i ^ 2` when the IO cost is `a * i` and the number of pages `b * i`. -/
theorem scan_cost_linear_in_range (scan : List (List Int)) (num_fields : Nat) :
    (∀ (io_cost_per_page : Int) (num_pages : Nat),
      |io_cost_per_page * (num_pages : Int)| < 2 ^ 53 →
      Binary64.TableStats.estimate_scan_cost
          (TableStats.new scan io_cost_per_page num_pages num_fields)
        = 2 * (io_cost_per_page : ℚ) * (num_pages : ℚ)) ∧
    (∀ (scan1 scan2 : List (List Int)) (io_cost_per_page : Int) (p q : Nat),
      |io_cost_per_page * ((p + q : Nat) : Int)| < 2 ^ 53 →
      Binary64.TableStats.estimate_scan_cost
          (TableStats.new scan io_cost_per_page (p + q) num_fields)
        = Binary64.TableStats.estimate_scan_cost
            (TableStats.new scan1 io_cost_per_page p num_fields)
          + Binary64.TableStats.estimate_scan_cost
            (TableStats.new scan2 io_cost_per_page q num_fields)) ∧
    (∀ (scan1 : List (List Int)) (io_cost_per_page : Int) (k num_pages : Nat),
      |io_cost_per_page * ((k * num_pages : Nat) : Int)| < 2 ^ 53 →
      Binary64.TableStats.estimate_scan_cost
          (TableStats.new scan io_cost_per_page (k * num_pages) num_fields)
        = (k : ℚ) * Binary64.TableStats.estimate_scan_cost
            (TableStats.new scan1 io_cost_per_page num_pages num_fields)) ∧
    (∀ (scan1 scan2 : List (List Int)) (c d : Int) (num_pages : Nat),
      |c * (num_pages : Int)| < 2 ^ 53 → |d * (num_pages : Int)| < 2 ^ 53 →
      |(c + d) * (num_pages : Int)| < 2 ^ 53 →
      Binary64.TableStats.estimate_scan_cost (TableStats.new scan (c + d) num_pages num_fields)
        = Binary64.TableStats.estimate_scan_cost (TableStats.new scan1 c num_pages num_fields)
          + Binary64.TableStats.estimate_scan_cost
            (TableStats.new scan2 d num_pages num_fields)) ∧
    (∀ (scan1 : List (List Int)) (k io_cost_per_page : Int) (num_pages : Nat),
      |k * io_cost_per_page * (num_pages : Int)| < 2 ^ 53 →
      Binary64.TableStats.estimate_scan_cost
          (TableStats.new scan (k * io_cost_per_page) num_pages num_fields)
        = (k : ℚ) * Binary64.TableStats.estimate_scan_cost
            (TableStats.new scan1 io_cost_per_page num_pages num_fields)) ∧
    (∀ (a : Int) (b i : Nat), |a * (i : Int) * ((b * i : Nat) : Int)| < 2 ^ 53 →
      Binary64.TableStats.estimate_scan_cost (TableStats.new scan (a * i) (b * i) num_fields)
        = 2 * (a : ℚ) * (b : ℚ) * (i : ℚ) ^ 2) :=
  b64_scan_cost_linear scan num_fields

/-- Witness of C23: the table `emp` of `OrderJoinsTest`, 197 pages at an IO cost
of 100 per page. -/
theorem scan_cost_linear_in_range_witness :
    |(100 : Int) * ((197 : Nat) : Int)| < 2 ^ 53 ∧
    Binary64.TableStats.estimate_scan_cost (TableStats.new [] 100 197 3) = 39400 :=
  ⟨by decide, by
    rw [(scan_cost_linear_in_range [] 3).1 100 197 (by decide)]
    norm_num⟩

/-- C24 (as stated, refuted): on a table of 100 tuples at the `double` `0.29` the
rounded product is `28.999999999999996` and `estimate_table_cardinality` is 28,
while `floor(29 / 100 * 100)` is 29; on a table of 10200 tuples at the `double`
`0.3` it is 3060, while the floor of the exact product of that `double` and
10200 is 3059. -/
theorem table_cardinality_counterexample :
    Binary64.TableStats.estimate_table_cardinality (TableStats.new (List.replicate 100 []) 1 1 0)
        (Binary64.round (29 / 100)) = 28 ∧
    estimate_table_cardinality_spec 100 (29 / 100) = 29 ∧
    Binary64.TableStats.estimate_table_cardinality
        (TableStats.new (List.replicate 10200 []) 1 1 0) (Binary64.round (3 / 10)) = 3060 ∧
    estimate_table_cardinality_spec 10200 (Binary64.round (3 / 10)) = 3059 := by
  have h1 : (TableStats.new (List.replicate 100 []) 1 1 0).num_tups = 100 := by
    rw [(TableStats_new_fields _ 1 1 0).2.2.2, List.length_replicate]
    rfl
  have h2 : (TableStats.new (List.replicate 10200 []) 1 1 0).num_tups = 10200 := by
    rw [(TableStats_new_fields _ 1 1 0).2.2.2, List.length_replicate]
    rfl
  have a := b64_table_cardinality_truncates _ h1
  have b := b64_table_cardinality_example _ h2
  rw [h1] at a
  rw [h2] at b
  exact ⟨a.1, a.2.1, b.1, b.2⟩

/-- C24 (amended): on statistics whose tuple count is non-negative and fits an
`int`, and for every selectivity `sel` of `[0, 1]`,
`estimate_table_cardinality(sel)` truncates the `double` product: it lies between
`floor(sel * total_tuples)` and `ceil(sel * total_tuples)`, is at most
`total_tuples`, and is `floor(sel * total_tuples)` whenever the exact product is
a `double`; it is `total_tuples` for `sel = 1`, 0 for `sel = 0`, and 3060 for the
`double` `0.3` on 10200 tuples.  The constructor sets the tuple count to the
number of tuples scanned. -/
theorem table_cardinality_rounded (ts : TableStats) (sel : ℚ) (h0 : 0 ≤ ts.num_tups)
    (h1 : ts.num_tups < 2 ^ 31) (hs0 : 0 ≤ sel) (hs1 : sel ≤ 1) :
    estimate_table_cardinality_spec ts.num_tups sel
        ≤ (Binary64.TableStats.estimate_table_cardinality ts sel : Int) ∧
    (Binary64.TableStats.estimate_table_cardinality ts sel : Int) ≤ ⌈sel * (ts.num_tups : ℚ)⌉ ∧
    (Binary64.TableStats.estimate_table_cardinality ts sel : Int) ≤ ts.num_tups ∧
    (Binary64.round (sel * (ts.num_tups : ℚ)) = sel * (ts.num_tups : ℚ) →
      (Binary64.TableStats.estimate_table_cardinality ts sel : Int)
        = estimate_table_cardinality_spec ts.num_tups sel) ∧
    (Binary64.TableStats.estimate_table_cardinality ts 1 : Int) = ts.num_tups ∧
    Binary64.TableStats.estimate_table_cardinality ts 0 = 0 ∧
    (ts.num_tups = 10200 →
      Binary64.TableStats.estimate_table_cardinality ts (Binary64.round (3 / 10)) = 3060) ∧
    ∀ (scan : List (List Int)) (io_cost_per_page : Int) (num_pages num_fields : Nat),
      (TableStats.new scan io_cost_per_page num_pages num_fields).num_tups = (scan.length : Int) :=
  ⟨(b64_table_cardinality_spec ts sel h0 h1 hs0 hs1).1,
    (b64_table_cardinality_spec ts sel h0 h1 hs0 hs1).2.1,
    (b64_table_cardinality_spec ts sel h0 h1 hs0 hs1).2.2.1,
    (b64_table_cardinality_spec ts sel h0 h1 hs0 hs1).2.2.2,
    b64_table_cardinality_one ts h0 h1, b64_table_cardinality_zero ts,
    fun h => (b64_table_cardinality_example ts h).1,
    fun scan io_cost_per_page num_pages num_fields =>
      (TableStats_new_fields scan io_cost_per_page num_pages num_fields).2.2.2⟩

/-- Witness of C24: the table `emp` of `OrderJoinsTest`, 50000 tuples, at
selectivity `1 / 2`. -/
theorem table_cardinality_rounded_witness :
    (0 : Int) ≤ (test_stats emp).num_tups ∧ (test_stats emp).num_tups < 2 ^ 31 ∧
    (0 : ℚ) ≤ 1 / 2 ∧ (1 / 2 : ℚ) ≤ 1 ∧
    estimate_table_cardinality_spec (test_stats emp).num_tups (1 / 2)
      ≤ (Binary64.TableStats.estimate_table_cardinality (test_stats emp) (1 / 2) : Int) :=
  ⟨by decide, by decide, by norm_num, by norm_num,
    (table_cardinality_rounded (test_stats emp) (1 / 2) (by decide) (by decide) (by norm_num)
      (by norm_num)).1⟩

/-- C25 (the code at a failing input): for the cardinalities `c1 = c2 = 2 ^ 32`
and the scan costs `s1 = s2 = 0` the product `card1 * card2`, taken in
`uint64_t`, wraps to 0 and `estimate_join_cost` returns 0, which is neither
`s1 + c1 * s2 + c1 * c2 = 2 ^ 64` nor greater than `s1 + s2 = 0`. -/
theorem join_cost_wraps (j : LogicalJoinNode) :
    JoinOptimizer.estimate_join_cost j (2 ^ 32) (2 ^ 32) 0 0 = 0 ∧
    estimate_join_cost_spec (2 ^ 32) (2 ^ 32) 0 0 = 2 ^ 64 ∧
    JoinOptimizer.estimate_join_cost j (2 ^ 32) (2 ^ 32) 0 0
      ≠ estimate_join_cost_spec (2 ^ 32) (2 ^ 32) 0 0 ∧
    ¬ ((0 : ℚ) + 0 < JoinOptimizer.estimate_join_cost j (2 ^ 32) (2 ^ 32) 0 0) := by
  have e1 := estimate_join_cost_wraps j 0 0
  have e2 : estimate_join_cost_spec (2 ^ 32) (2 ^ 32) 0 0 = 2 ^ 64 := by
    unfold estimate_join_cost_spec
    norm_num
  rw [e1, e2]
  norm_num

/-- C26 (as stated, refuted): on the cardinalities 3 and 30 the join `c.2 > a.0`
is estimated at 26, the `double` product `0.3 * 3 * 30` being
`26.999999999999996`, while `floor(3 / 10 * 3 * 30)` is 27, which fits a 32-bit
signed integer. -/
theorem join_cardinality_counterexample :
    Binary64.JoinOptimizer.estimate_join_cardinality join_gt 3 30 false false = 26 ∧
    estimate_join_cardinality_spec join_gt.op 3 30 false false = 27 ∧
    estimate_join_cardinality_spec join_gt.op 3 30 false false < 2 ^ 31 := by
  have h := b64_join_cardinality_truncates join_gt (by decide) false false
  refine ⟨h.1, h.2, ?_⟩
  rw [h.2]
  norm_num

/-- C26 (amended): whenever the value named by the claim (for an `EQ` join `c2`
if `t1pkey`, else `c1` if `t2pkey`, else `max(c1, c2)`; for any other operator
`floor(0.3 * c1 * c2)`) fits a 32-bit signed integer,
`estimate_join_cardinality(j, c1, c2, t1pkey, t2pkey)` returns it for an `EQ` join,
the result being one of `c1`, `c2`; for any other operator it returns that
value or one less, and that value when `c1 * c2` is not a multiple of 10. -/
theorem join_cardinality_rounded (j : LogicalJoinNode) (c1 c2 : Nat) (t1pkey t2pkey : Bool)
    (hfit : estimate_join_cardinality_spec j.op c1 c2 t1pkey t2pkey < 2 ^ 31) :
    (j.op = PredicateType.EQ →
      Binary64.JoinOptimizer.estimate_join_cardinality j c1 c2 t1pkey t2pkey
        = estimate_join_cardinality_spec j.op c1 c2 t1pkey t2pkey ∧
      (Binary64.JoinOptimizer.estimate_join_cardinality j c1 c2 t1pkey t2pkey = (c1 : Int) ∨
        Binary64.JoinOptimizer.estimate_join_cardinality j c1 c2 t1pkey t2pkey = (c2 : Int))) ∧
    (j.op ≠ PredicateType.EQ →
      (Binary64.JoinOptimizer.estimate_join_cardinality j c1 c2 t1pkey t2pkey
          = estimate_join_cardinality_spec j.op c1 c2 t1pkey t2pkey ∨
        Binary64.JoinOptimizer.estimate_join_cardinality j c1 c2 t1pkey t2pkey
          = estimate_join_cardinality_spec j.op c1 c2 t1pkey t2pkey - 1) ∧
      (¬ 10 ∣ c1 * c2 →
        Binary64.JoinOptimizer.estimate_join_cardinality j c1 c2 t1pkey t2pkey
          = estimate_join_cardinality_spec j.op c1 c2 t1pkey t2pkey)) :=
  b64_join_cardinality_spec j c1 c2 t1pkey t2pkey hfit

/-- Witness of C26: the join `emp.1 = dept.0` of `OrderJoinsTest` on 5000 and
1000 tuples, the right side being a key. -/
theorem join_cardinality_rounded_witness :
    estimate_join_cardinality_spec PredicateType.EQ 5000 1000 false true = 5000 ∧
    Binary64.JoinOptimizer.estimate_join_cardinality (test_joins.getD 1 join_ca) 5000 1000
      false true = 5000 := by
  have h : estimate_join_cardinality_spec (test_joins.getD 1 join_ca).op 5000 1000 false true
      = 5000 := by decide
  exact ⟨h, ((join_cardinality_rounded (test_joins.getD 1 join_ca) 5000 1000 false true
    (by rw [h]; norm_num)).1 (by decide)).1.trans h⟩

/-- C30: on the joins `hobbies.1 = hobby.0`, `emp.1 = dept.0`, `emp.2 = hobbies.0`
with the statistics of `OrderJoinsTest` (cardinalities 5000, 1000, 1000, 100000
and scan costs 39400, 600, 800, 39400 for `emp`, `dept`, `hobby`, `hobbies`)
`order_joins` returns the three joins `hobby.0 = hobbies.1`, `hobbies.0 = emp.2`,
`emp.1 = dept.0`: the left table of the first is not `hobbies`, and the right
table of the third is not `hobbies`. -/
theorem order_joins_test_scenario :
    ((test_stats emp).estimate_table_cardinality (test_selectivities emp) = 5000 ∧
      (test_stats dept).estimate_table_cardinality (test_selectivities dept) = 1000 ∧
      (test_stats hobby).estimate_table_cardinality (test_selectivities hobby) = 1000 ∧
      (test_stats hobbies).estimate_table_cardinality (test_selectivities hobbies) = 100000) ∧
    ((test_stats emp).estimate_scan_cost = 39400 ∧ (test_stats dept).estimate_scan_cost = 600 ∧
      (test_stats hobby).estimate_scan_cost = 800 ∧
      (test_stats hobbies).estimate_scan_cost = 39400) ∧
    ∃ r0 r1 r2, JoinOptimizer.order_joins test_joins test_stats test_selectivities
        = some [r0, r1, r2] ∧
      [r0, r1, r2].length = test_joins.length ∧
      r0 = (test_joins.getD 0 join_ca).swap_inner_outer ∧
      r1 = (test_joins.getD 2 join_ca).swap_inner_outer ∧
      r2 = test_joins.getD 1 join_ca ∧
      r0.left_table ≠ hobbies ∧
      ¬ (r2.right_table = hobbies ∧ (r0.left_table = hobbies ∨ r0.right_table = hobbies)) :=
  ⟨test_stats_eval.1, test_stats_eval.2, (test_joins.getD 0 join_ca).swap_inner_outer,
    (test_joins.getD 2 join_ca).swap_inner_outer, test_joins.getD 1 join_ca,
    order_joins_test_eval, by decide, rfl, rfl, rfl, by decide, by decide⟩

/-- C27: for every vector `v` of joins that are pairwise distinct as
`(left_table, right_table, left_field, right_field)` and every `k ≤ v.size()`,
`enumerate_subsets(v, k)` returns, and its result is exactly the set of all
`k`-element sets of joins of `v` (a set being the ascending list of its
elements), each once: `C(N, k)` sets in total. -/
theorem enumerate_subsets_all_subsets (v : List LogicalJoinNode) (k : Nat)
    (hv : v.Pairwise fun a b => a.tie ≠ b.tie) (hk : k ≤ v.length) :
    ∃ res, JoinOptimizer.enumerate_subsets v k = some res ∧ res.Nodup ∧
      res.length = v.length.choose k ∧
      ∀ s : JoinSet, s ∈ res ↔
        (s.Pairwise (fun a b => LogicalJoinNode.lt a b = true) ∧ s.length = k ∧
          ∀ x ∈ s, x ∈ v) :=
  enumerate_subsets_complete v k hv hk

/-- Witness of C27: the three joins of `OrderJoinsTest` have three sets of two
joins. -/
theorem enumerate_subsets_all_subsets_witness :
    (test_joins.Pairwise fun a b => a.tie ≠ b.tie) ∧ 2 ≤ test_joins.length ∧
    ∃ res, JoinOptimizer.enumerate_subsets test_joins 2 = some res ∧ res.length = 3 := by
  have hv : test_joins.Pairwise fun a b => a.tie ≠ b.tie := by decide
  obtain ⟨res, h1, _, h3, _⟩ := enumerate_subsets_all_subsets test_joins 2 hv (by decide)
  exact ⟨hv, by decide, res, h1, h3.trans (by decide)⟩

/-- C28: for joins that are pairwise distinct as
`(left_table, right_table, left_field, right_field)` and can be linked without a
cross product, fewer than `2 ^ 31` of them, over statistics whose products
`io_cost * nump` fit `int64_t`, `order_joins` returns a plan with as many
entries as there are joins, in which every join occurs exactly once, as given or
with inner and outer swapped. -/
theorem order_joins_reorders (joins : List LogicalJoinNode) (stats : List Nat → TableStats)
    (filter_selectivities : List Nat → ℚ) (hv : joins.Pairwise fun a b => a.tie ≠ b.tie)
    (hl : linkable joins) (hN : joins.length < 2 ^ 31)
    (hfit : ∀ t, (stats t).io_cost * (stats t).nump < 2 ^ 63) :
    ∃ plan, JoinOptimizer.order_joins joins stats filter_selectivities = some plan ∧
      plan.length = joins.length ∧ oriented_permutation plan joins :=
  order_joins_spec joins stats filter_selectivities hv (scan_cost_le_of_fits stats hfit) hN hl

/-- Witness of C28: the joins and statistics of `OrderJoinsTest`. -/
theorem order_joins_reorders_witness :
    (test_joins.Pairwise fun a b => a.tie ≠ b.tie) ∧ linkable test_joins ∧
    ∃ plan, JoinOptimizer.order_joins test_joins test_stats test_selectivities = some plan ∧
      plan.length = 3 ∧ oriented_permutation plan test_joins := by
  have hv : test_joins.Pairwise fun a b => a.tie ≠ b.tie := by decide
  exact ⟨hv, test_joins_linkable,
    order_joins_reorders test_joins test_stats test_selectivities hv test_joins_linkable
      (by decide) test_stats_fit⟩

/-- C29 (counterexample): for the joins `c.2 = a.0`, `a.2 = d.2`, `c.0 = b.1` over
the statistics `skew_stats` with selectivity 1 on every table, `order_joins`
returns the ordering `c.2 = a.0`, `a.2 = d.2`, `c.0 = b.1`, whose estimated cost
is 21, while the left-deep ordering `c.0 = b.1`, `c.2 = a.0`, `a.2 = d.2`, which
has no cross product either, is estimated at 20; no join is swapped in either
ordering. -/
theorem order_joins_not_optimal :
    ([join_ca, join_ad, join_cb].Pairwise fun a b => a.tie ≠ b.tie) ∧
    JoinOptimizer.order_joins [join_ca, join_ad, join_cb] skew_stats (fun _ => 1)
      = some [join_ca, join_ad, join_cb] ∧
    cross_product_free [] [join_ca, join_ad, join_cb] = true ∧
    ordering_cost skew_stats (fun _ => 1) none
        [(join_ca, false), (join_ad, false), (join_cb, false)]
      = some { cost := 21, card := 2, plan := [join_ca, join_ad, join_cb] } ∧
    cross_product_free [] [join_cb, join_ca, join_ad] = true ∧
    ordering_cost skew_stats (fun _ => 1) none
        [(join_cb, false), (join_ca, false), (join_ad, false)]
      = some { cost := 20, card := 2, plan := [join_cb, join_ca, join_ad] } :=
  ⟨by decide, order_joins_skew_eval.1, order_joins_skew_eval.2.2.1, order_joins_skew_eval.2.2.2.1,
    order_joins_skew_eval.2.2.2.2.1, order_joins_skew_eval.2.2.2.2.2⟩

/-- C29 (amended): for at least one and fewer than `2 ^ 31` joins that are
pairwise distinct and can be linked without a cross product, over statistics
whose products `io_cost * nump` fit `int64_t`, the plan that `order_joins`
returns appends one join `j`, in one orientation, to the plan that the cache
holds after the round before the last for the set of the other joins, and its
estimated cost is minimal among all such steps: for every join `j` and either
orientation, the step that appends `j` to the cached plan of the other joins is
a cross product or costs at least as much. -/
theorem order_joins_cheapest_last_step (joins : List LogicalJoinNode)
    (stats : List Nat → TableStats) (filter_selectivities : List Nat → ℚ)
    (hv : joins.Pairwise fun a b => a.tie ≠ b.tie) (hl : linkable joins)
    (h1 : 1 ≤ joins.length) (hN : joins.length < 2 ^ 31)
    (hfit : ∀ t, (stats t).io_cost * (stats t).nump < 2 ^ 63) :
    ∃ st s bcc,
      JoinOptimizer.order_joins_rounds joins stats filter_selectivities (joins.length - 1)
        = some st ∧
      s.Perm joins ∧ s.Pairwise (fun a b => LogicalJoinNode.lt a b = true) ∧
      JoinOptimizer.order_joins joins stats filter_selectivities = some bcc.plan ∧
      (∃ j ∈ joins, ∃ swapped,
        ordering_step stats filter_selectivities
            (st.2.cached (set_erase LogicalJoinNode.lt s j)) j swapped
          = some bcc) ∧
      ∀ j ∈ joins, ∀ swapped cc,
        ordering_step stats filter_selectivities
            (st.2.cached (set_erase LogicalJoinNode.lt s j)) j swapped
          = some cc →
        bcc.cost ≤ cc.cost :=
  order_joins_last_round joins stats filter_selectivities hv (scan_cost_le_of_fits stats hfit) hN
    hl h1

/-- Witness of the amended C29: the joins and statistics of `OrderJoinsTest`. -/
theorem order_joins_cheapest_last_step_witness :
    (test_joins.Pairwise fun a b => a.tie ≠ b.tie) ∧ linkable test_joins ∧
    ∃ bcc : CostCard,
      JoinOptimizer.order_joins test_joins test_stats test_selectivities = some bcc.plan := by
  have hv : test_joins.Pairwise fun a b => a.tie ≠ b.tie := by decide
  obtain ⟨_, _, bcc, _, _, _, h, _⟩ :=
    order_joins_cheapest_last_step test_joins test_stats test_selectivities hv
      test_joins_linkable (by decide) (by decide) test_stats_fit
  exact ⟨hv, test_joins_linkable, bcc, h⟩

/-- C31 (the code at a failing input): the 128-byte page that the constructor
initialised satisfies `free_space = data_start - sizeof(header) - 8 * slot_count
= 96`, and `addSlot(96)` returns on it; afterwards `slot_count = 1` and
`data_start = 32`, so header, slot array and payload take `32 + 8 + 96 = 136`
bytes of the 128, and `free_space` is `2 ^ 32 - 8` instead of the integer
`data_start - sizeof(header) - 8 * slot_count = -8`. -/
theorem add_slot_breaks_space_invariant :
    (SlottedPage.free_space constructed_page : Int)
      = SlottedPage.data_start constructed_page - SlottedPage.sizeof_header
        - SlottedPage.sizeof_slot * SlottedPage.slot_count constructed_page ∧
    SlottedPage.free_space constructed_page = 96 ∧
    (SlottedPage.addSlot constructed_page 96).map (fun r =>
        (SlottedPage.slot_count r.1, SlottedPage.data_start r.1, SlottedPage.free_space r.1,
          SlottedPage.sizeof_header + SlottedPage.sizeof_slot * SlottedPage.slot_count r.1
            + (128 - SlottedPage.data_start r.1),
          (SlottedPage.data_start r.1 : Int) - SlottedPage.sizeof_header
            - SlottedPage.sizeof_slot * SlottedPage.slot_count r.1))
      = some (1, 32, 4294967288, 136, -8) := by
  decide

/-- C32 (the code at a failing input): on the 128-byte page that the
constructor initialised, the calls `addSlot(96)` and `addSlot(40)` both return
(the first leaves `free_space = 2 ^ 32 - 8`); afterwards `data_start` is `2 ^ 32 - 8`, and the
non-zero slot 1 has offset `2 ^ 24 - 8` and length 40: its offset is below
`data_start` and its end beyond the 128 bytes of the page; the offset 32 of
slot 0 is below `data_start` as well. -/
theorem add_slot_breaks_slot_bounds :
    (SlottedPage.add_slots constructed_page [96]).map SlottedPage.free_space
      = some 4294967288 ∧
    (SlottedPage.add_slots constructed_page [96, 40]).map (fun p =>
        (SlottedPage.data_start p,
          SlottedPage.slot_offset (SlottedPage.getSlot p 0),
          SlottedPage.slot_length (SlottedPage.getSlot p 0),
          SlottedPage.slot_offset (SlottedPage.getSlot p 1),
          SlottedPage.slot_length (SlottedPage.getSlot p 1)))
      = some (4294967288, 32, 96, 16777208, 40) ∧
    (16777208 : Nat) < 4294967288 ∧ (128 : Nat) < 16777208 + 40 := by
  decide

/-- C33: for every page and every `size ≤ free_space` such that the slot at
index `first_free_slot` lies inside the page and `slot_count + 1` fits
`uint16_t`, `addSlot(size)` returns; the slot at the old `first_free_slot` then
holds the new slot word, which is not 0; `slot_count` is the old count plus one
if that index was the old `slot_count` and is unchanged otherwise; every other
slot is unchanged; and `first_free_slot ≤ slot_count` is the smallest index
whose slot is 0, or `slot_count` if no slot below it is 0. -/
theorem add_slot_directory (page : SlottedPage) (size : Nat)
    (hsize : size ≤ SlottedPage.free_space page)
    (hin : SlottedPage.sizeof_header
      + SlottedPage.sizeof_slot * (SlottedPage.first_free_slot page + 1) ≤ page.length)
    (hcount : SlottedPage.slot_count page + 1 < 2 ^ 16) :
    ∃ page' tid, SlottedPage.addSlot page size = some (page', tid) ∧
      SlottedPage.getSlot page' (SlottedPage.first_free_slot page)
        = SlottedPage.slotValue ((SlottedPage.data_start page + 2 ^ 32 - size) % 2 ^ 32) size ∧
      SlottedPage.getSlot page' (SlottedPage.first_free_slot page) ≠ 0 ∧
      SlottedPage.slot_count page' =
        (if SlottedPage.first_free_slot page = SlottedPage.slot_count page
          then SlottedPage.slot_count page + 1 else SlottedPage.slot_count page) ∧
      (∀ k, k ≠ SlottedPage.first_free_slot page →
        SlottedPage.getSlot page' k = SlottedPage.getSlot page k) ∧
      SlottedPage.first_free_slot page' ≤ SlottedPage.slot_count page' ∧
      (∀ k, k < SlottedPage.first_free_slot page' → SlottedPage.getSlot page' k ≠ 0) ∧
      (SlottedPage.first_free_slot page' < SlottedPage.slot_count page' →
        SlottedPage.getSlot page' (SlottedPage.first_free_slot page') = 0) :=
  add_slot_directory_spec page size hsize hin hcount

/-- Witness of C33: `addSlot(16)` on the freshly constructed 128-byte page. -/
theorem add_slot_directory_witness :
    16 ≤ SlottedPage.free_space fresh_page ∧
    ∃ page' tid, SlottedPage.addSlot fresh_page 16 = some (page', tid) ∧
      SlottedPage.getSlot page' 0 ≠ 0 ∧ SlottedPage.slot_count page' = 1 ∧
      SlottedPage.first_free_slot page' ≤ SlottedPage.slot_count page' := by
  have h0 : SlottedPage.first_free_slot fresh_page = 0 := by decide
  have h1 : SlottedPage.slot_count fresh_page = 0 := by decide
  obtain ⟨page', tid, a1, _, a3, a4, _, a6, _⟩ :=
    add_slot_directory fresh_page 16 (by decide) (by decide) (by decide)
  rw [h0] at a3
  rw [h0, h1] at a4
  exact ⟨by decide, page', tid, a1, a3, a4, a6⟩

/-- C34: for joins that are pairwise distinct as
`(left_table, right_table, left_field, right_field)`, fewer than `2 ^ 31` of
them, over statistics whose products `io_cost * nump` fit `int64_t`, the first
`n` rounds of `order_joins` return, and for every set `s` of `1` to `n` of the
joins: the cache holds a plan for `s` exactly when some join `j` of `s` is
admissible (`s` without `j` is empty, or has a cached plan in which one of the
tables of `j` occurs); and then, for one admissible `j` of `s` with its
operands `o`, the cached cost is the smaller of the costs of the two
orientations of `j`, the cached plan is the cached plan of `s` without `j`
followed by `j`, swapped exactly when the swapped orientation is strictly
cheaper, no admissible join of `s` has a smaller such cost, and every
admissible join before `j` in the order of the set has a greater one. -/
theorem order_joins_subset_step (joins : List LogicalJoinNode) (stats : List Nat → TableStats)
    (filter_selectivities : List Nat → ℚ) (hv : joins.Pairwise fun a b => a.tie ≠ b.tie)
    (hN : joins.length < 2 ^ 31)
    (hfit : ∀ t, (stats t).io_cost * (stats t).nump < 2 ^ 63) (n : Nat)
    (hn : n ≤ joins.length) :
    ∃ st, JoinOptimizer.order_joins_rounds joins stats filter_selectivities n = some st ∧
      ∀ s : JoinSet, s.Pairwise (fun a b => LogicalJoinNode.lt a b = true) →
        (∀ x ∈ s, x ∈ joins) → 1 ≤ s.length → s.length ≤ n →
        (st.2.get_order s ≠ [] ↔ ∃ j ∈ s, admissible st.2 s j) ∧
        (st.2.get_order s ≠ [] →
          ∃ j ∈ s, ∃ o, admissible st.2 s j ∧
            cached_operands stats filter_selectivities st.2 s j = some o ∧
            st.2.get_cost s
              = min (JoinOptimizer.estimate_join_cost j o.t1_card o.t2_card o.t1_cost o.t2_cost)
                  (JoinOptimizer.estimate_join_cost j.swap_inner_outer o.t2_card o.t1_card
                    o.t2_cost o.t1_cost) ∧
            st.2.get_order s
              = st.2.get_order (set_erase LogicalJoinNode.lt s j) ++
                [if JoinOptimizer.estimate_join_cost j.swap_inner_outer o.t2_card o.t1_card
                      o.t2_cost o.t1_cost
                    < JoinOptimizer.estimate_join_cost j o.t1_card o.t2_card o.t1_cost o.t2_cost
                  then j.swap_inner_outer else j] ∧
            (∀ j' ∈ s, ∀ o', cached_operands stats filter_selectivities st.2 s j' = some o' →
              st.2.get_cost s
                ≤ min (JoinOptimizer.estimate_join_cost j' o'.t1_card o'.t2_card o'.t1_cost
                      o'.t2_cost)
                    (JoinOptimizer.estimate_join_cost j'.swap_inner_outer o'.t2_card o'.t1_card
                      o'.t2_cost o'.t1_cost)) ∧
            (∀ j' ∈ s, LogicalJoinNode.lt j' j = true → ∀ o',
              cached_operands stats filter_selectivities st.2 s j' = some o' →
              st.2.get_cost s
                < min (JoinOptimizer.estimate_join_cost j' o'.t1_card o'.t2_card o'.t1_cost
                      o'.t2_cost)
                    (JoinOptimizer.estimate_join_cost j'.swap_inner_outer o'.t2_card o'.t1_card
                      o'.t2_cost o'.t1_cost))) :=
  dp_step_spec joins stats filter_selectivities hv (scan_cost_le_of_fits stats hfit) hN n hn

/-- Witness of C34: the joins and statistics of `OrderJoinsTest`, all three
rounds, at the set of the single join `hobbies.1 = hobby.0`. -/
theorem order_joins_subset_step_witness :
    (test_joins.Pairwise fun a b => a.tie ≠ b.tie) ∧
    ∃ st, JoinOptimizer.order_joins_rounds test_joins test_stats test_selectivities 3
        = some st ∧
      (st.2.get_order [hobbies_hobby] ≠ [] ↔
        ∃ j ∈ [hobbies_hobby], admissible st.2 [hobbies_hobby] j) := by
  have hv : test_joins.Pairwise fun a b => a.tie ≠ b.tie := by decide
  obtain ⟨st, h1, h2⟩ :=
    order_joins_subset_step test_joins test_stats test_selectivities hv (by decide)
      test_stats_fit 3 (by decide)
  exact ⟨hv, st, h1, (h2 [hobbies_hobby] (by decide) (by decide) (by decide) (by decide)).1⟩

/-- C35: `order_joins` returns, whatever the joins; in the plan it returns and
in every plan of the plan cache, each join at a position `i ≥ 1` has a table
that occurs in one of the joins at the positions before `i`; and for joins that
cannot be ordered in this way the plan returned is empty. -/
theorem order_joins_no_cross_product (joins : List LogicalJoinNode)
    (stats : List Nat → TableStats) (filter_selectivities : List Nat → ℚ) :
    ∃ st, JoinOptimizer.order_joins_rounds joins stats filter_selectivities joins.length
        = some st ∧
      JoinOptimizer.order_joins joins stats filter_selectivities = some st.1.plan ∧
      (∀ i j, 1 ≤ i → st.1.plan[i]? = some j →
        JoinOptimizer.does_join (st.1.plan.take i) j.left_table = true ∨
          JoinOptimizer.does_join (st.1.plan.take i) j.right_table = true) ∧
      (∀ t i j, 1 ≤ i → (st.2.get_order t)[i]? = some j →
        JoinOptimizer.does_join ((st.2.get_order t).take i) j.left_table = true ∨
          JoinOptimizer.does_join ((st.2.get_order t).take i) j.right_table = true) ∧
      (¬ linkable joins → st.1.plan = []) :=
  order_joins_links_spec joins stats filter_selectivities

/-- Witness of C35: the joins `c.2 = a.0` and `b.1 = d.1` share no table, and
`order_joins` returns the empty plan for them. -/
theorem order_joins_no_cross_product_witness :
    ¬ linkable [join_ca, join_bd] ∧
    JoinOptimizer.order_joins [join_ca, join_bd] skew_stats (fun _ => 1) = some [] := by
  have hnl : ¬ linkable [join_ca, join_bd] := by
    rintro ⟨q, hq, hc⟩
    have hlen := hq.length_eq
    have hnd : q.Nodup := hq.nodup_iff.mpr (by decide)
    match q, hlen, hq, hc, hnd with
    | [x, y], _, hq, hc, hnd =>
      have hx : x ∈ [join_ca, join_bd] := hq.mem_iff.mp (by simp)
      have hy : y ∈ [join_ca, join_bd] := hq.mem_iff.mp (by simp)
      simp only [List.mem_cons, List.mem_singleton, List.not_mem_nil, or_false] at hx hy
      rcases hx with rfl | rfl <;> rcases hy with rfl | rfl
      · simp at hnd
      · exact absurd hc (by decide)
      · exact absurd hc (by decide)
      · simp at hnd
  obtain ⟨st, _, h2, _, _, h5⟩ :=
    order_joins_no_cross_product [join_ca, join_bd] skew_stats (fun _ => 1)
  rw [h5 hnl] at h2
  exact ⟨hnl, h2⟩

/-- C36 (the code at a failing input): after `addSlot(96)` on the 128-byte
page that the constructor initialised, the slot array has one slot, which takes
the bytes `32 .. 40`, and the payload of that slot is the range `[32, 128)`: payload and
slot array share the bytes `32 .. 40`.  After a further `addSlot(8)`, which
returns as well, the payload of slot 1 is the range `[24, 32)`, inside the
header. -/
theorem add_slot_payload_overlaps_slot_array :
    (SlottedPage.add_slots constructed_page [96]).map (fun p =>
        (SlottedPage.slot_count p, SlottedPage.slot_offset (SlottedPage.getSlot p 0),
          SlottedPage.slot_length (SlottedPage.getSlot p 0)))
      = some (1, 32, 96) ∧
    SlottedPage.sizeof_header + SlottedPage.sizeof_slot * 1 = 40 ∧
    (SlottedPage.add_slots constructed_page [96, 8]).map (fun p =>
        (SlottedPage.slot_count p, SlottedPage.slot_offset (SlottedPage.getSlot p 1),
          SlottedPage.slot_length (SlottedPage.getSlot p 1)))
      = some (2, 24, 8) ∧
    SlottedPage.sizeof_header = 32 := by
  decide

/-- C37: in every pool state reachable from the constructor through calls of
`fix_page`, `unfix_page`, `flush_page`, `flush_all_pages`, `discard_page` and
`discard_all_pages` that returned, no two frames hold the same valid page id,
every frame at an index from `page_counter_` on holds the invalid page id, and
`get_frame_id_of_page` returns the frame of every valid page id that a frame
holds. -/
theorem pool_residency_invariant (bm : BufferManager) (h : reachable_pool bm) :
    (∀ i j, i < bm.capacity_ → j < bm.capacity_ → (bm.frame i).page_id ≠ INVALID_PAGE_ID →
      (bm.frame i).page_id = (bm.frame j).page_id → i = j) ∧
    (∀ i, bm.page_counter_ ≤ i → i < bm.capacity_ → (bm.frame i).page_id = INVALID_PAGE_ID) ∧
    ∀ page_id i, page_id ≠ INVALID_PAGE_ID → i < bm.capacity_ →
      (bm.frame i).page_id = page_id → bm.get_frame_id_of_page page_id = i :=
  residency_invariant_spec bm h

/-- Witness of C37: the pool of four frames after fixing page 0, unfixing it
dirty, fixing page 1, discarding page 0 and fixing page 0 again; page 0 is then
found in frame 2. -/
theorem pool_residency_invariant_witness :
    reachable_pool traced_pool ∧ (traced_pool.frame 2).page_id = 0 ∧
    traced_pool.get_frame_id_of_page 0 = 2 := by
  have hsome : (run_calls pool_trace (BufferManager.new 8 4) two_pages).isSome = true := by
    decide
  have hreach : reachable_pool traced_pool := by
    cases hr : run_calls pool_trace (BufferManager.new 8 4) two_pages with
    | none => rw [hr] at hsome; exact absurd hsome (by simp)
    | some r =>
      refine ⟨8, 4, two_pages, pool_trace, r.2, by decide, ?_⟩
      rw [hr]
      simp only [traced_pool, hr]
  have hp : (traced_pool.frame 2).page_id = 0 := by decide
  exact ⟨hreach, hp,
    (pool_residency_invariant traced_pool hreach).2.2 0 2 (by decide) (by decide) hp⟩

/-- C38: in a pool constructed with `page_count` frames (a `size_t`) and run
through any sequence of calls, no returning call decreases `page_counter_`,
`discard_page` and `discard_all_pages` leave `page_counter_` as it is, a
`fix_page` for a page that no frame holds takes the frame at `page_counter_`
(never a discarded one) and returns only while `page_counter_ + 1 < capacity_`,
and at most `page_count - 1` such calls return, whatever is discarded in
between. -/
theorem discard_frees_no_capacity (page_size page_count : Nat) (hN : page_count < 2 ^ 64)
    (disk : Disk) (calls : List PoolCall) :
    (∀ bm disk', run_calls calls (BufferManager.new page_size page_count) disk = some (bm, disk') →
      (∀ (c : PoolCall) (d : Disk) bm2 d2, c.run bm d = some (bm2, d2) →
        bm.page_counter_ ≤ bm2.page_counter_) ∧
      (∀ page_id, (bm.discard_page page_id).page_counter_ = bm.page_counter_) ∧
      bm.discard_all_pages.page_counter_ = bm.page_counter_ ∧
      (∀ page_id exclusive (d : Disk) bm2 f, ¬ bm.resident page_id →
        bm.fix_page d page_id exclusive = some (bm2, f) →
        f = bm.page_counter_ ∧ bm2.page_counter_ = bm.page_counter_ + 1 ∧
          bm.page_counter_ + 1 < bm.capacity_)) ∧
    page_faults calls (BufferManager.new page_size page_count) disk ≤ page_count - 1 :=
  capacity_never_freed_spec page_size page_count hN disk calls

/-- Witness of C38: a pool of two frames; page 0 is fixed and everything is
discarded, yet the following `fix_page` of page 1 does not return. -/
theorem discard_frees_no_capacity_witness :
    (run_calls [PoolCall.fix_page 0 true, PoolCall.discard_all_pages]
      (BufferManager.new 8 2) two_pages).isSome = true ∧
    (run_calls [PoolCall.fix_page 0 true, PoolCall.discard_all_pages, PoolCall.fix_page 1 true]
      (BufferManager.new 8 2) two_pages).isSome = false ∧
    page_faults [PoolCall.fix_page 0 true, PoolCall.discard_all_pages, PoolCall.fix_page 1 true]
      (BufferManager.new 8 2) two_pages ≤ 2 - 1 :=
  ⟨by decide, by decide,
    (discard_frees_no_capacity 8 2 (by decide) two_pages
      [PoolCall.fix_page 0 true, PoolCall.discard_all_pages, PoolCall.fix_page 1 true]).2⟩

/-- C39 (as stated, refuted): on the histogram `rounded_hist`, six buckets over
`[0, 9]` holding the single value 5, the greater-than estimate is 1 at 4 and
`1 + 2 ^ (-52)` at 5: it increases from 4 to 5. -/
theorem gt_selectivity_antitone_counterexample :
    (∃ x ∈ [(5 : Int)], 0 ≤ x ∧ x ≤ 9) ∧ (4 : Int) ≤ 5 ∧
    Binary64.IntHistogram.estimate_selectivity rounded_hist PredicateType.GT 4 = 1 ∧
    Binary64.IntHistogram.estimate_selectivity rounded_hist PredicateType.GT 5
      = 1 + 1 / 2 ^ 52 ∧
    ¬ (Binary64.IntHistogram.estimate_selectivity rounded_hist PredicateType.GT 4 ≥
      Binary64.IntHistogram.estimate_selectivity rounded_hist PredicateType.GT 5) := by
  refine ⟨⟨5, by decide, by decide, by decide⟩, by decide, rounded_hist_estimates.2.1, ?_, ?_⟩
  · rw [rounded_hist_estimates.1]
    norm_num
  · rw [rounded_hist_estimates.1, rounded_hist_estimates.2.1]
    norm_num

/-- C39 (amended): on the histogram built by the constructor with `NumB ≥ 1` and
any sequence of fewer than `2 ^ 31` `add_value` calls of which at least one
value lies in `[min_v, max_v]`, when the bounds and `NumB` fit an `int` and the
range has at most `NumB` integers or a multiple of `NumB` (the bucket width is
then a whole number), the greater-than estimate does not increase with the
constant: for all integers `v ≤ w`, the estimate at `v` is at least the
estimate at `w`. -/
theorem gt_selectivity_antitone_whole (NumB lo hi : Int) (vals : List Int) (hB : 1 ≤ NumB)
    (hBu : NumB < 2 ^ 31) (hlo : -(2 ^ 31) ≤ lo) (hhi : hi < 2 ^ 31)
    (hlen : vals.length < 2 ^ 31) (hwhole : hi - lo + 1 ≤ NumB ∨ NumB ∣ hi - lo + 1)
    (hne : ∃ x ∈ vals, lo ≤ x ∧ x ≤ hi) (v w : Int) (hvw : v ≤ w) :
    Binary64.IntHistogram.estimate_selectivity
        (vals.foldl Binary64.IntHistogram.add_value (Binary64.IntHistogram.new NumB lo hi))
        PredicateType.GT v ≥
    Binary64.IntHistogram.estimate_selectivity
        (vals.foldl Binary64.IntHistogram.add_value (Binary64.IntHistogram.new NumB lo hi))
        PredicateType.GT w :=
  b64_gt_antitone_spec NumB lo hi vals hB hBu hlo hhi hlen hwhole hne v w hvw

/-- Witness of C39: the estimates of `GT 2` and `GT 5` on the histogram of
`LtTest`. -/
theorem gt_selectivity_antitone_whole_witness :
    Binary64.IntHistogram.estimate_selectivity
      ([3, 3, 3, 1, 10].foldl Binary64.IntHistogram.add_value
        (Binary64.IntHistogram.new 10 1 10)) PredicateType.GT 2 ≥
    Binary64.IntHistogram.estimate_selectivity
      ([3, 3, 3, 1, 10].foldl Binary64.IntHistogram.add_value
        (Binary64.IntHistogram.new 10 1 10)) PredicateType.GT 5 :=
  gt_selectivity_antitone_whole 10 1 10 [3, 3, 3, 1, 10] (by decide) (by decide) (by decide)
    (by decide) (by decide) (Or.inl (by decide)) ⟨3, by decide, by decide, by decide⟩ 2 5
    (by decide)

/-- C40 (the code at a failing input): for the join `hobbies.1 = hobby.0` of
`OrderJoinsTest` as a set of its own, the operands are `t1_card = 100000`,
`t2_card = 1000`, `left_Pkey = false`, `right_Pkey = true`; the swapped
orientation costs 139400800, the given one 180039400, so
`compute_cost_and_card_of_subplan` chooses the swapped join; the cardinality it
records is 1000, while `estimate_join_cardinality` of the swapped join with
its own cardinalities and key flags, `(t2_card, t1_card, right_Pkey,
left_Pkey)`, is 100000. -/
theorem swapped_orientation_card_inconsistent :
    cached_operands test_stats test_selectivities PlanCache.new [hobbies_hobby] hobbies_hobby =
      some { prev_best := [], t1_cost := 39400, t1_card := 100000, left_Pkey := false,
             t2_cost := 800, t2_card := 1000, right_Pkey := true } ∧
    JoinOptimizer.estimate_join_cost hobbies_hobby.swap_inner_outer 1000 100000 800 39400
      = 139400800 ∧
    JoinOptimizer.estimate_join_cost hobbies_hobby 100000 1000 39400 800 = 180039400 ∧
    JoinOptimizer.compute_cost_and_card_of_subplan test_stats test_selectivities hobbies_hobby
        [hobbies_hobby] DBL_MAX PlanCache.new
      = some { cost := 139400800, card := 1000, plan := [hobbies_hobby.swap_inner_outer] } ∧
    JoinOptimizer.estimate_join_cardinality hobbies_hobby.swap_inner_outer 1000 100000 true false
      = 100000 :=
  swapped_orientation_eval

end buzzdb
